import Mathlib

/-!
# TestHash: chained and probed hash tables

A shallow embedding of `DefaultGrower.h`, `GenericHashers.h`, `HashTableProbed.h`
and `HashTableChained.h`, followed by theorems about the embedded operations.

Modelling conventions.

* A C++ operation that can throw, run into undefined behaviour or loop forever
  returns `Except Failure _`.  Loops carry a fuel argument; running out of fuel
  is reported as `Failure.nonTermination`, and the theorems show that the fuel
  handed out by the callers is never exhausted on a well-formed table.
* A mutating member function returns the pair of its result and the table as
  it is left behind, also when the result is a thrown exception.
* A slot array `T**` is `Option (List (Option T))`: `none` is the null array
  pointer left by `clear()`, the list has one cell per allocated pointer
  (`mAllocated + 1` of them), and a cell is `none` for a null pointer.
* `size_t` counters are natural numbers.  Slot indices are below the length of
  an allocated array and the counters are bounded by the capacity, so no
  addition wraps; every decrement in the code is of a counter that the
  invariants proved below show to be positive.
-/

namespace TestHash

/-- Ways in which a call fails to return normally. -/
inductive Failure where
  /-- The exception `throw "Need more primes"` of `DefaultGrower`. -/
  | needMorePrimes
  /-- The exception `throw "Failed to insert"` of `set`. -/
  | failedToInsert
  /-- The exception `throw "Item not found"` of the `Access` proxy. -/
  | itemNotFound
  /-- A null or out-of-bounds dereference, or a division by zero. -/
  | undefinedBehaviour
  /-- A loop that did not finish within its fuel. -/
  | nonTermination
  deriving DecidableEq, Repr

deriving instance DecidableEq for Except

/-- Sequencing of a fallible step inside a mutating member function: when the
step fails, the failure is returned together with the table `s` as it stands. -/
def andThen {α β σ : Type} (r : Except Failure α) (s : σ)
    (f : α → Except Failure β × σ) : Except Failure β × σ :=
  match r with
  | .error e => (.error e, s)
  | .ok a => f a

/-! ## DefaultGrower.h -/

namespace DefaultGrower

/-- The set `mPrimes` filled by the constructor, in the ascending order in which
a `std::set<size_t>` is traversed. -/
def mPrimes : List Nat :=
  [5, 11, 23, 1009, 5009, 10009, 20011, 50021, 100003, 200003, 500009]

/-- `DefaultGrower::getPrimeGreaterThan`.  The iterator `i` is a position in
`mPrimes`; `mPrimes.end()` is the position `mPrimes.length`. -/
def getPrimeGreaterThan (size : Nat) : Except Failure Nat :=
  let i :=
    if mPrimes.indexOf size = mPrimes.length then
      -- size is not stored: look for the first bigger prime
      mPrimes.findIdx (fun p => decide (size < p))
    else
      -- size is stored: pick the one following it
      mPrimes.indexOf size + 1
  match mPrimes[i]? with
  | none => .error .needMorePrimes
  | some p => .ok p

/-- The `while` loop of `DefaultGrower::getNewSize`. -/
def getNewSizeLoop (currentSize : Nat) : Nat → Nat → Nat → Except Failure Nat
  | 0, _, _ => .error .nonTermination
  | fuel + 1, newSize, freeSlots =>
    if freeSlots ≤ newSize / 10 then
      match getPrimeGreaterThan newSize with
      | .error e => .error e
      | .ok p => getNewSizeLoop currentSize fuel p (freeSlots + (p - currentSize))
    else
      .ok newSize

/-- `DefaultGrower::getNewSize`.  Every turn of the loop moves `newSize` to a
later element of `mPrimes`, so `mPrimes.length + 1` turns are enough. -/
def getNewSize (currentSize freeSlots : Nat) : Except Failure Nat :=
  getNewSizeLoop currentSize (mPrimes.length + 1) currentSize freeSlots

end DefaultGrower

/-! ## GenericHashers.h -/

/-- `Hasher<int>::operator()`: `static_cast<unsigned int>(key) % size`, with
`int` and `unsigned int` 32 bits wide; `size == 0` is a division by zero. -/
def hasherInt (key : Int) (size : Nat) : Except Failure Nat :=
  if size = 0 then .error .undefinedBehaviour
  else .ok ((key % 2 ^ 32).toNat % size)

/-- One turn of the `while` loop of `Hasher<const char*>::operator()`:
`h = (h << 4) + c; if ((g = h & 0xF0000000) != 0) h ^= g >> 24; h &= ~g;`.
`size_t` is `w` bits wide (32 on the Win32 target of the project); the shift
and the addition are taken modulo `2 ^ w`, and the character `c`, a `char`
that may be negative, is converted to `size_t` by the addition. -/
def hasherStringStep (w : Nat) (h : Nat) (c : Int) : Nat :=
  let h1 := ((((h <<< 4 : Nat) : Int) + c) % 2 ^ w).toNat
  let g := h1 &&& 0xF0000000
  let h2 := if g ≠ 0 then h1 ^^^ (g >>> 24) else h1
  h2 &&& (2 ^ w - 1 - g)

/-- The `while (*key)` loop of `Hasher<const char*>::operator()`.  The string
is the list of its characters; the loop stops at the first character 0, and
the end of the list stands for the terminating NUL. -/
def hasherStringLoop (w : Nat) : List Int → Nat → Nat
  | [], h => h
  | c :: key, h => if c = 0 then h else hasherStringLoop w key (hasherStringStep w h c)

/-- `Hasher<const char*>::operator()`: the loop started at `h = 0`, then
`h % size`; `size == 0` is a division by zero. -/
def hasherString (w : Nat) (key : List Int) (size : Nat) : Except Failure Nat :=
  if size = 0 then .error .undefinedBehaviour
  else .ok (hasherStringLoop w key 0 % size)

/-- The contract of a hash policy: on a table of positive capacity it returns
a bucket index below the capacity. -/
def ValidHasher {K : Type} (hasher : K → Nat → Except Failure Nat) : Prop :=
  ∀ key size, 0 < size → ∃ i, hasher key size = .ok i ∧ i < size

/-! ## Slot arrays -/

/-- Reading `mArray[index]`. -/
def readSlot {α : Type} (mArray : Option (List α)) (index : Nat) : Except Failure α :=
  match mArray with
  | none => .error .undefinedBehaviour
  | some a =>
    match a[index]? with
    | none => .error .undefinedBehaviour
    | some x => .ok x

/-- The assignment `mArray[index] = x`. -/
def writeSlot {α : Type} (mArray : Option (List α)) (index : Nat) (x : α) :
    Except Failure (Option (List α)) :=
  match mArray with
  | none => .error .undefinedBehaviour
  | some a => if index < a.length then .ok (some (a.set index x)) else .error .undefinedBehaviour

/-- The expression `a % n` on `size_t`. -/
def modSize (a n : Nat) : Except Failure Nat :=
  if n = 0 then .error .undefinedBehaviour else .ok (a % n)

/-- The expression `new T*[n + 1]` followed by `memset(..., 0, ...)`. -/
def newArray {α : Type} (n : Nat) : List (Option α) := List.replicate (n + 1) none

/-! ## HashTableProbed.h -/

/-- The data members of `HashTableProbed<Key, Value, MyHasher, DefaultGrower>`. -/
structure HashTableProbed (K V : Type) where
  /-- The hash table itself. -/
  mArray : Option (List (Option (K × V)))
  /-- The actual size of the array. -/
  mAllocated : Nat
  /-- Number of free slots in the array. -/
  mFreeSlots : Nat
  /-- Number of elements stored in the hash table. -/
  mSize : Nat

namespace HashTableProbed

variable {K V : Type} [DecidableEq K]

/-- Probing increment. -/
def cIncBy : Nat := 7

/-- The state kept by `HashTableProbed::iterator` besides the table it refers to. -/
structure Iterator where
  mIndex : Nat
  deriving DecidableEq, Repr

def getAllocated (t : HashTableProbed K V) : Nat := t.mAllocated

def getElement (t : HashTableProbed K V) (index : Nat) : Except Failure (Option (K × V)) :=
  readSlot t.mArray index

def size (t : HashTableProbed K V) : Nat := t.mSize

/-- The `while` loop of `iterator::operator++`, started at `index`; the result
is the index at which the loop stops. -/
def skipLoop (t : HashTableProbed K V) : Nat → Nat → Except Failure Nat
  | 0, _ => .error .nonTermination
  | fuel + 1, index =>
    if index < t.getAllocated then
      match t.getElement index with
      | .error e => .error e
      | .ok none => skipLoop t fuel (index + 1)
      | .ok (some _) => .ok index
    else
      .ok index

/-- `iterator::operator++`. -/
def Iterator.inc (t : HashTableProbed K V) (it : Iterator) : Except Failure Iterator :=
  match skipLoop t (t.getAllocated + 1) (it.mIndex + 1) with
  | .error e => .error e
  | .ok index => .ok { mIndex := index }

/-- The constructor `iterator(ht, index)`. -/
def Iterator.new (t : HashTableProbed K V) (index : Nat) : Except Failure Iterator :=
  if index < t.getAllocated then
    match t.getElement index with
    | .error e => .error e
    | .ok none => Iterator.inc t { mIndex := index }
    | .ok (some _) => .ok { mIndex := index }
  else
    .ok { mIndex := index }

/-- `iterator::operator*`. -/
def Iterator.deref (t : HashTableProbed K V) (it : Iterator) : Except Failure (K × V) :=
  match t.getElement it.mIndex with
  | .error e => .error e
  | .ok none => .error .undefinedBehaviour
  | .ok (some e) => .ok e

/-- `begin()`. -/
def begin (t : HashTableProbed K V) : Except Failure Iterator := Iterator.new t 0

/-- `end()`: the constructor is called with `index == mAllocated` and so does
not advance. -/
def «end» (t : HashTableProbed K V) : Iterator := { mIndex := t.mAllocated }

/-- The member function `hash`. -/
def hash (hasher : K → Nat → Except Failure Nat) (key : K) (allocated : Nat) :
    Except Failure Nat :=
  hasher key allocated

/-- The `while (!searchedAll)` loop of `find`, entered with `index` and the
`element` read there.  The result is `some index` when the loop is left through
`break` (then `v != 0`) and `none` when it is left with `searchedAll`. -/
def findLoop (t : HashTableProbed K V) (key : K) (hashValue : Nat) :
    Nat → Nat → Option (K × V) → Except Failure (Option Nat)
  | 0, _, _ => .error .nonTermination
  | fuel + 1, index, element =>
    if element.isSome ∧ (element.map Prod.fst) = some key then
      .ok (some index)
    else
      match modSize (index + cIncBy) t.mAllocated with
      | .error e => .error e
      | .ok index' =>
        match readSlot t.mArray index' with
        | .error e => .error e
        | .ok element' =>
          if index' = hashValue then .ok none
          else findLoop t key hashValue fuel index' element'

/-- `find`. -/
def find (hasher : K → Nat → Except Failure Nat) (t : HashTableProbed K V) (key : K) :
    Except Failure Iterator :=
  match hash hasher key t.mAllocated with
  | .error e => .error e
  | .ok hashValue =>
    match readSlot t.mArray hashValue with
    | .error e => .error e
    | .ok element =>
      match findLoop t key hashValue t.mAllocated hashValue element with
      | .error e => .error e
      | .ok none => .ok t.end
      | .ok (some index) => Iterator.new t index

/-- The inner `while (newElement != 0)` loop of `rehash`; the result is the
index of the empty cell of `newArray` at which it stops. -/
def rehashProbe (newArray : List (Option (K × V))) (newAlloc : Nat) :
    Nat → Nat → Option (K × V) → Except Failure Nat
  | 0, _, _ => .error .nonTermination
  | fuel + 1, index, newElement =>
    match newElement with
    | none => .ok index
    | some _ =>
      match modSize (index + cIncBy) newAlloc with
      | .error e => .error e
      | .ok index' =>
        match readSlot (some newArray) index' with
        | .error e => .error e
        | .ok newElement' => rehashProbe newArray newAlloc fuel index' newElement'

/-- The `for` loop of `rehash`: `n` turns are left, the next one is for slot `i`
of the old array; the state is the pair `(newArray, newFreeSlots)`. -/
def rehashLoop (hasher : K → Nat → Except Failure Nat) (t : HashTableProbed K V)
    (newAlloc : Nat) :
    Nat → Nat → List (Option (K × V)) × Nat → Except Failure (List (Option (K × V)) × Nat)
  | 0, _, acc => .ok acc
  | n + 1, i, (newArray, newFreeSlots) =>
    match readSlot t.mArray i with
    | .error e => .error e
    | .ok none => rehashLoop hasher t newAlloc n (i + 1) (newArray, newFreeSlots)
    | .ok (some element) =>
      match hash hasher element.1 newAlloc with
      | .error e => .error e
      | .ok newHashValue =>
        match readSlot (some newArray) newHashValue with
        | .error e => .error e
        | .ok newElement =>
          match rehashProbe newArray newAlloc newAlloc newHashValue newElement with
          | .error e => .error e
          | .ok index =>
            match writeSlot (some newArray) index (some element) with
            | .error e => .error e
            | .ok none => .error .undefinedBehaviour
            | .ok (some newArray') =>
              rehashLoop hasher t newAlloc n (i + 1) (newArray', newFreeSlots - 1)

/-- `rehash`: create a new, bigger, array. -/
def rehash (hasher : K → Nat → Except Failure Nat) (t : HashTableProbed K V)
    (newAlloc : Nat) : Except Failure (HashTableProbed K V) :=
  match rehashLoop hasher t newAlloc t.mAllocated 0 (newArray newAlloc, newAlloc) with
  | .error e => .error e
  | .ok (newArray, newFreeSlots) =>
    .ok { mArray := some newArray, mAllocated := newAlloc,
          mFreeSlots := newFreeSlots, mSize := t.mSize }

/-- The `while (element != 0 && !allSearched)` loop of `insert`; the result is
the pair `(index, allSearched)` with which the loop is left. -/
def insertLoop (t : HashTableProbed K V) (hashValue : Nat) :
    Nat → Nat → Option (K × V) → Bool → Except Failure (Nat × Bool)
  | 0, _, _, _ => .error .nonTermination
  | fuel + 1, index, element, allSearched =>
    if element.isSome ∧ allSearched = false then
      match modSize (index + cIncBy) t.mAllocated with
      | .error e => .error e
      | .ok index' =>
        match readSlot t.mArray index' with
        | .error e => .error e
        | .ok element' =>
          insertLoop t hashValue fuel index' element' (decide (index' = hashValue))
    else
      .ok (index, allSearched)

/-- The part of `insert(key, value)` after the growth check. -/
def insertPlace (hasher : K → Nat → Except Failure Nat) (t : HashTableProbed K V)
    (key : K) (value : V) : Except Failure Bool × HashTableProbed K V :=
  andThen (hash hasher key t.mAllocated) t fun hashValue =>
  andThen (readSlot t.mArray hashValue) t fun element =>
  andThen (insertLoop t hashValue (t.mAllocated + 1) hashValue element false) t fun r =>
  if r.2 then (.ok false, t)
  else
    andThen (writeSlot t.mArray r.1 (some (key, value))) t fun mArray' =>
    (.ok true, { t with mArray := mArray', mFreeSlots := t.mFreeSlots - 1,
                        mSize := t.mSize + 1 })

/-- `insert(key, value)`: returns false if no insertion took place. -/
def insert (hasher : K → Nat → Except Failure Nat) (t : HashTableProbed K V)
    (key : K) (value : V) : Except Failure Bool × HashTableProbed K V :=
  andThen (find hasher t key) t fun it =>
  if it ≠ t.end then (.ok false, t)
  else
    andThen (DefaultGrower.getNewSize t.mAllocated t.mFreeSlots) t fun newAlloc =>
    if newAlloc > t.mAllocated then
      andThen (rehash hasher t newAlloc) t fun t' => insertPlace hasher t' key value
    else
      insertPlace hasher t key value

/-- `set(key, value)`. -/
def set (hasher : K → Nat → Except Failure Nat) (t : HashTableProbed K V)
    (key : K) (value : V) : Except Failure Unit × HashTableProbed K V :=
  andThen (find hasher t key) t fun i =>
  if i = t.end then
    match insert hasher t key value with
    | (.error e, t') => (.error e, t')
    | (.ok false, t') => (.error .failedToInsert, t')
    | (.ok true, t') => (.ok (), t')
  else
    -- (*i).second = value
    andThen (Iterator.deref t i) t fun e =>
    andThen (writeSlot t.mArray i.mIndex (some (e.1, value))) t fun mArray' =>
    (.ok (), { t with mArray := mArray' })

/-- `erase(key)`. -/
def erase (hasher : K → Nat → Except Failure Nat) (t : HashTableProbed K V)
    (key : K) : Except Failure Nat × HashTableProbed K V :=
  andThen (find hasher t key) t fun it =>
  if it ≠ t.end then
    andThen (readSlot t.mArray it.mIndex) t fun _ =>
    andThen (writeSlot t.mArray it.mIndex none) t fun mArray' =>
    (.ok 1, { t with mArray := mArray', mFreeSlots := t.mFreeSlots + 1,
                     mSize := t.mSize - 1 })
  else
    (.ok 0, t)

/-- The constructor `HashTableProbed(initialSize)`. -/
def new (initialSize : Nat) : Except Failure (HashTableProbed K V) :=
  match DefaultGrower.getPrimeGreaterThan initialSize with
  | .error e => .error e
  | .ok newAlloc =>
    .ok { mArray := some (newArray newAlloc), mAllocated := newAlloc,
          mFreeSlots := newAlloc, mSize := 0 }

/-- The loop `for (it = begin(); it != end(); ++it)`, collecting `*it`. -/
def iterateLoop (t : HashTableProbed K V) : Nat → Iterator → Except Failure (List (K × V))
  | 0, _ => .error .nonTermination
  | fuel + 1, it =>
    if it = t.end then .ok []
    else
      match Iterator.deref t it with
      | .error e => .error e
      | .ok x =>
        match Iterator.inc t it with
        | .error e => .error e
        | .ok it' =>
          match iterateLoop t fuel it' with
          | .error e => .error e
          | .ok rest => .ok (x :: rest)

/-- Forward iteration from `begin()` to `end()`. -/
def iterate (t : HashTableProbed K V) : Except Failure (List (K × V)) :=
  match t.begin with
  | .error e => .error e
  | .ok it => iterateLoop t (t.mAllocated + 1) it

/-- `Access::operator Value()`: the read through `table[key]`. -/
def Access.read (hasher : K → Nat → Except Failure Nat) (t : HashTableProbed K V)
    (key : K) : Except Failure V :=
  match find hasher t key with
  | .error e => .error e
  | .ok i =>
    if i = t.end then .error .itemNotFound
    else
      match Iterator.deref t i with
      | .error e => .error e
      | .ok e => .ok e.2

/-- `Access::operator=`: the assignment `table[key] = value`. -/
def Access.assign (hasher : K → Nat → Except Failure Nat) (t : HashTableProbed K V)
    (key : K) (value : V) : Except Failure Unit × HashTableProbed K V :=
  set hasher t key value

/-- `clear()`. -/
def clear (_t : HashTableProbed K V) : HashTableProbed K V :=
  { mArray := none, mAllocated := 0, mFreeSlots := 0, mSize := 0 }

/-! ### Well-formed and reachable probed tables -/

/-- The cells of the slot array (no cell when the array pointer is null). -/
def slots (t : HashTableProbed K V) : List (Option (K × V)) := t.mArray.getD []

/-- The stored entries, in ascending slot order. -/
def entries (t : HashTableProbed K V) : List (K × V) := t.slots.reduceOption

/-- The `j`-th index visited by the probing of `find`, `insert` and `rehash`
that starts at the home bucket `h` of a table of capacity `n`. -/
def probe (n h j : Nat) : Nat := (h + cIncBy * j) % n

/-- The representation invariant of a probed table. -/
structure WellFormed (t : HashTableProbed K V) : Prop where
  array : t.mArray = some t.slots
  length : t.slots.length = t.mAllocated + 1
  sentinel : t.slots[t.mAllocated]? = some none
  capacity : t.mAllocated ∈ DefaultGrower.mPrimes
  size : t.mSize = t.entries.length
  free : t.mFreeSlots + t.mSize = t.mAllocated
  nodup : (t.entries.map Prod.fst).Nodup

/-- The tables that a caller can get hold of: a constructed table, and the
table left behind by `insert`, `set` or `erase` on such a table, whatever the
call returned. -/
inductive Reachable (hasher : K → Nat → Except Failure Nat) : HashTableProbed K V → Prop
  | new (initialSize : Nat) (t : HashTableProbed K V) :
      HashTableProbed.new initialSize = .ok t → Reachable hasher t
  | insert (t : HashTableProbed K V) (key : K) (value : V) :
      Reachable hasher t → Reachable hasher (insert hasher t key value).2
  | set (t : HashTableProbed K V) (key : K) (value : V) :
      Reachable hasher t → Reachable hasher (set hasher t key value).2
  | erase (t : HashTableProbed K V) (key : K) :
      Reachable hasher t → Reachable hasher (erase hasher t key).2

/-- A sequence of `insert` calls, as in the loops of `test()`: the results of
the calls that returned, in order, and the table left behind; the sequence
stops at the first call that fails. -/
def insertAll (hasher : K → Nat → Except Failure Nat) :
    HashTableProbed K V → List (K × V) → Except Failure (List Bool) × HashTableProbed K V
  | t, [] => (.ok [], t)
  | t, kv :: rest =>
    match insert hasher t kv.1 kv.2 with
    | (.error e, t') => (.error e, t')
    | (.ok b, t') =>
      match insertAll hasher t' rest with
      | (.error e, t'') => (.error e, t'')
      | (.ok bs, t'') => (.ok (b :: bs), t'')

end HashTableProbed

/-! ## std::map -/

/-- The default `Collection`, a `std::map<Key, Value>`: its entries in the
ascending key order in which the map is traversed.  An iterator of the map is a
position in this list, `end()` being the length. -/
abbrev StdMap (K V : Type) := List (K × V)

namespace StdMap

variable {K V : Type} [LinearOrder K]

/-- `std::map::find`. -/
def find (c : StdMap K V) (key : K) : Nat := c.findIdx (fun e => decide (e.1 = key))

/-- `std::map::end`. -/
def «end» (c : StdMap K V) : Nat := c.length

/-- `std::map::insert(value_type)`: nothing happens when the key is stored. -/
def insert : StdMap K V → K × V → StdMap K V
  | [], x => [x]
  | e :: c, x =>
    if x.1 < e.1 then x :: e :: c
    else if x.1 = e.1 then e :: c
    else e :: insert c x

/-- `std::map::erase(key)`: the number of entries removed and the map left. -/
def erase (c : StdMap K V) (key : K) : Nat × StdMap K V :=
  ((c.filter (fun e => decide (e.1 = key))).length, c.filter (fun e => !decide (e.1 = key)))

end StdMap

/-! ## HashTableChained.h -/

/-- The data members of
`HashTableChained<Key, Value, MyHasher, DefaultGrower, std::map<Key, Value>>`. -/
structure HashTableChained (K V : Type) where
  /-- The hash table itself. -/
  mArray : Option (List (Option (StdMap K V)))
  /-- The actual size of the array. -/
  mAllocated : Nat
  /-- Number of free slots in the array. -/
  mFreeSlots : Nat
  /-- Number of elements stored in the hash table (incl. sub collections). -/
  mSize : Nat

namespace HashTableChained

variable {K V : Type} [LinearOrder K]

/-- The state kept by `HashTableChained::iterator` besides the table it refers
to: `mIterator` is `none` for a null `auto_ptr` and otherwise the position held
by the `Collection::iterator` it owns.  `operator==` compares the two
`auto_ptr`s by address; equality of this structure agrees with it whenever one
side is `end()`, whose `mIterator` is null, and is only used in that way. -/
structure Iterator where
  mIndex : Nat
  mIterator : Option Nat
  deriving DecidableEq, Repr

def getAllocated (t : HashTableChained K V) : Nat := t.mAllocated

def getCollection (t : HashTableChained K V) (index : Nat) :
    Except Failure (Option (StdMap K V)) :=
  readSlot t.mArray index

def size (t : HashTableChained K V) : Nat := t.mSize

/-- The `while` loop of `iterator::inc`, started at `index`; the result is the
index at which the loop stops. -/
def incLoop (t : HashTableChained K V) : Nat → Nat → Except Failure Nat
  | 0, _ => .error .nonTermination
  | fuel + 1, index =>
    if index < t.getAllocated then
      match t.getCollection index with
      | .error e => .error e
      | .ok none => incLoop t fuel (index + 1)
      | .ok (some _) => .ok index
    else
      .ok index

/-- `iterator::inc`: go to the next used slot, or to `end()`. -/
def Iterator.incSlot (t : HashTableChained K V) (index : Nat) : Except Failure Iterator :=
  match incLoop t (t.getAllocated + 1) index with
  | .error e => .error e
  | .ok index' =>
    if index' < t.getAllocated then
      match t.getCollection index' with
      | .error e => .error e
      | .ok none => .error .undefinedBehaviour
      | .ok (some _) => .ok { mIndex := index', mIterator := some 0 }
    else
      .ok { mIndex := index', mIterator := none }

/-- The constructor `iterator(ht, index)`. -/
def Iterator.new (t : HashTableChained K V) (index : Nat) : Except Failure Iterator :=
  Iterator.incSlot t index

/-- The constructor `iterator(ht, index, it)`. -/
def Iterator.newAt (index : Nat) (it : Nat) : Iterator :=
  { mIndex := index, mIterator := some it }

/-- `iterator::operator*`. -/
def Iterator.deref (t : HashTableChained K V) (it : Iterator) : Except Failure (K × V) :=
  match it.mIterator with
  | none => .error .undefinedBehaviour
  | some pos =>
    match t.getCollection it.mIndex with
    | .error e => .error e
    | .ok none => .error .undefinedBehaviour
    | .ok (some collection) =>
      match collection[pos]? with
      | none => .error .undefinedBehaviour
      | some e => .ok e

/-- `iterator::operator++`. -/
def Iterator.inc (t : HashTableChained K V) (it : Iterator) : Except Failure Iterator :=
  if it.mIndex < t.getAllocated then
    match it.mIterator with
    | none => .error .undefinedBehaviour
    | some iter =>
      match t.getCollection it.mIndex with
      | .error e => .error e
      | .ok none => .error .undefinedBehaviour
      | .ok (some collection) =>
        if iter ≠ StdMap.end collection then
          if iter + 1 = StdMap.end collection then
            Iterator.incSlot t (it.mIndex + 1)
          else
            .ok { it with mIterator := some (iter + 1) }
        else
          .ok it
  else
    .ok it

/-- `begin()`. -/
def begin (t : HashTableChained K V) : Except Failure Iterator := Iterator.new t 0

/-- `end()`: `inc` is entered with `mIndex == mAllocated`, its loop does not
run and `mIterator` stays null. -/
def «end» (t : HashTableChained K V) : Iterator :=
  { mIndex := t.mAllocated, mIterator := none }

/-- The member function `hash`. -/
def hash (hasher : K → Nat → Except Failure Nat) (key : K) (allocated : Nat) :
    Except Failure Nat :=
  hasher key allocated

/-- `find`. -/
def find (hasher : K → Nat → Except Failure Nat) (t : HashTableChained K V) (key : K) :
    Except Failure Iterator :=
  match hash hasher key t.mAllocated with
  | .error e => .error e
  | .ok hashValue =>
    match readSlot t.mArray hashValue with
    | .error e => .error e
    | .ok none => .ok t.end
    | .ok (some collection) =>
      if StdMap.find collection key ≠ StdMap.end collection then
        .ok (Iterator.newAt hashValue (StdMap.find collection key))
      else
        .ok t.end

/-- The inner `for` loop of `rehash` over the entries of one old collection. -/
def rehashCollection (hasher : K → Nat → Except Failure Nat) (newAlloc : Nat) :
    List (K × V) → List (Option (StdMap K V)) × Nat →
      Except Failure (List (Option (StdMap K V)) × Nat)
  | [], acc => .ok acc
  | elem :: rest, (newArray, newFreeSlots) =>
    match hash hasher elem.1 newAlloc with
    | .error e => .error e
    | .ok newsize_t =>
      match readSlot (some newArray) newsize_t with
      | .error e => .error e
      | .ok none =>
        -- a new collection is created, stored and filled
        match writeSlot (some newArray) newsize_t (some (StdMap.insert [] elem)) with
        | .error e => .error e
        | .ok none => .error .undefinedBehaviour
        | .ok (some newArray') =>
          rehashCollection hasher newAlloc rest (newArray', newFreeSlots - 1)
      | .ok (some newCollection) =>
        match writeSlot (some newArray) newsize_t (some (StdMap.insert newCollection elem)) with
        | .error e => .error e
        | .ok none => .error .undefinedBehaviour
        | .ok (some newArray') =>
          rehashCollection hasher newAlloc rest (newArray', newFreeSlots)

/-- The outer `for` loop of `rehash`: `n` turns are left, the next one is for
slot `i` of the old array; the state is the pair `(newArray, newFreeSlots)`. -/
def rehashLoop (hasher : K → Nat → Except Failure Nat) (t : HashTableChained K V)
    (newAlloc : Nat) :
    Nat → Nat → List (Option (StdMap K V)) × Nat →
      Except Failure (List (Option (StdMap K V)) × Nat)
  | 0, _, acc => .ok acc
  | n + 1, i, acc =>
    match readSlot t.mArray i with
    | .error e => .error e
    | .ok none => rehashLoop hasher t newAlloc n (i + 1) acc
    | .ok (some collection) =>
      match rehashCollection hasher newAlloc collection acc with
      | .error e => .error e
      | .ok acc' => rehashLoop hasher t newAlloc n (i + 1) acc'

/-- `clear()`. -/
def clear (_t : HashTableChained K V) : HashTableChained K V :=
  { mArray := none, mAllocated := 0, mFreeSlots := 0, mSize := 0 }

/-- `rehash`: create a new, bigger, array. -/
def rehash (hasher : K → Nat → Except Failure Nat) (t : HashTableChained K V)
    (newAlloc : Nat) : Except Failure (HashTableChained K V) :=
  let oldSize := t.size
  match rehashLoop hasher t newAlloc t.mAllocated 0 (newArray newAlloc, newAlloc) with
  | .error e => .error e
  | .ok (newArray, newFreeSlots) =>
    .ok { t.clear with mArray := some newArray, mAllocated := newAlloc,
                       mFreeSlots := newFreeSlots, mSize := oldSize }

/-- The part of `insert(key, value)` after the growth check. -/
def insertPlace (hasher : K → Nat → Except Failure Nat) (t : HashTableChained K V)
    (key : K) (value : V) : Except Failure Bool × HashTableChained K V :=
  andThen (hash hasher key t.mAllocated) t fun hashValue =>
  andThen (readSlot t.mArray hashValue) t fun collection =>
  match collection with
  | none =>
    andThen (writeSlot t.mArray hashValue (some (StdMap.insert [] (key, value)))) t
      fun mArray' =>
    (.ok true, { t with mArray := mArray', mFreeSlots := t.mFreeSlots - 1,
                        mSize := t.mSize + 1 })
  | some c =>
    andThen (writeSlot t.mArray hashValue (some (StdMap.insert c (key, value)))) t
      fun mArray' =>
    (.ok true, { t with mArray := mArray', mSize := t.mSize + 1 })

/-- `insert(key, value)`: returns false if no insertion took place, ie key
already stored. -/
def insert (hasher : K → Nat → Except Failure Nat) (t : HashTableChained K V)
    (key : K) (value : V) : Except Failure Bool × HashTableChained K V :=
  andThen (find hasher t key) t fun it =>
  if it ≠ t.end then (.ok false, t)
  else
    andThen (DefaultGrower.getNewSize t.mAllocated t.mFreeSlots) t fun newAlloc =>
    if newAlloc > t.mAllocated then
      andThen (rehash hasher t newAlloc) t fun t' => insertPlace hasher t' key value
    else
      insertPlace hasher t key value

/-- The assignment `(*it).second = value` of `set`. -/
def Iterator.assignSecond (t : HashTableChained K V) (it : Iterator) (value : V) :
    Except Failure (HashTableChained K V) :=
  match it.mIterator with
  | none => .error .undefinedBehaviour
  | some pos =>
    match readSlot t.mArray it.mIndex with
    | .error e => .error e
    | .ok none => .error .undefinedBehaviour
    | .ok (some collection) =>
      match collection[pos]? with
      | none => .error .undefinedBehaviour
      | some e =>
        match writeSlot t.mArray it.mIndex (some (collection.set pos (e.1, value))) with
        | .error e => .error e
        | .ok mArray' => .ok { t with mArray := mArray' }

/-- `set(key, value)`. -/
def set (hasher : K → Nat → Except Failure Nat) (t : HashTableChained K V)
    (key : K) (value : V) : Except Failure Unit × HashTableChained K V :=
  andThen (find hasher t key) t fun it =>
  if it = t.end then
    match insert hasher t key value with
    | (.error e, t') => (.error e, t')
    | (.ok false, t') => (.error .failedToInsert, t')
    | (.ok true, t') => (.ok (), t')
  else
    andThen (Iterator.assignSecond t it value) t fun t' => (.ok (), t')

/-- `erase(key)`. -/
def erase (hasher : K → Nat → Except Failure Nat) (t : HashTableChained K V)
    (key : K) : Except Failure Nat × HashTableChained K V :=
  andThen (hash hasher key t.mAllocated) t fun index =>
  andThen (readSlot t.mArray index) t fun collection =>
  match collection with
  | none => (.ok 0, t)
  | some c =>
    let erased := (StdMap.erase c key).1
    let c' := (StdMap.erase c key).2
    if erased > 0 then
      if c'.length = 0 then
        andThen (writeSlot t.mArray index none) t fun mArray' =>
        (.ok erased, { t with mArray := mArray', mFreeSlots := t.mFreeSlots + 1,
                              mSize := t.mSize - erased })
      else
        andThen (writeSlot t.mArray index (some c')) t fun mArray' =>
        (.ok erased, { t with mArray := mArray', mSize := t.mSize - erased })
    else
      (.ok erased, { t with mSize := t.mSize - erased })

/-- The constructor `HashTableChained(initialSize)`. -/
def new (initialSize : Nat) : Except Failure (HashTableChained K V) :=
  match DefaultGrower.getPrimeGreaterThan initialSize with
  | .error e => .error e
  | .ok newAlloc =>
    .ok { mArray := some (newArray newAlloc), mAllocated := newAlloc,
          mFreeSlots := newAlloc, mSize := 0 }

/-- The loop `for (it = begin(); it != end(); ++it)`, collecting `*it`. -/
def iterateLoop (t : HashTableChained K V) : Nat → Iterator → Except Failure (List (K × V))
  | 0, _ => .error .nonTermination
  | fuel + 1, it =>
    if it = t.end then .ok []
    else
      match Iterator.deref t it with
      | .error e => .error e
      | .ok x =>
        match Iterator.inc t it with
        | .error e => .error e
        | .ok it' =>
          match iterateLoop t fuel it' with
          | .error e => .error e
          | .ok rest => .ok (x :: rest)

/-- Forward iteration from `begin()` to `end()`; every step moves on by one
entry, so `mSize + 1` turns are enough when `mSize` counts the entries. -/
def iterate (t : HashTableChained K V) : Except Failure (List (K × V)) :=
  match t.begin with
  | .error e => .error e
  | .ok it => iterateLoop t (t.mSize + 1) it

/-- `Access::operator Value()`: the read through `table[key]`. -/
def Access.read (hasher : K → Nat → Except Failure Nat) (t : HashTableChained K V)
    (key : K) : Except Failure V :=
  match find hasher t key with
  | .error e => .error e
  | .ok it =>
    if it = t.end then .error .itemNotFound
    else
      match Iterator.deref t it with
      | .error e => .error e
      | .ok e => .ok e.2

/-- `Access::operator=`: the assignment `table[key] = value`. -/
def Access.assign (hasher : K → Nat → Except Failure Nat) (t : HashTableChained K V)
    (key : K) (value : V) : Except Failure Unit × HashTableChained K V :=
  set hasher t key value

/-! ### Well-formed and reachable chained tables -/

/-- The cells of the slot array (no cell when the array pointer is null). -/
def slots (t : HashTableChained K V) : List (Option (StdMap K V)) := t.mArray.getD []

/-- The collections that are present, in ascending slot order. -/
def buckets (t : HashTableChained K V) : List (StdMap K V) := t.slots.reduceOption

/-- The stored entries: bucket after bucket in ascending slot order, each
bucket in the order of its collection. -/
def entries (t : HashTableChained K V) : List (K × V) := t.buckets.flatten

/-- The part of the representation invariant that concerns a slot array `arr`
of capacity `n` and its free-slot counter: the array has `n + 1` cells, the
last one empty; `free` counts the empty cells below `n`; no collection is
empty; every entry lies in the bucket its key hashes to; no key is stored
twice. -/
structure SlotsOk (hasher : K → Nat → Except Failure Nat) (n : Nat)
    (arr : List (Option (StdMap K V))) (free : Nat) : Prop where
  length : arr.length = n + 1
  sentinel : arr[n]? = some none
  free : free + arr.reduceOption.length = n
  nonempty : ∀ c, c ∈ arr.reduceOption → c ≠ []
  home : ∀ i c e, arr[i]? = some (some c) → e ∈ c → hasher e.1 n = .ok i
  nodup : (arr.reduceOption.flatten.map Prod.fst).Nodup

/-- The representation invariant of a chained table. -/
structure WellFormed (hasher : K → Nat → Except Failure Nat) (t : HashTableChained K V) :
    Prop where
  array : t.mArray = some t.slots
  capacity : t.mAllocated ∈ DefaultGrower.mPrimes
  size : t.mSize = t.entries.length
  slotsOk : SlotsOk hasher t.mAllocated t.slots t.mFreeSlots

/-- The tables that a caller can get hold of: a constructed table, and the
table left behind by `insert`, `set` or `erase` on such a table, whatever the
call returned. -/
inductive Reachable (hasher : K → Nat → Except Failure Nat) : HashTableChained K V → Prop
  | new (initialSize : Nat) (t : HashTableChained K V) :
      HashTableChained.new initialSize = .ok t → Reachable hasher t
  | insert (t : HashTableChained K V) (key : K) (value : V) :
      Reachable hasher t → Reachable hasher (insert hasher t key value).2
  | set (t : HashTableChained K V) (key : K) (value : V) :
      Reachable hasher t → Reachable hasher (set hasher t key value).2
  | erase (t : HashTableChained K V) (key : K) :
      Reachable hasher t → Reachable hasher (erase hasher t key).2

/-- A sequence of `insert` calls, as in the loops of `test()`: the results of
the calls that returned, in order, and the table left behind; the sequence
stops at the first call that fails. -/
def insertAll (hasher : K → Nat → Except Failure Nat) :
    HashTableChained K V → List (K × V) → Except Failure (List Bool) × HashTableChained K V
  | t, [] => (.ok [], t)
  | t, kv :: rest =>
    match insert hasher t kv.1 kv.2 with
    | (.error e, t') => (.error e, t')
    | (.ok b, t') =>
      match insertAll hasher t' rest with
      | (.error e, t'') => (.error e, t'')
      | (.ok bs, t'') => (.ok (b :: bs), t'')

end HashTableChained

/-! ## HashTableChained.h with another hash table as the Collection -/

/-- `(*it).second = value` through a `HashTableProbed::iterator`: the stored
pair is reached by `operator*` and its second component is overwritten. -/
def HashTableProbed.Iterator.assignSecond {K V : Type} (t : HashTableProbed K V)
    (it : HashTableProbed.Iterator) (value : V) : Except Failure (HashTableProbed K V) :=
  match HashTableProbed.Iterator.deref t it with
  | .error e => .error e
  | .ok e =>
    match writeSlot t.mArray it.mIndex (some (e.1, value)) with
    | .error e => .error e
    | .ok mArray' => .ok { t with mArray := mArray' }

/-- The member functions of the template argument `Collection` that
`HashTableChained` calls, for a collection type `C` whose iterators are of
type `I`.  A member function that changes the collection returns its result
together with the collection as it is left, also when it throws. -/
structure Collection (K V C I : Type) where
  /-- The default constructor, `new Collection`. -/
  create : Except Failure C
  /-- The call `collection->find(key)`. -/
  find : C → K → Except Failure I
  /-- The call `collection->end()`. -/
  «end» : C → I
  /-- The call `collection->begin()`. -/
  begin : C → Except Failure I
  /-- The step `++iter`. -/
  inc : C → I → Except Failure I
  /-- The access `*iter`. -/
  deref : C → I → Except Failure (K × V)
  /-- The assignment `(*iter).second = value`. -/
  assignSecond : C → I → V → Except Failure C
  /-- The call `collection->insert(Collection::value_type(key, value))`. -/
  insert : C → K × V → Except Failure Bool × C
  /-- The call `collection->erase(key)`. -/
  erase : C → K → Except Failure Nat × C
  /-- The call `collection->size()`. -/
  size : C → Nat

/-- The member functions of `Collection = HashTableProbed<Key, Value, Hasher2>`,
as in `test()`; `new Collection` runs the default constructor, whose
`initialSize` is 1000. -/
def probedCollection {K V : Type} [DecidableEq K] (hasher : K → Nat → Except Failure Nat) :
    Collection K V (HashTableProbed K V) HashTableProbed.Iterator where
  create := HashTableProbed.new 1000
  find := HashTableProbed.find hasher
  «end» := HashTableProbed.end
  begin := HashTableProbed.begin
  inc := HashTableProbed.Iterator.inc
  deref := HashTableProbed.Iterator.deref
  assignSecond := HashTableProbed.Iterator.assignSecond
  insert := fun c vt => HashTableProbed.insert hasher c vt.1 vt.2
  erase := HashTableProbed.erase hasher
  size := HashTableProbed.size

/-- The member functions of `Collection = HashTableChained<Key, Value, Hasher2>`
(itself with `std::map` buckets), as in `test()`; `new Collection` runs the
default constructor, whose `initialSize` is 1000. -/
def chainedCollection {K V : Type} [LinearOrder K] (hasher : K → Nat → Except Failure Nat) :
    Collection K V (HashTableChained K V) HashTableChained.Iterator where
  create := HashTableChained.new 1000
  find := HashTableChained.find hasher
  «end» := HashTableChained.end
  begin := HashTableChained.begin
  inc := HashTableChained.Iterator.inc
  deref := HashTableChained.Iterator.deref
  assignSecond := HashTableChained.Iterator.assignSecond
  insert := fun c vt => HashTableChained.insert hasher c vt.1 vt.2
  erase := HashTableChained.erase hasher
  size := HashTableChained.size

/-- The data members of
`HashTableChained<Key, Value, MyHasher, DefaultGrower, Collection>` for a
collection type `C`. -/
structure HashTableNested (C : Type) where
  /-- The hash table itself. -/
  mArray : Option (List (Option C))
  /-- The actual size of the array. -/
  mAllocated : Nat
  /-- Number of free slots in the array. -/
  mFreeSlots : Nat
  /-- Number of elements stored in the hash table (incl. sub collections). -/
  mSize : Nat

namespace HashTableNested

variable {K V C I : Type} [DecidableEq I]

/-- The state kept by `HashTableChained::iterator` besides the table it refers
to: `mIterator` is `none` for a null `auto_ptr` and otherwise the
`Collection::iterator` it owns.  As for the table with `std::map` buckets,
equality of this structure is only used against `end()`. -/
structure Iterator (I : Type) where
  mIndex : Nat
  mIterator : Option I
  deriving DecidableEq, Repr

def getAllocated (t : HashTableNested C) : Nat := t.mAllocated

def getCollection (t : HashTableNested C) (index : Nat) : Except Failure (Option C) :=
  readSlot t.mArray index

def size (t : HashTableNested C) : Nat := t.mSize

/-- The `while` loop of `iterator::inc`, started at `index`; the result is the
index at which the loop stops. -/
def incLoop (t : HashTableNested C) : Nat → Nat → Except Failure Nat
  | 0, _ => .error .nonTermination
  | fuel + 1, index =>
    if index < t.getAllocated then
      match t.getCollection index with
      | .error e => .error e
      | .ok none => incLoop t fuel (index + 1)
      | .ok (some _) => .ok index
    else
      .ok index

/-- `iterator::inc`: go to the next used slot, or to `end()`. -/
def Iterator.incSlot (ops : Collection K V C I) (t : HashTableNested C) (index : Nat) :
    Except Failure (Iterator I) :=
  match incLoop t (t.getAllocated + 1) index with
  | .error e => .error e
  | .ok index' =>
    if index' < t.getAllocated then
      match t.getCollection index' with
      | .error e => .error e
      | .ok none => .error .undefinedBehaviour
      | .ok (some collection) =>
        match ops.begin collection with
        | .error e => .error e
        | .ok b => .ok { mIndex := index', mIterator := some b }
    else
      .ok { mIndex := index', mIterator := none }

/-- The constructor `iterator(ht, index)`. -/
def Iterator.new (ops : Collection K V C I) (t : HashTableNested C) (index : Nat) :
    Except Failure (Iterator I) :=
  Iterator.incSlot ops t index

/-- The constructor `iterator(ht, index, it)`. -/
def Iterator.newAt (index : Nat) (it : I) : Iterator I :=
  { mIndex := index, mIterator := some it }

/-- `iterator::operator*`. -/
def Iterator.deref (ops : Collection K V C I) (t : HashTableNested C) (it : Iterator I) :
    Except Failure (K × V) :=
  match it.mIterator with
  | none => .error .undefinedBehaviour
  | some iter =>
    match t.getCollection it.mIndex with
    | .error e => .error e
    | .ok none => .error .undefinedBehaviour
    | .ok (some collection) => ops.deref collection iter

/-- `iterator::operator++`. -/
def Iterator.inc (ops : Collection K V C I) (t : HashTableNested C) (it : Iterator I) :
    Except Failure (Iterator I) :=
  if it.mIndex < t.getAllocated then
    match it.mIterator with
    | none => .error .undefinedBehaviour
    | some iter =>
      match t.getCollection it.mIndex with
      | .error e => .error e
      | .ok none => .error .undefinedBehaviour
      | .ok (some collection) =>
        if iter ≠ ops.end collection then
          match ops.inc collection iter with
          | .error e => .error e
          | .ok iter' =>
            if iter' = ops.end collection then
              Iterator.incSlot ops t (it.mIndex + 1)
            else
              .ok { it with mIterator := some iter' }
        else
          .ok it
  else
    .ok it

/-- `begin()`. -/
def begin (ops : Collection K V C I) (t : HashTableNested C) : Except Failure (Iterator I) :=
  Iterator.new ops t 0

/-- `end()`: `inc` is entered with `mIndex == mAllocated`, its loop does not
run and `mIterator` stays null. -/
def «end» (t : HashTableNested C) : Iterator I :=
  { mIndex := t.mAllocated, mIterator := none }

/-- The member function `hash`. -/
def hash (hasher : K → Nat → Except Failure Nat) (key : K) (allocated : Nat) :
    Except Failure Nat :=
  hasher key allocated

/-- `find`. -/
def find (ops : Collection K V C I) (hasher : K → Nat → Except Failure Nat)
    (t : HashTableNested C) (key : K) : Except Failure (Iterator I) :=
  match hash hasher key t.mAllocated with
  | .error e => .error e
  | .ok hashValue =>
    match readSlot t.mArray hashValue with
    | .error e => .error e
    | .ok none => .ok t.end
    | .ok (some collection) =>
      match ops.find collection key with
      | .error e => .error e
      | .ok it =>
        if it ≠ ops.end collection then .ok (Iterator.newAt hashValue it)
        else .ok t.end

/-- The body of the inner `for` loop of `rehash` for the element `elem`: the
collection of its new bucket is created if need be, and the element is
inserted into it. -/
def rehashElement (ops : Collection K V C I) (hasher : K → Nat → Except Failure Nat)
    (newAlloc : Nat) (elem : K × V) (acc : List (Option C) × Nat) :
    Except Failure (List (Option C) × Nat) :=
  match hash hasher elem.1 newAlloc with
  | .error e => .error e
  | .ok newsize_t =>
    match readSlot (some acc.1) newsize_t with
    | .error e => .error e
    | .ok none =>
      match ops.create with
      | .error e => .error e
      | .ok newCollection =>
        match ops.insert newCollection elem with
        | (.error e, _) => .error e
        | (.ok _, newCollection') =>
          match writeSlot (some acc.1) newsize_t (some newCollection') with
          | .error e => .error e
          | .ok none => .error .undefinedBehaviour
          | .ok (some newArray') => .ok (newArray', acc.2 - 1)
    | .ok (some newCollection) =>
      match ops.insert newCollection elem with
      | (.error e, _) => .error e
      | (.ok _, newCollection') =>
        match writeSlot (some acc.1) newsize_t (some newCollection') with
        | .error e => .error e
        | .ok none => .error .undefinedBehaviour
        | .ok (some newArray') => .ok (newArray', acc.2)

/-- The inner `for` loop of `rehash` over one old collection, from the
iterator `iElem` on. -/
def rehashCollection (ops : Collection K V C I) (hasher : K → Nat → Except Failure Nat)
    (newAlloc : Nat) (collection : C) :
    Nat → I → List (Option C) × Nat → Except Failure (List (Option C) × Nat)
  | 0, _, _ => .error .nonTermination
  | fuel + 1, iElem, acc =>
    if iElem ≠ ops.end collection then
      match ops.deref collection iElem with
      | .error e => .error e
      | .ok elem =>
        match rehashElement ops hasher newAlloc elem acc with
        | .error e => .error e
        | .ok acc' =>
          match ops.inc collection iElem with
          | .error e => .error e
          | .ok iElem' => rehashCollection ops hasher newAlloc collection fuel iElem' acc'
    else
      .ok acc

/-- The outer `for` loop of `rehash`: `n` turns are left, the next one is for
slot `i` of the old array; the state is the pair `(newArray, newFreeSlots)`.
The inner loop moves on by one element per turn, so `size() + 1` turns are
enough for it. -/
def rehashLoop (ops : Collection K V C I) (hasher : K → Nat → Except Failure Nat)
    (t : HashTableNested C) (newAlloc : Nat) :
    Nat → Nat → List (Option C) × Nat → Except Failure (List (Option C) × Nat)
  | 0, _, acc => .ok acc
  | n + 1, i, acc =>
    match readSlot t.mArray i with
    | .error e => .error e
    | .ok none => rehashLoop ops hasher t newAlloc n (i + 1) acc
    | .ok (some collection) =>
      match ops.begin collection with
      | .error e => .error e
      | .ok iElem =>
        match rehashCollection ops hasher newAlloc collection (ops.size collection + 1)
            iElem acc with
        | .error e => .error e
        | .ok acc' => rehashLoop ops hasher t newAlloc n (i + 1) acc'

/-- `clear()`. -/
def clear (_t : HashTableNested C) : HashTableNested C :=
  { mArray := none, mAllocated := 0, mFreeSlots := 0, mSize := 0 }

/-- `rehash`: create a new, bigger, array.  An exception thrown by a
collection leaves the loop before the table is touched. -/
def rehash (ops : Collection K V C I) (hasher : K → Nat → Except Failure Nat)
    (t : HashTableNested C) (newAlloc : Nat) : Except Failure (HashTableNested C) :=
  let oldSize := t.size
  match rehashLoop ops hasher t newAlloc t.mAllocated 0 (newArray newAlloc, newAlloc) with
  | .error e => .error e
  | .ok (newArray, newFreeSlots) =>
    .ok { t.clear with mArray := some newArray, mAllocated := newAlloc,
                       mFreeSlots := newFreeSlots, mSize := oldSize }

/-- The part of `insert(key, value)` after the growth check.  The result of
`collection->insert` is not looked at; when it throws, the collection stays in
the array as the call left it and `mSize` is not incremented. -/
def insertPlace (ops : Collection K V C I) (hasher : K → Nat → Except Failure Nat)
    (t : HashTableNested C) (key : K) (value : V) : Except Failure Bool × HashTableNested C :=
  andThen (hash hasher key t.mAllocated) t fun hashValue =>
  andThen (readSlot t.mArray hashValue) t fun collection =>
  match collection with
  | none =>
    andThen ops.create t fun newCollection =>
    andThen (writeSlot t.mArray hashValue (some newCollection)) t fun mArray₁ =>
    let t₁ := { t with mArray := mArray₁, mFreeSlots := t.mFreeSlots - 1 }
    andThen (writeSlot t₁.mArray hashValue
        (some (ops.insert newCollection (key, value)).2)) t₁ fun mArray' =>
    match (ops.insert newCollection (key, value)).1 with
    | .error e => (.error e, { t₁ with mArray := mArray' })
    | .ok _ => (.ok true, { t₁ with mArray := mArray', mSize := t.mSize + 1 })
  | some c =>
    andThen (writeSlot t.mArray hashValue (some (ops.insert c (key, value)).2)) t
      fun mArray' =>
    match (ops.insert c (key, value)).1 with
    | .error e => (.error e, { t with mArray := mArray' })
    | .ok _ => (.ok true, { t with mArray := mArray', mSize := t.mSize + 1 })

/-- `insert(key, value)`: returns false if no insertion took place, ie key
already stored. -/
def insert (ops : Collection K V C I) (hasher : K → Nat → Except Failure Nat)
    (t : HashTableNested C) (key : K) (value : V) : Except Failure Bool × HashTableNested C :=
  andThen (find ops hasher t key) t fun it =>
  if it ≠ t.end then (.ok false, t)
  else
    andThen (DefaultGrower.getNewSize t.mAllocated t.mFreeSlots) t fun newAlloc =>
    if newAlloc > t.mAllocated then
      andThen (rehash ops hasher t newAlloc) t fun t' => insertPlace ops hasher t' key value
    else
      insertPlace ops hasher t key value

/-- The assignment `(*it).second = value` of `set`. -/
def Iterator.assignSecond (ops : Collection K V C I) (t : HashTableNested C)
    (it : Iterator I) (value : V) : Except Failure (HashTableNested C) :=
  match it.mIterator with
  | none => .error .undefinedBehaviour
  | some iter =>
    match readSlot t.mArray it.mIndex with
    | .error e => .error e
    | .ok none => .error .undefinedBehaviour
    | .ok (some collection) =>
      match ops.assignSecond collection iter value with
      | .error e => .error e
      | .ok collection' =>
        match writeSlot t.mArray it.mIndex (some collection') with
        | .error e => .error e
        | .ok mArray' => .ok { t with mArray := mArray' }

/-- `set(key, value)`. -/
def set (ops : Collection K V C I) (hasher : K → Nat → Except Failure Nat)
    (t : HashTableNested C) (key : K) (value : V) : Except Failure Unit × HashTableNested C :=
  andThen (find ops hasher t key) t fun it =>
  if it = t.end then
    match insert ops hasher t key value with
    | (.error e, t') => (.error e, t')
    | (.ok false, t') => (.error .failedToInsert, t')
    | (.ok true, t') => (.ok (), t')
  else
    andThen (Iterator.assignSecond ops t it value) t fun t' => (.ok (), t')

/-- `erase(key)`.  The collection is changed in place by `collection->erase`,
so the array holds it as the call left it. -/
def erase (ops : Collection K V C I) (hasher : K → Nat → Except Failure Nat)
    (t : HashTableNested C) (key : K) : Except Failure Nat × HashTableNested C :=
  andThen (hash hasher key t.mAllocated) t fun index =>
  andThen (readSlot t.mArray index) t fun collection =>
  match collection with
  | none => (.ok 0, t)
  | some c =>
    andThen (writeSlot t.mArray index (some (ops.erase c key).2)) t fun mArray₁ =>
    let t₁ := { t with mArray := mArray₁ }
    match (ops.erase c key).1 with
    | .error e => (.error e, t₁)
    | .ok erased =>
      if erased > 0 then
        if ops.size (ops.erase c key).2 = 0 then
          andThen (writeSlot t₁.mArray index none) t₁ fun mArray' =>
          (.ok erased, { t₁ with mArray := mArray', mFreeSlots := t.mFreeSlots + 1,
                                 mSize := t.mSize - erased })
        else
          (.ok erased, { t₁ with mSize := t.mSize - erased })
      else
        (.ok erased, { t₁ with mSize := t.mSize - erased })

/-- The constructor `HashTableChained(initialSize)`. -/
def new (initialSize : Nat) : Except Failure (HashTableNested C) :=
  match DefaultGrower.getPrimeGreaterThan initialSize with
  | .error e => .error e
  | .ok newAlloc =>
    .ok { mArray := some (newArray newAlloc), mAllocated := newAlloc,
          mFreeSlots := newAlloc, mSize := 0 }

/-- The loop `for (it = begin(); it != end(); ++it)`, collecting `*it`. -/
def iterateLoop (ops : Collection K V C I) (t : HashTableNested C) :
    Nat → Iterator I → Except Failure (List (K × V))
  | 0, _ => .error .nonTermination
  | fuel + 1, it =>
    if it = t.end then .ok []
    else
      match Iterator.deref ops t it with
      | .error e => .error e
      | .ok x =>
        match Iterator.inc ops t it with
        | .error e => .error e
        | .ok it' =>
          match iterateLoop ops t fuel it' with
          | .error e => .error e
          | .ok rest => .ok (x :: rest)

/-- Forward iteration from `begin()` to `end()`; every step moves on by one
entry, so `mSize + 1` turns are enough when `mSize` counts the entries. -/
def iterate (ops : Collection K V C I) (t : HashTableNested C) :
    Except Failure (List (K × V)) :=
  match begin ops t with
  | .error e => .error e
  | .ok it => iterateLoop ops t (t.mSize + 1) it

end HashTableNested

/-! ## Sequences of calls and what the caller sees of them -/

/-- A call made by the user of a table. -/
inductive Op (K V : Type) where
  /-- The call `insert(key, value)`. -/
  | insert (key : K) (value : V)
  /-- The call `set(key, value)`. -/
  | set (key : K) (value : V)
  /-- The call `erase(key)`. -/
  | erase (key : K)
  /-- The call `find(key)`, followed by `(*it).second` when it is not `end()`. -/
  | find (key : K)
  /-- The call `size()`. -/
  | size
  /-- The loop `for (it = begin(); it != end(); ++it) i++`. -/
  | iterate

/-- What the caller sees of a call that returned. -/
inductive Obs (V : Type) where
  /-- The boolean returned by `insert`. -/
  | inserted (b : Bool)
  /-- The call `set` returned. -/
  | assigned
  /-- The count returned by `erase`. -/
  | erased (n : Nat)
  /-- The outcome of `find`: a miss, or a hit and the value found. -/
  | found (v : Option V)
  /-- The number returned by `size()`. -/
  | size (n : Nat)
  /-- The number of elements that the iteration went through. -/
  | iterated (n : Nat)
  deriving DecidableEq, Repr

/-- A sequence of calls: the observations of the calls that returned, in
order, and the table left behind; the sequence stops at the first call that
throws. -/
def run {T K V : Type} (step : T → Op K V → Except Failure (Obs V) × T) :
    T → List (Op K V) → Except Failure (List (Obs V)) × T
  | t, [] => (.ok [], t)
  | t, op :: rest =>
    match step t op with
    | (.error e, t') => (.error e, t')
    | (.ok o, t') =>
      match run step t' rest with
      | (.error e, t'') => (.error e, t'')
      | (.ok os, t'') => (.ok (o :: os), t'')

/-- One call on a chained table with `std::map` buckets. -/
def HashTableChained.step {K V : Type} [LinearOrder K] (hasher : K → Nat → Except Failure Nat)
    (t : HashTableChained K V) : Op K V → Except Failure (Obs V) × HashTableChained K V
  | .insert key value =>
    match HashTableChained.insert hasher t key value with
    | (.error e, t') => (.error e, t')
    | (.ok b, t') => (.ok (.inserted b), t')
  | .set key value =>
    match HashTableChained.set hasher t key value with
    | (.error e, t') => (.error e, t')
    | (.ok _, t') => (.ok .assigned, t')
  | .erase key =>
    match HashTableChained.erase hasher t key with
    | (.error e, t') => (.error e, t')
    | (.ok n, t') => (.ok (.erased n), t')
  | .find key =>
    match HashTableChained.find hasher t key with
    | .error e => (.error e, t)
    | .ok it =>
      if it = t.end then (.ok (.found none), t)
      else
        match HashTableChained.Iterator.deref t it with
        | .error e => (.error e, t)
        | .ok e => (.ok (.found (some e.2)), t)
  | .size => (.ok (.size t.size), t)
  | .iterate =>
    match t.iterate with
    | .error e => (.error e, t)
    | .ok l => (.ok (.iterated l.length), t)

/-- One call on a chained table with buckets of the collection type `C`. -/
def HashTableNested.step {K V C I : Type} [DecidableEq I] (ops : Collection K V C I)
    (hasher : K → Nat → Except Failure Nat) (t : HashTableNested C) :
    Op K V → Except Failure (Obs V) × HashTableNested C
  | .insert key value =>
    match HashTableNested.insert ops hasher t key value with
    | (.error e, t') => (.error e, t')
    | (.ok b, t') => (.ok (.inserted b), t')
  | .set key value =>
    match HashTableNested.set ops hasher t key value with
    | (.error e, t') => (.error e, t')
    | (.ok _, t') => (.ok .assigned, t')
  | .erase key =>
    match HashTableNested.erase ops hasher t key with
    | (.error e, t') => (.error e, t')
    | (.ok n, t') => (.ok (.erased n), t')
  | .find key =>
    match HashTableNested.find ops hasher t key with
    | .error e => (.error e, t)
    | .ok it =>
      if it = t.end then (.ok (.found none), t)
      else
        match HashTableNested.Iterator.deref ops t it with
        | .error e => (.error e, t)
        | .ok e => (.ok (.found (some e.2)), t)
  | .size => (.ok (.size t.size), t)
  | .iterate =>
    match HashTableNested.iterate ops t with
    | .error e => (.error e, t)
    | .ok l => (.ok (.iterated l.length), t)

/-! ### What the table asks of its Collection, and well-formed nested tables -/

namespace Collection

variable {K V C I : Type}

/-- The iterator `it` of `collection` goes through the elements `l`, one per
`++it`, and is `end()` after them. -/
def Walk (ops : Collection K V C I) (collection : C) : I → List (K × V) → Prop
  | it, [] => it = ops.end collection
  | it, x :: l =>
    it ≠ ops.end collection ∧ ops.deref collection it = .ok x ∧
      ∃ it', ops.inc collection it = .ok it' ∧ Walk ops collection it' l

/-- The collection behaves as a map from keys to values ("it follows the same
form as a std::map"): `Inv` is its representation invariant and `ents` lists
its entries in the order of its iteration.  An insert may give up with "Need
more primes" when the collection is itself a hash table, which then holds
450009 entries or more. -/
structure Lawful (ops : Collection K V C I) (Inv : C → Prop) (ents : C → List (K × V)) :
    Prop where
  create : ∃ c, ops.create = .ok c ∧ Inv c ∧ ents c = []
  nodup : ∀ c, Inv c → ((ents c).map Prod.fst).Nodup
  size : ∀ c, Inv c → ops.size c = (ents c).length
  find_mem : ∀ c k v, Inv c → (k, v) ∈ ents c →
    ∃ i, ops.find c k = .ok i ∧ i ≠ ops.end c ∧ ops.deref c i = .ok (k, v) ∧
      ∀ v', ∃ c' r, ops.assignSecond c i v' = .ok c' ∧ Inv c' ∧
        List.Perm (ents c) ((k, v) :: r) ∧ List.Perm (ents c') ((k, v') :: r)
  find_not_mem : ∀ c k, Inv c → k ∉ (ents c).map Prod.fst → ops.find c k = .ok (ops.end c)
  insert_not_mem : ∀ c k v, Inv c → k ∉ (ents c).map Prod.fst →
    ((ops.insert c (k, v)).1 = .error .needMorePrimes ∧ 450009 ≤ (ents c).length) ∨
    ∃ b c', ops.insert c (k, v) = (.ok b, c') ∧ Inv c' ∧
      List.Perm (ents c') ((k, v) :: ents c)
  erase_mem : ∀ c k v, Inv c → (k, v) ∈ ents c →
    ∃ c', ops.erase c k = (.ok 1, c') ∧ Inv c' ∧ List.Perm (ents c) ((k, v) :: ents c')
  erase_not_mem : ∀ c k, Inv c → k ∉ (ents c).map Prod.fst → ops.erase c k = (.ok 0, c)
  walk : ∀ c, Inv c → ∃ b, ops.begin c = .ok b ∧ Walk ops c b (ents c)

end Collection

namespace HashTableNested

variable {K V C I : Type} [LinearOrder K]

/-- The cells of the slot array (no cell when the array pointer is null). -/
def slots (t : HashTableNested C) : List (Option C) := t.mArray.getD []

/-- The entries of the collections of a slot array, cell by cell. -/
def contents (ents : C → List (K × V)) (arr : List (Option C)) :
    List (Option (StdMap K V)) :=
  arr.map (Option.map ents)

/-- The entries of the table, in the order of its iteration. -/
def entries (ents : C → List (K × V)) (t : HashTableNested C) : List (K × V) :=
  (contents ents t.slots).reduceOption.flatten

/-- The representation invariant of a chained table with buckets of the
collection type `C`: every collection satisfies its own invariant, and the
entries of the collections are laid out as in a chained table. -/
structure WellFormed (Inv : C → Prop) (ents : C → List (K × V))
    (hasher : K → Nat → Except Failure Nat) (t : HashTableNested C) : Prop where
  array : t.mArray = some t.slots
  capacity : t.mAllocated ∈ DefaultGrower.mPrimes
  size : t.mSize = (entries ents t).length
  inv : ∀ (i : Nat) (c : C), t.slots[i]? = some (some c) → Inv c
  slotsOk : HashTableChained.SlotsOk hasher t.mAllocated (contents ents t.slots) t.mFreeSlots

/-- The tables with buckets of the collection `ops` that a caller can get hold
of: a constructed table, and the table left behind by `insert`, `set` or
`erase` on such a table, whatever the call returned. -/
inductive Reachable [DecidableEq I] (ops : Collection K V C I)
    (hasher : K → Nat → Except Failure Nat) : HashTableNested C → Prop
  | new (initialSize : Nat) (t : HashTableNested C) :
      HashTableNested.new initialSize = .ok t → Reachable ops hasher t
  | insert (t : HashTableNested C) (key : K) (value : V) :
      Reachable ops hasher t → Reachable ops hasher (insert ops hasher t key value).2
  | set (t : HashTableNested C) (key : K) (value : V) :
      Reachable ops hasher t → Reachable ops hasher (set ops hasher t key value).2
  | erase (t : HashTableNested C) (key : K) :
      Reachable ops hasher t → Reachable ops hasher (erase ops hasher t key).2

end HashTableNested

/-! ## Tables used as concrete inputs -/

/-- The table built by `HashTableProbed<int, int> ht(0)`: capacity 5. -/
def probedEmpty : HashTableProbed Int Int :=
  { mArray := some [none, none, none, none, none, none],
    mAllocated := 5, mFreeSlots := 5, mSize := 0 }

/-- The table `ht(0)` after `insert(0, 0)`, `insert(5, 50)` and
`insert(10, 100)`: the three keys have the home bucket 0 and lie on one probe
sequence, in the slots 0, 2 and 4. -/
def probedThree : HashTableProbed Int Int :=
  { mArray := some [some (0, 0), none, some (5, 50), none, some (10, 100), none],
    mAllocated := 5, mFreeSlots := 2, mSize := 3 }

/-- The table built by `HashTableChained<int, int> ht(0)`: capacity 5. -/
def chainedEmpty : HashTableChained Int Int :=
  { mArray := some [none, none, none, none, none, none],
    mAllocated := 5, mFreeSlots := 5, mSize := 0 }

/-- The table `ht(0)` after `insert(0, 0)`, `insert(5, 50)` and
`insert(1, 10)`: the keys 0 and 5 share the bucket 0. -/
def chainedThree : HashTableChained Int Int :=
  { mArray := some [some [(0, 0), (5, 50)], some [(1, 10)], none, none, none, none],
    mAllocated := 5, mFreeSlots := 3, mSize := 3 }

/-- The table built by `HashTableChained<int, int> ht(200003)`, of the largest
capacity 500009, after `insert(i, 0)` for `i = 0, ..., n - 1`. -/
def chainedFilled : Nat → HashTableChained Int Int
  | 0 => { mArray := some (newArray 500009), mAllocated := 500009,
           mFreeSlots := 500009, mSize := 0 }
  | n + 1 => (HashTableChained.insert hasherInt (chainedFilled n) (n : Int) 0).2

/-- The table `ht(0)` after `insert(0, 0)`, `insert(5, 50)`, `insert(10, 100)`,
`insert(1, 10)` and `insert(3, 30)`: every one of the five slots is taken. -/
def probedFull : HashTableProbed Int Int :=
  { mArray := some [some (0, 0), some (1, 10), some (5, 50), some (3, 30), some (10, 100), none],
    mAllocated := 5, mFreeSlots := 0, mSize := 5 }

/-- The table built by `HashTableProbed<int, int> ht(200003)`, of the largest
capacity 500009, after `insert(i, 0)` for `i = 0, ..., n - 1`. -/
def probedFilled : Nat → HashTableProbed Int Int
  | 0 => { mArray := some (newArray 500009), mAllocated := 500009,
           mFreeSlots := 500009, mSize := 0 }
  | n + 1 => (HashTableProbed.insert hasherInt (probedFilled n) (n : Int) 0).2

/-- The chained table `ht(0)` after the inserts of the keys 0, 5, 10, 20, 30,
40 (all of the bucket 0) and 1, 2, 3, 4, each with the value 0: ten entries in
the five buckets of a table of capacity 5. -/
def chainedCrowded : HashTableChained Int Int :=
  { mArray := some [some [(0, 0), (5, 0), (10, 0), (20, 0), (30, 0), (40, 0)], some [(1, 0)],
      some [(2, 0)], some [(3, 0)], some [(4, 0)], none],
    mAllocated := 5, mFreeSlots := 0, mSize := 10 }

/-- The table left by `insert(6, 0)` on `chainedCrowded`: capacity 11, one key
in each of the eleven buckets. -/
def chainedCrowdedGrown : HashTableChained Int Int :=
  { mArray := some [some [(0, 0)], some [(1, 0)], some [(2, 0)], some [(3, 0)], some [(4, 0)],
      some [(5, 0)], some [(6, 0)], some [(40, 0)], some [(30, 0)], some [(20, 0)],
      some [(10, 0)], none],
    mAllocated := 11, mFreeSlots := 0, mSize := 11 }

/-- The table built by `HashTableChained<int, int, Hasher<int>, DefaultGrower,
HashTableProbed<int, int>> ht(0)`: capacity 5. -/
def nestedProbedEmpty : HashTableNested (HashTableProbed Int Int) :=
  { mArray := some [none, none, none, none, none, none],
    mAllocated := 5, mFreeSlots := 5, mSize := 0 }

/-- The table built by `HashTableChained<int, int, Hasher<int>, DefaultGrower,
HashTableChained<int, int>> ht(0)`: capacity 5. -/
def nestedChainedEmpty : HashTableNested (HashTableChained Int Int) :=
  { mArray := some [none, none, none, none, none, none],
    mAllocated := 5, mFreeSlots := 5, mSize := 0 }

/-- A sequence of calls on integer keys: nine inserts into a table of capacity
5 (which grows to capacity 11 on the way), a duplicate insert, and then reads,
overwrites, erases, `size()` and an iteration. -/
def nestedOps : List (Op Int Int) :=
  [.insert 0 0, .insert 5 50, .insert 10 100, .insert 1 10, .insert 2 20, .insert 3 30,
   .insert 4 40, .insert 6 60, .insert 16 160, .insert 5 51, .find 5, .find 7, .set 5 55,
   .set 7 70, .find 5, .erase 10, .erase 10, .size, .iterate]

/-- What the caller sees of `nestedOps` on a fresh table of capacity 5. -/
def nestedObs : List (Obs Int) :=
  [.inserted true, .inserted true, .inserted true, .inserted true, .inserted true,
   .inserted true, .inserted true, .inserted true, .inserted true, .inserted false,
   .found (some 50), .found none, .assigned, .assigned, .found (some 55), .erased 1,
   .erased 0, .size 9, .iterated 9]

/-- A probed table that no sequence of calls builds: capacity 5, with the key 5
stored twice, in slot 1 with the value 2 and in slot 2 with the value 1.  The
counters fit the array: two occupied and three empty slots, and an empty
sentinel. -/
def probedDup : HashTableProbed Int Int :=
  { mArray := some [none, some (5, 2), some (5, 1), none, none, none],
    mAllocated := 5, mFreeSlots := 3, mSize := 2 }

/-! # Theorems -/

set_option linter.unusedSectionVars false

open DefaultGrower

/-! ## Lists -/


theorem getElem?_findIdx_eq_find? {α : Type} (p : α → Bool) (l : List α) :
    l[l.findIdx p]? = l.find? p := by
  induction l with
  | nil => simp
  | cons a l ih =>
    rw [List.findIdx_cons, List.find?_cons]
    cases h : p a <;> simp [ih]

theorem getElem?_indexOf_succ_of_sorted (s : Nat) (l : List Nat) (hs : l.Pairwise (· < ·))
    (hmem : s ∈ l) : l[l.indexOf s + 1]? = l.find? (fun p => decide (s < p)) := by
  induction l with
  | nil => simp at hmem
  | cons a l ih =>
    rw [List.pairwise_cons] at hs
    by_cases ha : a = s
    · subst ha
      rw [List.indexOf_cons_self, List.find?_cons]
      simp only [lt_self_iff_false, decide_False, zero_add, List.getElem?_cons_succ]
      cases l with
      | nil => simp
      | cons b l => 
        have := hs.1 b (by simp)
        simp [this]
    · have hmem' : s ∈ l := by
        rcases List.mem_cons.1 hmem with h | h
        · exact absurd h.symm ha
        · exact h
      have hlt : a < s := hs.1 s hmem'
      rw [List.indexOf_cons_ne _ ha, List.find?_cons]
      have : decide (s < a) = false := by simp; omega
      simp only [this, List.getElem?_cons_succ]
      exact ih hs.2 hmem'

theorem countP_lt_countP {α : Type} (q r : α → Bool) (l : List α)
    (himp : ∀ x ∈ l, q x = true → r x = true) (x : α) (hx : x ∈ l) (hr : r x = true)
    (hq : q x = false) : l.countP q < l.countP r := by
  induction l with
  | nil => simp at hx
  | cons a l ih =>
    have hle : l.countP q ≤ l.countP r :=
      List.countP_mono_left (fun y hy => himp y (List.mem_cons_of_mem _ hy))
    rcases List.mem_cons.1 hx with rfl | hx'
    · rw [List.countP_cons, List.countP_cons]
      simp only [hq, hr, if_true]
      simp
      omega
    · have := ih (fun y hy => himp y (List.mem_cons_of_mem _ hy)) hx'
      rw [List.countP_cons, List.countP_cons]
      by_cases hqa : q a = true
      · have := himp a (by simp) hqa
        simp [hqa, this]; omega
      · simp [hqa]
        split <;> omega

theorem perm_cons_eraseIdx_of_getElem? {α : Type} : ∀ (l : List α) (i : Nat) (x : α),
    l[i]? = some x → List.Perm l (x :: l.eraseIdx i)
  | [], i, x, h => by simp at h
  | a :: l, 0, x, h => by
    simp only [List.getElem?_cons_zero, Option.some.injEq] at h
    subst h
    simp
  | a :: l, i + 1, x, h => by
    simp only [List.getElem?_cons_succ] at h
    have := perm_cons_eraseIdx_of_getElem? l i x h
    simp only [List.eraseIdx_cons_succ]
    exact (List.Perm.cons a this).trans (List.Perm.swap x a _)

theorem set_perm_cons_eraseIdx {α : Type} : ∀ (l : List α) (i : Nat) (x : α),
    i < l.length → List.Perm (l.set i x) (x :: l.eraseIdx i)
  | [], i, x, h => by simp at h
  | a :: l, 0, x, _ => by simp
  | a :: l, i + 1, x, h => by
    simp only [List.length_cons, Nat.add_lt_add_iff_right] at h
    have := set_perm_cons_eraseIdx l i x h
    simp only [List.set_cons_succ, List.eraseIdx_cons_succ]
    exact (List.Perm.cons a this).trans (List.Perm.swap x a _)

theorem lt_length_of_getElem? {α : Type} {l : List α} {i : Nat} {x : α} (h : l[i]? = some x) :
    i < l.length := by
  by_contra hc
  rw [List.getElem?_eq_none (by omega)] at h
  cases h

theorem reduceOption_perm {α : Type} {l l' : List (Option α)} (h : List.Perm l l') :
    List.Perm l.reduceOption l'.reduceOption :=
  List.Perm.filterMap id h

theorem reduceOption_set_some_of_none {α : Type} {l : List (Option α)} {i : Nat} (e : α)
    (h : l[i]? = some none) : List.Perm (l.set i (some e)).reduceOption (e :: l.reduceOption) := by
  have h1 := reduceOption_perm (set_perm_cons_eraseIdx l i (some e) (lt_length_of_getElem? h))
  have h2 := reduceOption_perm (perm_cons_eraseIdx_of_getElem? l i none h)
  simp only [List.reduceOption_cons_of_some, List.reduceOption_cons_of_none] at h1 h2
  exact h1.trans (List.Perm.cons e h2.symm)

theorem reduceOption_set_none_of_some {α : Type} {l : List (Option α)} {i : Nat} {e : α}
    (h : l[i]? = some (some e)) : List.Perm l.reduceOption (e :: (l.set i none).reduceOption) := by
  have h1 := reduceOption_perm (set_perm_cons_eraseIdx l i none (lt_length_of_getElem? h))
  have h2 := reduceOption_perm (perm_cons_eraseIdx_of_getElem? l i (some e) h)
  simp only [List.reduceOption_cons_of_some, List.reduceOption_cons_of_none] at h1 h2
  exact h2.trans (List.Perm.cons e h1.symm)

theorem reduceOption_set_some_of_some {α : Type} {l : List (Option α)} {i : Nat} {e : α} (e' : α)
    (h : l[i]? = some (some e)) :
    List.Perm l.reduceOption (e :: (l.eraseIdx i).reduceOption) ∧
    List.Perm (l.set i (some e')).reduceOption (e' :: (l.eraseIdx i).reduceOption) := by
  have h1 := reduceOption_perm (set_perm_cons_eraseIdx l i (some e') (lt_length_of_getElem? h))
  have h2 := reduceOption_perm (perm_cons_eraseIdx_of_getElem? l i (some e) h)
  simp only [List.reduceOption_cons_of_some] at h1 h2
  exact ⟨h2, h1⟩

theorem length_le_reduceOption_of_forall_some {α : Type} : ∀ (l : List (Option α)) (n : Nat),
    n ≤ l.length → (∀ i, i < n → l[i]? ≠ some none) → n ≤ l.reduceOption.length
  | _, 0, _, _ => Nat.zero_le _
  | [], n + 1, h, _ => by simp at h
  | none :: l, n + 1, _, hs => absurd (by simp) (hs 0 (Nat.succ_pos n))
  | some a :: l, n + 1, h, hs => by
    simp only [List.length_cons, Nat.add_le_add_iff_right] at h
    have := length_le_reduceOption_of_forall_some l n h (fun i hi => by
      have := hs (i + 1) (by omega)
      simpa using this)
    simp only [List.reduceOption_cons_of_some, List.length_cons]
    omega

theorem exists_none_of_reduceOption_length_lt {α : Type} {l : List (Option α)} {n : Nat}
    (hn : n ≤ l.length) (hlt : l.reduceOption.length < n) : ∃ i, i < n ∧ l[i]? = some none := by
  by_contra hc
  push_neg at hc
  have := length_le_reduceOption_of_forall_some l n hn hc
  omega

theorem mem_reduceOption_of_getElem? {α : Type} {l : List (Option α)} {i : Nat} {e : α}
    (h : l[i]? = some (some e)) : e ∈ l.reduceOption :=
  List.reduceOption_mem_iff.2 (List.getElem?_mem h)

theorem exists_getElem?_of_mem_reduceOption {α : Type} {l : List (Option α)} {e : α}
    (h : e ∈ l.reduceOption) : ∃ i, i < l.length ∧ l[i]? = some (some e) := by
  obtain ⟨i, hi, he⟩ := List.getElem_of_mem (List.reduceOption_mem_iff.1 h)
  exact ⟨i, hi, by rw [List.getElem?_eq_getElem hi, he]⟩

theorem eq_of_mem_of_nodup_keys {K V : Type} {l : List (K × V)} (hn : (l.map Prod.fst).Nodup)
    {k : K} {v v' : V} (h : (k, v) ∈ l) (h' : (k, v') ∈ l) : v = v' := by
  have := List.inj_on_of_nodup_map hn h h' rfl
  exact (Prod.mk.inj this).2

theorem readSlot_some {α : Type} {a : List α} {i : Nat} {x : α} (h : a[i]? = some x) :
    readSlot (some a) i = .ok x := by
  simp [readSlot, h]

theorem writeSlot_some {α : Type} {a : List α} {i : Nat} (x : α) (h : i < a.length) :
    writeSlot (some a) i x = .ok (some (a.set i x)) := by
  simp [writeSlot, h]

theorem modSize_pos {a n : Nat} (h : 0 < n) : modSize a n = .ok (a % n) := by
  simp [modSize, Nat.pos_iff_ne_zero.1 h]

/-! ## DefaultGrower -/

namespace DefaultGrower

theorem mPrimes_sorted : mPrimes.Pairwise (· < ·) := by decide

theorem getPrimeGreaterThan_eq (s : Nat) :
    getPrimeGreaterThan s =
      match mPrimes.find? (fun p => decide (s < p)) with
      | none => .error .needMorePrimes
      | some p => .ok p := by
  unfold getPrimeGreaterThan
  by_cases h : mPrimes.indexOf s = mPrimes.length
  · simp only [h, if_true, getElem?_findIdx_eq_find?]
  · have hmem : s ∈ mPrimes := List.indexOf_lt_length.1 (lt_of_le_of_ne List.indexOf_le_length h)
    simp only [h, if_false]
    rw [getElem?_indexOf_succ_of_sorted s _ mPrimes_sorted hmem]

theorem getPrimeGreaterThan_ok {s p : Nat} (h : getPrimeGreaterThan s = .ok p) :
    p ∈ mPrimes ∧ s < p := by
  rw [getPrimeGreaterThan_eq] at h
  split at h
  · cases h
  · rename_i q hq
    cases h
    exact ⟨List.mem_of_find?_eq_some hq, by simpa using List.find?_some hq⟩

theorem getPrimeGreaterThan_error {s : Nat} {e : Failure} (h : getPrimeGreaterThan s = .error e) :
    e = .needMorePrimes ∧ 500009 ≤ s := by
  rw [getPrimeGreaterThan_eq] at h
  split at h
  · rename_i hq
    cases h
    refine ⟨rfl, ?_⟩
    have := List.find?_eq_none.1 hq 500009 (by simp [mPrimes])
    simpa using this
  · cases h

theorem primesAbove_lt {s p : Nat} (h : getPrimeGreaterThan s = .ok p) :
    mPrimes.countP (fun q => decide (p < q)) < mPrimes.countP (fun q => decide (s < q)) := by
  obtain ⟨hp, hsp⟩ := getPrimeGreaterThan_ok h
  apply countP_lt_countP _ _ _ _ p hp
  · simpa using hsp
  · simp
  · intro x _ hx
    simp only [decide_eq_true_eq] at hx ⊢
    omega

theorem getNewSizeLoop_ok (cur : Nat) : ∀ (fuel ns fs r : Nat),
    getNewSizeLoop cur fuel ns fs = .ok r → (r = ns ∧ ns / 10 < fs) ∨ (ns < r ∧ r ∈ mPrimes) := by
  intro fuel
  induction fuel with
  | zero => intro ns fs r h; simp [getNewSizeLoop] at h
  | succ fuel ih =>
    intro ns fs r h
    rw [getNewSizeLoop] at h
    split at h
    · split at h
      · cases h
      · rename_i p hp
        obtain ⟨hpm, hlt⟩ := getPrimeGreaterThan_ok hp
        rcases ih _ _ _ h with ⟨rfl, _⟩ | ⟨h1, h2⟩
        · exact Or.inr ⟨hlt, hpm⟩
        · exact Or.inr ⟨by omega, h2⟩
    · cases h
      exact Or.inl ⟨rfl, by omega⟩

theorem getNewSizeLoop_error (cur : Nat) : ∀ (fuel ns fs : Nat) (e : Failure),
    mPrimes.countP (fun q => decide (ns < q)) < fuel →
    getNewSizeLoop cur fuel ns fs = .error e → e = .needMorePrimes := by
  intro fuel
  induction fuel with
  | zero => intro ns fs e hf; omega
  | succ fuel ih =>
    intro ns fs e hf h
    rw [getNewSizeLoop] at h
    split at h
    · split at h
      · rename_i e' he
        cases h
        exact (getPrimeGreaterThan_error he).1
      · rename_i p hp
        have := primesAbove_lt hp
        exact ih _ _ _ (by omega) h
    · cases h

theorem getNewSize_ok {cur fs r : Nat} (h : getNewSize cur fs = .ok r) :
    (r = cur ∧ cur / 10 < fs) ∨ (cur < r ∧ r ∈ mPrimes) :=
  getNewSizeLoop_ok cur _ _ _ _ h

theorem getNewSize_error {cur fs : Nat} {e : Failure} (h : getNewSize cur fs = .error e) :
    e = .needMorePrimes := by
  refine getNewSizeLoop_error cur _ cur fs e ?_ h
  calc mPrimes.countP (fun q => decide (cur < q)) ≤ mPrimes.length := List.countP_le_length _
    _ < mPrimes.length + 1 := Nat.lt_succ_self _

theorem coprime_of_mem_mPrimes {n : Nat} (h : n ∈ mPrimes) : Nat.Coprime 7 n := by
  simp only [mPrimes, List.mem_cons, List.mem_singleton, List.not_mem_nil, or_false] at h
  rcases h with rfl | rfl | rfl | rfl | rfl | rfl | rfl | rfl | rfl | rfl | rfl <;> norm_num

theorem pos_of_mem_mPrimes {n : Nat} (h : n ∈ mPrimes) : 0 < n := by
  simp only [mPrimes, List.mem_cons, List.mem_singleton, List.not_mem_nil, or_false] at h
  omega

theorem le_of_mem_mPrimes {p : Nat} (h : p ∈ mPrimes) : p ≤ 500009 := by
  simp only [mPrimes, List.mem_cons, List.mem_singleton, List.not_mem_nil, or_false] at h
  omega

/-- Two stored primes are far apart: the bigger one exceeds the smaller one by
more than a tenth of itself (and one to spare). -/
theorem gap_of_mem_mPrimes {q r : Nat} (hq : q ∈ mPrimes) (hr : r ∈ mPrimes) (h : q < r) :
    r / 10 + 1 < r - q := by
  simp only [mPrimes, List.mem_cons, List.mem_singleton, List.not_mem_nil, or_false] at hq hr
  omega

theorem getPrimeGreaterThan_min {s p : Nat} (h : getPrimeGreaterThan s = .ok p) :
    ∀ q ∈ mPrimes, s < q → p ≤ q := by
  rw [getPrimeGreaterThan_eq] at h
  split at h
  · cases h
  · rename_i p' hp
    cases h
    intro q hq hsq
    by_contra hlt
    have hlt : q < p := Nat.lt_of_not_le hlt
    obtain ⟨_, as, bs, hl, hno⟩ := List.find?_eq_some.1 hp
    have hsorted := mPrimes_sorted
    rw [hl] at hsorted hq
    rcases List.mem_append.1 hq with hqa | hqb
    · have := hno q hqa
      simp at this
      omega
    · rcases List.mem_cons.1 hqb with rfl | hqb
      · omega
      · have := (List.pairwise_append.1 hsorted).2.1
        have := List.rel_of_pairwise_cons this hqb
        omega

theorem getPrimeGreaterThan_of_lt {s : Nat} (h : s < 500009) :
    ∃ p, getPrimeGreaterThan s = .ok p := by
  cases hg : getPrimeGreaterThan s with
  | ok p => exact ⟨p, rfl⟩
  | error e => have := (getPrimeGreaterThan_error hg).2; omega

theorem getPrimeGreaterThan_of_ge {s : Nat} (h : 500009 ≤ s) :
    getPrimeGreaterThan s = .error .needMorePrimes := by
  cases hg : getPrimeGreaterThan s with
  | ok p =>
    obtain ⟨hp, hsp⟩ := getPrimeGreaterThan_ok hg
    have := le_of_mem_mPrimes hp
    omega
  | error e => rw [(getPrimeGreaterThan_error hg).1]

/-- What the loop of `getNewSize` returns: either it stops at once, or it stops
after one turn with the free count it computed, or it took several turns and
passed a stored prime between the starting size and the result. -/
theorem getNewSizeLoop_real (cur : Nat) : ∀ (fuel ns fs r : Nat),
    getNewSizeLoop cur fuel ns fs = .ok r →
    (r = ns ∧ ns / 10 < fs) ∨
      (ns < r ∧ r ∈ mPrimes ∧
        (r / 10 < fs + (r - cur) ∨ ∃ q ∈ mPrimes, ns < q ∧ q < r)) := by
  intro fuel
  induction fuel with
  | zero => intro ns fs r h; simp [getNewSizeLoop] at h
  | succ fuel ih =>
    intro ns fs r h
    rw [getNewSizeLoop] at h
    split at h
    · split at h
      · cases h
      · rename_i p hp
        obtain ⟨hpm, hlt⟩ := getPrimeGreaterThan_ok hp
        rcases ih _ _ _ h with ⟨rfl, h1⟩ | ⟨h1, h2, _⟩
        · exact Or.inr ⟨hlt, hpm, Or.inl h1⟩
        · exact Or.inr ⟨by omega, h2, Or.inr ⟨p, hpm, hlt, h1⟩⟩
    · cases h
      exact Or.inl ⟨rfl, by omega⟩

/-- The postcondition of `getNewSize`: the result is not below the current
size, growing to it leaves more than a tenth of the slots free, and the size is
kept exactly when more than a tenth is free already. -/
theorem getNewSize_post {cur fs r : Nat} (h : getNewSize cur fs = .ok r) :
    cur ≤ r ∧ r / 10 < fs + (r - cur) ∧ (r = cur ↔ cur / 10 < fs) := by
  rcases getNewSizeLoop_real cur _ _ _ _ h with ⟨rfl, h1⟩ | ⟨h1, h2, h3⟩
  · exact ⟨le_refl _, by omega, by simp [h1]⟩
  · refine ⟨by omega, ?_, ?_⟩
    · rcases h3 with h3 | ⟨q, hq, hcq, hqr⟩
      · exact h3
      · have := gap_of_mem_mPrimes hq h2 hqr
        omega
    · constructor
      · intro he; omega
      · intro hfs
        unfold getNewSize at h
        rw [getNewSizeLoop, if_neg (by omega)] at h
        cases h
        omega

/-- From a stored prime, `getNewSize` only fails at the last prime with at most
a tenth of the slots free. -/
theorem getNewSize_error_of_mem {cur fs : Nat} {e : Failure} (hc : cur ∈ mPrimes)
    (h : getNewSize cur fs = .error e) : cur = 500009 ∧ fs ≤ 50000 := by
  unfold getNewSize at h
  rw [getNewSizeLoop] at h
  split at h
  · rename_i hfs
    split at h
    · rename_i e' he
      have h1 := (getPrimeGreaterThan_error he).2
      have h2 := le_of_mem_mPrimes hc
      have : cur = 500009 := by omega
      subst this
      exact ⟨rfl, by omega⟩
    · rename_i p hp
      obtain ⟨hpm, hlt⟩ := getPrimeGreaterThan_ok hp
      have := gap_of_mem_mPrimes hc hpm hlt
      rw [show mPrimes.length = 10 + 1 from rfl, getNewSizeLoop, if_neg (by omega)] at h
      cases h
  · cases h

theorem getNewSize_exhausted {fs : Nat} (h : fs ≤ 50000) :
    getNewSize 500009 fs = .error .needMorePrimes := by
  unfold getNewSize
  rw [getNewSizeLoop, if_pos (by omega), getPrimeGreaterThan_of_ge (le_refl _)]

/-- From a stored prime with at most a tenth of the slots free, `getNewSize`
returns the next stored prime. -/
theorem getNewSize_of_mem {cur fs r : Nat} (hc : cur ∈ mPrimes)
    (h : getNewSize cur fs = .ok r) (hlt : cur < r) :
    getPrimeGreaterThan cur = .ok r ∧ fs ≤ cur / 10 := by
  unfold getNewSize at h
  rw [getNewSizeLoop] at h
  split at h
  · rename_i hfs
    split at h
    · cases h
    · rename_i p hp
      obtain ⟨hpm, hlt⟩ := getPrimeGreaterThan_ok hp
      have := gap_of_mem_mPrimes hc hpm hlt
      rw [show mPrimes.length = 10 + 1 from rfl, getNewSizeLoop, if_neg (by omega)] at h
      cases h
      exact ⟨hp, hfs⟩
  · cases h
    omega

end DefaultGrower

/-! ## HashTableProbed -/

namespace HashTableProbed

variable {K V : Type} [DecidableEq K]

theorem probe_zero {n h : Nat} (hh : h < n) : probe n h 0 = h := by
  simp [probe, Nat.mod_eq_of_lt hh]

theorem probe_succ (n h j : Nat) : (probe n h j + cIncBy) % n = probe n h (j + 1) := by
  unfold probe
  rw [Nat.mod_add_mod, Nat.mul_add, Nat.mul_one, Nat.add_assoc]
  
theorem probe_lt {n : Nat} (hn : 0 < n) (h j : Nat) : probe n h j < n :=
  Nat.mod_lt _ hn

theorem probe_modEq {n h j j' : Nat} (hc : Nat.Coprime cIncBy n)
    (he : probe n h j = probe n h j') : j ≡ j' [MOD n] := by
  have h1 : h + cIncBy * j ≡ h + cIncBy * j' [MOD n] := he
  have h2 : cIncBy * j ≡ cIncBy * j' [MOD n] := Nat.ModEq.add_left_cancel' h h1
  exact Nat.ModEq.cancel_left_of_coprime (by simpa [Nat.coprime_comm, Nat.Coprime] using hc) h2

theorem probe_inj {n h j j' : Nat} (hc : Nat.Coprime cIncBy n) (hj : j < n) (hj' : j' < n)
    (he : probe n h j = probe n h j') : j = j' := by
  have := probe_modEq hc he
  unfold Nat.ModEq at this
  rwa [Nat.mod_eq_of_lt hj, Nat.mod_eq_of_lt hj'] at this

theorem probe_ne_start {n h j : Nat} (hc : Nat.Coprime cIncBy n) (hh : h < n)
    (hj0 : 0 < j) (hj : j < n) : probe n h j ≠ h := by
  intro he
  have := probe_inj hc hj (by omega) (he.trans (probe_zero hh).symm)
  omega

theorem probe_self {n h : Nat} (hh : h < n) : probe n h n = h := by
  simp [probe, Nat.mod_eq_of_lt hh]

theorem probe_surj {n h : Nat} (hc : Nat.Coprime cIncBy n) (hn : 0 < n) (i : Nat) (hi : i < n) :
    ∃ j, j < n ∧ probe n h j = i := by
  have hinj : Set.InjOn (probe n h) (Finset.range n : Set Nat) := by
    intro a ha b hb hab
    exact probe_inj hc (by simpa using ha) (by simpa using hb) hab
  have hmaps : ∀ a ∈ Finset.range n, probe n h a ∈ Finset.range n := by
    intro a _; simpa using probe_lt hn h a
  have := Finset.surj_on_of_inj_on_of_card_le (s := Finset.range n) (t := Finset.range n)
    (fun a _ => probe n h a) hmaps (fun a b ha hb hab => hinj (by simpa using ha) (by simpa using hb) hab)
    (le_refl _) i (by simpa using hi)
  obtain ⟨j, hj, e⟩ := this
  exact ⟨j, by simpa using hj, e.symm⟩

theorem isMatch_iff (element : Option (K × V)) (key : K) :
    (element.isSome ∧ element.map Prod.fst = some key) ↔ ∃ v, element = some (key, v) := by
  cases element with
  | none => simp
  | some e =>
    obtain ⟨k, v⟩ := e
    simp

theorem findLoop_spec (t : HashTableProbed K V) (a : List (Option (K × V))) (key : K) (h : Nat)
    (hA : t.mArray = some a) (hlen : a.length = t.mAllocated + 1)
    (hc : Nat.Coprime cIncBy t.mAllocated) (hh : h < t.mAllocated) :
    ∀ (fuel j : Nat) (el : Option (K × V)), fuel + j = t.mAllocated → j < t.mAllocated →
      a[probe t.mAllocated h j]? = some el →
      (∃ i v, i < t.mAllocated ∧ a[i]? = some (some (key, v)) ∧
          findLoop t key h fuel (probe t.mAllocated h j) el = .ok (some i)) ∨
      ((∀ j', j ≤ j' → j' < t.mAllocated → ∀ v, a[probe t.mAllocated h j']? ≠ some (some (key, v))) ∧
          findLoop t key h fuel (probe t.mAllocated h j) el = .ok none) := by
  have hn : 0 < t.mAllocated := by omega
  intro fuel
  induction fuel with
  | zero => intro j el hf hj; omega
  | succ fuel ih =>
    intro j el hf hj hel
    rw [findLoop]
    by_cases hm : el.isSome ∧ el.map Prod.fst = some key
    · left
      obtain ⟨v, rfl⟩ := (isMatch_iff el key).1 hm
      exact ⟨_, v, probe_lt hn _ _, hel, by simp⟩
    · rw [if_neg hm]
      have hm' : ∀ v, a[probe t.mAllocated h j]? ≠ some (some (key, v)) := by
        intro v hv
        rw [hel] at hv
        exact hm ((isMatch_iff el key).2 ⟨v, Option.some.inj hv⟩)
      rw [modSize_pos hn, probe_succ]
      have hlt : probe t.mAllocated h (j + 1) < a.length := by
        have := probe_lt hn h (j + 1); omega
      obtain ⟨el', hel'⟩ : ∃ el', a[probe t.mAllocated h (j + 1)]? = some el' :=
        ⟨_, List.getElem?_eq_getElem hlt⟩
      simp only [hA, readSlot_some hel']
      by_cases hj1 : j + 1 = t.mAllocated
      · rw [hj1, probe_self hh]
        simp only [if_true]
        right
        refine ⟨?_, trivial⟩
        intro j' h1 h2
        have : j' = j := by omega
        subst this
        exact hm'
      · have hj1' : j + 1 < t.mAllocated := by omega
        rw [if_neg (probe_ne_start hc hh (Nat.succ_pos j) hj1')]
        rcases ih (j + 1) el' (by omega) hj1' hel' with hfound | ⟨hnone, hres⟩
        · exact Or.inl hfound
        · right
          refine ⟨?_, hres⟩
          intro j' h1 h2
          rcases Nat.eq_or_lt_of_le h1 with rfl | h3
          · exact hm'
          · exact hnone j' h3 h2



theorem WellFormed.pos {t : HashTableProbed K V} (wf : t.WellFormed) : 0 < t.mAllocated :=
  pos_of_mem_mPrimes wf.capacity

theorem WellFormed.coprime {t : HashTableProbed K V} (wf : t.WellFormed) :
    Nat.Coprime cIncBy t.mAllocated :=
  coprime_of_mem_mPrimes wf.capacity

theorem WellFormed.exists_slot {t : HashTableProbed K V} (wf : t.WellFormed) {i : Nat}
    (hi : i ≤ t.mAllocated) : ∃ el, t.slots[i]? = some el :=
  ⟨_, List.getElem?_eq_getElem (by rw [wf.length]; omega)⟩

theorem WellFormed.index_lt {t : HashTableProbed K V} (wf : t.WellFormed) {i : Nat} {e : K × V}
    (h : t.slots[i]? = some (some e)) : i < t.mAllocated := by
  have h1 := lt_length_of_getElem? h
  rw [wf.length] at h1
  rcases Nat.eq_or_lt_of_le (Nat.le_of_lt_succ h1) with rfl | h2
  · rw [wf.sentinel] at h; cases h
  · exact h2

theorem mem_entries_iff {t : HashTableProbed K V} (wf : t.WellFormed) {e : K × V} :
    e ∈ t.entries ↔ ∃ i, i < t.mAllocated ∧ t.slots[i]? = some (some e) := by
  constructor
  · intro h
    obtain ⟨i, _, hi⟩ := exists_getElem?_of_mem_reduceOption h
    exact ⟨i, wf.index_lt hi, hi⟩
  · rintro ⟨i, _, hi⟩
    exact mem_reduceOption_of_getElem? hi

theorem Iterator.new_occupied {t : HashTableProbed K V} (wf : t.WellFormed) {i : Nat} {e : K × V}
    (h : t.slots[i]? = some (some e)) : Iterator.new t i = .ok { mIndex := i } := by
  have hi := wf.index_lt h
  simp [Iterator.new, getAllocated, getElement, hi, wf.array, readSlot_some h]

theorem Iterator.deref_occupied {t : HashTableProbed K V} (wf : t.WellFormed) {i : Nat} {e : K × V}
    (h : t.slots[i]? = some (some e)) : Iterator.deref t { mIndex := i } = .ok e := by
  simp [Iterator.deref, getElement, wf.array, readSlot_some h]

/-- What `find` returns on a well-formed table. -/
theorem find_spec {hasher : K → Nat → Except Failure Nat} (hv : ValidHasher hasher)
    {t : HashTableProbed K V} (wf : t.WellFormed) (key : K) :
    (find hasher t key = .ok t.end ∧ key ∉ t.entries.map Prod.fst) ∨
    (∃ i v, i < t.mAllocated ∧ t.slots[i]? = some (some (key, v)) ∧
      find hasher t key = .ok { mIndex := i }) := by
  obtain ⟨h, hh, hlt⟩ := hv key t.mAllocated wf.pos
  obtain ⟨el, hel⟩ := wf.exists_slot (Nat.le_of_lt hlt)
  have hel0 : t.slots[probe t.mAllocated h 0]? = some el := by rw [probe_zero hlt]; exact hel
  rcases findLoop_spec t t.slots key h wf.array wf.length wf.coprime hlt t.mAllocated 0 el
      (by omega) wf.pos hel0 with ⟨i, v, hi, hiv, hres⟩ | ⟨hnone, hres⟩
  · right
    rw [probe_zero hlt] at hres
    refine ⟨i, v, hi, hiv, ?_⟩
    simp only [find, hash, hh, wf.array, readSlot_some hel, hres]
    exact Iterator.new_occupied wf hiv
  · left
    rw [probe_zero hlt] at hres
    refine ⟨by simp only [find, hash, hh, wf.array, readSlot_some hel, hres], ?_⟩
    intro hmem
    obtain ⟨⟨k, v⟩, he, hk⟩ := List.mem_map.1 hmem
    simp only at hk
    subst hk
    obtain ⟨i, hi, hiv⟩ := (mem_entries_iff wf).1 he
    obtain ⟨j, hj, hji⟩ := probe_surj (h := h) wf.coprime wf.pos i hi
    exact hnone j (Nat.zero_le _) hj v (by rw [hji]; exact hiv)


theorem rehashProbe_spec (arr : List (Option (K × V))) (n h : Nat)
    (hlen : arr.length = n + 1) (hh : h < n) :
    ∀ (fuel j : Nat) (el : Option (K × V)), n ≤ fuel + j → j < n →
      arr[probe n h j]? = some el →
      (∃ j0, j ≤ j0 ∧ j0 < n ∧ arr[probe n h j0]? = some none) →
      ∃ idx, idx < n ∧ arr[idx]? = some none ∧
        rehashProbe arr n fuel (probe n h j) el = .ok idx := by
  have hn : 0 < n := by omega
  intro fuel
  induction fuel with
  | zero => intro j el hf hj; omega
  | succ fuel ih =>
    intro j el hf hj hel hfree
    cases el with
    | none => exact ⟨_, probe_lt hn _ _, hel, by simp [rehashProbe]⟩
    | some e =>
      obtain ⟨j0, h1, h2, h3⟩ := hfree
      have hne : j0 ≠ j := by
        rintro rfl
        rw [hel] at h3; cases h3
      have hj1 : j + 1 < n := by omega
      have hlt : probe n h (j + 1) < arr.length := by
        have := probe_lt hn h (j + 1); omega
      obtain ⟨el', hel'⟩ : ∃ el', arr[probe n h (j + 1)]? = some el' :=
        ⟨_, List.getElem?_eq_getElem hlt⟩
      obtain ⟨idx, hi1, hi2, hi3⟩ := ih (j + 1) el' (by omega) hj1 hel' ⟨j0, by omega, h2, h3⟩
      refine ⟨idx, hi1, hi2, ?_⟩
      rw [rehashProbe]
      simp only [modSize_pos hn, probe_succ, readSlot_some hel']
      exact hi3

theorem insertLoop_spec (t : HashTableProbed K V) (a : List (Option (K × V))) (h : Nat)
    (hA : t.mArray = some a) (hlen : a.length = t.mAllocated + 1)
    (hc : Nat.Coprime cIncBy t.mAllocated) (hh : h < t.mAllocated) :
    ∀ (fuel j : Nat) (el : Option (K × V)), t.mAllocated < fuel + j → j < t.mAllocated →
      a[probe t.mAllocated h j]? = some el →
      (∃ j0, j ≤ j0 ∧ j0 < t.mAllocated ∧ a[probe t.mAllocated h j0]? = some none) →
      ∃ idx, idx < t.mAllocated ∧ a[idx]? = some none ∧
        insertLoop t h fuel (probe t.mAllocated h j) el false = .ok (idx, false) := by
  have hn : 0 < t.mAllocated := by omega
  intro fuel
  induction fuel with
  | zero => intro j el hf hj; omega
  | succ fuel ih =>
    intro j el hf hj hel hfree
    cases el with
    | none => exact ⟨_, probe_lt hn _ _, hel, by simp [insertLoop]⟩
    | some e =>
      obtain ⟨j0, h1, h2, h3⟩ := hfree
      have hne : j0 ≠ j := by
        rintro rfl
        rw [hel] at h3; cases h3
      have hj1 : j + 1 < t.mAllocated := by omega
      have hlt : probe t.mAllocated h (j + 1) < a.length := by
        have := probe_lt hn h (j + 1); omega
      obtain ⟨el', hel'⟩ : ∃ el', a[probe t.mAllocated h (j + 1)]? = some el' :=
        ⟨_, List.getElem?_eq_getElem hlt⟩
      obtain ⟨idx, hi1, hi2, hi3⟩ := ih (j + 1) el' (by omega) hj1 hel' ⟨j0, by omega, h2, h3⟩
      refine ⟨idx, hi1, hi2, ?_⟩
      rw [insertLoop]
      have hns : probe t.mAllocated h (j + 1) ≠ h := probe_ne_start hc hh (Nat.succ_pos j) hj1
      simp only [Option.isSome_some, and_self, if_true, modSize_pos hn, probe_succ, hA,
        readSlot_some hel', hns, decide_False]
      exact hi3

/-- On a well-formed table with a free slot, the probing of `insert` from any
home bucket stops at an empty cell. -/
theorem exists_free_probe {a : List (Option (K × V))} {n : Nat} (h : Nat)
    (hlen : a.length = n + 1) (hc : Nat.Coprime cIncBy n) (hn : 0 < n)
    (hfree : a.reduceOption.length < n) :
    ∃ j0, 0 ≤ j0 ∧ j0 < n ∧ a[probe n h j0]? = some none := by
  obtain ⟨i, hi, hnone⟩ := exists_none_of_reduceOption_length_lt (l := a) (n := n) (by omega) hfree
  obtain ⟨j, hj, hji⟩ := probe_surj (h := h) hc hn i hi
  exact ⟨j, Nat.zero_le _, hj, by rw [hji]; exact hnone⟩


theorem slots_mk (a : List (Option (K × V))) (n f s : Nat) :
    slots ({ mArray := some a, mAllocated := n, mFreeSlots := f, mSize := s } :
      HashTableProbed K V) = a := rfl

/-- The placement part of `insert` on a well-formed table with a free slot and
without the key. -/
theorem insertPlace_spec {hasher : K → Nat → Except Failure Nat} (hv : ValidHasher hasher)
    {t : HashTableProbed K V} (wf : t.WellFormed) (key : K) (value : V)
    (hfree : 0 < t.mFreeSlots) (habs : key ∉ t.entries.map Prod.fst) :
    ∃ t', insertPlace hasher t key value = (.ok true, t') ∧ t'.WellFormed ∧
      List.Perm t'.entries ((key, value) :: t.entries) ∧ t'.mAllocated = t.mAllocated ∧
      t'.mFreeSlots + 1 = t.mFreeSlots ∧ t'.mSize = t.mSize + 1 := by
  obtain ⟨h, hh, hlt⟩ := hv key t.mAllocated wf.pos
  obtain ⟨el, hel⟩ := wf.exists_slot (Nat.le_of_lt hlt)
  have hel0 : t.slots[probe t.mAllocated h 0]? = some el := by rw [probe_zero hlt]; exact hel
  have hcount : t.slots.reduceOption.length < t.mAllocated := by
    have h1 := wf.size
    have h2 := wf.free
    unfold entries at h1
    omega
  obtain ⟨idx, hidx, hnone, hres⟩ := insertLoop_spec t t.slots h wf.array wf.length wf.coprime hlt
    (t.mAllocated + 1) 0 el (by omega) wf.pos hel0
    (exists_free_probe h wf.length wf.coprime wf.pos hcount)
  rw [probe_zero hlt] at hres
  have hil : idx < t.slots.length := by rw [wf.length]; omega
  have hperm := reduceOption_set_some_of_none (key, value) hnone
  refine ⟨{ t with mArray := some (t.slots.set idx (some (key, value))),
                   mFreeSlots := t.mFreeSlots - 1, mSize := t.mSize + 1 }, ?_, ?_, ?_, rfl, ?_, rfl⟩
  · simp only [insertPlace, hash, hh, andThen, readSlot_some hel, wf.array, hres]
    rw [writeSlot_some _ hil]
    simp
  · refine ⟨rfl, ?_, ?_, wf.capacity, ?_, ?_, ?_⟩
    · simp only [slots_mk, List.length_set]; exact wf.length
    · simp only [slots_mk]
      rw [List.getElem?_set_ne (by omega)]
      exact wf.sentinel
    · simp only [entries, slots_mk]
      rw [hperm.length_eq, List.length_cons]
      have := wf.size
      unfold entries at this
      omega
    · have := wf.free
      simp only
      omega
    · simp only [entries, slots_mk]
      refine (List.Perm.nodup_iff (List.Perm.map Prod.fst hperm)).2 ?_
      simp only [List.map_cons, List.nodup_cons]
      exact ⟨habs, wf.nodup⟩
  · exact hperm
  · simp only
    omega


theorem reduceOption_take_length_le {α : Type} (l : List (Option α)) (i : Nat) :
    (l.take i).reduceOption.length ≤ l.reduceOption.length :=
  ((List.take_sublist i l).filterMap id).length_le

theorem reduceOption_take_succ {α : Type} {l : List (Option α)} {i : Nat} {x : Option α}
    (h : l[i]? = some x) :
    (l.take (i + 1)).reduceOption = (l.take i).reduceOption ++ x.toList := by
  rw [List.take_succ, List.reduceOption_append, h]
  cases x <;> simp [List.reduceOption]

theorem rehashLoop_spec {hasher : K → Nat → Except Failure Nat} (hv : ValidHasher hasher)
    (t : HashTableProbed K V) (a : List (Option (K × V))) (newAlloc : Nat)
    (hA : t.mArray = some a) (hc : Nat.Coprime cIncBy newAlloc) (hn : 0 < newAlloc)
    (hsmall : a.reduceOption.length < newAlloc) :
    ∀ (n i : Nat) (arr : List (Option (K × V))) (free : Nat), i + n ≤ a.length →
      arr.length = newAlloc + 1 → arr[newAlloc]? = some none →
      List.Perm arr.reduceOption (a.take i).reduceOption →
      free + arr.reduceOption.length = newAlloc →
      ∃ arr' free', rehashLoop hasher t newAlloc n i (arr, free) = .ok (arr', free') ∧
        arr'.length = newAlloc + 1 ∧ arr'[newAlloc]? = some none ∧
        List.Perm arr'.reduceOption (a.take (i + n)).reduceOption ∧
        free' + arr'.reduceOption.length = newAlloc := by
  intro n
  induction n with
  | zero =>
    intro i arr free _ h1 h2 h3 h4
    exact ⟨arr, free, by simp [rehashLoop], h1, h2, by simpa using h3, h4⟩
  | succ n ih =>
    intro i arr free hi h1 h2 h3 h4
    obtain ⟨x, hx⟩ : ∃ x, a[i]? = some x := ⟨_, List.getElem?_eq_getElem (by omega)⟩
    have htake := reduceOption_take_succ hx
    cases x with
    | none =>
      obtain ⟨arr', free', r1, r2, r3, r4, r5⟩ := ih (i + 1) arr free (by omega) h1 h2
        (by rw [htake]; simpa using h3) h4
      refine ⟨arr', free', ?_, r2, r3, by rw [← Nat.add_assoc] ; rw [Nat.add_right_comm] at r4; exact r4, r5⟩
      rw [rehashLoop]
      simp only [hA, readSlot_some hx]
      exact r1
    | some e =>
      obtain ⟨h, hh, hlt⟩ := hv e.1 newAlloc hn
      obtain ⟨el, hel⟩ : ∃ el, arr[h]? = some el := ⟨_, List.getElem?_eq_getElem (by omega)⟩
      have hel0 : arr[probe newAlloc h 0]? = some el := by rw [probe_zero hlt]; exact hel
      have hcount : arr.reduceOption.length < newAlloc := by
        rw [h3.length_eq]
        exact lt_of_le_of_lt (reduceOption_take_length_le a i) hsmall
      obtain ⟨idx, hidx, hnone, hres⟩ := rehashProbe_spec arr newAlloc h h1 hlt newAlloc 0 el
        (by omega) hn hel0 (exists_free_probe h h1 hc hn hcount)
      rw [probe_zero hlt] at hres
      have hperm := reduceOption_set_some_of_none e hnone
      obtain ⟨arr', free', r1, r2, r3, r4, r5⟩ := ih (i + 1) (arr.set idx (some e)) (free - 1)
        (by omega) (by simp [h1])
        (by rw [List.getElem?_set_ne (by omega)]; exact h2)
        (by
          rw [htake]
          refine hperm.trans ?_
          simp only [Option.toList_some]
          exact (List.Perm.cons e h3).trans (List.perm_append_singleton e _).symm)
        (by rw [hperm.length_eq, List.length_cons]; omega)
      refine ⟨arr', free', ?_, r2, r3, by rw [← Nat.add_assoc] ; rw [Nat.add_right_comm] at r4; exact r4, r5⟩
      rw [rehashLoop]
      simp only [hA, readSlot_some hx, hash, hh, readSlot_some hel, hres]
      rw [writeSlot_some _ (by omega)]
      exact r1


theorem reduceOption_newArray {α : Type} (n : Nat) :
    (newArray n : List (Option α)).reduceOption = [] := by
  unfold newArray
  induction (n + 1) with
  | zero => rfl
  | succ m ih => rw [List.replicate_succ, List.reduceOption_cons_of_none, ih]

theorem WellFormed.take_entries {t : HashTableProbed K V} (wf : t.WellFormed) :
    (t.slots.take t.mAllocated).reduceOption = t.entries := by
  have h1 := reduceOption_take_succ wf.sentinel
  rw [List.take_of_length_le (by rw [wf.length])] at h1
  simpa [entries] using h1.symm

theorem WellFormed.entries_length_le {t : HashTableProbed K V} (wf : t.WellFormed) :
    t.entries.length ≤ t.mAllocated := by
  have h1 := wf.size
  have h2 := wf.free
  omega

/-- What `rehash` does to a well-formed table when asked for a bigger prime. -/
theorem rehash_spec {hasher : K → Nat → Except Failure Nat} (hv : ValidHasher hasher)
    {t : HashTableProbed K V} (wf : t.WellFormed) {newAlloc : Nat}
    (hp : newAlloc ∈ mPrimes) (hgt : t.mAllocated < newAlloc) :
    ∃ t', rehash hasher t newAlloc = .ok t' ∧ t'.WellFormed ∧
      List.Perm t'.entries t.entries ∧ t'.mAllocated = newAlloc ∧ t'.mSize = t.mSize ∧
      t'.mFreeSlots + t.mSize = newAlloc := by
  have hle := wf.entries_length_le
  obtain ⟨arr', free', r1, r2, r3, r4, r5⟩ := rehashLoop_spec hv t t.slots newAlloc wf.array
    (coprime_of_mem_mPrimes hp) (pos_of_mem_mPrimes hp)
    (by unfold entries at hle; omega) t.mAllocated 0 (newArray newAlloc) newAlloc
    (by rw [wf.length]; omega) (by simp [newArray])
    (by simp [newArray, List.getElem?_replicate])
    (by rw [reduceOption_newArray]; simp)
    (by rw [reduceOption_newArray]; simp)
  rw [Nat.zero_add, wf.take_entries] at r4
  refine ⟨{ mArray := some arr', mAllocated := newAlloc, mFreeSlots := free', mSize := t.mSize },
    ?_, ?_, r4, rfl, rfl, ?_⟩
  · simp only [rehash, r1]
  · refine ⟨rfl, r2, r3, hp, ?_, ?_, ?_⟩
    · simp only [entries, slots_mk]
      rw [r4.length_eq]; exact wf.size
    · simp only
      rw [r4.length_eq, ← wf.size] at r5
      exact r5
    · simp only [entries, slots_mk]
      exact (List.Perm.nodup_iff (List.Perm.map Prod.fst r4)).2 wf.nodup
  · simp only
    rw [r4.length_eq, ← wf.size] at r5
    exact r5

theorem find_of_mem {hasher : K → Nat → Except Failure Nat} (hv : ValidHasher hasher)
    {t : HashTableProbed K V} (wf : t.WellFormed) {key : K}
    (h : key ∈ t.entries.map Prod.fst) :
    ∃ i v, i < t.mAllocated ∧ t.slots[i]? = some (some (key, v)) ∧
      find hasher t key = .ok { mIndex := i } := by
  rcases find_spec hv wf key with ⟨_, habs⟩ | hfound
  · exact absurd h habs
  · exact hfound

theorem find_of_not_mem {hasher : K → Nat → Except Failure Nat} (hv : ValidHasher hasher)
    {t : HashTableProbed K V} (wf : t.WellFormed) {key : K}
    (h : key ∉ t.entries.map Prod.fst) : find hasher t key = .ok t.end := by
  rcases find_spec hv wf key with ⟨hf, _⟩ | ⟨i, v, _, hiv, _⟩
  · exact hf
  · exact absurd (List.mem_map.2 ⟨(key, v), mem_reduceOption_of_getElem? hiv, rfl⟩) h

theorem find_eq_end_iff {hasher : K → Nat → Except Failure Nat} (hv : ValidHasher hasher)
    {t : HashTableProbed K V} (wf : t.WellFormed) (key : K) :
    find hasher t key = .ok t.end ↔ key ∉ t.entries.map Prod.fst := by
  constructor
  · intro hf hmem
    obtain ⟨i, v, hi, _, hfi⟩ := find_of_mem hv wf hmem
    rw [hfi] at hf
    have : i = t.mAllocated := by simpa [HashTableProbed.end] using hf
    omega
  · exact find_of_not_mem hv wf

/-- `insert` of a stored key changes nothing and returns false. -/
theorem insert_of_mem {hasher : K → Nat → Except Failure Nat} (hv : ValidHasher hasher)
    {t : HashTableProbed K V} (wf : t.WellFormed) {key : K} (value : V)
    (h : key ∈ t.entries.map Prod.fst) : insert hasher t key value = (.ok false, t) := by
  obtain ⟨i, v, hi, _, hfi⟩ := find_of_mem hv wf h
  have hne : ({ mIndex := i } : Iterator) ≠ t.end := by
    intro he
    have : i = t.mAllocated := by simpa [HashTableProbed.end] using he
    omega
  simp only [insert, hfi, andThen, hne, ne_eq, not_false_eq_true, if_true]

/-- `insert` of a key that is not stored: either the grower is out of primes
and nothing has changed, or the entry is added. -/
theorem insert_of_not_mem {hasher : K → Nat → Except Failure Nat} (hv : ValidHasher hasher)
    {t : HashTableProbed K V} (wf : t.WellFormed) {key : K} (value : V)
    (h : key ∉ t.entries.map Prod.fst) :
    (getNewSize t.mAllocated t.mFreeSlots = .error .needMorePrimes ∧
      insert hasher t key value = (.error .needMorePrimes, t)) ∨
    (∃ newAlloc t', getNewSize t.mAllocated t.mFreeSlots = .ok newAlloc ∧
      insert hasher t key value = (.ok true, t') ∧ t'.WellFormed ∧
      List.Perm t'.entries ((key, value) :: t.entries) ∧ t'.mAllocated = newAlloc ∧
      t.mAllocated ≤ newAlloc ∧ t'.mSize = t.mSize + 1) := by
  have hf := find_of_not_mem hv wf h
  cases hg : getNewSize t.mAllocated t.mFreeSlots with
  | error e =>
    left
    have := getNewSize_error hg
    subst this
    exact ⟨rfl, by simp only [insert, hf, andThen, hg, ne_eq, not_true_eq_false, if_false]⟩
  | ok newAlloc =>
    right
    rcases getNewSize_ok hg with ⟨rfl, hfree⟩ | ⟨hgt, hp⟩
    · obtain ⟨t', h1, h2, h3, h4, _, h6⟩ := insertPlace_spec hv wf key value (by omega) h
      refine ⟨_, t', rfl, ?_, h2, h3, h4, le_refl _, h6⟩
      simp only [insert, hf, andThen, hg, ne_eq, not_true_eq_false, if_false, gt_iff_lt,
        lt_self_iff_false]
      exact h1
    · obtain ⟨t1, q1, q2, q3, q4, q5, q6⟩ := rehash_spec hv wf hp hgt
      have hfree1 : 0 < t1.mFreeSlots := by
        have := wf.free
        omega
      have habs1 : key ∉ t1.entries.map Prod.fst := by
        intro hm
        exact h ((List.Perm.mem_iff (List.Perm.map Prod.fst q3)).1 hm)
      obtain ⟨t', h1, h2, h3, h4, _, h6⟩ := insertPlace_spec hv q2 key value hfree1 habs1
      refine ⟨_, t', rfl, ?_, h2, h3.trans (List.Perm.cons _ q3), by rw [h4, q4],
        Nat.le_of_lt hgt, by rw [h6, q5]⟩
      simp only [insert, hf, andThen, hg, ne_eq, not_true_eq_false, if_false, gt_iff_lt,
        hgt, if_true, q1]
      exact h1


theorem ne_end_of_lt {t : HashTableProbed K V} {i : Nat} (hi : i < t.mAllocated) :
    ({ mIndex := i } : Iterator) ≠ t.end := by
  intro he
  have : i = t.mAllocated := by simpa [HashTableProbed.end] using he
  omega

/-- `erase` of a key that is not stored changes nothing and returns 0. -/
theorem erase_of_not_mem {hasher : K → Nat → Except Failure Nat} (hv : ValidHasher hasher)
    {t : HashTableProbed K V} (wf : t.WellFormed) {key : K}
    (h : key ∉ t.entries.map Prod.fst) : erase hasher t key = (.ok 0, t) := by
  simp only [erase, find_of_not_mem hv wf h, andThen, ne_eq, not_true_eq_false, if_false]

/-- `erase` of a stored key empties its slot. -/
theorem erase_of_mem {hasher : K → Nat → Except Failure Nat} (hv : ValidHasher hasher)
    {t : HashTableProbed K V} (wf : t.WellFormed) {key : K}
    (h : key ∈ t.entries.map Prod.fst) :
    ∃ v t', erase hasher t key = (.ok 1, t') ∧ t'.WellFormed ∧
      List.Perm t.entries ((key, v) :: t'.entries) ∧ t'.mAllocated = t.mAllocated ∧
      t'.mSize + 1 = t.mSize ∧ t'.mFreeSlots = t.mFreeSlots + 1 := by
  obtain ⟨i, v, hi, hiv, hfi⟩ := find_of_mem hv wf h
  have hil : i < t.slots.length := by rw [wf.length]; omega
  have hperm := reduceOption_set_none_of_some hiv
  have hsz : t.mSize = (t.slots.set i none).reduceOption.length + 1 := by
    rw [wf.size]; exact hperm.length_eq
  refine ⟨v, { t with mArray := some (t.slots.set i none), mFreeSlots := t.mFreeSlots + 1,
                      mSize := t.mSize - 1 }, ?_, ?_, hperm, rfl, ?_, rfl⟩
  · simp only [erase, hfi, andThen, ne_end_of_lt hi, ne_eq, not_false_eq_true, if_true,
      wf.array, readSlot_some hiv]
    rw [writeSlot_some _ hil]
  · refine ⟨rfl, ?_, ?_, wf.capacity, ?_, ?_, ?_⟩
    · simp only [slots_mk, List.length_set]; exact wf.length
    · simp only [slots_mk]
      rw [List.getElem?_set_ne (by omega)]
      exact wf.sentinel
    · simp only [entries, slots_mk]
      omega
    · have := wf.free
      simp only
      omega
    · simp only [entries, slots_mk]
      have := (List.Perm.nodup_iff (List.Perm.map Prod.fst hperm)).1 wf.nodup
      simp only [List.map_cons, List.nodup_cons] at this
      exact this.2
  · simp only
    omega

/-- `set` of a stored key overwrites the value in place. -/
theorem set_of_mem {hasher : K → Nat → Except Failure Nat} (hv : ValidHasher hasher)
    {t : HashTableProbed K V} (wf : t.WellFormed) {key : K} (value : V)
    (h : key ∈ t.entries.map Prod.fst) :
    ∃ v r t', set hasher t key value = (.ok (), t') ∧ t'.WellFormed ∧
      List.Perm t.entries ((key, v) :: r) ∧ List.Perm t'.entries ((key, value) :: r) ∧
      t'.mAllocated = t.mAllocated ∧ t'.mSize = t.mSize ∧ t'.mFreeSlots = t.mFreeSlots := by
  obtain ⟨i, v, hi, hiv, hfi⟩ := find_of_mem hv wf h
  have hil : i < t.slots.length := by rw [wf.length]; omega
  obtain ⟨hp1, hp2⟩ := reduceOption_set_some_of_some (key, value) hiv
  refine ⟨v, (t.slots.eraseIdx i).reduceOption,
    { t with mArray := some (t.slots.set i (some (key, value))) }, ?_, ?_, hp1, hp2,
    rfl, rfl, rfl⟩
  · simp only [set, hfi, andThen, ne_end_of_lt hi, if_false, Iterator.deref_occupied wf hiv,
      wf.array]
    rw [writeSlot_some _ hil]
  · refine ⟨rfl, ?_, ?_, wf.capacity, ?_, wf.free, ?_⟩
    · simp only [slots_mk, List.length_set]; exact wf.length
    · simp only [slots_mk]
      rw [List.getElem?_set_ne (by omega)]
      exact wf.sentinel
    · simp only [entries, slots_mk]
      rw [hp2.length_eq, wf.size]
      exact hp1.length_eq
    · simp only [entries, slots_mk]
      have h1 := (List.Perm.nodup_iff (List.Perm.map Prod.fst hp1)).1 wf.nodup
      exact (List.Perm.nodup_iff (List.Perm.map Prod.fst hp2)).2 h1

/-- `set` of a key that is not stored behaves as `insert`. -/
theorem set_of_not_mem {hasher : K → Nat → Except Failure Nat} (hv : ValidHasher hasher)
    {t : HashTableProbed K V} (wf : t.WellFormed) {key : K} (value : V)
    (h : key ∉ t.entries.map Prod.fst) :
    (getNewSize t.mAllocated t.mFreeSlots = .error .needMorePrimes ∧
      set hasher t key value = (.error .needMorePrimes, t)) ∨
    (∃ newAlloc t', getNewSize t.mAllocated t.mFreeSlots = .ok newAlloc ∧
      set hasher t key value = (.ok (), t') ∧ t'.WellFormed ∧
      List.Perm t'.entries ((key, value) :: t.entries) ∧ t'.mAllocated = newAlloc ∧
      t.mAllocated ≤ newAlloc ∧ t'.mSize = t.mSize + 1) := by
  have hf := find_of_not_mem hv wf h
  rcases insert_of_not_mem hv wf value h with ⟨hg, hi⟩ | ⟨newAlloc, t', hg, hi, rest⟩
  · left
    exact ⟨hg, by simp only [set, hf, andThen, if_true, hi]⟩
  · right
    exact ⟨newAlloc, t', hg, by simp only [set, hf, andThen, if_true, hi], rest⟩

/-- The table built by the constructor. -/
theorem new_spec {initialSize : Nat} {t : HashTableProbed K V}
    (h : HashTableProbed.new initialSize = .ok t) :
    t.WellFormed ∧ t.entries = [] ∧ t.mSize = 0 ∧ t.mFreeSlots = t.mAllocated ∧
      getPrimeGreaterThan initialSize = .ok t.mAllocated ∧
      t.mArray = some (newArray t.mAllocated) := by
  unfold HashTableProbed.new at h
  split at h
  · cases h
  · rename_i newAlloc hg
    cases h
    have hp := (getPrimeGreaterThan_ok hg).1
    refine ⟨⟨rfl, by simp [slots_mk, newArray], ?_, hp, ?_, rfl, ?_⟩, ?_, rfl, rfl, hg, rfl⟩
    · simp [slots_mk, newArray, List.getElem?_replicate]
    · simp [entries, slots_mk, reduceOption_newArray]
    · simp [entries, slots_mk, reduceOption_newArray]
    · simp [entries, slots_mk, reduceOption_newArray]

/-- Every reachable table is well formed. -/
theorem Reachable.wellFormed {hasher : K → Nat → Except Failure Nat} (hv : ValidHasher hasher)
    {t : HashTableProbed K V} (hr : Reachable hasher t) : t.WellFormed := by
  induction hr with
  | new n t h => exact (new_spec h).1
  | insert t key value _ ih =>
    by_cases hm : key ∈ t.entries.map Prod.fst
    · rw [insert_of_mem hv ih value hm]; exact ih
    · rcases insert_of_not_mem hv ih value hm with ⟨_, hi⟩ | ⟨_, t', _, hi, wf', _⟩
      · rw [hi]; exact ih
      · rw [hi]; exact wf'
  | set t key value _ ih =>
    by_cases hm : key ∈ t.entries.map Prod.fst
    · obtain ⟨_, _, t', hs, wf', _⟩ := set_of_mem hv ih value hm
      rw [hs]; exact wf'
    · rcases set_of_not_mem hv ih value hm with ⟨_, hi⟩ | ⟨_, t', _, hi, wf', _⟩
      · rw [hi]; exact ih
      · rw [hi]; exact wf'
  | erase t key _ ih =>
    by_cases hm : key ∈ t.entries.map Prod.fst
    · obtain ⟨_, t', hs, wf', _⟩ := erase_of_mem hv ih hm
      rw [hs]; exact wf'
    · rw [erase_of_not_mem hv ih hm]; exact ih


theorem skipLoop_spec {t : HashTableProbed K V} (wf : t.WellFormed) :
    ∀ (fuel i : Nat), i ≤ t.mAllocated → t.mAllocated < fuel + i →
      ∃ i', skipLoop t fuel i = .ok i' ∧ i ≤ i' ∧ i' ≤ t.mAllocated ∧
        (∀ j, i ≤ j → j < i' → t.slots[j]? = some none) ∧
        (i' < t.mAllocated → ∃ e, t.slots[i']? = some (some e)) := by
  intro fuel
  induction fuel with
  | zero => intro i h1 h2; omega
  | succ fuel ih =>
    intro i h1 h2
    rw [skipLoop]
    by_cases hi : i < t.mAllocated
    · obtain ⟨el, hel⟩ := wf.exists_slot h1
      simp only [getAllocated, hi, if_true, getElement, wf.array, readSlot_some hel]
      cases el with
      | none =>
        obtain ⟨i', r1, r2, r3, r4, r5⟩ := ih (i + 1) (by omega) (by omega)
        refine ⟨i', r1, by omega, r3, ?_, r5⟩
        intro j hj1 hj2
        rcases Nat.eq_or_lt_of_le hj1 with rfl | hlt
        · exact hel
        · exact r4 j hlt hj2
      | some e =>
        exact ⟨i, rfl, le_refl _, h1, fun j hj1 hj2 => by omega, fun _ => ⟨e, hel⟩⟩
    · have : i = t.mAllocated := by omega
      subst this
      simp only [getAllocated, lt_self_iff_false, if_false]
      exact ⟨_, rfl, le_refl _, le_refl _, fun j hj1 hj2 => by omega, fun h => by omega⟩

theorem reduceOption_drop_skip {α : Type} (l : List (Option α)) :
    ∀ (d i : Nat), i + d ≤ l.length → (∀ j, i ≤ j → j < i + d → l[j]? = some none) →
      (l.drop i).reduceOption = (l.drop (i + d)).reduceOption := by
  intro d
  induction d with
  | zero => intro i _ _; rfl
  | succ d ih =>
    intro i h1 h2
    have hi : i < l.length := by omega
    have h0 := h2 i (le_refl _) (by omega)
    rw [List.getElem?_eq_getElem hi] at h0
    rw [List.drop_eq_getElem_cons hi, Option.some.inj h0, List.reduceOption_cons_of_none,
      ih (i + 1) (by omega) (fun j hj1 hj2 => h2 j (by omega) (by omega))]
    congr 2
    omega

theorem iterateLoop_spec {t : HashTableProbed K V} (wf : t.WellFormed) :
    ∀ (fuel i : Nat), i ≤ t.mAllocated → t.mAllocated < fuel + i →
      (i < t.mAllocated → ∃ e, t.slots[i]? = some (some e)) →
      iterateLoop t fuel { mIndex := i } = .ok (t.slots.drop i).reduceOption := by
  intro fuel
  induction fuel with
  | zero => intro i h1 h2; omega
  | succ fuel ih =>
    intro i h1 h2 h3
    rw [iterateLoop]
    by_cases hi : i < t.mAllocated
    · obtain ⟨e, he⟩ := h3 hi
      obtain ⟨i', r1, r2, r3, r4, r5⟩ := skipLoop_spec wf (t.mAllocated + 1) (i + 1)
        (by omega) (by omega)
      have hil : i < t.slots.length := by rw [wf.length]; omega
      have hskip := reduceOption_drop_skip t.slots (i' - (i + 1)) (i + 1)
        (by rw [wf.length]; omega) (fun j hj1 hj2 => r4 j hj1 (by omega))
      rw [show i + 1 + (i' - (i + 1)) = i' by omega] at hskip
      simp only [ne_end_of_lt hi, if_false, Iterator.deref_occupied wf he, Iterator.inc,
        getAllocated, r1, ih i' r3 (by omega) r5]
      rw [List.drop_eq_getElem_cons hil]
      rw [List.getElem?_eq_getElem hil] at he
      rw [Option.some.inj he, List.reduceOption_cons_of_some, hskip]
    · have : i = t.mAllocated := by omega
      subst this
      have hd : t.slots.drop t.mAllocated = [none] := by
        have hil : t.mAllocated < t.slots.length := by rw [wf.length]; omega
        have hs := wf.sentinel
        rw [List.getElem?_eq_getElem hil] at hs
        rw [List.drop_eq_getElem_cons hil, Option.some.inj hs,
          List.drop_of_length_le (by rw [wf.length])]
      simp only [HashTableProbed.end, if_true, hd]
      rfl

/-- `begin()` is the first occupied slot, or `end()` when there is none. -/
theorem begin_spec {t : HashTableProbed K V} (wf : t.WellFormed) :
    ∃ i, t.begin = .ok { mIndex := i } ∧ i ≤ t.mAllocated ∧
      (∀ j, j < i → t.slots[j]? = some none) ∧
      (i < t.mAllocated → ∃ e, t.slots[i]? = some (some e)) := by
  obtain ⟨el, hel⟩ := wf.exists_slot (Nat.zero_le t.mAllocated)
  cases el with
  | none =>
    obtain ⟨i', r1, r2, r3, r4, r5⟩ := skipLoop_spec wf (t.mAllocated + 1) 1
      (by have := wf.pos; omega) (by omega)
    refine ⟨i', ?_, r3, ?_, r5⟩
    · simp only [begin, Iterator.new, getAllocated, wf.pos, if_true, getElement, wf.array,
        readSlot_some hel, Iterator.inc, Nat.zero_add, r1]
    · intro j hj
      rcases Nat.eq_zero_or_pos j with rfl | hpos
      · exact hel
      · exact r4 j hpos hj
  | some e =>
    refine ⟨0, ?_, Nat.zero_le _, fun j hj => by omega, fun _ => ⟨e, hel⟩⟩
    simp only [begin, Iterator.new, getAllocated, wf.pos, if_true, getElement, wf.array,
      readSlot_some hel]

/-- Forward iteration yields the stored entries in ascending slot order. -/
theorem iterate_spec {t : HashTableProbed K V} (wf : t.WellFormed) :
    t.iterate = .ok t.entries := by
  obtain ⟨i, hb, hi, hnone, hocc⟩ := begin_spec wf
  have hskip := reduceOption_drop_skip t.slots i 0 (by rw [wf.length]; omega)
    (fun j _ hj => hnone j (by omega))
  simp only [Nat.zero_add, List.drop_zero] at hskip
  simp only [iterate, hb, iterateLoop_spec wf (t.mAllocated + 1) i hi (by omega) hocc]
  rw [← hskip]
  rfl


/-- On a well-formed table `find(key)` hits and yields `v` exactly when
`(key, v)` is a stored entry. -/
theorem find_yields_iff {hasher : K → Nat → Except Failure Nat} (hv : ValidHasher hasher)
    {t : HashTableProbed K V} (wf : t.WellFormed) (key : K) (v : V) :
    (∃ it, find hasher t key = .ok it ∧ it ≠ t.end ∧ Iterator.deref t it = .ok (key, v)) ↔
      (key, v) ∈ t.entries := by
  constructor
  · rintro ⟨it, hf, hne, hd⟩
    rcases find_spec hv wf key with ⟨hf', _⟩ | ⟨i, v', _, hiv, hf'⟩
    · rw [hf'] at hf
      exact absurd (Except.ok.inj hf).symm hne
    · rw [hf'] at hf
      have := Except.ok.inj hf
      subst this
      rw [Iterator.deref_occupied wf hiv] at hd
      have := Except.ok.inj hd
      rw [← this]
      exact mem_reduceOption_of_getElem? hiv
  · intro hm
    obtain ⟨i, v', hi, hiv, hf⟩ := find_of_mem hv wf (List.mem_map.2 ⟨_, hm, rfl⟩)
    have hvv : v' = v :=
      eq_of_mem_of_nodup_keys wf.nodup (mem_reduceOption_of_getElem? hiv) hm
    subst hvv
    exact ⟨_, hf, ne_end_of_lt hi, Iterator.deref_occupied wf hiv⟩

/-- On a well-formed table `find` returns an iterator: `end()` for a key that
is not stored, and otherwise one that is not `end()`. -/
theorem find_total {hasher : K → Nat → Except Failure Nat} (hv : ValidHasher hasher)
    {t : HashTableProbed K V} (wf : t.WellFormed) (key : K) :
    ∃ it, find hasher t key = .ok it ∧ (it ≠ t.end ↔ key ∈ t.entries.map Prod.fst) := by
  by_cases hm : key ∈ t.entries.map Prod.fst
  · obtain ⟨i, v, hi, _, hf⟩ := find_of_mem hv wf hm
    exact ⟨_, hf, by simp [ne_end_of_lt hi, hm]⟩
  · exact ⟨_, find_of_not_mem hv wf hm, by simp [hm]⟩

theorem mem_keys_of_find_ne_end {hasher : K → Nat → Except Failure Nat} (hv : ValidHasher hasher)
    {t : HashTableProbed K V} (wf : t.WellFormed) {key : K} {it : Iterator}
    (hf : find hasher t key = .ok it) (hne : it ≠ t.end) : key ∈ t.entries.map Prod.fst := by
  by_contra hm
  rw [find_of_not_mem hv wf hm] at hf
  exact hne (Except.ok.inj hf).symm


theorem insertAll_spec {hasher : K → Nat → Except Failure Nat} (hv : ValidHasher hasher) :
    ∀ (kvs : List (K × V)) (t t' : HashTableProbed K V) (bs : List Bool), t.WellFormed →
      insertAll hasher t kvs = (.ok bs, t') →
      t'.WellFormed ∧ t'.mSize = t.mSize + bs.count true ∧ bs.length = kvs.length ∧
        (∀ k, k ∈ t'.entries.map Prod.fst ↔
          k ∈ t.entries.map Prod.fst ∨ k ∈ kvs.map Prod.fst) := by
  intro kvs
  induction kvs with
  | nil =>
    intro t t' bs wf h
    simp only [insertAll, Prod.mk.injEq, Except.ok.injEq] at h
    obtain ⟨rfl, rfl⟩ := h
    exact ⟨wf, by simp, rfl, by simp⟩
  | cons kv rest ih =>
    intro t t' bs wf h
    rw [insertAll] at h
    by_cases hm : kv.1 ∈ t.entries.map Prod.fst
    · rw [insert_of_mem hv wf kv.2 hm] at h
      simp only at h
      cases hrest : insertAll hasher t rest with
      | mk r t2 =>
        rw [hrest] at h
        cases r with
        | error e => simp at h
        | ok bs' =>
          simp only [Prod.mk.injEq, Except.ok.injEq] at h
          obtain ⟨rfl, rfl⟩ := h
          obtain ⟨wf2, hs, hl, hk⟩ := ih t t2 bs' wf hrest
          refine ⟨wf2, by simpa using hs, by simp [hl], ?_⟩
          intro k
          rw [hk k]
          simp only [List.map_cons, List.mem_cons]
          constructor
          · rintro (h1 | h1)
            · exact Or.inl h1
            · exact Or.inr (Or.inr h1)
          · rintro (h1 | h1 | h1)
            · exact Or.inl h1
            · exact Or.inl (h1 ▸ hm)
            · exact Or.inr h1
    · rcases insert_of_not_mem hv wf kv.2 hm with ⟨_, hi⟩ | ⟨_, t1, _, hi, wf1, hp, _, _, hs1⟩
      · rw [hi] at h
        simp at h
      · rw [hi] at h
        simp only at h
        cases hrest : insertAll hasher t1 rest with
        | mk r t2 =>
          rw [hrest] at h
          cases r with
          | error e => simp at h
          | ok bs' =>
            simp only [Prod.mk.injEq, Except.ok.injEq] at h
            obtain ⟨rfl, rfl⟩ := h
            obtain ⟨wf2, hs, hl, hk⟩ := ih t1 t2 bs' wf1 hrest
            refine ⟨wf2, by rw [hs, hs1]; simp; omega, by simp [hl], ?_⟩
            intro k
            rw [hk k, (List.Perm.map Prod.fst hp).mem_iff]
            simp only [List.map_cons, List.mem_cons]
            constructor
            · rintro ((h1 | h1) | h1)
              · exact Or.inr (Or.inl h1)
              · exact Or.inl h1
              · exact Or.inr (Or.inr h1)
            · rintro (h1 | h1 | h1)
              · exact Or.inl (Or.inr h1)
              · exact Or.inl (Or.inl h1)
              · exact Or.inr h1

/-- After a sequence of inserts into a table without entries, size is the
number of distinct keys of the sequence. -/
theorem insertAll_size {hasher : K → Nat → Except Failure Nat} (hv : ValidHasher hasher)
    {t t' : HashTableProbed K V} (wf : t.WellFormed) (he : t.entries = []) (hs : t.mSize = 0)
    {kvs : List (K × V)} {bs : List Bool} (h : insertAll hasher t kvs = (.ok bs, t')) :
    t'.mSize = bs.count true ∧ bs.count true = (kvs.map Prod.fst).dedup.length := by
  obtain ⟨wf', hsz, _, hk⟩ := insertAll_spec hv kvs t t' bs wf h
  rw [hs, Nat.zero_add] at hsz
  refine ⟨hsz, ?_⟩
  rw [← hsz, wf'.size, ← List.length_map t'.entries Prod.fst, ← List.card_toFinset,
    ← List.toFinset_card_of_nodup wf'.nodup]
  congr 1
  ext k
  simp only [List.mem_toFinset]
  rw [hk k, he]
  simp

end HashTableProbed

/-! ## std::map -/

namespace StdMap

variable {K V : Type} [LinearOrder K]


theorem insert_perm : ∀ (c : StdMap K V) (x : K × V), x.1 ∉ c.map Prod.fst →
    List.Perm (insert c x) (x :: c)
  | [], x, _ => by simp [insert]
  | e :: c, x, h => by
    simp only [List.map_cons, List.mem_cons, not_or] at h
    rw [insert]
    by_cases h1 : x.1 < e.1
    · simp [h1]
    · rw [if_neg h1, if_neg h.1]
      exact (List.Perm.cons e (insert_perm c x h.2)).trans (List.Perm.swap x e c)

theorem insert_ne_nil (c : StdMap K V) (x : K × V) : insert c x ≠ [] := by
  cases c with
  | nil => simp [insert]
  | cons e c =>
    rw [insert]
    split
    · simp
    · split <;> simp

theorem find_lt_iff (c : StdMap K V) (key : K) :
    find c key ≠ StdMap.end c ↔ key ∈ c.map Prod.fst := by
  unfold find StdMap.end
  constructor
  · intro h
    have hlt : c.findIdx (fun e => decide (e.1 = key)) < c.length :=
      lt_of_le_of_ne (List.findIdx_le_length _) h
    have := List.findIdx_getElem (w := hlt)
    simp only [decide_eq_true_eq] at this
    exact List.mem_map.2 ⟨_, List.getElem_mem _, this⟩
  · intro h
    obtain ⟨e, he, hk⟩ := List.mem_map.1 h
    have : c.findIdx (fun e => decide (e.1 = key)) < c.length :=
      List.findIdx_lt_length_of_exists ⟨e, he, by simpa using hk⟩
    omega

theorem getElem?_find {m : StdMap K V} {key : K} {v : V} (hn : (m.map Prod.fst).Nodup)
    (h : (key, v) ∈ m) : m[find m key]? = some (key, v) := by
  have hlt : m.findIdx (fun e => decide (e.1 = key)) < m.length :=
    List.findIdx_lt_length_of_exists ⟨(key, v), h, by simp⟩
  have hk := List.findIdx_getElem (w := hlt)
  simp only [decide_eq_true_eq] at hk
  unfold find
  rw [List.getElem?_eq_getElem hlt]
  have hmem : m[m.findIdx (fun e => decide (e.1 = key))] ∈ m := List.getElem_mem _
  have := List.inj_on_of_nodup_map hn hmem h hk
  rw [this]

theorem erase_of_not_mem_map {c : StdMap K V} {key : K} (h : key ∉ c.map Prod.fst) :
    erase c key = (0, c) := by
  have hall : ∀ e ∈ c, ¬ e.1 = key := fun e he hk => h (List.mem_map.2 ⟨e, he, hk⟩)
  unfold erase
  congr 1
  · rw [List.length_eq_zero, List.filter_eq_nil_iff]
    intro e he
    simpa using hall e he
  · rw [List.filter_eq_self]
    intro e he
    simpa using hall e he

theorem erase_of_mem_map : ∀ {c : StdMap K V} {key : K} {v : V}, (c.map Prod.fst).Nodup →
    (key, v) ∈ c → (erase c key).1 = 1 ∧ List.Perm c ((key, v) :: (erase c key).2) ∧
      key ∉ (erase c key).2.map Prod.fst
  | [], _, _, _, h => by simp at h
  | e :: c, key, v, hn, h => by
    simp only [List.map_cons, List.nodup_cons] at hn
    rcases List.mem_cons.1 h with rfl | h'
    · have hnot : key ∉ c.map Prod.fst := hn.1
      have := erase_of_not_mem_map hnot
      simp only [erase, Prod.mk.injEq] at this
      simp only [erase, List.filter_cons, decide_True, if_true, List.length_cons, this.1,
        Bool.not_true, Bool.false_eq_true, if_false, this.2]
      exact ⟨trivial, List.Perm.refl _, hnot⟩
    · have hne : e.1 ≠ key := by
        intro hk
        exact hn.1 (List.mem_map.2 ⟨(key, v), h', hk.symm⟩)
      obtain ⟨r1, r2, r3⟩ := erase_of_mem_map hn.2 h'
      simp only [erase] at r1 r2 r3
      simp only [erase, List.filter_cons, hne, decide_False, Bool.false_eq_true, if_false,
        Bool.not_false, if_true]
      refine ⟨r1, (List.Perm.cons e r2).trans (List.Perm.swap _ _ _), ?_⟩
      simp only [List.map_cons, List.mem_cons, not_or]
      exact ⟨fun hk => hne hk.symm, r3⟩

end StdMap

/-! ## HashTableChained -/

namespace HashTableChained

variable {K V : Type} [LinearOrder K]


theorem flatten_reduceOption_perm {α : Type} {l l' : List (Option (List α))}
    (h : List.Perm l l') : List.Perm l.reduceOption.flatten l'.reduceOption.flatten :=
  (reduceOption_perm h).flatten

theorem flatten_set_of_none {α : Type} {l : List (Option (List α))} {i : Nat} (c : List α)
    (h : l[i]? = some none) :
    List.Perm (l.set i (some c)).reduceOption.flatten (c ++ l.reduceOption.flatten) := by
  have h1 := flatten_reduceOption_perm (set_perm_cons_eraseIdx l i (some c) (lt_length_of_getElem? h))
  have h2 := flatten_reduceOption_perm (perm_cons_eraseIdx_of_getElem? l i none h)
  simp only [List.reduceOption_cons_of_some, List.reduceOption_cons_of_none,
    List.flatten_cons] at h1 h2
  exact h1.trans (List.Perm.append_left c h2.symm)

theorem flatten_set_of_some {α : Type} {l : List (Option (List α))} {i : Nat} {c : List α}
    (c' : List α) (h : l[i]? = some (some c)) :
    List.Perm l.reduceOption.flatten (c ++ (l.eraseIdx i).reduceOption.flatten) ∧
    List.Perm (l.set i (some c')).reduceOption.flatten
      (c' ++ (l.eraseIdx i).reduceOption.flatten) := by
  have h1 := flatten_reduceOption_perm (set_perm_cons_eraseIdx l i (some c') (lt_length_of_getElem? h))
  have h2 := flatten_reduceOption_perm (perm_cons_eraseIdx_of_getElem? l i (some c) h)
  simp only [List.reduceOption_cons_of_some, List.flatten_cons] at h1 h2
  exact ⟨h2, h1⟩

theorem flatten_set_none_of_some {α : Type} {l : List (Option (List α))} {i : Nat} {c : List α}
    (h : l[i]? = some (some c)) :
    List.Perm l.reduceOption.flatten (c ++ (l.set i none).reduceOption.flatten) := by
  have h1 := flatten_reduceOption_perm (set_perm_cons_eraseIdx l i none (lt_length_of_getElem? h))
  have h2 := flatten_reduceOption_perm (perm_cons_eraseIdx_of_getElem? l i (some c) h)
  simp only [List.reduceOption_cons_of_some, List.reduceOption_cons_of_none,
    List.flatten_cons] at h1 h2
  exact h2.trans (List.Perm.append_left c h1.symm)

theorem reduceOption_length_le_of_sentinel {α : Type} {l : List (Option α)} {n : Nat}
    (hlen : l.length = n + 1) (hs : l[n]? = some none) : l.reduceOption.length ≤ n := by
  have h1 := HashTableProbed.reduceOption_take_succ hs
  rw [List.take_of_length_le (by omega)] at h1
  simp only [Option.toList_none, List.append_nil] at h1
  rw [h1]
  calc (l.take n).reduceOption.length ≤ (l.take n).length := List.reduceOption_length_le _
    _ ≤ n := by simp


theorem mem_flatten_of_getElem? {α : Type} {l : List (Option (List α))} {i : Nat} {b : List α}
    {e : α} (h : l[i]? = some (some b)) (he : e ∈ b) : e ∈ l.reduceOption.flatten :=
  List.mem_flatten.2 ⟨b, mem_reduceOption_of_getElem? h, he⟩

theorem exists_getElem?_of_mem_flatten {α : Type} {l : List (Option (List α))} {e : α}
    (h : e ∈ l.reduceOption.flatten) :
    ∃ i b, i < l.length ∧ l[i]? = some (some b) ∧ e ∈ b := by
  obtain ⟨b, hb, he⟩ := List.mem_flatten.1 h
  obtain ⟨i, hi, hib⟩ := exists_getElem?_of_mem_reduceOption hb
  exact ⟨i, b, hi, hib, he⟩

/-- Storing an entry with a new key in an empty bucket. -/
theorem SlotsOk.place_none {hasher : K → Nat → Except Failure Nat} {n free h : Nat}
    {arr : List (Option (StdMap K V))} (ok : SlotsOk hasher n arr free) {e : K × V}
    (hh : hasher e.1 n = .ok h) (hlt : h < n) (hcell : arr[h]? = some none)
    (hnew : e.1 ∉ arr.reduceOption.flatten.map Prod.fst) :
    SlotsOk hasher n (arr.set h (some (StdMap.insert [] e))) (free - 1) ∧
      List.Perm (arr.set h (some (StdMap.insert [] e))).reduceOption.flatten
        (e :: arr.reduceOption.flatten) ∧ 0 < free := by
  have hro := reduceOption_set_some_of_none (StdMap.insert [] e) hcell
  have hfl := flatten_set_of_none (StdMap.insert [] e) hcell
  have hins : StdMap.insert ([] : StdMap K V) e = [e] := rfl
  have hsl : (arr.set h (some (StdMap.insert [] e))).length = n + 1 := by
    rw [List.length_set]; exact ok.length
  have hsent : (arr.set h (some (StdMap.insert [] e)))[n]? = some none := by
    rw [List.getElem?_set_ne (by omega)]; exact ok.sentinel
  have hle := reduceOption_length_le_of_sentinel hsl hsent
  rw [hro.length_eq, List.length_cons] at hle
  have hfree := ok.free
  refine ⟨⟨hsl, hsent, ?_, ?_, ?_, ?_⟩, by rw [hins] at hfl; exact hfl, by omega⟩
  · rw [hro.length_eq, List.length_cons]; omega
  · intro b hb
    rcases List.mem_cons.1 (hro.mem_iff.1 hb) with rfl | hb'
    · exact StdMap.insert_ne_nil _ _
    · exact ok.nonempty b hb'
  · intro i b x hib hx
    by_cases hi : h = i
    · subst hi
      rw [List.getElem?_set_self (by rw [ok.length]; omega)] at hib
      have : b = [e] := by
        have := Option.some.inj (Option.some.inj hib)
        rw [hins] at this
        exact this.symm
      subst this
      rw [List.mem_singleton] at hx
      subst hx
      exact hh
    · rw [List.getElem?_set_ne hi] at hib
      exact ok.home i b x hib hx
  · rw [hins] at hfl
    refine (List.Perm.nodup_iff (List.Perm.map Prod.fst hfl)).2 ?_
    simp only [List.singleton_append, List.map_cons, List.nodup_cons]
    exact ⟨hnew, ok.nodup⟩

/-- Storing an entry with a new key in a bucket that is in use. -/
theorem SlotsOk.place_some {hasher : K → Nat → Except Failure Nat} {n free h : Nat}
    {arr : List (Option (StdMap K V))} (ok : SlotsOk hasher n arr free) {e : K × V}
    {b : StdMap K V} (hh : hasher e.1 n = .ok h) (hlt : h < n) (hcell : arr[h]? = some (some b))
    (hnew : e.1 ∉ arr.reduceOption.flatten.map Prod.fst) :
    SlotsOk hasher n (arr.set h (some (StdMap.insert b e))) free ∧
      List.Perm (arr.set h (some (StdMap.insert b e))).reduceOption.flatten
        (e :: arr.reduceOption.flatten) := by
  obtain ⟨hro1, hro2⟩ := reduceOption_set_some_of_some (StdMap.insert b e) hcell
  obtain ⟨hfl1, hfl2⟩ := flatten_set_of_some (StdMap.insert b e) hcell
  have hnb : e.1 ∉ b.map Prod.fst := by
    intro hm
    obtain ⟨x, hx, hk⟩ := List.mem_map.1 hm
    exact hnew (List.mem_map.2 ⟨x, mem_flatten_of_getElem? hcell hx, hk⟩)
  have hins := StdMap.insert_perm b e hnb
  have hperm : List.Perm (arr.set h (some (StdMap.insert b e))).reduceOption.flatten
      (e :: arr.reduceOption.flatten) :=
    (hfl2.trans (List.Perm.append_right _ hins)).trans (List.Perm.cons e hfl1.symm)
  refine ⟨⟨?_, ?_, ?_, ?_, ?_, ?_⟩, hperm⟩
  · rw [List.length_set]; exact ok.length
  · rw [List.getElem?_set_ne (by omega)]; exact ok.sentinel
  · have h1 := hro1.length_eq
    have h2 := ok.free
    rw [hro2.length_eq]
    simp only [List.length_cons] at h1 ⊢
    omega
  · intro b' hb
    rcases List.mem_cons.1 (hro2.mem_iff.1 hb) with rfl | hb'
    · exact StdMap.insert_ne_nil _ _
    · exact ok.nonempty b' (hro1.mem_iff.2 (List.mem_cons_of_mem _ hb'))
  · intro i b' x hib hx
    by_cases hi : h = i
    · subst hi
      rw [List.getElem?_set_self (by rw [ok.length]; omega)] at hib
      have : b' = StdMap.insert b e := (Option.some.inj (Option.some.inj hib)).symm
      subst this
      rcases List.mem_cons.1 (hins.mem_iff.1 hx) with rfl | hx'
      · exact hh
      · exact ok.home h b x hcell hx'
    · rw [List.getElem?_set_ne hi] at hib
      exact ok.home i b' x hib hx
  · refine (List.Perm.nodup_iff (List.Perm.map Prod.fst hperm)).2 ?_
    simp only [List.map_cons, List.nodup_cons]
    exact ⟨hnew, ok.nodup⟩


theorem slots_mk_chained (a : List (Option (StdMap K V))) (n f s : Nat) :
    slots ({ mArray := some a, mAllocated := n, mFreeSlots := f, mSize := s } :
      HashTableChained K V) = a := rfl

theorem WellFormed.pos_chained {hasher : K → Nat → Except Failure Nat} {t : HashTableChained K V}
    (wf : WellFormed hasher t) : 0 < t.mAllocated :=
  pos_of_mem_mPrimes wf.capacity

theorem SlotsOk.index_lt_chained {hasher : K → Nat → Except Failure Nat} {n free : Nat}
    {arr : List (Option (StdMap K V))} (ok : SlotsOk hasher n arr free) {i : Nat}
    {b : StdMap K V} (h : arr[i]? = some (some b)) : i < n := by
  have h1 := lt_length_of_getElem? h
  rw [ok.length] at h1
  rcases Nat.eq_or_lt_of_le (Nat.le_of_lt_succ h1) with rfl | h2
  · rw [ok.sentinel] at h; cases h
  · exact h2

theorem SlotsOk.exists_slot_chained {hasher : K → Nat → Except Failure Nat} {n free : Nat}
    {arr : List (Option (StdMap K V))} (ok : SlotsOk hasher n arr free) {i : Nat}
    (hi : i ≤ n) : ∃ cell, arr[i]? = some cell :=
  ⟨_, List.getElem?_eq_getElem (by rw [ok.length]; omega)⟩

theorem SlotsOk.nodup_bucket {hasher : K → Nat → Except Failure Nat} {n free : Nat}
    {arr : List (Option (StdMap K V))} (ok : SlotsOk hasher n arr free) {i : Nat}
    {b : StdMap K V} (h : arr[i]? = some (some b)) : (b.map Prod.fst).Nodup :=
  List.Nodup.sublist
    ((List.sublist_flatten_of_mem (mem_reduceOption_of_getElem? h)).map Prod.fst) ok.nodup

theorem SlotsOk.ne_nil {hasher : K → Nat → Except Failure Nat} {n free : Nat}
    {arr : List (Option (StdMap K V))} (ok : SlotsOk hasher n arr free) {i : Nat}
    {b : StdMap K V} (h : arr[i]? = some (some b)) : b ≠ [] :=
  ok.nonempty b (mem_reduceOption_of_getElem? h)

/-- A key can only be stored in the bucket it hashes to. -/
theorem SlotsOk.mem_home {hasher : K → Nat → Except Failure Nat} {n free h : Nat}
    {arr : List (Option (StdMap K V))} (ok : SlotsOk hasher n arr free) {key : K}
    (hh : hasher key n = .ok h) (hm : key ∈ arr.reduceOption.flatten.map Prod.fst) :
    ∃ b v, arr[h]? = some (some b) ∧ (key, v) ∈ b := by
  obtain ⟨⟨k, v⟩, he, hk⟩ := List.mem_map.1 hm
  simp only at hk
  subst hk
  obtain ⟨i, b, _, hib, hb⟩ := exists_getElem?_of_mem_flatten he
  have := ok.home i b _ hib hb
  simp only at this
  rw [hh] at this
  cases this
  exact ⟨b, v, hib, hb⟩

theorem ne_end_newAt (t : HashTableChained K V) (i pos : Nat) :
    Iterator.newAt i pos ≠ t.end := by
  simp [Iterator.newAt, HashTableChained.end]

theorem Iterator.deref_newAt {hasher : K → Nat → Except Failure Nat} {t : HashTableChained K V}
    (wf : WellFormed hasher t) {i pos : Nat} {b : StdMap K V} {e : K × V}
    (hib : t.slots[i]? = some (some b)) (hpos : b[pos]? = some e) :
    Iterator.deref t (Iterator.newAt i pos) = .ok e := by
  simp [Iterator.deref, Iterator.newAt, getCollection, wf.array, readSlot_some hib, hpos]

/-- What `find` returns on a well-formed table. -/
theorem find_spec_chained {hasher : K → Nat → Except Failure Nat} (hv : ValidHasher hasher)
    {t : HashTableChained K V} (wf : WellFormed hasher t) (key : K) :
    (find hasher t key = .ok t.end ∧ key ∉ t.entries.map Prod.fst) ∨
    (∃ i b v, i < t.mAllocated ∧ t.slots[i]? = some (some b) ∧
      b[StdMap.find b key]? = some (key, v) ∧ (key, v) ∈ b ∧
      hasher key t.mAllocated = .ok i ∧
      find hasher t key = .ok (Iterator.newAt i (StdMap.find b key))) := by
  obtain ⟨h, hh, hlt⟩ := hv key t.mAllocated wf.pos_chained
  obtain ⟨cell, hcell⟩ := wf.slotsOk.exists_slot_chained (Nat.le_of_lt hlt)
  cases cell with
  | none =>
    left
    refine ⟨by simp only [find, hash, hh, wf.array, readSlot_some hcell], ?_⟩
    intro hm
    obtain ⟨b, v, hb, _⟩ := wf.slotsOk.mem_home hh hm
    rw [hcell] at hb
    cases hb
  | some b =>
    by_cases hf : StdMap.find b key ≠ StdMap.end b
    · right
      obtain ⟨⟨k, v⟩, he, hk⟩ := List.mem_map.1 ((StdMap.find_lt_iff b key).1 hf)
      simp only at hk
      subst hk
      refine ⟨h, b, v, hlt, hcell,
        StdMap.getElem?_find (wf.slotsOk.nodup_bucket hcell) he, he, hh, ?_⟩
      simp only [find, hash, hh, wf.array, readSlot_some hcell, hf, ne_eq, not_false_eq_true,
        if_true]
    · left
      refine ⟨by simp only [find, hash, hh, wf.array, readSlot_some hcell, hf, if_false], ?_⟩
      intro hm
      obtain ⟨b', v, hb, hv'⟩ := wf.slotsOk.mem_home hh hm
      rw [hcell] at hb
      cases hb
      exact hf ((StdMap.find_lt_iff b key).2 (List.mem_map.2 ⟨_, hv', rfl⟩))

theorem find_of_not_mem_chained {hasher : K → Nat → Except Failure Nat} (hv : ValidHasher hasher)
    {t : HashTableChained K V} (wf : WellFormed hasher t) {key : K}
    (h : key ∉ t.entries.map Prod.fst) : find hasher t key = .ok t.end := by
  rcases find_spec_chained hv wf key with ⟨hf, _⟩ | ⟨i, b, v, _, hib, _, hb, _⟩
  · exact hf
  · exact absurd (List.mem_map.2 ⟨(key, v), mem_flatten_of_getElem? hib hb, rfl⟩) h

theorem find_of_mem_chained {hasher : K → Nat → Except Failure Nat} (hv : ValidHasher hasher)
    {t : HashTableChained K V} (wf : WellFormed hasher t) {key : K}
    (h : key ∈ t.entries.map Prod.fst) :
    ∃ i b v, i < t.mAllocated ∧ t.slots[i]? = some (some b) ∧
      b[StdMap.find b key]? = some (key, v) ∧ (key, v) ∈ b ∧
      hasher key t.mAllocated = .ok i ∧
      find hasher t key = .ok (Iterator.newAt i (StdMap.find b key)) := by
  rcases find_spec_chained hv wf key with ⟨_, habs⟩ | hfound
  · exact absurd h habs
  · exact hfound

theorem find_eq_end_iff_chained {hasher : K → Nat → Except Failure Nat} (hv : ValidHasher hasher)
    {t : HashTableChained K V} (wf : WellFormed hasher t) (key : K) :
    find hasher t key = .ok t.end ↔ key ∉ t.entries.map Prod.fst := by
  constructor
  · intro hf hmem
    obtain ⟨i, b, v, _, _, _, _, _, hfi⟩ := find_of_mem_chained hv wf hmem
    rw [hfi] at hf
    exact ne_end_newAt t _ _ (Except.ok.inj hf)
  · exact find_of_not_mem_chained hv wf


theorem rehashCollection_spec {hasher : K → Nat → Except Failure Nat} (hv : ValidHasher hasher)
    {n : Nat} (hn : 0 < n) :
    ∀ (elems : List (K × V)) (arr : List (Option (StdMap K V))) (free : Nat),
      SlotsOk hasher n arr free →
      ((elems ++ arr.reduceOption.flatten).map Prod.fst).Nodup →
      ∃ arr' free', rehashCollection hasher n elems (arr, free) = .ok (arr', free') ∧
        SlotsOk hasher n arr' free' ∧
        List.Perm arr'.reduceOption.flatten (elems ++ arr.reduceOption.flatten) := by
  intro elems
  induction elems with
  | nil =>
    intro arr free ok _
    exact ⟨arr, free, by simp [rehashCollection], ok, by simp⟩
  | cons e rest ih =>
    intro arr free ok hnd
    have hnd' := hnd
    simp only [List.cons_append, List.map_cons, List.nodup_cons, List.map_append,
      List.mem_append, not_or] at hnd'
    obtain ⟨⟨_, hnew⟩, _⟩ := hnd'
    obtain ⟨h, hh, hlt⟩ := hv e.1 n hn
    obtain ⟨cell, hcell⟩ := ok.exists_slot_chained (Nat.le_of_lt hlt)
    have hil : h < arr.length := by rw [ok.length]; omega
    cases cell with
    | none =>
      obtain ⟨ok1, hp1, _⟩ := ok.place_none hh hlt hcell hnew
      obtain ⟨arr', free', r1, r2, r3⟩ := ih _ (free - 1) ok1 (by
        refine (List.Perm.nodup_iff (List.Perm.map Prod.fst ?_)).2 hnd
        exact (List.Perm.append_left rest hp1).trans List.perm_middle)
      refine ⟨arr', free', ?_, r2, r3.trans ((List.Perm.append_left rest hp1).trans
        List.perm_middle)⟩
      rw [rehashCollection]
      simp only [hash, hh, readSlot_some hcell]
      rw [writeSlot_some _ hil]
      exact r1
    | some b =>
      obtain ⟨ok1, hp1⟩ := ok.place_some hh hlt hcell hnew
      obtain ⟨arr', free', r1, r2, r3⟩ := ih _ free ok1 (by
        refine (List.Perm.nodup_iff (List.Perm.map Prod.fst ?_)).2 hnd
        exact (List.Perm.append_left rest hp1).trans List.perm_middle)
      refine ⟨arr', free', ?_, r2, r3.trans ((List.Perm.append_left rest hp1).trans
        List.perm_middle)⟩
      rw [rehashCollection]
      simp only [hash, hh, readSlot_some hcell]
      rw [writeSlot_some _ hil]
      exact r1

theorem rehashLoop_spec_chained {hasher : K → Nat → Except Failure Nat} (hv : ValidHasher hasher)
    (t : HashTableChained K V) (a : List (Option (StdMap K V))) {newAlloc : Nat}
    (hA : t.mArray = some a) (hn : 0 < newAlloc)
    (hnd : (a.reduceOption.flatten.map Prod.fst).Nodup) :
    ∀ (n i : Nat) (arr : List (Option (StdMap K V))) (free : Nat), i + n + 1 = a.length →
      a[i + n]? = some none → SlotsOk hasher newAlloc arr free →
      List.Perm (arr.reduceOption.flatten ++ (a.drop i).reduceOption.flatten)
        a.reduceOption.flatten →
      ∃ arr' free', rehashLoop hasher t newAlloc n i (arr, free) = .ok (arr', free') ∧
        SlotsOk hasher newAlloc arr' free' ∧
        List.Perm arr'.reduceOption.flatten a.reduceOption.flatten := by
  intro n
  induction n with
  | zero =>
    intro i arr free hi hs ok hq
    have hil : i < a.length := by omega
    rw [Nat.add_zero, List.getElem?_eq_getElem hil] at hs
    rw [List.drop_eq_getElem_cons hil, Option.some.inj hs,
      List.drop_of_length_le (by omega)] at hq
    exact ⟨arr, free, by simp [rehashLoop], ok, by simpa using hq⟩
  | succ n ih =>
    intro i arr free hi hs ok hq
    have hil : i < a.length := by omega
    obtain ⟨x, hx⟩ : ∃ x, a[i]? = some x := ⟨_, List.getElem?_eq_getElem hil⟩
    have hx' := hx
    rw [List.getElem?_eq_getElem hil] at hx'
    rw [List.drop_eq_getElem_cons hil, Option.some.inj hx'] at hq
    have hs' : a[i + 1 + n]? = some none := by
      rw [show i + 1 + n = i + (n + 1) by omega]; exact hs
    cases x with
    | none =>
      rw [List.reduceOption_cons_of_none] at hq
      obtain ⟨arr', free', r1, r2, r3⟩ := ih (i + 1) arr free (by omega) hs' ok hq
      refine ⟨arr', free', ?_, r2, r3⟩
      rw [rehashLoop]
      simp only [hA, readSlot_some hx]
      exact r1
    | some b =>
      rw [List.reduceOption_cons_of_some, List.flatten_cons] at hq
      have hq2 : List.Perm ((b ++ arr.reduceOption.flatten) ++
          (a.drop (i + 1)).reduceOption.flatten) a.reduceOption.flatten := by
        refine List.Perm.trans ?_ hq
        rw [← List.append_assoc]
        exact List.Perm.append_right _ List.perm_append_comm
      have hnd1 : ((b ++ arr.reduceOption.flatten).map Prod.fst).Nodup := by
        have := (List.Perm.nodup_iff (List.Perm.map Prod.fst hq2)).2 hnd
        rw [List.map_append] at this
        exact this.of_append_left
      obtain ⟨arr1, free1, q1, q2, q3⟩ := rehashCollection_spec hv hn b arr free ok hnd1
      obtain ⟨arr', free', r1, r2, r3⟩ := ih (i + 1) arr1 free1 (by omega) hs' q2
        ((List.Perm.append_right _ q3).trans hq2)
      refine ⟨arr', free', ?_, r2, r3⟩
      rw [rehashLoop]
      simp only [hA, readSlot_some hx, q1]
      exact r1


/-- Replacing the collection of a bucket that is in use. -/
theorem SlotsOk.update_bucket {hasher : K → Nat → Except Failure Nat} {n free i : Nat}
    {arr : List (Option (StdMap K V))} (ok : SlotsOk hasher n arr free) {b : StdMap K V}
    (b2 : StdMap K V) (hcell : arr[i]? = some (some b)) (hne : b2 ≠ [])
    (hhome : ∀ e, e ∈ b2 → hasher e.1 n = .ok i)
    (hnd : ((b2 ++ (arr.eraseIdx i).reduceOption.flatten).map Prod.fst).Nodup) :
    SlotsOk hasher n (arr.set i (some b2)) free ∧
      List.Perm (arr.set i (some b2)).reduceOption.flatten
        (b2 ++ (arr.eraseIdx i).reduceOption.flatten) ∧
      List.Perm arr.reduceOption.flatten (b ++ (arr.eraseIdx i).reduceOption.flatten) := by
  obtain ⟨hro1, hro2⟩ := reduceOption_set_some_of_some b2 hcell
  obtain ⟨hfl1, hfl2⟩ := flatten_set_of_some b2 hcell
  have hlt := ok.index_lt_chained hcell
  refine ⟨⟨?_, ?_, ?_, ?_, ?_, ?_⟩, hfl2, hfl1⟩
  · rw [List.length_set]; exact ok.length
  · rw [List.getElem?_set_ne (by omega)]; exact ok.sentinel
  · have h1 := hro1.length_eq
    have h2 := ok.free
    rw [hro2.length_eq]
    simp only [List.length_cons] at h1 ⊢
    omega
  · intro b' hb
    rcases List.mem_cons.1 (hro2.mem_iff.1 hb) with rfl | hb'
    · exact hne
    · exact ok.nonempty b' (hro1.mem_iff.2 (List.mem_cons_of_mem _ hb'))
  · intro j b' x hjb hx
    by_cases hj : i = j
    · subst hj
      rw [List.getElem?_set_self (by rw [ok.length]; omega)] at hjb
      have : b' = b2 := (Option.some.inj (Option.some.inj hjb)).symm
      subst this
      exact hhome x hx
    · rw [List.getElem?_set_ne hj] at hjb
      exact ok.home j b' x hjb hx
  · exact (List.Perm.nodup_iff (List.Perm.map Prod.fst hfl2)).2 hnd

/-- Destroying the collection of a bucket. -/
theorem SlotsOk.clear_bucket {hasher : K → Nat → Except Failure Nat} {n free i : Nat}
    {arr : List (Option (StdMap K V))} (ok : SlotsOk hasher n arr free) {b : StdMap K V}
    (hcell : arr[i]? = some (some b)) :
    SlotsOk hasher n (arr.set i none) (free + 1) ∧
      List.Perm arr.reduceOption.flatten (b ++ (arr.set i none).reduceOption.flatten) := by
  have hro := reduceOption_set_none_of_some hcell
  have hfl := flatten_set_none_of_some hcell
  have hlt := ok.index_lt_chained hcell
  refine ⟨⟨?_, ?_, ?_, ?_, ?_, ?_⟩, hfl⟩
  · rw [List.length_set]; exact ok.length
  · rw [List.getElem?_set_ne (by omega)]; exact ok.sentinel
  · have h1 := hro.length_eq
    have h2 := ok.free
    simp only [List.length_cons] at h1
    omega
  · intro b' hb
    exact ok.nonempty b' (hro.mem_iff.2 (List.mem_cons_of_mem _ hb))
  · intro j b' x hjb hx
    by_cases hj : i = j
    · subst hj
      rw [List.getElem?_set_self (by rw [ok.length]; omega)] at hjb
      cases hjb
    · rw [List.getElem?_set_ne hj] at hjb
      exact ok.home j b' x hjb hx
  · have := (List.Perm.nodup_iff (List.Perm.map Prod.fst hfl)).1 ok.nodup
    rw [List.map_append] at this
    exact this.of_append_right

theorem slotsOk_newArray (hasher : K → Nat → Except Failure Nat) (n : Nat) :
    SlotsOk hasher n (newArray n : List (Option (StdMap K V))) n := by
  have hro : (newArray n : List (Option (StdMap K V))).reduceOption = [] :=
    HashTableProbed.reduceOption_newArray n
  refine ⟨by simp [newArray], by simp [newArray, List.getElem?_replicate], by simp [hro], ?_, ?_,
    by simp [hro]⟩
  · intro b hb
    rw [hro] at hb
    cases hb
  · intro i b e hib
    have := List.getElem?_mem hib
    simp [newArray] at this

/-- What `rehash` does to a well-formed table. -/
theorem rehash_spec_chained {hasher : K → Nat → Except Failure Nat} (hv : ValidHasher hasher)
    {t : HashTableChained K V} (wf : WellFormed hasher t) {newAlloc : Nat}
    (hp : newAlloc ∈ mPrimes) :
    ∃ t', rehash hasher t newAlloc = .ok t' ∧ WellFormed hasher t' ∧
      List.Perm t'.entries t.entries ∧ t'.mAllocated = newAlloc ∧ t'.mSize = t.mSize := by
  obtain ⟨arr', free', r1, r2, r3⟩ := rehashLoop_spec_chained hv t t.slots wf.array
    (pos_of_mem_mPrimes hp) wf.slotsOk.nodup t.mAllocated 0 (newArray newAlloc) newAlloc
    (by rw [wf.slotsOk.length]; omega) (by rw [Nat.zero_add]; exact wf.slotsOk.sentinel)
    (slotsOk_newArray hasher newAlloc)
    (by rw [HashTableProbed.reduceOption_newArray]; simp)
  refine ⟨{ mArray := some arr', mAllocated := newAlloc, mFreeSlots := free', mSize := t.mSize },
    ?_, ⟨rfl, hp, ?_, r2⟩, r3, rfl, rfl⟩
  · simp only [rehash, size, r1, clear]
  · simp only [entries, buckets, slots_mk_chained]
    rw [r3.length_eq]
    exact wf.size

/-- The placement part of `insert` on a well-formed table without the key. -/
theorem insertPlace_spec_chained {hasher : K → Nat → Except Failure Nat} (hv : ValidHasher hasher)
    {t : HashTableChained K V} (wf : WellFormed hasher t) (key : K) (value : V)
    (habs : key ∉ t.entries.map Prod.fst) :
    ∃ t', insertPlace hasher t key value = (.ok true, t') ∧ WellFormed hasher t' ∧
      List.Perm t'.entries ((key, value) :: t.entries) ∧ t'.mAllocated = t.mAllocated ∧
      t'.mSize = t.mSize + 1 := by
  obtain ⟨h, hh, hlt⟩ := hv key t.mAllocated wf.pos_chained
  obtain ⟨cell, hcell⟩ := wf.slotsOk.exists_slot_chained (Nat.le_of_lt hlt)
  have hil : h < t.slots.length := by rw [wf.slotsOk.length]; omega
  cases cell with
  | none =>
    obtain ⟨ok1, hp1, _⟩ := wf.slotsOk.place_none (e := (key, value)) hh hlt hcell habs
    refine ⟨{ t with mArray := some (t.slots.set h (some (StdMap.insert [] (key, value)))),
                     mFreeSlots := t.mFreeSlots - 1, mSize := t.mSize + 1 },
      ?_, ⟨rfl, wf.capacity, ?_, ok1⟩, hp1, rfl, rfl⟩
    · simp only [insertPlace, hash, hh, andThen, wf.array, readSlot_some hcell]
      rw [writeSlot_some _ hil]
    · simp only [entries, buckets, slots_mk_chained]
      rw [hp1.length_eq, List.length_cons]
      have := wf.size
      simp only [entries, buckets] at this
      omega
  | some b =>
    obtain ⟨ok1, hp1⟩ := wf.slotsOk.place_some (e := (key, value)) hh hlt hcell habs
    refine ⟨{ t with mArray := some (t.slots.set h (some (StdMap.insert b (key, value)))),
                     mSize := t.mSize + 1 },
      ?_, ⟨rfl, wf.capacity, ?_, ok1⟩, hp1, rfl, rfl⟩
    · simp only [insertPlace, hash, hh, andThen, wf.array, readSlot_some hcell]
      rw [writeSlot_some _ hil]
    · simp only [entries, buckets, slots_mk_chained]
      rw [hp1.length_eq, List.length_cons]
      have := wf.size
      simp only [entries, buckets] at this
      omega

/-- `insert` of a stored key changes nothing and returns false. -/
theorem insert_of_mem_chained {hasher : K → Nat → Except Failure Nat} (hv : ValidHasher hasher)
    {t : HashTableChained K V} (wf : WellFormed hasher t) {key : K} (value : V)
    (h : key ∈ t.entries.map Prod.fst) : insert hasher t key value = (.ok false, t) := by
  obtain ⟨i, b, v, _, _, _, _, _, hfi⟩ := find_of_mem_chained hv wf h
  simp only [insert, hfi, andThen, ne_end_newAt, ne_eq, not_false_eq_true, if_true]

/-- `insert` of a key that is not stored: either the grower is out of primes
and nothing has changed, or the entry is added. -/
theorem insert_of_not_mem_chained {hasher : K → Nat → Except Failure Nat} (hv : ValidHasher hasher)
    {t : HashTableChained K V} (wf : WellFormed hasher t) {key : K} (value : V)
    (h : key ∉ t.entries.map Prod.fst) :
    (getNewSize t.mAllocated t.mFreeSlots = .error .needMorePrimes ∧
      insert hasher t key value = (.error .needMorePrimes, t)) ∨
    (∃ newAlloc t', getNewSize t.mAllocated t.mFreeSlots = .ok newAlloc ∧
      insert hasher t key value = (.ok true, t') ∧ WellFormed hasher t' ∧
      List.Perm t'.entries ((key, value) :: t.entries) ∧ t'.mAllocated = newAlloc ∧
      t.mAllocated ≤ newAlloc ∧ t'.mSize = t.mSize + 1) := by
  have hf := find_of_not_mem_chained hv wf h
  cases hg : getNewSize t.mAllocated t.mFreeSlots with
  | error e =>
    left
    have := getNewSize_error hg
    subst this
    exact ⟨rfl, by simp only [insert, hf, andThen, hg, ne_eq, not_true_eq_false, if_false]⟩
  | ok newAlloc =>
    right
    rcases getNewSize_ok hg with ⟨rfl, _⟩ | ⟨hgt, hp⟩
    · obtain ⟨t', h1, h2, h3, h4, h6⟩ := insertPlace_spec_chained hv wf key value h
      refine ⟨_, t', rfl, ?_, h2, h3, h4, le_refl _, h6⟩
      simp only [insert, hf, andThen, hg, ne_eq, not_true_eq_false, if_false, gt_iff_lt,
        lt_self_iff_false]
      exact h1
    · obtain ⟨t1, q1, q2, q3, q4, q5⟩ := rehash_spec_chained hv wf hp
      have habs1 : key ∉ t1.entries.map Prod.fst := by
        intro hm
        exact h ((List.Perm.mem_iff (List.Perm.map Prod.fst q3)).1 hm)
      obtain ⟨t', h1, h2, h3, h4, h6⟩ := insertPlace_spec_chained hv q2 key value habs1
      refine ⟨_, t', rfl, ?_, h2, h3.trans (List.Perm.cons _ q3), by rw [h4, q4],
        Nat.le_of_lt hgt, by rw [h6, q5]⟩
      simp only [insert, hf, andThen, hg, ne_eq, not_true_eq_false, if_false, gt_iff_lt,
        hgt, if_true, q1]
      exact h1


/-- `erase` of a key that is not stored changes nothing and returns 0. -/
theorem erase_of_not_mem_chained {hasher : K → Nat → Except Failure Nat} (hv : ValidHasher hasher)
    {t : HashTableChained K V} (wf : WellFormed hasher t) {key : K}
    (h : key ∉ t.entries.map Prod.fst) : erase hasher t key = (.ok 0, t) := by
  obtain ⟨i, hh, hlt⟩ := hv key t.mAllocated wf.pos_chained
  obtain ⟨cell, hcell⟩ := wf.slotsOk.exists_slot_chained (Nat.le_of_lt hlt)
  cases cell with
  | none => simp only [erase, hash, hh, andThen, wf.array, readSlot_some hcell]
  | some b =>
    have hnb : key ∉ b.map Prod.fst := by
      intro hm
      obtain ⟨x, hx, hk⟩ := List.mem_map.1 hm
      exact h (List.mem_map.2 ⟨x, mem_flatten_of_getElem? hcell hx, hk⟩)
    simp only [erase, hash, hh, andThen, wf.array, readSlot_some hcell,
      StdMap.erase_of_not_mem_map hnb, gt_iff_lt, lt_self_iff_false, if_false, Nat.sub_zero]
    rw [← wf.array]

/-- `erase` of a stored key removes it from its bucket, and removes the bucket
when it was the only entry there. -/
theorem erase_of_mem_chained {hasher : K → Nat → Except Failure Nat} (hv : ValidHasher hasher)
    {t : HashTableChained K V} (wf : WellFormed hasher t) {key : K}
    (h : key ∈ t.entries.map Prod.fst) :
    ∃ v t' i b, erase hasher t key = (.ok 1, t') ∧ WellFormed hasher t' ∧
      List.Perm t.entries ((key, v) :: t'.entries) ∧ t'.mAllocated = t.mAllocated ∧
      t'.mSize + 1 = t.mSize ∧ hasher key t.mAllocated = .ok i ∧
      t.slots[i]? = some (some b) ∧ (key, v) ∈ b ∧
      ((b.length = 1 ∧ t'.mFreeSlots = t.mFreeSlots + 1 ∧ t'.slots[i]? = some none) ∨
       (b.length ≠ 1 ∧ t'.mFreeSlots = t.mFreeSlots ∧
         t'.slots[i]? = some (some (StdMap.erase b key).2))) := by
  obtain ⟨i, b, v, hlt, hcell, _, hb, hh, _⟩ := find_of_mem_chained hv wf h
  have hil : i < t.slots.length := by rw [wf.slotsOk.length]; omega
  obtain ⟨e1, e2, e3⟩ := StdMap.erase_of_mem_map (wf.slotsOk.nodup_bucket hcell) hb
  have hblen : b.length = (StdMap.erase b key).2.length + 1 := by
    rw [e2.length_eq, List.length_cons]
  have hsz := wf.size
  simp only [entries, buckets] at hsz
  by_cases hempty : (StdMap.erase b key).2.length = 0
  · obtain ⟨ok1, hp1⟩ := wf.slotsOk.clear_bucket hcell
    have hnil : (StdMap.erase b key).2 = [] := List.length_eq_zero.1 hempty
    have hb1 : b = [(key, v)] := by
      rw [hnil] at e2
      exact List.perm_singleton.1 e2
    rw [hb1] at hp1
    refine ⟨v, { t with mArray := some (t.slots.set i none), mFreeSlots := t.mFreeSlots + 1,
                        mSize := t.mSize - 1 }, i, b, ?_, ⟨rfl, wf.capacity, ?_, ok1⟩, hp1,
      rfl, ?_, hh, hcell, hb, Or.inl ⟨by omega, rfl, ?_⟩⟩
    · simp only [erase, hash, hh, andThen, wf.array, readSlot_some hcell, e1, gt_iff_lt,
        Nat.lt_one_iff, Nat.zero_lt_one, if_true, hempty]
      rw [writeSlot_some _ hil]
    · simp only [entries, buckets, slots_mk_chained]
      have := hp1.length_eq
      simp only [List.singleton_append, List.length_cons] at this
      omega
    · have := hp1.length_eq
      simp only [List.singleton_append, List.length_cons] at this
      simp only
      omega
    · simp only [slots_mk_chained]
      exact List.getElem?_set_self hil
  · have hne : (StdMap.erase b key).2 ≠ [] := fun hn => hempty (by rw [hn]; rfl)
    have hperm0 : List.Perm t.slots.reduceOption.flatten
        (b ++ (t.slots.eraseIdx i).reduceOption.flatten) :=
      (flatten_set_of_some b hcell).1
    have hnd0 := (List.Perm.nodup_iff (List.Perm.map Prod.fst
      (hperm0.trans (List.Perm.append_right _ e2)))).1 wf.slotsOk.nodup
    simp only [List.cons_append, List.map_cons, List.nodup_cons] at hnd0
    obtain ⟨ok1, hp1, hp2⟩ := wf.slotsOk.update_bucket (StdMap.erase b key).2 hcell hne
      (fun e he => wf.slotsOk.home i b e hcell (e2.mem_iff.2 (List.mem_cons_of_mem _ he)))
      hnd0.2
    have hperm : List.Perm t.slots.reduceOption.flatten
        ((key, v) :: (t.slots.set i (some (StdMap.erase b key).2)).reduceOption.flatten) :=
      (hp2.trans (List.Perm.append_right _ e2)).trans (List.Perm.cons _ hp1.symm)
    refine ⟨v, { t with mArray := some (t.slots.set i (some (StdMap.erase b key).2)),
                        mSize := t.mSize - 1 }, i, b, ?_, ⟨rfl, wf.capacity, ?_, ok1⟩, hperm,
      rfl, ?_, hh, hcell, hb, Or.inr ⟨by omega, rfl, ?_⟩⟩
    · simp only [erase, hash, hh, andThen, wf.array, readSlot_some hcell, e1, gt_iff_lt,
        Nat.zero_lt_one, if_true, hempty, if_false]
      rw [writeSlot_some _ hil]
    · simp only [entries, buckets, slots_mk_chained]
      have := hperm.length_eq
      simp only [List.length_cons] at this
      omega
    · have := hperm.length_eq
      simp only [List.length_cons] at this
      simp only
      omega
    · simp only [slots_mk_chained]
      exact List.getElem?_set_self hil


/-- `set` of a stored key overwrites the value in place. -/
theorem set_of_mem_chained {hasher : K → Nat → Except Failure Nat} (hv : ValidHasher hasher)
    {t : HashTableChained K V} (wf : WellFormed hasher t) {key : K} (value : V)
    (h : key ∈ t.entries.map Prod.fst) :
    ∃ v r t', set hasher t key value = (.ok (), t') ∧ WellFormed hasher t' ∧
      List.Perm t.entries ((key, v) :: r) ∧ List.Perm t'.entries ((key, value) :: r) ∧
      t'.mAllocated = t.mAllocated ∧ t'.mSize = t.mSize ∧ t'.mFreeSlots = t.mFreeSlots := by
  obtain ⟨i, b, v, hlt, hcell, hpos, hb, hh, hfi⟩ := find_of_mem_chained hv wf h
  have hil : i < t.slots.length := by rw [wf.slotsOk.length]; omega
  have hpl := lt_length_of_getElem? hpos
  have hb1 := perm_cons_eraseIdx_of_getElem? b _ _ hpos
  have hb2 := set_perm_cons_eraseIdx b (StdMap.find b key) (key, value) hpl
  have hperm0 : List.Perm t.slots.reduceOption.flatten
      (b ++ (t.slots.eraseIdx i).reduceOption.flatten) :=
    (flatten_set_of_some b hcell).1
  have hnd0 := (List.Perm.nodup_iff (List.Perm.map Prod.fst
    (hperm0.trans (List.Perm.append_right _ hb1)))).1 wf.slotsOk.nodup
  have hnd2 : (((b.set (StdMap.find b key) (key, value)) ++
      (t.slots.eraseIdx i).reduceOption.flatten).map Prod.fst).Nodup := by
    refine (List.Perm.nodup_iff (List.Perm.map Prod.fst (List.Perm.append_right _ hb2))).2 ?_
    simpa only [List.cons_append, List.map_cons] using hnd0
  obtain ⟨ok1, hp1, hp2⟩ := wf.slotsOk.update_bucket (b.set (StdMap.find b key) (key, value))
    hcell (by
      intro hn
      have := congrArg List.length hn
      rw [List.length_set] at this
      simp only [List.length_nil] at this
      omega)
    (by
      intro e he
      rcases List.mem_cons.1 (hb2.mem_iff.1 he) with rfl | he'
      · exact hh
      · exact wf.slotsOk.home i b e hcell (hb1.mem_iff.2 (List.mem_cons_of_mem _ he')))
    hnd2
  refine ⟨v, b.eraseIdx (StdMap.find b key) ++ (t.slots.eraseIdx i).reduceOption.flatten,
    { t with mArray := some (t.slots.set i (some (b.set (StdMap.find b key) (key, value)))) },
    ?_, ⟨rfl, wf.capacity, ?_, ok1⟩, hp2.trans (List.Perm.append_right _ hb1),
    hp1.trans (List.Perm.append_right _ hb2), rfl, rfl, rfl⟩
  · have hne := ne_end_newAt t i (StdMap.find b key)
    have hassign : Iterator.assignSecond t (Iterator.newAt i (StdMap.find b key)) value =
        .ok { t with mArray := some (t.slots.set i
          (some (b.set (StdMap.find b key) (key, value)))) } := by
      simp only [Iterator.assignSecond, Iterator.newAt, wf.array, readSlot_some hcell, hpos]
      rw [writeSlot_some _ hil]
    simp only [set, hfi, andThen, hne, if_false, hassign]
  · simp only [entries, buckets, slots_mk_chained]
    rw [(hp1.trans (List.Perm.append_right _ hb2)).length_eq, wf.size]
    simp only [entries, buckets]
    rw [(hp2.trans (List.Perm.append_right _ hb1)).length_eq]
    simp

/-- `set` of a key that is not stored behaves as `insert`. -/
theorem set_of_not_mem_chained {hasher : K → Nat → Except Failure Nat} (hv : ValidHasher hasher)
    {t : HashTableChained K V} (wf : WellFormed hasher t) {key : K} (value : V)
    (h : key ∉ t.entries.map Prod.fst) :
    (getNewSize t.mAllocated t.mFreeSlots = .error .needMorePrimes ∧
      set hasher t key value = (.error .needMorePrimes, t)) ∨
    (∃ newAlloc t', getNewSize t.mAllocated t.mFreeSlots = .ok newAlloc ∧
      set hasher t key value = (.ok (), t') ∧ WellFormed hasher t' ∧
      List.Perm t'.entries ((key, value) :: t.entries) ∧ t'.mAllocated = newAlloc ∧
      t.mAllocated ≤ newAlloc ∧ t'.mSize = t.mSize + 1) := by
  have hf := find_of_not_mem_chained hv wf h
  rcases insert_of_not_mem_chained hv wf value h with ⟨hg, hi⟩ | ⟨newAlloc, t', hg, hi, rest⟩
  · left
    exact ⟨hg, by simp only [set, hf, andThen, if_true, hi]⟩
  · right
    exact ⟨newAlloc, t', hg, by simp only [set, hf, andThen, if_true, hi], rest⟩

/-- The table built by the constructor. -/
theorem new_spec_chained (hasher : K → Nat → Except Failure Nat) {initialSize : Nat}
    {t : HashTableChained K V} (h : HashTableChained.new initialSize = .ok t) :
    WellFormed hasher t ∧ t.entries = [] ∧ t.mSize = 0 ∧ t.mFreeSlots = t.mAllocated ∧
      getPrimeGreaterThan initialSize = .ok t.mAllocated ∧
      t.mArray = some (newArray t.mAllocated) := by
  unfold HashTableChained.new at h
  split at h
  · cases h
  · rename_i newAlloc hg
    cases h
    have hp := (getPrimeGreaterThan_ok hg).1
    have hro : (newArray newAlloc : List (Option (StdMap K V))).reduceOption = [] :=
      HashTableProbed.reduceOption_newArray newAlloc
    refine ⟨⟨rfl, hp, ?_, slotsOk_newArray hasher newAlloc⟩, ?_, rfl, rfl, hg, rfl⟩
    · simp [entries, buckets, slots_mk_chained, hro]
    · simp [entries, buckets, slots_mk_chained, hro]

/-- Every reachable table is well formed. -/
theorem Reachable.wellFormed_chained {hasher : K → Nat → Except Failure Nat} (hv : ValidHasher hasher)
    {t : HashTableChained K V} (hr : Reachable hasher t) : WellFormed hasher t := by
  induction hr with
  | new n t h => exact (new_spec_chained hasher h).1
  | insert t key value _ ih =>
    by_cases hm : key ∈ t.entries.map Prod.fst
    · rw [insert_of_mem_chained hv ih value hm]; exact ih
    · rcases insert_of_not_mem_chained hv ih value hm with ⟨_, hi⟩ | ⟨_, t', _, hi, wf', _⟩
      · rw [hi]; exact ih
      · rw [hi]; exact wf'
  | set t key value _ ih =>
    by_cases hm : key ∈ t.entries.map Prod.fst
    · obtain ⟨_, _, t', hs, wf', _⟩ := set_of_mem_chained hv ih value hm
      rw [hs]; exact wf'
    · rcases set_of_not_mem_chained hv ih value hm with ⟨_, hi⟩ | ⟨_, t', _, hi, wf', _⟩
      · rw [hi]; exact ih
      · rw [hi]; exact wf'
  | erase t key _ ih =>
    by_cases hm : key ∈ t.entries.map Prod.fst
    · obtain ⟨_, t', _, _, hs, wf', _⟩ := erase_of_mem_chained hv ih hm
      rw [hs]; exact wf'
    · rw [erase_of_not_mem_chained hv ih hm]; exact ih


theorem incLoop_spec {hasher : K → Nat → Except Failure Nat} {t : HashTableChained K V}
    (wf : WellFormed hasher t) :
    ∀ (fuel i : Nat), i ≤ t.mAllocated → t.mAllocated < fuel + i →
      ∃ i', incLoop t fuel i = .ok i' ∧ i ≤ i' ∧ i' ≤ t.mAllocated ∧
        (∀ j, i ≤ j → j < i' → t.slots[j]? = some none) ∧
        (i' < t.mAllocated → ∃ b, t.slots[i']? = some (some b)) := by
  intro fuel
  induction fuel with
  | zero => intro i h1 h2; omega
  | succ fuel ih =>
    intro i h1 h2
    rw [incLoop]
    by_cases hi : i < t.mAllocated
    · obtain ⟨cell, hcell⟩ := wf.slotsOk.exists_slot_chained h1
      simp only [getAllocated, hi, if_true, getCollection, wf.array, readSlot_some hcell]
      cases cell with
      | none =>
        obtain ⟨i', r1, r2, r3, r4, r5⟩ := ih (i + 1) (by omega) (by omega)
        refine ⟨i', r1, by omega, r3, ?_, r5⟩
        intro j hj1 hj2
        rcases Nat.eq_or_lt_of_le hj1 with rfl | hlt
        · exact hcell
        · exact r4 j hlt hj2
      | some b =>
        exact ⟨i, rfl, le_refl _, h1, fun j hj1 hj2 => by omega, fun _ => ⟨b, hcell⟩⟩
    · have : i = t.mAllocated := by omega
      subst this
      simp only [getAllocated, lt_self_iff_false, if_false]
      exact ⟨_, rfl, le_refl _, le_refl _, fun j hj1 hj2 => by omega, fun h => by omega⟩

theorem WellFormed.drop_sentinel {hasher : K → Nat → Except Failure Nat}
    {t : HashTableChained K V} (wf : WellFormed hasher t) :
    t.slots.drop t.mAllocated = [none] := by
  have hil : t.mAllocated < t.slots.length := by rw [wf.slotsOk.length]; omega
  have hs := wf.slotsOk.sentinel
  rw [List.getElem?_eq_getElem hil] at hs
  rw [List.drop_eq_getElem_cons hil, Option.some.inj hs,
    List.drop_of_length_le (by rw [wf.slotsOk.length])]

/-- The entries that an iterator still has to visit: `it` is either `end()`,
with nothing left, or stands at position `pos` of the bucket at slot `i`. -/
theorem incSlot_spec {hasher : K → Nat → Except Failure Nat} {t : HashTableChained K V}
    (wf : WellFormed hasher t) {i : Nat} (hi : i ≤ t.mAllocated) :
    (Iterator.incSlot t i = .ok t.end ∧ (t.slots.drop i).reduceOption.flatten = []) ∨
    (∃ i' b, i ≤ i' ∧ Iterator.incSlot t i = .ok { mIndex := i', mIterator := some 0 } ∧
      t.slots[i']? = some (some b) ∧
      (t.slots.drop i).reduceOption.flatten = b ++ (t.slots.drop (i' + 1)).reduceOption.flatten) := by
  obtain ⟨i', r1, r2, r3, r4, r5⟩ := incLoop_spec wf (t.mAllocated + 1) i hi (by omega)
  have hskip := HashTableProbed.reduceOption_drop_skip t.slots (i' - i) i
    (by rw [wf.slotsOk.length]; omega) (fun j hj1 hj2 => r4 j hj1 (by omega))
  rw [show i + (i' - i) = i' by omega] at hskip
  by_cases hlt : i' < t.mAllocated
  · right
    obtain ⟨b, hb⟩ := r5 hlt
    have hil : i' < t.slots.length := by rw [wf.slotsOk.length]; omega
    have hb' := hb
    rw [List.getElem?_eq_getElem hil] at hb'
    refine ⟨i', b, r2, ?_, hb, ?_⟩
    · simp only [Iterator.incSlot, r1, getAllocated, hlt, if_true, getCollection, wf.array,
        readSlot_some hb]
    · rw [hskip, List.drop_eq_getElem_cons hil, Option.some.inj hb',
        List.reduceOption_cons_of_some, List.flatten_cons]
  · left
    have : i' = t.mAllocated := by omega
    subst this
    refine ⟨?_, ?_⟩
    · simp only [Iterator.incSlot, r1, getAllocated, lt_self_iff_false, if_false]
      rfl
    · rw [hskip, wf.drop_sentinel]
      rfl

theorem iterateLoop_spec_chained {hasher : K → Nat → Except Failure Nat} {t : HashTableChained K V}
    (wf : WellFormed hasher t) :
    ∀ (fuel i pos : Nat) (b : StdMap K V), t.slots[i]? = some (some b) → pos < b.length →
      (b.drop pos ++ (t.slots.drop (i + 1)).reduceOption.flatten).length < fuel →
      iterateLoop t fuel { mIndex := i, mIterator := some pos } =
        .ok (b.drop pos ++ (t.slots.drop (i + 1)).reduceOption.flatten) := by
  intro fuel
  induction fuel with
  | zero => intro i pos b _ _ h; omega
  | succ fuel ih =>
    intro i pos b hb hpos hlen
    have hi := wf.slotsOk.index_lt_chained hb
    have hne : ({ mIndex := i, mIterator := some pos } : Iterator) ≠ t.end := by
      simp [HashTableChained.end]
    have hderef : Iterator.deref t { mIndex := i, mIterator := some pos } = .ok b[pos] := by
      simp [Iterator.deref, getCollection, wf.array, readSlot_some hb,
        List.getElem?_eq_getElem hpos]
    rw [List.drop_eq_getElem_cons hpos, List.cons_append, List.length_cons] at hlen
    rw [iterateLoop, if_neg hne, hderef, List.drop_eq_getElem_cons hpos, List.cons_append]
    by_cases hlast : pos + 1 = b.length
    · have hinc : Iterator.inc t { mIndex := i, mIterator := some pos } =
          Iterator.incSlot t (i + 1) := by
        simp only [Iterator.inc, getAllocated, hi, if_true, getCollection, wf.array,
          readSlot_some hb, StdMap.end, ne_eq, Nat.ne_of_lt hpos, not_false_eq_true, hlast]
      have hdrop : b.drop (pos + 1) = [] := List.drop_of_length_le (by omega)
      rw [hdrop, List.nil_append] at hlen ⊢
      rcases incSlot_spec wf (i := i + 1) (by omega) with ⟨h1, h2⟩ | ⟨i', b', _, h1, h2, h3⟩
      · simp only [hinc, h1, h2]
        cases fuel with
        | zero => rw [h2] at hlen; simp at hlen
        | succ fuel => simp [iterateLoop]
      · have hb'pos : 0 < b'.length :=
          List.length_pos.2 (wf.slotsOk.ne_nil h2)
        rw [h3] at hlen ⊢
        simp only [hinc, h1]
        rw [ih i' 0 b' h2 hb'pos (by rw [List.drop_zero]; omega)]
        simp
    · have hinc : Iterator.inc t { mIndex := i, mIterator := some pos } =
          .ok { mIndex := i, mIterator := some (pos + 1) } := by
        simp only [Iterator.inc, getAllocated, hi, if_true, getCollection, wf.array,
          readSlot_some hb, StdMap.end, ne_eq, Nat.ne_of_lt hpos, not_false_eq_true, hlast,
          if_false]
      simp only [hinc]
      rw [ih i (pos + 1) b hb (by omega) (by omega)]

/-- Forward iteration yields the stored entries, bucket after bucket. -/
theorem iterate_spec_chained {hasher : K → Nat → Except Failure Nat} {t : HashTableChained K V}
    (wf : WellFormed hasher t) : t.iterate = .ok t.entries := by
  have hsz := wf.size
  rcases incSlot_spec wf (i := 0) (Nat.zero_le _) with ⟨h1, h2⟩ | ⟨i', b, _, h1, h2, h3⟩
  · rw [List.drop_zero] at h2
    simp only [iterate, begin, Iterator.new, h1, iterateLoop, if_true]
    simp only [entries, buckets, h2]
  · rw [List.drop_zero] at h3
    have hbpos : 0 < b.length := List.length_pos.2 (wf.slotsOk.ne_nil h2)
    simp only [iterate, begin, Iterator.new, h1]
    rw [iterateLoop_spec_chained wf (t.mSize + 1) i' 0 b h2 hbpos (by
      rw [List.drop_zero, ← h3, hsz]
      exact Nat.lt_succ_self _)]
    simp only [entries, buckets, h3, List.drop_zero]


/-- On a well-formed table `find(key)` hits and yields `v` exactly when
`(key, v)` is a stored entry. -/
theorem find_yields_iff_chained {hasher : K → Nat → Except Failure Nat} (hv : ValidHasher hasher)
    {t : HashTableChained K V} (wf : WellFormed hasher t) (key : K) (v : V) :
    (∃ it, find hasher t key = .ok it ∧ it ≠ t.end ∧ Iterator.deref t it = .ok (key, v)) ↔
      (key, v) ∈ t.entries := by
  constructor
  · rintro ⟨it, hf, hne, hd⟩
    rcases find_spec_chained hv wf key with ⟨hf', _⟩ | ⟨i, b, v', _, hib, hpos, hb, _, hf'⟩
    · rw [hf'] at hf
      exact absurd (Except.ok.inj hf).symm hne
    · rw [hf'] at hf
      have := Except.ok.inj hf
      subst this
      rw [Iterator.deref_newAt wf hib hpos] at hd
      have := Except.ok.inj hd
      rw [← this]
      exact mem_flatten_of_getElem? hib hb
  · intro hm
    obtain ⟨i, b, v', _, hib, hpos, hb, _, hf⟩ := find_of_mem_chained hv wf (List.mem_map.2 ⟨_, hm, rfl⟩)
    have hvv : v' = v :=
      eq_of_mem_of_nodup_keys wf.slotsOk.nodup (mem_flatten_of_getElem? hib hb) hm
    subst hvv
    exact ⟨_, hf, ne_end_newAt t _ _, Iterator.deref_newAt wf hib hpos⟩

theorem mem_keys_of_find_ne_end_chained {hasher : K → Nat → Except Failure Nat} (hv : ValidHasher hasher)
    {t : HashTableChained K V} (wf : WellFormed hasher t) {key : K} {it : Iterator}
    (hf : find hasher t key = .ok it) (hne : it ≠ t.end) : key ∈ t.entries.map Prod.fst := by
  by_contra hm
  rw [find_of_not_mem_chained hv wf hm] at hf
  exact hne (Except.ok.inj hf).symm


theorem WellFormed.take_buckets {hasher : K → Nat → Except Failure Nat}
    {t : HashTableChained K V} (wf : WellFormed hasher t) :
    (t.slots.take t.mAllocated).reduceOption = t.buckets := by
  have h1 := HashTableProbed.reduceOption_take_succ wf.slotsOk.sentinel
  rw [List.take_of_length_le (by rw [wf.slotsOk.length])] at h1
  simpa [buckets] using h1.symm

/-- On a table without entries `begin()` is `end()`. -/
theorem begin_of_entries_nil {hasher : K → Nat → Except Failure Nat}
    {t : HashTableChained K V} (wf : WellFormed hasher t) (h : t.entries = []) :
    t.begin = .ok t.end := by
  rcases incSlot_spec wf (i := 0) (Nat.zero_le _) with ⟨h1, _⟩ | ⟨i', b, _, _, h2, h3⟩
  · exact h1
  · rw [List.drop_zero] at h3
    have hb := wf.slotsOk.ne_nil h2
    simp only [entries, buckets] at h
    rw [h] at h3
    have := congrArg List.length h3
    simp only [List.length_nil, List.length_append] at this
    have hpos := List.length_pos.2 hb
    omega


theorem insertAll_spec_chained {hasher : K → Nat → Except Failure Nat} (hv : ValidHasher hasher) :
    ∀ (kvs : List (K × V)) (t t' : HashTableChained K V) (bs : List Bool), WellFormed hasher t →
      insertAll hasher t kvs = (.ok bs, t') →
      WellFormed hasher t' ∧ t'.mSize = t.mSize + bs.count true ∧ bs.length = kvs.length ∧
        (∀ k, k ∈ t'.entries.map Prod.fst ↔
          k ∈ t.entries.map Prod.fst ∨ k ∈ kvs.map Prod.fst) := by
  intro kvs
  induction kvs with
  | nil =>
    intro t t' bs wf h
    simp only [insertAll, Prod.mk.injEq, Except.ok.injEq] at h
    obtain ⟨rfl, rfl⟩ := h
    exact ⟨wf, by simp, rfl, by simp⟩
  | cons kv rest ih =>
    intro t t' bs wf h
    rw [insertAll] at h
    by_cases hm : kv.1 ∈ t.entries.map Prod.fst
    · rw [insert_of_mem_chained hv wf kv.2 hm] at h
      simp only at h
      cases hrest : insertAll hasher t rest with
      | mk r t2 =>
        rw [hrest] at h
        cases r with
        | error e => simp at h
        | ok bs' =>
          simp only [Prod.mk.injEq, Except.ok.injEq] at h
          obtain ⟨rfl, rfl⟩ := h
          obtain ⟨wf2, hs, hl, hk⟩ := ih t t2 bs' wf hrest
          refine ⟨wf2, by simpa using hs, by simp [hl], ?_⟩
          intro k
          rw [hk k]
          simp only [List.map_cons, List.mem_cons]
          constructor
          · rintro (h1 | h1)
            · exact Or.inl h1
            · exact Or.inr (Or.inr h1)
          · rintro (h1 | h1 | h1)
            · exact Or.inl h1
            · exact Or.inl (h1 ▸ hm)
            · exact Or.inr h1
    · rcases insert_of_not_mem_chained hv wf kv.2 hm with ⟨_, hi⟩ | ⟨_, t1, _, hi, wf1, hp, _, _, hs1⟩
      · rw [hi] at h
        simp at h
      · rw [hi] at h
        simp only at h
        cases hrest : insertAll hasher t1 rest with
        | mk r t2 =>
          rw [hrest] at h
          cases r with
          | error e => simp at h
          | ok bs' =>
            simp only [Prod.mk.injEq, Except.ok.injEq] at h
            obtain ⟨rfl, rfl⟩ := h
            obtain ⟨wf2, hs, hl, hk⟩ := ih t1 t2 bs' wf1 hrest
            refine ⟨wf2, by rw [hs, hs1]; simp; omega, by simp [hl], ?_⟩
            intro k
            rw [hk k, (List.Perm.map Prod.fst hp).mem_iff]
            simp only [List.map_cons, List.mem_cons]
            constructor
            · rintro ((h1 | h1) | h1)
              · exact Or.inr (Or.inl h1)
              · exact Or.inl h1
              · exact Or.inr (Or.inr h1)
            · rintro (h1 | h1 | h1)
              · exact Or.inl (Or.inr h1)
              · exact Or.inl (Or.inl h1)
              · exact Or.inr h1

/-- After a sequence of inserts into a table without entries, size is the
number of distinct keys of the sequence. -/
theorem insertAll_size_chained {hasher : K → Nat → Except Failure Nat} (hv : ValidHasher hasher)
    {t t' : HashTableChained K V} (wf : WellFormed hasher t) (he : t.entries = []) (hs : t.mSize = 0)
    {kvs : List (K × V)} {bs : List Bool} (h : insertAll hasher t kvs = (.ok bs, t')) :
    t'.mSize = bs.count true ∧ bs.count true = (kvs.map Prod.fst).dedup.length := by
  obtain ⟨wf', hsz, _, hk⟩ := insertAll_spec_chained hv kvs t t' bs wf h
  rw [hs, Nat.zero_add] at hsz
  refine ⟨hsz, ?_⟩
  have hnd : (t'.entries.map Prod.fst).Nodup := wf'.slotsOk.nodup
  rw [← hsz, wf'.size, ← List.length_map t'.entries Prod.fst, ← List.card_toFinset,
    ← List.toFinset_card_of_nodup hnd]
  congr 1
  ext k
  simp only [List.mem_toFinset]
  rw [hk k, he]
  simp

end HashTableChained

/-! ## HashTableChained with another hash table as the Collection -/

namespace HashTableNested

variable {K V C I : Type} [LinearOrder K] [DecidableEq I]

/-- In a list with distinct keys that is `(k, v) :: r` up to order, the value
stored with `k` is `v`. -/
theorem eq_of_perm_cons {l r : List (K × V)} {k : K} {v v' : V}
    (hn : (l.map Prod.fst).Nodup) (hp : List.Perm l ((k, v') :: r)) (h : (k, v) ∈ l) :
    v = v' :=
  eq_of_mem_of_nodup_keys hn h (hp.mem_iff.2 (List.mem_cons_self _ _))

theorem length_le_flatten_of_ne_nil {α : Type} : ∀ (L : List (List α)),
    (∀ b, b ∈ L → b ≠ []) → L.length ≤ L.flatten.length
  | [], _ => by simp
  | b :: L, h => by
    have hb : 0 < b.length := List.length_pos.2 (h b (List.mem_cons_self _ _))
    have ih := length_le_flatten_of_ne_nil L (fun b' hb' => h b' (List.mem_cons_of_mem _ hb'))
    simp only [List.length_cons, List.flatten_cons, List.length_append]
    omega

theorem walk_of_iterateLoop_probed (hasher₂ : K → Nat → Except Failure Nat)
    (t : HashTableProbed K V) :
    ∀ (fuel : Nat) (it : HashTableProbed.Iterator) (l : List (K × V)),
      HashTableProbed.iterateLoop t fuel it = .ok l →
      Collection.Walk (probedCollection hasher₂) t it l := by
  intro fuel
  induction fuel with
  | zero => intro it l h; simp [HashTableProbed.iterateLoop] at h
  | succ fuel ih =>
    intro it l h
    rw [HashTableProbed.iterateLoop] at h
    split at h
    · rename_i hend
      cases h
      exact hend
    · rename_i hend
      split at h
      · cases h
      · rename_i x hx
        split at h
        · cases h
        · rename_i it' hit'
          split at h
          · cases h
          · rename_i rest hrest
            cases h
            exact ⟨hend, hx, it', hit', ih it' rest hrest⟩

/-- The probed table is a lawful collection. -/
theorem lawful_probedCollection {hasher₂ : K → Nat → Except Failure Nat}
    (hv₂ : ValidHasher hasher₂) :
    Collection.Lawful (probedCollection hasher₂)
      (HashTableProbed.WellFormed : HashTableProbed K V → Prop) HashTableProbed.entries where
  create := by
    have hnew : (HashTableProbed.new 1000 : Except Failure (HashTableProbed K V)) =
        .ok { mArray := some (newArray 1009), mAllocated := 1009, mFreeSlots := 1009,
              mSize := 0 } := by
      have hg : getPrimeGreaterThan 1000 = .ok 1009 := by decide
      simp only [HashTableProbed.new, hg]
    obtain ⟨wf, he, _⟩ := HashTableProbed.new_spec hnew
    exact ⟨_, hnew, wf, he⟩
  nodup := fun c wf => wf.nodup
  size := fun c wf => wf.size
  find_mem := by
    intro c k v wf hmem
    obtain ⟨it, hf, hne, hd⟩ := (HashTableProbed.find_yields_iff hv₂ wf k v).2 hmem
    refine ⟨it, hf, hne, hd, ?_⟩
    intro v'
    have hk : k ∈ c.entries.map Prod.fst := List.mem_map.2 ⟨_, hmem, rfl⟩
    obtain ⟨v0, r, c', hset, wf', hp1, hp2, _⟩ := HashTableProbed.set_of_mem hv₂ wf v' hk
    have hv0 : v = v0 := eq_of_perm_cons wf.nodup hp1 hmem
    subst hv0
    refine ⟨c', r, ?_, wf', hp1, hp2⟩
    simp only [HashTableProbed.set, hf, andThen, hne, if_false, hd] at hset
    show HashTableProbed.Iterator.assignSecond c it v' = .ok c'
    simp only [HashTableProbed.Iterator.assignSecond, hd]
    cases hw : writeSlot c.mArray it.mIndex (some (k, v')) with
    | error e => rw [hw] at hset; simp at hset
    | ok a =>
      rw [hw] at hset
      simp only [Prod.mk.injEq, true_and] at hset
      rw [← hset]
  find_not_mem := fun c k wf h => HashTableProbed.find_of_not_mem hv₂ wf h
  insert_not_mem := by
    intro c k v wf h
    rcases HashTableProbed.insert_of_not_mem hv₂ wf v h with ⟨hg, hi⟩ | ⟨_, c', _, hi, wf', hp, _⟩
    · left
      obtain ⟨hc, hf⟩ := getNewSize_error_of_mem wf.capacity hg
      have h1 := wf.free
      have h2 := wf.size
      exact ⟨by show (HashTableProbed.insert hasher₂ c k v).1 = _; rw [hi], by omega⟩
    · exact Or.inr ⟨true, c', hi, wf', hp⟩
  erase_mem := by
    intro c k v wf hmem
    have hk : k ∈ c.entries.map Prod.fst := List.mem_map.2 ⟨_, hmem, rfl⟩
    obtain ⟨v0, c', he, wf', hp, _⟩ := HashTableProbed.erase_of_mem hv₂ wf hk
    have hv0 : v = v0 := eq_of_perm_cons wf.nodup hp hmem
    subst hv0
    exact ⟨c', he, wf', hp⟩
  erase_not_mem := fun c k wf h => HashTableProbed.erase_of_not_mem hv₂ wf h
  walk := by
    intro c wf
    have hit := HashTableProbed.iterate_spec wf
    unfold HashTableProbed.iterate at hit
    split at hit
    · cases hit
    · rename_i b hb
      exact ⟨b, hb, walk_of_iterateLoop_probed hasher₂ c _ b _ hit⟩

theorem walk_of_iterateLoop_chained (hasher₂ : K → Nat → Except Failure Nat)
    (t : HashTableChained K V) :
    ∀ (fuel : Nat) (it : HashTableChained.Iterator) (l : List (K × V)),
      HashTableChained.iterateLoop t fuel it = .ok l →
      Collection.Walk (chainedCollection hasher₂) t it l := by
  intro fuel
  induction fuel with
  | zero => intro it l h; simp [HashTableChained.iterateLoop] at h
  | succ fuel ih =>
    intro it l h
    rw [HashTableChained.iterateLoop] at h
    split at h
    · rename_i hend
      cases h
      exact hend
    · rename_i hend
      split at h
      · cases h
      · rename_i x hx
        split at h
        · cases h
        · rename_i it' hit'
          split at h
          · cases h
          · rename_i rest hrest
            cases h
            exact ⟨hend, hx, it', hit', ih it' rest hrest⟩

/-- The chained table with `std::map` buckets is a lawful collection. -/
theorem lawful_chainedCollection {hasher₂ : K → Nat → Except Failure Nat}
    (hv₂ : ValidHasher hasher₂) :
    Collection.Lawful (chainedCollection hasher₂)
      (HashTableChained.WellFormed hasher₂ : HashTableChained K V → Prop)
      HashTableChained.entries where
  create := by
    have hnew : (HashTableChained.new 1000 : Except Failure (HashTableChained K V)) =
        .ok { mArray := some (newArray 1009), mAllocated := 1009, mFreeSlots := 1009,
              mSize := 0 } := by
      have hg : getPrimeGreaterThan 1000 = .ok 1009 := by decide
      simp only [HashTableChained.new, hg]
    obtain ⟨wf, he, _⟩ := HashTableChained.new_spec_chained hasher₂ hnew
    exact ⟨_, hnew, wf, he⟩
  nodup := fun c wf => wf.slotsOk.nodup
  size := fun c wf => wf.size
  find_mem := by
    intro c k v wf hmem
    obtain ⟨it, hf, hne, hd⟩ := (HashTableChained.find_yields_iff_chained hv₂ wf k v).2 hmem
    refine ⟨it, hf, hne, hd, ?_⟩
    intro v'
    have hk : k ∈ c.entries.map Prod.fst := List.mem_map.2 ⟨_, hmem, rfl⟩
    obtain ⟨v0, r, c', hset, wf', hp1, hp2, _⟩ :=
      HashTableChained.set_of_mem_chained hv₂ wf v' hk
    have hv0 : v = v0 := eq_of_perm_cons wf.slotsOk.nodup hp1 hmem
    subst hv0
    refine ⟨c', r, ?_, wf', hp1, hp2⟩
    simp only [HashTableChained.set, hf, andThen, hne, if_false] at hset
    show HashTableChained.Iterator.assignSecond c it v' = .ok c'
    cases hw : HashTableChained.Iterator.assignSecond c it v' with
    | error e => rw [hw] at hset; simp at hset
    | ok a =>
      rw [hw] at hset
      simp only [Prod.mk.injEq, true_and] at hset
      rw [← hset]
  find_not_mem := fun c k wf h => HashTableChained.find_of_not_mem_chained hv₂ wf h
  insert_not_mem := by
    intro c k v wf h
    rcases HashTableChained.insert_of_not_mem_chained hv₂ wf v h with
      ⟨hg, hi⟩ | ⟨_, c', _, hi, wf', hp, _⟩
    · left
      obtain ⟨hc, hf⟩ := getNewSize_error_of_mem wf.capacity hg
      have h1 := wf.slotsOk.free
      have h2 := length_le_flatten_of_ne_nil _ wf.slotsOk.nonempty
      exact ⟨by show (HashTableChained.insert hasher₂ c k v).1 = _; rw [hi], by
        show 450009 ≤ c.slots.reduceOption.flatten.length
        omega⟩
    · exact Or.inr ⟨true, c', hi, wf', hp⟩
  erase_mem := by
    intro c k v wf hmem
    have hk : k ∈ c.entries.map Prod.fst := List.mem_map.2 ⟨_, hmem, rfl⟩
    obtain ⟨v0, c', _, _, he, wf', hp, _⟩ := HashTableChained.erase_of_mem_chained hv₂ wf hk
    have hv0 : v = v0 := eq_of_perm_cons wf.slotsOk.nodup hp hmem
    subst hv0
    exact ⟨c', he, wf', hp⟩
  erase_not_mem := fun c k wf h => HashTableChained.erase_of_not_mem_chained hv₂ wf h
  walk := by
    intro c wf
    have hit := HashTableChained.iterate_spec_chained wf
    unfold HashTableChained.iterate at hit
    split at hit
    · cases hit
    · rename_i b hb
      exact ⟨b, hb, walk_of_iterateLoop_chained hasher₂ c _ b _ hit⟩

theorem contents_getElem? (ents : C → List (K × V)) (arr : List (Option C)) (i : Nat) :
    (contents ents arr)[i]? = (arr[i]?).map (Option.map ents) := by
  simp [contents]

theorem contents_length (ents : C → List (K × V)) (arr : List (Option C)) :
    (contents ents arr).length = arr.length := by
  simp [contents]

theorem contents_set (ents : C → List (K × V)) (arr : List (Option C)) (i : Nat)
    (x : Option C) :
    contents ents (arr.set i x) = (contents ents arr).set i (x.map ents) := by
  simp [contents, List.map_set]

theorem contents_newArray (ents : C → List (K × V)) (n : Nat) :
    contents ents (newArray n : List (Option C)) = newArray n := by
  simp [contents, newArray]

theorem contents_none {ents : C → List (K × V)} {arr : List (Option C)} {i : Nat}
    (h : arr[i]? = some none) : (contents ents arr)[i]? = some none := by
  rw [contents_getElem?, h]; rfl

theorem contents_some {ents : C → List (K × V)} {arr : List (Option C)} {i : Nat} {c : C}
    (h : arr[i]? = some (some c)) : (contents ents arr)[i]? = some (some (ents c)) := by
  rw [contents_getElem?, h]; rfl

theorem slots_mk_nested (a : List (Option C)) (n f s : Nat) :
    slots ({ mArray := some a, mAllocated := n, mFreeSlots := f, mSize := s } :
      HashTableNested C) = a := rfl

/-- Replacing the entries `b` of a bucket by `b2`, which holds one more entry
`e` with a new key. -/
theorem place_perm {hasher : K → Nat → Except Failure Nat} {n free h : Nat}
    {arr : List (Option (StdMap K V))} (ok : HashTableChained.SlotsOk hasher n arr free)
    {e : K × V} {b b2 : StdMap K V} (hh : hasher e.1 n = .ok h)
    (hcell : arr[h]? = some (some b)) (hb2 : List.Perm b2 (e :: b))
    (hnew : e.1 ∉ arr.reduceOption.flatten.map Prod.fst) :
    HashTableChained.SlotsOk hasher n (arr.set h (some b2)) free ∧
      List.Perm (arr.set h (some b2)).reduceOption.flatten (e :: arr.reduceOption.flatten) := by
  obtain ⟨hfl1, hfl2⟩ := HashTableChained.flatten_set_of_some b2 hcell
  have hperm : List.Perm (b2 ++ (arr.eraseIdx h).reduceOption.flatten)
      (e :: arr.reduceOption.flatten) :=
    (List.Perm.append_right _ hb2).trans (List.Perm.cons e hfl1.symm)
  have hnd : ((b2 ++ (arr.eraseIdx h).reduceOption.flatten).map Prod.fst).Nodup := by
    refine (List.Perm.nodup_iff (List.Perm.map Prod.fst hperm)).2 ?_
    simp only [List.map_cons, List.nodup_cons]
    exact ⟨hnew, ok.nodup⟩
  have hne : b2 ≠ [] := by
    intro h0
    rw [h0] at hb2
    exact List.cons_ne_nil _ _ (List.Perm.nil_eq hb2).symm
  have hhome : ∀ x, x ∈ b2 → hasher x.1 n = .ok h := by
    intro x hx
    rcases List.mem_cons.1 (hb2.mem_iff.1 hx) with rfl | hx'
    · exact hh
    · exact ok.home h b x hcell hx'
  obtain ⟨ok', hp, _⟩ := ok.update_bucket b2 hcell hne hhome hnd
  exact ⟨ok', hp.trans hperm⟩

theorem WellFormed.pos_nested {Inv : C → Prop} {ents : C → List (K × V)}
    {hasher : K → Nat → Except Failure Nat} {t : HashTableNested C}
    (wf : WellFormed Inv ents hasher t) : 0 < t.mAllocated :=
  pos_of_mem_mPrimes wf.capacity

theorem WellFormed.length_nested {Inv : C → Prop} {ents : C → List (K × V)}
    {hasher : K → Nat → Except Failure Nat} {t : HashTableNested C}
    (wf : WellFormed Inv ents hasher t) : t.slots.length = t.mAllocated + 1 := by
  rw [← contents_length ents]; exact wf.slotsOk.length

theorem WellFormed.exists_slot_nested {Inv : C → Prop} {ents : C → List (K × V)}
    {hasher : K → Nat → Except Failure Nat} {t : HashTableNested C}
    (wf : WellFormed Inv ents hasher t) {i : Nat} (hi : i ≤ t.mAllocated) :
    ∃ cell, t.slots[i]? = some cell :=
  ⟨_, List.getElem?_eq_getElem (by rw [wf.length_nested]; omega)⟩

theorem WellFormed.mem_entries {Inv : C → Prop} {ents : C → List (K × V)}
    {hasher : K → Nat → Except Failure Nat} {t : HashTableNested C}
    (_wf : WellFormed Inv ents hasher t) {i : Nat} {c : C} {e : K × V}
    (hc : t.slots[i]? = some (some c)) (he : e ∈ ents c) : e ∈ entries ents t :=
  HashTableChained.mem_flatten_of_getElem? (contents_some hc) he

/-- A key of the table is stored in the collection of the bucket it hashes
to. -/
theorem WellFormed.mem_home_nested {Inv : C → Prop} {ents : C → List (K × V)}
    {hasher : K → Nat → Except Failure Nat} {t : HashTableNested C}
    (wf : WellFormed Inv ents hasher t) {key : K} {h : Nat}
    (hh : hasher key t.mAllocated = .ok h) (hm : key ∈ (entries ents t).map Prod.fst) :
    ∃ c v, t.slots[h]? = some (some c) ∧ (key, v) ∈ ents c := by
  obtain ⟨b, v, hb, hv⟩ := wf.slotsOk.mem_home hh hm
  rw [contents_getElem?] at hb
  cases hs : t.slots[h]? with
  | none => rw [hs] at hb; cases hb
  | some cell =>
    rw [hs] at hb
    cases cell with
    | none => cases hb
    | some c =>
      simp only [Option.map_some', Option.some.injEq] at hb
      subst hb
      exact ⟨c, v, rfl, hv⟩

theorem ne_end_newAt_nested (t : HashTableNested C) (i : Nat) (it : I) :
    Iterator.newAt i it ≠ (t.end : Iterator I) := by
  simp [Iterator.newAt, HashTableNested.end]

/-- What `find` returns on a well-formed table. -/
theorem find_spec_nested {ops : Collection K V C I} {Inv : C → Prop}
    {ents : C → List (K × V)} (law : Collection.Lawful ops Inv ents)
    {hasher : K → Nat → Except Failure Nat} (hv : ValidHasher hasher)
    {t : HashTableNested C} (wf : WellFormed Inv ents hasher t) (key : K) :
    (find ops hasher t key = .ok t.end ∧ key ∉ (entries ents t).map Prod.fst) ∨
    (∃ h c v i, hasher key t.mAllocated = .ok h ∧ h < t.mAllocated ∧
      t.slots[h]? = some (some c) ∧ (key, v) ∈ ents c ∧ ops.find c key = .ok i ∧
      i ≠ ops.end c ∧ ops.deref c i = .ok (key, v) ∧
      find ops hasher t key = .ok (Iterator.newAt h i) ∧
      Iterator.deref ops t (Iterator.newAt h i) = .ok (key, v)) := by
  obtain ⟨h, hh, hlt⟩ := hv key t.mAllocated wf.pos_nested
  obtain ⟨cell, hcell⟩ := wf.exists_slot_nested (Nat.le_of_lt hlt)
  cases cell with
  | none =>
    left
    refine ⟨by simp only [find, hash, hh, wf.array, readSlot_some hcell], ?_⟩
    intro hm
    obtain ⟨c, v, hc, _⟩ := wf.mem_home_nested hh hm
    rw [hcell] at hc
    cases hc
  | some c =>
    have hinv := wf.inv h c hcell
    by_cases hk : key ∈ (ents c).map Prod.fst
    · right
      obtain ⟨⟨k, v⟩, he, hk'⟩ := List.mem_map.1 hk
      simp only at hk'
      subst hk'
      obtain ⟨i, hf, hne, hd, _⟩ := law.find_mem c k v hinv he
      refine ⟨h, c, v, i, hh, hlt, hcell, he, hf, hne, hd, ?_, ?_⟩
      · simp only [find, hash, hh, wf.array, readSlot_some hcell, hf, hne, ne_eq,
          not_false_eq_true, if_true]
      · simp only [Iterator.deref, Iterator.newAt, getCollection, wf.array,
          readSlot_some hcell, hd]
    · left
      have hf := law.find_not_mem c key hinv hk
      refine ⟨by simp only [find, hash, hh, wf.array, readSlot_some hcell, hf, ne_eq,
        not_true_eq_false, if_false], ?_⟩
      intro hm
      obtain ⟨c', v, hc, hv'⟩ := wf.mem_home_nested hh hm
      rw [hcell] at hc
      cases hc
      exact hk (List.mem_map.2 ⟨_, hv', rfl⟩)

theorem find_of_not_mem_nested {ops : Collection K V C I} {Inv : C → Prop}
    {ents : C → List (K × V)} (law : Collection.Lawful ops Inv ents)
    {hasher : K → Nat → Except Failure Nat} (hv : ValidHasher hasher)
    {t : HashTableNested C} (wf : WellFormed Inv ents hasher t) {key : K}
    (h : key ∉ (entries ents t).map Prod.fst) : find ops hasher t key = .ok t.end := by
  rcases find_spec_nested law hv wf key with ⟨hf, _⟩ | ⟨i, c, v, _, _, _, hc, he, _⟩
  · exact hf
  · exact absurd (List.mem_map.2 ⟨(key, v), wf.mem_entries hc he, rfl⟩) h

theorem find_of_mem_nested {ops : Collection K V C I} {Inv : C → Prop}
    {ents : C → List (K × V)} (law : Collection.Lawful ops Inv ents)
    {hasher : K → Nat → Except Failure Nat} (hv : ValidHasher hasher)
    {t : HashTableNested C} (wf : WellFormed Inv ents hasher t) {key : K}
    (h : key ∈ (entries ents t).map Prod.fst) :
    ∃ h c v i, hasher key t.mAllocated = .ok h ∧ h < t.mAllocated ∧
      t.slots[h]? = some (some c) ∧ (key, v) ∈ ents c ∧ ops.find c key = .ok i ∧
      i ≠ ops.end c ∧ ops.deref c i = .ok (key, v) ∧
      find ops hasher t key = .ok (Iterator.newAt h i) ∧
      Iterator.deref ops t (Iterator.newAt h i) = .ok (key, v) := by
  rcases find_spec_nested law hv wf key with ⟨_, habs⟩ | hfound
  · exact absurd h habs
  · exact hfound

theorem inv_set {Inv : C → Prop} {arr : List (Option C)} {h : Nat} {c' : C}
    (hinv : ∀ (i : Nat) (c : C), arr[i]? = some (some c) → Inv c) (hc' : Inv c') :
    ∀ (i : Nat) (c : C), (arr.set h (some c'))[i]? = some (some c) → Inv c := by
  intro i c hic
  by_cases hi : h = i
  · subst hi
    have hlt : h < arr.length := by
      have := lt_length_of_getElem? hic
      simpa using this
    rw [List.getElem?_set_self hlt] at hic
    cases hic
    exact hc'
  · rw [List.getElem?_set_ne hi] at hic
    exact hinv i c hic

theorem inv_set_none {Inv : C → Prop} {arr : List (Option C)} {h : Nat}
    (hinv : ∀ (i : Nat) (c : C), arr[i]? = some (some c) → Inv c) :
    ∀ (i : Nat) (c : C), (arr.set h none)[i]? = some (some c) → Inv c := by
  intro i c hic
  by_cases hi : h = i
  · subst hi
    have hlt : h < arr.length := by
      have := lt_length_of_getElem? hic
      simpa using this
    rw [List.getElem?_set_self hlt] at hic
    cases hic
  · rw [List.getElem?_set_ne hi] at hic
    exact hinv i c hic

/-- Inserting an entry with a new key into a fresh collection for an empty
bucket. -/
theorem place_none_nested {ops : Collection K V C I} {Inv : C → Prop}
    {ents : C → List (K × V)} (law : Collection.Lawful ops Inv ents)
    {hasher : K → Nat → Except Failure Nat} {n free h : Nat} {arr : List (Option C)}
    (ok : HashTableChained.SlotsOk hasher n (contents ents arr) free)
    (hinv : ∀ (i : Nat) (c : C), arr[i]? = some (some c) → Inv c) {k : K} (v : V)
    (hh : hasher k n = .ok h) (hlt : h < n) (hcell : arr[h]? = some none)
    (hnew : k ∉ (contents ents arr).reduceOption.flatten.map Prod.fst)
    {nc : C} (hnc : Inv nc) (hempty : ents nc = []) :
    ∃ b c', ops.insert nc (k, v) = (.ok b, c') ∧
      HashTableChained.SlotsOk hasher n (contents ents (arr.set h (some c'))) (free - 1) ∧
      (∀ (i : Nat) (c : C), (arr.set h (some c'))[i]? = some (some c) → Inv c) ∧
      List.Perm (contents ents (arr.set h (some c'))).reduceOption.flatten
        ((k, v) :: (contents ents arr).reduceOption.flatten) ∧ 0 < free := by
  rcases law.insert_not_mem nc k v hnc (by rw [hempty]; simp) with
    ⟨_, hbig⟩ | ⟨b, c', hi, hc', hp⟩
  · rw [hempty] at hbig
    simp at hbig
  · rw [hempty] at hp
    have hs : ents c' = [(k, v)] := List.perm_singleton.1 hp
    obtain ⟨ok1, hp1, hf⟩ := ok.place_none (e := (k, v)) hh hlt (contents_none hcell) hnew
    refine ⟨b, c', hi, ?_, inv_set hinv hc', ?_, hf⟩
    · rw [contents_set, Option.map_some', hs]
      exact ok1
    · rw [contents_set, Option.map_some', hs]
      exact hp1

/-- Inserting an entry with a new key into the collection of a bucket that is
in use. -/
theorem place_some_nested {ops : Collection K V C I} {Inv : C → Prop}
    {ents : C → List (K × V)} (law : Collection.Lawful ops Inv ents)
    {hasher : K → Nat → Except Failure Nat} {n free h : Nat} {arr : List (Option C)}
    (ok : HashTableChained.SlotsOk hasher n (contents ents arr) free)
    (hinv : ∀ (i : Nat) (c : C), arr[i]? = some (some c) → Inv c) {k : K} (v : V)
    (hh : hasher k n = .ok h) {c : C} (hcell : arr[h]? = some (some c))
    (hnew : k ∉ (contents ents arr).reduceOption.flatten.map Prod.fst) :
    ((ops.insert c (k, v)).1 = .error .needMorePrimes ∧
      450009 ≤ (contents ents arr).reduceOption.flatten.length) ∨
    ∃ b c', ops.insert c (k, v) = (.ok b, c') ∧
      HashTableChained.SlotsOk hasher n (contents ents (arr.set h (some c'))) free ∧
      (∀ (i : Nat) (c : C), (arr.set h (some c'))[i]? = some (some c) → Inv c) ∧
      List.Perm (contents ents (arr.set h (some c'))).reduceOption.flatten
        ((k, v) :: (contents ents arr).reduceOption.flatten) := by
  have hnb : k ∉ (ents c).map Prod.fst := by
    intro hm
    obtain ⟨x, hx, hk⟩ := List.mem_map.1 hm
    exact hnew (List.mem_map.2
      ⟨x, HashTableChained.mem_flatten_of_getElem? (contents_some hcell) hx, hk⟩)
  rcases law.insert_not_mem c k v (hinv h c hcell) hnb with
    ⟨herr, hbig⟩ | ⟨b, c', hi, hc', hp⟩
  · left
    have hcs : (contents ents arr)[h]? = some (some (ents c)) := contents_some hcell
    have hlen := (HashTableChained.flatten_set_of_some (ents c) hcs).1.length_eq
    rw [List.length_append] at hlen
    exact ⟨herr, by omega⟩
  · right
    obtain ⟨ok1, hp1⟩ := place_perm ok (e := (k, v)) hh (contents_some hcell) hp hnew
    refine ⟨b, c', hi, ?_, inv_set hinv hc', ?_⟩
    · rw [contents_set, Option.map_some']
      exact ok1
    · rw [contents_set, Option.map_some']
      exact hp1

/-- The body of the inner loop of `rehash` on an element with a new key. -/
theorem rehashElement_spec {ops : Collection K V C I} {Inv : C → Prop}
    {ents : C → List (K × V)} (law : Collection.Lawful ops Inv ents)
    {hasher : K → Nat → Except Failure Nat} (hv : ValidHasher hasher) {n : Nat} (hn : 0 < n)
    (e : K × V) (arr : List (Option C)) (free : Nat)
    (ok : HashTableChained.SlotsOk hasher n (contents ents arr) free)
    (hinv : ∀ (i : Nat) (c : C), arr[i]? = some (some c) → Inv c)
    (hnew : e.1 ∉ (contents ents arr).reduceOption.flatten.map Prod.fst) :
    (rehashElement ops hasher n e (arr, free) = .error .needMorePrimes ∧
      450009 ≤ (contents ents arr).reduceOption.flatten.length) ∨
    ∃ arr' free', rehashElement ops hasher n e (arr, free) = .ok (arr', free') ∧
      HashTableChained.SlotsOk hasher n (contents ents arr') free' ∧
      (∀ (i : Nat) (c : C), arr'[i]? = some (some c) → Inv c) ∧
      List.Perm (contents ents arr').reduceOption.flatten
        (e :: (contents ents arr).reduceOption.flatten) := by
  obtain ⟨k, v⟩ := e
  obtain ⟨h, hh, hlt⟩ := hv k n hn
  have hlen : arr.length = n + 1 := by rw [← contents_length ents]; exact ok.length
  have hil : h < arr.length := by omega
  obtain ⟨cell, hcell⟩ : ∃ cell, arr[h]? = some cell := ⟨_, List.getElem?_eq_getElem hil⟩
  cases cell with
  | none =>
    obtain ⟨nc, hcreate, hnc, hempty⟩ := law.create
    obtain ⟨b, c', hi, ok', hinv', hp, _⟩ :=
      place_none_nested law ok hinv v hh hlt hcell hnew hnc hempty
    right
    refine ⟨_, _, ?_, ok', hinv', hp⟩
    simp only [rehashElement, hash, hh, readSlot_some hcell, hcreate, hi]
    rw [writeSlot_some _ hil]
  | some c =>
    rcases place_some_nested law ok hinv v hh hcell hnew with
      ⟨herr, hbig⟩ | ⟨b, c', hi, ok', hinv', hp⟩
    · left
      refine ⟨?_, hbig⟩
      cases hins : ops.insert c (k, v) with
      | mk r c' =>
        rw [hins] at herr
        simp only at herr
        subst herr
        simp only [rehashElement, hash, hh, readSlot_some hcell, hins]
    · right
      refine ⟨_, _, ?_, ok', hinv', hp⟩
      simp only [rehashElement, hash, hh, readSlot_some hcell, hi]
      rw [writeSlot_some _ hil]

/-- The inner loop of `rehash`, walking through the elements `l` of an old
collection. -/
theorem rehashCollection_spec_nested {ops : Collection K V C I} {Inv : C → Prop}
    {ents : C → List (K × V)} (law : Collection.Lawful ops Inv ents)
    {hasher : K → Nat → Except Failure Nat} (hv : ValidHasher hasher) {n : Nat} (hn : 0 < n)
    (collection : C) :
    ∀ (l : List (K × V)) (fuel : Nat) (it : I) (arr : List (Option C)) (free : Nat),
      l.length < fuel → Collection.Walk ops collection it l →
      HashTableChained.SlotsOk hasher n (contents ents arr) free →
      (∀ (i : Nat) (c : C), arr[i]? = some (some c) → Inv c) →
      ((l ++ (contents ents arr).reduceOption.flatten).map Prod.fst).Nodup →
      (rehashCollection ops hasher n collection fuel it (arr, free)
          = .error .needMorePrimes ∧
        450009 ≤ (l ++ (contents ents arr).reduceOption.flatten).length) ∨
      ∃ arr' free', rehashCollection ops hasher n collection fuel it (arr, free)
          = .ok (arr', free') ∧
        HashTableChained.SlotsOk hasher n (contents ents arr') free' ∧
        (∀ (i : Nat) (c : C), arr'[i]? = some (some c) → Inv c) ∧
        List.Perm (contents ents arr').reduceOption.flatten
          (l ++ (contents ents arr).reduceOption.flatten) := by
  intro l
  induction l with
  | nil =>
    intro fuel it arr free hf hw ok hinv _
    right
    obtain ⟨fuel, rfl⟩ : ∃ f, fuel = f + 1 := ⟨fuel - 1, by simp at hf; omega⟩
    have hw' : it = ops.end collection := hw
    refine ⟨arr, free, ?_, ok, hinv, by simp⟩
    rw [rehashCollection]
    simp [hw']
  | cons e rest ih =>
    intro fuel it arr free hf hw ok hinv hnd
    obtain ⟨fuel, rfl⟩ : ∃ f, fuel = f + 1 := ⟨fuel - 1, by simp at hf; omega⟩
    obtain ⟨hne, hd, it', hinc, hw'⟩ := hw
    have hnd' := hnd
    simp only [List.cons_append, List.map_cons, List.nodup_cons, List.map_append,
      List.mem_append, not_or] at hnd'
    obtain ⟨⟨_, hnew⟩, _⟩ := hnd'
    rcases rehashElement_spec law hv hn e arr free ok hinv hnew with
      ⟨herr, hbig⟩ | ⟨arr1, free1, h1, ok1, hinv1, hp1⟩
    · left
      refine ⟨?_, by simp only [List.length_append, List.length_cons]; omega⟩
      rw [rehashCollection]
      simp only [hne, ne_eq, not_false_eq_true, if_true, hd, herr]
    · have hperm : List.Perm (rest ++ (contents ents arr1).reduceOption.flatten)
          (e :: rest ++ (contents ents arr).reduceOption.flatten) :=
        (List.Perm.append_left rest hp1).trans List.perm_middle
      have hnd1 : ((rest ++ (contents ents arr1).reduceOption.flatten).map Prod.fst).Nodup :=
        (List.Perm.nodup_iff (List.Perm.map Prod.fst hperm)).2 hnd
      have hstep : rehashCollection ops hasher n collection (fuel + 1) it (arr, free) =
          rehashCollection ops hasher n collection fuel it' (arr1, free1) := by
        rw [rehashCollection]
        simp only [hne, ne_eq, not_false_eq_true, if_true, hd, h1, hinc]
      rw [hstep]
      rcases ih fuel it' arr1 free1 (by simp at hf; omega) hw' ok1 hinv1 hnd1 with
        ⟨herr, hbig⟩ | ⟨arr', free', r1, r2, r3, r4⟩
      · exact Or.inl ⟨herr, by rw [← hperm.length_eq]; exact hbig⟩
      · exact Or.inr ⟨arr', free', r1, r2, r3, r4.trans hperm⟩

theorem rehashLoop_spec_nested {ops : Collection K V C I} {Inv : C → Prop}
    {ents : C → List (K × V)} (law : Collection.Lawful ops Inv ents)
    {hasher : K → Nat → Except Failure Nat} (hv : ValidHasher hasher)
    (t : HashTableNested C) (a : List (Option C)) {newAlloc : Nat}
    (hA : t.mArray = some a) (hn : 0 < newAlloc)
    (hainv : ∀ (i : Nat) (c : C), a[i]? = some (some c) → Inv c)
    (hnd : ((contents ents a).reduceOption.flatten.map Prod.fst).Nodup) :
    ∀ (n i : Nat) (arr : List (Option C)) (free : Nat), i + n + 1 = a.length →
      a[i + n]? = some none →
      HashTableChained.SlotsOk hasher newAlloc (contents ents arr) free →
      (∀ (j : Nat) (c : C), arr[j]? = some (some c) → Inv c) →
      List.Perm ((contents ents arr).reduceOption.flatten ++
          ((contents ents a).drop i).reduceOption.flatten)
        (contents ents a).reduceOption.flatten →
      (rehashLoop ops hasher t newAlloc n i (arr, free) = .error .needMorePrimes ∧
        450009 ≤ (contents ents a).reduceOption.flatten.length) ∨
      ∃ arr' free', rehashLoop ops hasher t newAlloc n i (arr, free) = .ok (arr', free') ∧
        HashTableChained.SlotsOk hasher newAlloc (contents ents arr') free' ∧
        (∀ (j : Nat) (c : C), arr'[j]? = some (some c) → Inv c) ∧
        List.Perm (contents ents arr').reduceOption.flatten
          (contents ents a).reduceOption.flatten := by
  intro n
  induction n with
  | zero =>
    intro i arr free hi hs ok hinv hq
    right
    have hil : i < (contents ents a).length := by rw [contents_length]; omega
    have hs' : (contents ents a)[i]? = some none := contents_none (by simpa using hs)
    rw [List.getElem?_eq_getElem hil] at hs'
    rw [List.drop_eq_getElem_cons hil, Option.some.inj hs',
      List.drop_of_length_le (by rw [contents_length]; omega)] at hq
    exact ⟨arr, free, by simp [rehashLoop], ok, hinv, by simpa using hq⟩
  | succ n ih =>
    intro i arr free hi hs ok hinv hq
    have hil : i < a.length := by omega
    have hil' : i < (contents ents a).length := by rw [contents_length]; omega
    obtain ⟨x, hx⟩ : ∃ x, a[i]? = some x := ⟨_, List.getElem?_eq_getElem hil⟩
    have hs' : a[i + 1 + n]? = some none := by
      rw [show i + 1 + n = i + (n + 1) by omega]; exact hs
    cases x with
    | none =>
      have hx' : (contents ents a)[i]? = some none := contents_none hx
      rw [List.getElem?_eq_getElem hil'] at hx'
      rw [List.drop_eq_getElem_cons hil', Option.some.inj hx',
        List.reduceOption_cons_of_none] at hq
      have hstep : rehashLoop ops hasher t newAlloc (n + 1) i (arr, free) =
          rehashLoop ops hasher t newAlloc n (i + 1) (arr, free) := by
        rw [rehashLoop]
        simp only [hA, readSlot_some hx]
      rw [hstep]
      exact ih (i + 1) arr free (by omega) hs' ok hinv hq
    | some c =>
      have hx' : (contents ents a)[i]? = some (some (ents c)) := contents_some hx
      rw [List.getElem?_eq_getElem hil'] at hx'
      rw [List.drop_eq_getElem_cons hil', Option.some.inj hx',
        List.reduceOption_cons_of_some, List.flatten_cons] at hq
      have hq2 : List.Perm ((ents c ++ (contents ents arr).reduceOption.flatten) ++
          ((contents ents a).drop (i + 1)).reduceOption.flatten)
          (contents ents a).reduceOption.flatten := by
        refine List.Perm.trans ?_ hq
        rw [← List.append_assoc]
        exact List.Perm.append_right _ List.perm_append_comm
      have hnd1 : ((ents c ++ (contents ents arr).reduceOption.flatten).map Prod.fst).Nodup := by
        have := (List.Perm.nodup_iff (List.Perm.map Prod.fst hq2)).2 hnd
        rw [List.map_append] at this
        exact this.of_append_left
      have hc := hainv i c hx
      obtain ⟨b, hb, hw⟩ := law.walk c hc
      rcases rehashCollection_spec_nested law hv hn c (ents c) (ops.size c + 1) b arr free
          (by rw [law.size c hc]; omega) hw ok hinv hnd1 with
        ⟨herr, hbig⟩ | ⟨arr1, free1, q1, q2, q3, q4⟩
      · left
        refine ⟨?_, ?_⟩
        · rw [rehashLoop]
          simp only [hA, readSlot_some hx, hb, herr]
        · have := hq2.length_eq
          rw [List.length_append] at this
          omega
      · have hstep : rehashLoop ops hasher t newAlloc (n + 1) i (arr, free) =
            rehashLoop ops hasher t newAlloc n (i + 1) (arr1, free1) := by
          rw [rehashLoop]
          simp only [hA, readSlot_some hx, hb, q1]
        rw [hstep]
        exact ih (i + 1) arr1 free1 (by omega) hs' q2 q3 ((List.Perm.append_right _ q4).trans hq2)

/-- What `rehash` does to a well-formed table: either a collection gives up
with "Need more primes" and the table is not touched, or the entries are moved
into an array of the new capacity. -/
theorem rehash_spec_nested {ops : Collection K V C I} {Inv : C → Prop}
    {ents : C → List (K × V)} (law : Collection.Lawful ops Inv ents)
    {hasher : K → Nat → Except Failure Nat} (hv : ValidHasher hasher)
    {t : HashTableNested C} (wf : WellFormed Inv ents hasher t) {newAlloc : Nat}
    (hp : newAlloc ∈ mPrimes) :
    (rehash ops hasher t newAlloc = .error .needMorePrimes ∧ 450009 ≤ t.mSize) ∨
    ∃ t', rehash ops hasher t newAlloc = .ok t' ∧ WellFormed Inv ents hasher t' ∧
      List.Perm (entries ents t') (entries ents t) ∧ t'.mAllocated = newAlloc ∧
      t'.mSize = t.mSize := by
  have hsent : t.slots[0 + t.mAllocated]? = some none := by
    have h1 := wf.slotsOk.sentinel
    rw [contents_getElem?] at h1
    rw [Nat.zero_add]
    cases hs : t.slots[t.mAllocated]? with
    | none => rw [hs] at h1; cases h1
    | some cell =>
      rw [hs] at h1
      cases cell with
      | none => rfl
      | some c => cases h1
  have hok0 : HashTableChained.SlotsOk hasher newAlloc
      (contents ents (newArray newAlloc : List (Option C))) newAlloc := by
    rw [contents_newArray]
    exact HashTableChained.slotsOk_newArray hasher newAlloc
  have hinv0 : ∀ (j : Nat) (c : C),
      (newArray newAlloc : List (Option C))[j]? = some (some c) → Inv c := by
    intro j c hj
    have := List.getElem?_mem hj
    simp [newArray] at this
  rcases rehashLoop_spec_nested law hv t t.slots wf.array (pos_of_mem_mPrimes hp) wf.inv
      wf.slotsOk.nodup t.mAllocated 0 (newArray newAlloc) newAlloc
      (by rw [wf.length_nested]; omega) hsent hok0 hinv0
      (by rw [contents_newArray, HashTableProbed.reduceOption_newArray]; simp) with
    ⟨herr, hbig⟩ | ⟨arr', free', r1, r2, r3, r4⟩
  · left
    refine ⟨by simp only [rehash, herr], ?_⟩
    rw [wf.size]
    exact hbig
  · right
    refine ⟨{ mArray := some arr', mAllocated := newAlloc, mFreeSlots := free',
              mSize := t.mSize }, ?_, ⟨rfl, hp, ?_, r3, r2⟩, r4, rfl, rfl⟩
    · simp only [rehash, size, r1, clear]
    · simp only [entries, slots_mk_nested]
      rw [r4.length_eq]
      exact wf.size

/-- The placement part of `insert` on a well-formed table without the key. -/
theorem insertPlace_spec_nested {ops : Collection K V C I} {Inv : C → Prop}
    {ents : C → List (K × V)} (law : Collection.Lawful ops Inv ents)
    {hasher : K → Nat → Except Failure Nat} (hv : ValidHasher hasher)
    {t : HashTableNested C} (wf : WellFormed Inv ents hasher t) (key : K) (value : V)
    (habs : key ∉ (entries ents t).map Prod.fst) :
    ((insertPlace ops hasher t key value).1 = .error .needMorePrimes ∧ 450009 ≤ t.mSize) ∨
    ∃ t', insertPlace ops hasher t key value = (.ok true, t') ∧
      WellFormed Inv ents hasher t' ∧
      List.Perm (entries ents t') ((key, value) :: entries ents t) ∧
      t'.mAllocated = t.mAllocated ∧ t'.mSize = t.mSize + 1 := by
  obtain ⟨h, hh, hlt⟩ := hv key t.mAllocated wf.pos_nested
  obtain ⟨cell, hcell⟩ := wf.exists_slot_nested (Nat.le_of_lt hlt)
  have hil : h < t.slots.length := by rw [wf.length_nested]; omega
  cases cell with
  | none =>
    obtain ⟨nc, hcreate, hnc, hempty⟩ := law.create
    have hil2 : h < (t.slots.set h (some nc)).length := by rw [List.length_set]; exact hil
    have hplace := place_none_nested law wf.slotsOk wf.inv value hh hlt hcell habs hnc hempty
    cases hins : ops.insert nc (key, value) with
    | mk r c1 =>
      rw [hins] at hplace
      obtain ⟨b, c', hi, ok', hinv', hp, _⟩ := hplace
      cases hi
      right
      refine ⟨{ t with mArray := some (t.slots.set h (some c1)),
                       mFreeSlots := t.mFreeSlots - 1, mSize := t.mSize + 1 },
        ?_, ⟨rfl, wf.capacity, ?_, hinv', ok'⟩, hp, rfl, rfl⟩
      · simp only [insertPlace, hash, hh, andThen, wf.array, readSlot_some hcell, hcreate]
        rw [writeSlot_some _ hil]
        simp only []
        rw [writeSlot_some _ hil2]
        simp only [hins, List.set_set]
      · simp only [entries, slots_mk_nested]
        rw [hp.length_eq, List.length_cons]
        have := wf.size
        simp only [entries] at this
        omega
  | some c =>
    have hplace := place_some_nested law wf.slotsOk wf.inv value hh hcell habs
    cases hins : ops.insert c (key, value) with
    | mk r c1 =>
      rw [hins] at hplace
      cases r with
      | error e =>
        left
        rcases hplace with ⟨herr, hbig⟩ | ⟨b, c', hi, _⟩
        · simp only at herr
          refine ⟨?_, by rw [wf.size]; exact hbig⟩
          simp only [insertPlace, hash, hh, andThen, wf.array, readSlot_some hcell]
          rw [writeSlot_some _ hil]
          simp only [hins, herr]
        · cases hi
      | ok b0 =>
        right
        rcases hplace with ⟨herr, _⟩ | ⟨b, c', hi, ok', hinv', hp⟩
        · cases herr
        · cases hi
          refine ⟨{ t with mArray := some (t.slots.set h (some c1)), mSize := t.mSize + 1 },
            ?_, ⟨rfl, wf.capacity, ?_, hinv', ok'⟩, hp, rfl, rfl⟩
          · simp only [insertPlace, hash, hh, andThen, wf.array, readSlot_some hcell]
            rw [writeSlot_some _ hil]
            simp only [hins]
          · simp only [entries, slots_mk_nested]
            rw [hp.length_eq, List.length_cons]
            have := wf.size
            simp only [entries] at this
            omega

/-- `insert` of a stored key changes nothing and returns false. -/
theorem insert_of_mem_nested {ops : Collection K V C I} {Inv : C → Prop}
    {ents : C → List (K × V)} (law : Collection.Lawful ops Inv ents)
    {hasher : K → Nat → Except Failure Nat} (hv : ValidHasher hasher)
    {t : HashTableNested C} (wf : WellFormed Inv ents hasher t) {key : K} (value : V)
    (h : key ∈ (entries ents t).map Prod.fst) :
    insert ops hasher t key value = (.ok false, t) := by
  obtain ⟨i, c, v, it, _, _, _, _, _, _, _, hfi, _⟩ := find_of_mem_nested law hv wf h
  simp only [insert, hfi, andThen, ne_end_newAt_nested, ne_eq, not_false_eq_true, if_true]

/-- `insert` of a key that is not stored: either the grower or a collection is
out of primes, or the entry is added. -/
theorem insert_of_not_mem_nested {ops : Collection K V C I} {Inv : C → Prop}
    {ents : C → List (K × V)} (law : Collection.Lawful ops Inv ents)
    {hasher : K → Nat → Except Failure Nat} (hv : ValidHasher hasher)
    {t : HashTableNested C} (wf : WellFormed Inv ents hasher t) {key : K} (value : V)
    (h : key ∉ (entries ents t).map Prod.fst) :
    ((insert ops hasher t key value).1 = .error .needMorePrimes ∧ 450009 ≤ t.mSize) ∨
    (∃ newAlloc t', getNewSize t.mAllocated t.mFreeSlots = .ok newAlloc ∧
      insert ops hasher t key value = (.ok true, t') ∧ WellFormed Inv ents hasher t' ∧
      List.Perm (entries ents t') ((key, value) :: entries ents t) ∧
      t'.mAllocated = newAlloc ∧ t'.mSize = t.mSize + 1) := by
  have hf := find_of_not_mem_nested law hv wf h
  cases hg : getNewSize t.mAllocated t.mFreeSlots with
  | error e =>
    left
    have := getNewSize_error hg
    subst this
    obtain ⟨hc, hfs⟩ := getNewSize_error_of_mem wf.capacity hg
    have h1 := wf.slotsOk.free
    have h2 := length_le_flatten_of_ne_nil _ wf.slotsOk.nonempty
    have h3 := wf.size
    simp only [entries] at h3
    exact ⟨by simp only [insert, hf, andThen, hg, ne_eq, not_true_eq_false, if_false],
      by omega⟩
  | ok newAlloc =>
    rcases getNewSize_ok hg with ⟨rfl, _⟩ | ⟨hgt, hp⟩
    · have hun : insert ops hasher t key value = insertPlace ops hasher t key value := by
        simp only [insert, hf, andThen, hg, ne_eq, not_true_eq_false, if_false, gt_iff_lt,
          lt_self_iff_false]
      rw [hun]
      rcases insertPlace_spec_nested law hv wf key value h with herr | ⟨t', h1, h2, h3, h4, h6⟩
      · exact Or.inl herr
      · exact Or.inr ⟨_, t', rfl, h1, h2, h3, h4, h6⟩
    · rcases rehash_spec_nested law hv wf hp with ⟨herr, hbig⟩ | ⟨t1, q1, q2, q3, q4, q5⟩
      · left
        refine ⟨?_, hbig⟩
        simp only [insert, hf, andThen, hg, ne_eq, not_true_eq_false, if_false, gt_iff_lt,
          hgt, if_true, herr]
      · have habs1 : key ∉ (entries ents t1).map Prod.fst := by
          intro hm
          exact h ((List.Perm.mem_iff (List.Perm.map Prod.fst q3)).1 hm)
        have hun : insert ops hasher t key value = insertPlace ops hasher t1 key value := by
          simp only [insert, hf, andThen, hg, ne_eq, not_true_eq_false, if_false, gt_iff_lt,
            hgt, if_true, q1]
        rw [hun]
        rcases insertPlace_spec_nested law hv q2 key value habs1 with
          ⟨herr, hbig⟩ | ⟨t', h1, h2, h3, h4, h6⟩
        · exact Or.inl ⟨herr, by rw [← q5]; exact hbig⟩
        · exact Or.inr ⟨_, t', rfl, h1, h2, h3.trans (List.Perm.cons _ q3), by rw [h4, q4],
            by rw [h6, q5]⟩

theorem set_getElem?_self {α : Type} {l : List α} {i : Nat} {x : α} (h : l[i]? = some x) :
    l.set i x = l := by
  apply List.ext_getElem?
  intro j
  by_cases hj : i = j
  · subst hj
    rw [List.getElem?_set_self (lt_length_of_getElem? h), h]
  · rw [List.getElem?_set_ne hj]

/-- `erase` of a key that is not stored changes nothing and returns 0. -/
theorem erase_of_not_mem_nested {ops : Collection K V C I} {Inv : C → Prop}
    {ents : C → List (K × V)} (law : Collection.Lawful ops Inv ents)
    {hasher : K → Nat → Except Failure Nat} (hv : ValidHasher hasher)
    {t : HashTableNested C} (wf : WellFormed Inv ents hasher t) {key : K}
    (h : key ∉ (entries ents t).map Prod.fst) : erase ops hasher t key = (.ok 0, t) := by
  obtain ⟨i, hh, hlt⟩ := hv key t.mAllocated wf.pos_nested
  obtain ⟨cell, hcell⟩ := wf.exists_slot_nested (Nat.le_of_lt hlt)
  have hil : i < t.slots.length := by rw [wf.length_nested]; omega
  cases cell with
  | none => simp only [erase, hash, hh, andThen, wf.array, readSlot_some hcell]
  | some c =>
    have hnb : key ∉ (ents c).map Prod.fst := by
      intro hm
      obtain ⟨x, hx, hk⟩ := List.mem_map.1 hm
      exact h (List.mem_map.2 ⟨x, wf.mem_entries hcell hx, hk⟩)
    have he := law.erase_not_mem c key (wf.inv i c hcell) hnb
    simp only [erase, hash, hh, andThen, wf.array, readSlot_some hcell, he]
    rw [writeSlot_some _ hil]
    simp only [gt_iff_lt, lt_self_iff_false, if_false, Nat.sub_zero, set_getElem?_self hcell]
    rw [← wf.array]

/-- `erase` of a stored key removes it from its collection, and removes the
collection when it was the only entry there. -/
theorem erase_of_mem_nested {ops : Collection K V C I} {Inv : C → Prop}
    {ents : C → List (K × V)} (law : Collection.Lawful ops Inv ents)
    {hasher : K → Nat → Except Failure Nat} (hv : ValidHasher hasher)
    {t : HashTableNested C} (wf : WellFormed Inv ents hasher t) {key : K}
    (h : key ∈ (entries ents t).map Prod.fst) :
    ∃ v t', erase ops hasher t key = (.ok 1, t') ∧ WellFormed Inv ents hasher t' ∧
      List.Perm (entries ents t) ((key, v) :: entries ents t') ∧
      t'.mAllocated = t.mAllocated ∧ t'.mSize + 1 = t.mSize := by
  obtain ⟨i, c, v, _, hh, hlt, hcell, hb, _⟩ := find_of_mem_nested law hv wf h
  have hil : i < t.slots.length := by rw [wf.length_nested]; omega
  have hil2 : ∀ x, i < (t.slots.set i x).length := by
    intro x; rw [List.length_set]; exact hil
  obtain ⟨c', he, hc', e2⟩ := law.erase_mem c key v (wf.inv i c hcell) hb
  have hsz := wf.size
  simp only [entries] at hsz
  have hcs : (contents ents t.slots)[i]? = some (some (ents c)) := contents_some hcell
  by_cases hempty : ops.size c' = 0
  · obtain ⟨ok1, hp1⟩ := wf.slotsOk.clear_bucket hcs
    have hnil : ents c' = [] := List.length_eq_zero.1 (by rw [← law.size c' hc']; exact hempty)
    have hb1 : ents c = [(key, v)] := by
      rw [hnil] at e2
      exact List.perm_singleton.1 e2
    rw [hb1] at hp1
    have hcont : contents ents (t.slots.set i none) = (contents ents t.slots).set i none := by
      rw [contents_set]; rfl
    refine ⟨v, { t with mArray := some (t.slots.set i none), mFreeSlots := t.mFreeSlots + 1,
                        mSize := t.mSize - 1 }, ?_,
      ⟨rfl, wf.capacity, ?_, inv_set_none wf.inv, by rw [slots_mk_nested, hcont]; exact ok1⟩,
      by simp only [entries, slots_mk_nested]; rw [hcont]; exact hp1, rfl, ?_⟩
    · simp only [erase, hash, hh, andThen, wf.array, readSlot_some hcell, he]
      rw [writeSlot_some _ hil]
      simp only [gt_iff_lt, Nat.zero_lt_one, if_true, hempty]
      rw [writeSlot_some _ (hil2 _)]
      simp only [List.set_set]
    · simp only [entries, slots_mk_nested]
      rw [hcont]
      have := hp1.length_eq
      simp only [List.singleton_append, List.length_cons] at this
      omega
    · have := hp1.length_eq
      simp only [List.singleton_append, List.length_cons] at this
      simp only
      omega
  · have hne : ents c' ≠ [] := by
      intro hn
      apply hempty
      rw [law.size c' hc', hn]
      rfl
    have hperm0 : List.Perm (contents ents t.slots).reduceOption.flatten
        (ents c ++ ((contents ents t.slots).eraseIdx i).reduceOption.flatten) :=
      (HashTableChained.flatten_set_of_some (ents c) hcs).1
    have hnd0 := (List.Perm.nodup_iff (List.Perm.map Prod.fst
      (hperm0.trans (List.Perm.append_right _ e2)))).1 wf.slotsOk.nodup
    simp only [List.cons_append, List.map_cons, List.nodup_cons] at hnd0
    obtain ⟨ok1, hp1, hp2⟩ := wf.slotsOk.update_bucket (ents c') hcs hne
      (fun e he => wf.slotsOk.home i (ents c) e hcs (e2.mem_iff.2 (List.mem_cons_of_mem _ he)))
      hnd0.2
    have hcont : contents ents (t.slots.set i (some c')) =
        (contents ents t.slots).set i (some (ents c')) := by
      rw [contents_set]; rfl
    have hperm : List.Perm (contents ents t.slots).reduceOption.flatten
        ((key, v) :: ((contents ents t.slots).set i (some (ents c'))).reduceOption.flatten) :=
      (hp2.trans (List.Perm.append_right _ e2)).trans (List.Perm.cons _ hp1.symm)
    refine ⟨v, { t with mArray := some (t.slots.set i (some c')), mSize := t.mSize - 1 }, ?_,
      ⟨rfl, wf.capacity, ?_, inv_set wf.inv hc', by rw [slots_mk_nested, hcont]; exact ok1⟩,
      by simp only [entries, slots_mk_nested]; rw [hcont]; exact hperm, rfl, ?_⟩
    · simp only [erase, hash, hh, andThen, wf.array, readSlot_some hcell, he]
      rw [writeSlot_some _ hil]
      simp only [gt_iff_lt, Nat.zero_lt_one, if_true, hempty, if_false]
    · simp only [entries, slots_mk_nested]
      rw [hcont]
      have := hperm.length_eq
      simp only [List.length_cons] at this
      omega
    · have := hperm.length_eq
      simp only [List.length_cons] at this
      simp only
      omega

/-- `set` of a stored key overwrites the value in place. -/
theorem set_of_mem_nested {ops : Collection K V C I} {Inv : C → Prop}
    {ents : C → List (K × V)} (law : Collection.Lawful ops Inv ents)
    {hasher : K → Nat → Except Failure Nat} (hv : ValidHasher hasher)
    {t : HashTableNested C} (wf : WellFormed Inv ents hasher t) {key : K} (value : V)
    (h : key ∈ (entries ents t).map Prod.fst) :
    ∃ v r t', set ops hasher t key value = (.ok (), t') ∧ WellFormed Inv ents hasher t' ∧
      List.Perm (entries ents t) ((key, v) :: r) ∧
      List.Perm (entries ents t') ((key, value) :: r) ∧
      t'.mAllocated = t.mAllocated ∧ t'.mSize = t.mSize := by
  obtain ⟨i, c, v, it, hh, hlt, hcell, hb, hfc, _, _, hfi, _⟩ := find_of_mem_nested law hv wf h
  have hil : i < t.slots.length := by rw [wf.length_nested]; omega
  obtain ⟨it', hfc', _, _, hassign⟩ := law.find_mem c key v (wf.inv i c hcell) hb
  rw [hfc] at hfc'
  cases hfc'
  obtain ⟨c', r, ha, hc', hb1, hb2⟩ := hassign value
  have hcs : (contents ents t.slots)[i]? = some (some (ents c)) := contents_some hcell
  have hperm0 : List.Perm (contents ents t.slots).reduceOption.flatten
      (ents c ++ ((contents ents t.slots).eraseIdx i).reduceOption.flatten) :=
    (HashTableChained.flatten_set_of_some (ents c) hcs).1
  have hnd0 := (List.Perm.nodup_iff (List.Perm.map Prod.fst
    (hperm0.trans (List.Perm.append_right _ hb1)))).1 wf.slotsOk.nodup
  have hnd2 : ((ents c' ++
      ((contents ents t.slots).eraseIdx i).reduceOption.flatten).map Prod.fst).Nodup := by
    refine (List.Perm.nodup_iff (List.Perm.map Prod.fst (List.Perm.append_right _ hb2))).2 ?_
    simpa only [List.cons_append, List.map_cons] using hnd0
  obtain ⟨ok1, hp1, hp2⟩ := wf.slotsOk.update_bucket (ents c') hcs
    (by
      intro hn
      rw [hn] at hb2
      exact List.cons_ne_nil _ _ (List.Perm.nil_eq hb2).symm)
    (by
      intro e he
      rcases List.mem_cons.1 (hb2.mem_iff.1 he) with rfl | he'
      · exact hh
      · exact wf.slotsOk.home i (ents c) e hcs (hb1.mem_iff.2 (List.mem_cons_of_mem _ he')))
    hnd2
  have hcont : contents ents (t.slots.set i (some c')) =
      (contents ents t.slots).set i (some (ents c')) := by
    rw [contents_set]; rfl
  refine ⟨v, r ++ ((contents ents t.slots).eraseIdx i).reduceOption.flatten,
    { t with mArray := some (t.slots.set i (some c')) },
    ?_, ⟨rfl, wf.capacity, ?_, inv_set wf.inv hc', by rw [slots_mk_nested, hcont]; exact ok1⟩,
    hp2.trans (List.Perm.append_right _ hb1),
    by simp only [entries, slots_mk_nested]; rw [hcont];
       exact hp1.trans (List.Perm.append_right _ hb2), rfl, rfl⟩
  · have hne := ne_end_newAt_nested t i it
    have hassign : Iterator.assignSecond ops t (Iterator.newAt i it) value =
        .ok { t with mArray := some (t.slots.set i (some c')) } := by
      simp only [Iterator.assignSecond, Iterator.newAt, wf.array, readSlot_some hcell, ha]
      rw [writeSlot_some _ hil]
    simp only [set, hfi, andThen, hne, if_false, hassign]
  · simp only [entries, slots_mk_nested]
    rw [hcont, (hp1.trans (List.Perm.append_right _ hb2)).length_eq, wf.size]
    simp only [entries]
    rw [(hp2.trans (List.Perm.append_right _ hb1)).length_eq]
    simp

/-- `set` of a key that is not stored behaves as `insert`. -/
theorem set_of_not_mem_nested {ops : Collection K V C I} {Inv : C → Prop}
    {ents : C → List (K × V)} (law : Collection.Lawful ops Inv ents)
    {hasher : K → Nat → Except Failure Nat} (hv : ValidHasher hasher)
    {t : HashTableNested C} (wf : WellFormed Inv ents hasher t) {key : K} (value : V)
    (h : key ∉ (entries ents t).map Prod.fst) :
    ((set ops hasher t key value).1 = .error .needMorePrimes ∧ 450009 ≤ t.mSize) ∨
    (∃ newAlloc t', getNewSize t.mAllocated t.mFreeSlots = .ok newAlloc ∧
      set ops hasher t key value = (.ok (), t') ∧ WellFormed Inv ents hasher t' ∧
      List.Perm (entries ents t') ((key, value) :: entries ents t) ∧
      t'.mAllocated = newAlloc ∧ t'.mSize = t.mSize + 1) := by
  have hf := find_of_not_mem_nested law hv wf h
  rcases insert_of_not_mem_nested law hv wf value h with
    ⟨herr, hbig⟩ | ⟨newAlloc, t', hg, hi, rest⟩
  · left
    refine ⟨?_, hbig⟩
    cases hins : insert ops hasher t key value with
    | mk r t1 =>
      rw [hins] at herr
      simp only at herr
      subst herr
      simp only [set, hf, andThen, if_true, hins]
  · right
    exact ⟨newAlloc, t', hg, by simp only [set, hf, andThen, if_true, hi], rest⟩

/-- The table built by the constructor. -/
theorem new_spec_nested (Inv : C → Prop) (ents : C → List (K × V))
    (hasher : K → Nat → Except Failure Nat) {initialSize : Nat}
    {t : HashTableNested C} (h : HashTableNested.new initialSize = .ok t) :
    WellFormed Inv ents hasher t ∧ entries ents t = [] ∧
      getPrimeGreaterThan initialSize = .ok t.mAllocated := by
  unfold HashTableNested.new at h
  split at h
  · cases h
  · rename_i newAlloc hg
    cases h
    have hp := (getPrimeGreaterThan_ok hg).1
    have hro : (newArray newAlloc : List (Option (StdMap K V))).reduceOption = [] :=
      HashTableProbed.reduceOption_newArray newAlloc
    refine ⟨⟨rfl, hp, ?_, ?_, ?_⟩, ?_, hg⟩
    · simp [entries, slots_mk_nested, contents_newArray, hro]
    · intro j c hj
      have := List.getElem?_mem hj
      simp [slots_mk_nested, newArray] at this
    · rw [slots_mk_nested, contents_newArray]
      exact HashTableChained.slotsOk_newArray hasher newAlloc
    · simp [entries, slots_mk_nested, contents_newArray, hro]

theorem WellFormed.index_lt_nested {Inv : C → Prop} {ents : C → List (K × V)}
    {hasher : K → Nat → Except Failure Nat} {t : HashTableNested C}
    (wf : WellFormed Inv ents hasher t) {i : Nat} {c : C}
    (h : t.slots[i]? = some (some c)) : i < t.mAllocated :=
  wf.slotsOk.index_lt_chained (contents_some h)

theorem incLoop_spec_nested {Inv : C → Prop} {ents : C → List (K × V)}
    {hasher : K → Nat → Except Failure Nat} {t : HashTableNested C}
    (wf : WellFormed Inv ents hasher t) :
    ∀ (fuel i : Nat), i ≤ t.mAllocated → t.mAllocated < fuel + i →
      ∃ i', incLoop t fuel i = .ok i' ∧ i ≤ i' ∧ i' ≤ t.mAllocated ∧
        (∀ j, i ≤ j → j < i' → t.slots[j]? = some none) ∧
        (i' < t.mAllocated → ∃ c, t.slots[i']? = some (some c)) := by
  intro fuel
  induction fuel with
  | zero => intro i h1 h2; omega
  | succ fuel ih =>
    intro i h1 h2
    rw [incLoop]
    by_cases hi : i < t.mAllocated
    · obtain ⟨cell, hcell⟩ := wf.exists_slot_nested h1
      simp only [getAllocated, hi, if_true, getCollection, wf.array, readSlot_some hcell]
      cases cell with
      | none =>
        obtain ⟨i', r1, r2, r3, r4, r5⟩ := ih (i + 1) (by omega) (by omega)
        refine ⟨i', r1, by omega, r3, ?_, r5⟩
        intro j hj1 hj2
        rcases Nat.eq_or_lt_of_le hj1 with rfl | hlt
        · exact hcell
        · exact r4 j hlt hj2
      | some b =>
        exact ⟨i, rfl, le_refl _, h1, fun j hj1 hj2 => by omega, fun _ => ⟨b, hcell⟩⟩
    · have : i = t.mAllocated := by omega
      subst this
      simp only [getAllocated, lt_self_iff_false, if_false]
      exact ⟨_, rfl, le_refl _, le_refl _, fun j hj1 hj2 => by omega, fun h => by omega⟩

theorem WellFormed.drop_sentinel_nested {Inv : C → Prop} {ents : C → List (K × V)}
    {hasher : K → Nat → Except Failure Nat} {t : HashTableNested C}
    (wf : WellFormed Inv ents hasher t) :
    (contents ents t.slots).drop t.mAllocated = [none] := by
  have hil : t.mAllocated < (contents ents t.slots).length := by
    rw [wf.slotsOk.length]; omega
  have hs := wf.slotsOk.sentinel
  rw [List.getElem?_eq_getElem hil] at hs
  rw [List.drop_eq_getElem_cons hil, Option.some.inj hs,
    List.drop_of_length_le (by rw [wf.slotsOk.length])]

/-- The entries that an iterator made by `inc` still has to visit. -/
theorem incSlot_spec_nested {ops : Collection K V C I} {Inv : C → Prop}
    {ents : C → List (K × V)} (law : Collection.Lawful ops Inv ents)
    {hasher : K → Nat → Except Failure Nat} {t : HashTableNested C}
    (wf : WellFormed Inv ents hasher t) {i : Nat} (hi : i ≤ t.mAllocated) :
    (Iterator.incSlot ops t i = .ok t.end ∧
      ((contents ents t.slots).drop i).reduceOption.flatten = []) ∨
    (∃ i' c b, i ≤ i' ∧
      Iterator.incSlot ops t i = .ok { mIndex := i', mIterator := some b } ∧
      t.slots[i']? = some (some c) ∧ Collection.Walk ops c b (ents c) ∧
      ((contents ents t.slots).drop i).reduceOption.flatten =
        ents c ++ ((contents ents t.slots).drop (i' + 1)).reduceOption.flatten) := by
  obtain ⟨i', r1, r2, r3, r4, r5⟩ := incLoop_spec_nested wf (t.mAllocated + 1) i hi (by omega)
  have hskip := HashTableProbed.reduceOption_drop_skip (contents ents t.slots) (i' - i) i
    (by rw [wf.slotsOk.length]; omega) (fun j hj1 hj2 => contents_none (r4 j hj1 (by omega)))
  rw [show i + (i' - i) = i' by omega] at hskip
  by_cases hlt : i' < t.mAllocated
  · right
    obtain ⟨c, hc⟩ := r5 hlt
    have hil : i' < (contents ents t.slots).length := by rw [wf.slotsOk.length]; omega
    have hc' : (contents ents t.slots)[i']? = some (some (ents c)) := contents_some hc
    rw [List.getElem?_eq_getElem hil] at hc'
    obtain ⟨b, hb, hw⟩ := law.walk c (wf.inv i' c hc)
    refine ⟨i', c, b, r2, ?_, hc, hw, ?_⟩
    · simp only [Iterator.incSlot, r1, getAllocated, hlt, if_true, getCollection, wf.array,
        readSlot_some hc, hb]
    · rw [hskip, List.drop_eq_getElem_cons hil, Option.some.inj hc',
        List.reduceOption_cons_of_some, List.flatten_cons]
  · left
    have : i' = t.mAllocated := by omega
    subst this
    refine ⟨?_, ?_⟩
    · simp only [Iterator.incSlot, r1, getAllocated, lt_self_iff_false, if_false]
      rfl
    · rw [hskip, wf.drop_sentinel_nested]
      rfl

theorem iterateLoop_spec_nested {ops : Collection K V C I} {Inv : C → Prop}
    {ents : C → List (K × V)} (law : Collection.Lawful ops Inv ents)
    {hasher : K → Nat → Except Failure Nat} {t : HashTableNested C}
    (wf : WellFormed Inv ents hasher t) :
    ∀ (fuel i : Nat) (c : C) (it : I) (x : K × V) (l : List (K × V)),
      t.slots[i]? = some (some c) → Collection.Walk ops c it (x :: l) →
      (x :: l ++ ((contents ents t.slots).drop (i + 1)).reduceOption.flatten).length < fuel →
      iterateLoop ops t fuel { mIndex := i, mIterator := some it } =
        .ok (x :: l ++ ((contents ents t.slots).drop (i + 1)).reduceOption.flatten) := by
  intro fuel
  induction fuel with
  | zero => intro i c it x l _ _ h; omega
  | succ fuel ih =>
    intro i c it x l hc hw hlen
    have hi := wf.index_lt_nested hc
    obtain ⟨hne, hd, it', hinc, hw'⟩ := hw
    have hne' : ({ mIndex := i, mIterator := some it } : Iterator I) ≠ t.end := by
      simp [HashTableNested.end]
    have hderef : Iterator.deref ops t { mIndex := i, mIterator := some it } = .ok x := by
      simp only [Iterator.deref, getCollection, wf.array, readSlot_some hc, hd]
    rw [List.cons_append, List.length_cons] at hlen
    rw [iterateLoop, if_neg hne', hderef, List.cons_append]
    cases l with
    | nil =>
      have hend : it' = ops.end c := hw'
      have hinc' : Iterator.inc ops t { mIndex := i, mIterator := some it } =
          Iterator.incSlot ops t (i + 1) := by
        simp only [Iterator.inc, getAllocated, hi, if_true, getCollection, wf.array,
          readSlot_some hc, ne_eq, hne, not_false_eq_true, hinc, hend]
      rw [List.nil_append] at hlen ⊢
      rcases incSlot_spec_nested law wf (i := i + 1) (by omega) with
        ⟨h1, h2⟩ | ⟨i', c', b', _, h1, h2, h3, h4⟩
      · simp only [hinc', h1, h2]
        cases fuel with
        | zero => rw [h2] at hlen; simp at hlen
        | succ fuel => simp [iterateLoop]
      · have hne2 : ents c' ≠ [] :=
          wf.slotsOk.nonempty _ (mem_reduceOption_of_getElem? (contents_some h2))
        obtain ⟨y, l', hyl⟩ : ∃ y l', ents c' = y :: l' := by
          cases hce : ents c' with
          | nil => exact absurd hce hne2
          | cons y l' => exact ⟨y, l', rfl⟩
        rw [h4] at hlen ⊢
        rw [hyl] at h3 hlen ⊢
        simp only [hinc', h1]
        rw [ih i' c' b' y l' h2 h3 (by omega)]
    | cons y l' =>
      have hne2 : it' ≠ ops.end c := hw'.1
      have hinc' : Iterator.inc ops t { mIndex := i, mIterator := some it } =
          .ok { mIndex := i, mIterator := some it' } := by
        simp only [Iterator.inc, getAllocated, hi, if_true, getCollection, wf.array,
          readSlot_some hc, ne_eq, hne, not_false_eq_true, hinc, hne2, if_false]
      simp only [hinc']
      rw [ih i c it' y l' hc hw' (by simp only [List.cons_append, List.length_cons] at hlen ⊢; omega)]

/-- Forward iteration yields the stored entries, bucket after bucket. -/
theorem iterate_spec_nested {ops : Collection K V C I} {Inv : C → Prop}
    {ents : C → List (K × V)} (law : Collection.Lawful ops Inv ents)
    {hasher : K → Nat → Except Failure Nat} {t : HashTableNested C}
    (wf : WellFormed Inv ents hasher t) : iterate ops t = .ok (entries ents t) := by
  have hsz := wf.size
  rcases incSlot_spec_nested law wf (i := 0) (Nat.zero_le _) with
    ⟨h1, h2⟩ | ⟨i', c, b, _, h1, h2, h3, h4⟩
  · rw [List.drop_zero] at h2
    simp only [iterate, begin, Iterator.new, h1, iterateLoop, if_true]
    simp only [entries, h2]
  · rw [List.drop_zero] at h4
    have hne2 : ents c ≠ [] :=
      wf.slotsOk.nonempty _ (mem_reduceOption_of_getElem? (contents_some h2))
    obtain ⟨y, l', hyl⟩ : ∃ y l', ents c = y :: l' := by
      cases hce : ents c with
      | nil => exact absurd hce hne2
      | cons y l' => exact ⟨y, l', rfl⟩
    rw [hyl] at h3 h4
    simp only [iterate, begin, Iterator.new, h1]
    rw [iterateLoop_spec_nested law wf (t.mSize + 1) i' c b y l' h2 h3 (by
      rw [← h4, hsz]
      exact Nat.lt_succ_self _)]
    simp only [entries, h4]

theorem reduceOption_length_congr {α β : Type} :
    ∀ (a : List (Option α)) (b : List (Option β)), a.length = b.length →
      (∀ i : Nat, (∃ x, a[i]? = some (some x)) ↔ (∃ y, b[i]? = some (some y))) →
      a.reduceOption.length = b.reduceOption.length
  | [], [], _, _ => rfl
  | [], _ :: _, h, _ => by simp at h
  | _ :: _, [], h, _ => by simp at h
  | x :: a, y :: b, h, hi => by
    have htail : ∀ i : Nat, (∃ x, a[i]? = some (some x)) ↔ (∃ y, b[i]? = some (some y)) := by
      intro i
      have := hi (i + 1)
      simpa using this
    have ih := reduceOption_length_congr a b (by simpa using h) htail
    have h0 := hi 0
    simp only [List.getElem?_cons_zero, Option.some.injEq] at h0
    cases x with
    | none =>
      cases y with
      | none => simp only [List.reduceOption_cons_of_none]; exact ih
      | some y =>
        exfalso
        obtain ⟨_, hx⟩ := h0.2 ⟨y, rfl⟩
        cases hx
    | some x =>
      cases y with
      | none =>
        exfalso
        obtain ⟨_, hy⟩ := h0.1 ⟨x, rfl⟩
        cases hy
      | some y => simp only [List.reduceOption_cons_of_some, List.length_cons, ih]

/-- A bucket is in use exactly when a stored key hashes to it. -/
theorem occupied_iff {hasher : K → Nat → Except Failure Nat} {n free : Nat}
    {arr : List (Option (StdMap K V))} (ok : HashTableChained.SlotsOk hasher n arr free)
    (i : Nat) :
    (∃ b, arr[i]? = some (some b)) ↔
      ∃ e, e ∈ arr.reduceOption.flatten ∧ hasher e.1 n = .ok i := by
  constructor
  · rintro ⟨b, hb⟩
    obtain ⟨e, he⟩ := List.exists_mem_of_ne_nil b (ok.ne_nil hb)
    exact ⟨e, HashTableChained.mem_flatten_of_getElem? hb he, ok.home i b e hb he⟩
  · rintro ⟨e, he, hh⟩
    obtain ⟨b, _, hb, _⟩ := ok.mem_home hh (List.mem_map.2 ⟨e, he, rfl⟩)
    exact ⟨b, hb⟩

/-- The number of free slots is determined by the capacity and the entries. -/
theorem free_eq_of_perm {hasher : K → Nat → Except Failure Nat} {n free₁ free₂ : Nat}
    {arr₁ arr₂ : List (Option (StdMap K V))}
    (ok₁ : HashTableChained.SlotsOk hasher n arr₁ free₁)
    (ok₂ : HashTableChained.SlotsOk hasher n arr₂ free₂)
    (hp : List.Perm arr₁.reduceOption.flatten arr₂.reduceOption.flatten) : free₁ = free₂ := by
  have hlen := reduceOption_length_congr arr₁ arr₂ (by rw [ok₁.length, ok₂.length]) (by
    intro i
    rw [occupied_iff ok₁, occupied_iff ok₂]
    constructor
    · rintro ⟨e, he, hh⟩
      exact ⟨e, hp.mem_iff.1 he, hh⟩
    · rintro ⟨e, he, hh⟩
      exact ⟨e, hp.mem_iff.2 he, hh⟩)
  have h1 := ok₁.free
  have h2 := ok₂.free
  omega

theorem perm_cons_cancel {l l' r r' : List (K × V)} {k : K} {v v' : V}
    (hn : (l'.map Prod.fst).Nodup) (hp : List.Perm l l')
    (h1 : List.Perm l ((k, v) :: r)) (h2 : List.Perm l' ((k, v') :: r')) :
    v = v' ∧ List.Perm r r' := by
  have hv : v = v' :=
    eq_of_mem_of_nodup_keys hn (hp.mem_iff.1 (h1.mem_iff.2 (List.mem_cons_self _ _)))
      (h2.mem_iff.2 (List.mem_cons_self _ _))
  subst hv
  exact ⟨rfl, List.Perm.cons_inv ((h1.symm.trans hp).trans h2)⟩

/-- One call on a table with buckets of a lawful collection and on a table
with `std::map` buckets that hold the same entries at the same capacity: either
the former runs out of primes, and then it holds 450009 entries or more, or
both calls return the same observation and leave tables that again hold the
same entries at the same capacity, with at most one entry more. -/
theorem step_sim {ops : Collection K V C I} {Inv : C → Prop}
    {ents : C → List (K × V)} (law : Collection.Lawful ops Inv ents)
    {hasher : K → Nat → Except Failure Nat} (hv : ValidHasher hasher)
    {tn : HashTableNested C} {tm : HashTableChained K V}
    (wfn : WellFormed Inv ents hasher tn) (wfm : HashTableChained.WellFormed hasher tm)
    (hp : List.Perm (entries ents tn) tm.entries) (ha : tn.mAllocated = tm.mAllocated)
    (op : Op K V) :
    ((step ops hasher tn op).1 = .error .needMorePrimes ∧ 450009 ≤ tn.mSize) ∨
    ∃ o, (step ops hasher tn op).1 = .ok o ∧ (HashTableChained.step hasher tm op).1 = .ok o ∧
      WellFormed Inv ents hasher (step ops hasher tn op).2 ∧
      HashTableChained.WellFormed hasher (HashTableChained.step hasher tm op).2 ∧
      List.Perm (entries ents (step ops hasher tn op).2)
        (HashTableChained.step hasher tm op).2.entries ∧
      (step ops hasher tn op).2.mAllocated
        = (HashTableChained.step hasher tm op).2.mAllocated ∧
      (step ops hasher tn op).2.mSize ≤ tn.mSize + 1 := by
  have hfree : tn.mFreeSlots = tm.mFreeSlots := by
    have ok₂ := wfm.slotsOk
    rw [← ha] at ok₂
    exact free_eq_of_perm wfn.slotsOk ok₂ hp
  have hkeys : ∀ k, k ∈ (entries ents tn).map Prod.fst ↔ k ∈ tm.entries.map Prod.fst :=
    fun k => List.Perm.mem_iff (List.Perm.map Prod.fst hp)
  have hle : tn.mSize ≤ tn.mSize + 1 := Nat.le_succ _
  cases op with
  | insert key value =>
    by_cases hm : key ∈ tm.entries.map Prod.fst
    · right
      have h1 := insert_of_mem_nested law hv wfn value ((hkeys key).2 hm)
      have h2 := HashTableChained.insert_of_mem_chained hv wfm value hm
      refine ⟨.inserted false, ?_, ?_, ?_, ?_, ?_, ?_, ?_⟩ <;>
        simp only [step, HashTableChained.step, h1, h2] <;> assumption
    · have hm' : key ∉ (entries ents tn).map Prod.fst := fun h => hm ((hkeys key).1 h)
      rcases insert_of_not_mem_nested law hv wfn value hm' with
        ⟨herr, hbig⟩ | ⟨newAlloc, tn', hg, h1, wfn', hp1, ha1, hs1⟩
      · left
        refine ⟨?_, hbig⟩
        cases hins : insert ops hasher tn key value with
        | mk r t1 =>
          rw [hins] at herr
          simp only at herr
          subst herr
          simp only [step, hins]
      · right
        rw [ha, hfree] at hg
        rcases HashTableChained.insert_of_not_mem_chained hv wfm value hm with
          ⟨hg', _⟩ | ⟨newAlloc', tm', hg', h2, wfm', hp2, ha2, _⟩
        · rw [hg] at hg'; cases hg'
        · rw [hg] at hg'
          cases hg'
          refine ⟨.inserted true, ?_, ?_, ?_, ?_, ?_, ?_, ?_⟩ <;>
            simp only [step, HashTableChained.step, h1, h2]
          · exact wfn'
          · exact wfm'
          · exact hp1.trans ((List.Perm.cons _ hp).trans hp2.symm)
          · rw [ha1, ha2]
          · rw [hs1]
  | set key value =>
    by_cases hm : key ∈ tm.entries.map Prod.fst
    · right
      obtain ⟨v1, r1, tn', h1, wfn', p1, q1, a1, s1⟩ :=
        set_of_mem_nested law hv wfn value ((hkeys key).2 hm)
      obtain ⟨v2, r2, tm', h2, wfm', p2, q2, a2, _⟩ :=
        HashTableChained.set_of_mem_chained hv wfm value hm
      obtain ⟨_, hr⟩ := perm_cons_cancel wfm.slotsOk.nodup hp p1 p2
      refine ⟨.assigned, ?_, ?_, ?_, ?_, ?_, ?_, ?_⟩ <;>
        simp only [step, HashTableChained.step, h1, h2]
      · exact wfn'
      · exact wfm'
      · exact q1.trans ((List.Perm.cons _ hr).trans q2.symm)
      · rw [a1, a2, ha]
      · rw [s1]; exact hle
    · have hm' : key ∉ (entries ents tn).map Prod.fst := fun h => hm ((hkeys key).1 h)
      rcases set_of_not_mem_nested law hv wfn value hm' with
        ⟨herr, hbig⟩ | ⟨newAlloc, tn', hg, h1, wfn', hp1, ha1, hs1⟩
      · left
        refine ⟨?_, hbig⟩
        cases hins : set ops hasher tn key value with
        | mk r t1 =>
          rw [hins] at herr
          simp only at herr
          subst herr
          simp only [step, hins]
      · right
        rw [ha, hfree] at hg
        rcases HashTableChained.set_of_not_mem_chained hv wfm value hm with
          ⟨hg', _⟩ | ⟨newAlloc', tm', hg', h2, wfm', hp2, ha2, _⟩
        · rw [hg] at hg'; cases hg'
        · rw [hg] at hg'
          cases hg'
          refine ⟨.assigned, ?_, ?_, ?_, ?_, ?_, ?_, ?_⟩ <;>
            simp only [step, HashTableChained.step, h1, h2]
          · exact wfn'
          · exact wfm'
          · exact hp1.trans ((List.Perm.cons _ hp).trans hp2.symm)
          · rw [ha1, ha2]
          · rw [hs1]
  | erase key =>
    right
    by_cases hm : key ∈ tm.entries.map Prod.fst
    · obtain ⟨v1, tn', h1, wfn', p1, a1, s1⟩ :=
        erase_of_mem_nested law hv wfn ((hkeys key).2 hm)
      obtain ⟨v2, tm', _, _, h2, wfm', p2, a2, _⟩ :=
        HashTableChained.erase_of_mem_chained hv wfm hm
      obtain ⟨_, hr⟩ := perm_cons_cancel wfm.slotsOk.nodup hp p1 p2
      refine ⟨.erased 1, ?_, ?_, ?_, ?_, ?_, ?_, ?_⟩ <;>
        simp only [step, HashTableChained.step, h1, h2]
      · exact wfn'
      · exact wfm'
      · exact hr
      · rw [a1, a2, ha]
      · omega
    · have hm' : key ∉ (entries ents tn).map Prod.fst := fun h => hm ((hkeys key).1 h)
      have h1 := erase_of_not_mem_nested law hv wfn hm'
      have h2 := HashTableChained.erase_of_not_mem_chained hv wfm hm
      refine ⟨.erased 0, ?_, ?_, ?_, ?_, ?_, ?_, ?_⟩ <;>
        simp only [step, HashTableChained.step, h1, h2] <;> assumption
  | find key =>
    right
    by_cases hm : key ∈ tm.entries.map Prod.fst
    · obtain ⟨h, c, v1, it, _, _, hc, he, _, _, _, hf1, hd1⟩ :=
        find_of_mem_nested law hv wfn ((hkeys key).2 hm)
      obtain ⟨i, b, v2, _, hib, hpos, hb, _, hf2⟩ :=
        HashTableChained.find_of_mem_chained hv wfm hm
      have hd2 := HashTableChained.Iterator.deref_newAt wfm hib hpos
      have hv12 : v1 = v2 :=
        eq_of_mem_of_nodup_keys wfm.slotsOk.nodup (hp.mem_iff.1 (wfn.mem_entries hc he))
          (HashTableChained.mem_flatten_of_getElem? hib hb)
      subst hv12
      refine ⟨.found (some v1), ?_, ?_, ?_, ?_, ?_, ?_, ?_⟩ <;>
        simp only [step, HashTableChained.step, hf1, hf2, hd1, hd2, ne_end_newAt_nested,
          HashTableChained.ne_end_newAt, if_false] <;> assumption
    · have hm' : key ∉ (entries ents tn).map Prod.fst := fun h => hm ((hkeys key).1 h)
      have hf1 := find_of_not_mem_nested law hv wfn hm'
      have hf2 := HashTableChained.find_of_not_mem_chained hv wfm hm
      refine ⟨.found none, ?_, ?_, ?_, ?_, ?_, ?_, ?_⟩ <;>
        simp only [step, HashTableChained.step, hf1, hf2, if_true] <;> assumption
  | size =>
    right
    have hs : tn.size = tm.size := by
      simp only [size, HashTableChained.size]
      rw [wfn.size, wfm.size, hp.length_eq]
    refine ⟨.size tm.size, ?_, ?_, ?_, ?_, ?_, ?_, ?_⟩ <;>
      simp only [step, HashTableChained.step, hs] <;> assumption
  | iterate =>
    right
    have h1 := iterate_spec_nested law wfn
    have h2 := HashTableChained.iterate_spec_chained wfm
    refine ⟨.iterated tm.entries.length, ?_, ?_, ?_, ?_, ?_, ?_, ?_⟩ <;>
      simp only [step, HashTableChained.step, h1, h2, hp.length_eq] <;> assumption

/-- A sequence of calls on two such tables: either the table with buckets of
the lawful collection runs out of primes, which takes 450009 entries or more,
or both sequences return the same observations. -/
theorem run_sim {ops : Collection K V C I} {Inv : C → Prop}
    {ents : C → List (K × V)} (law : Collection.Lawful ops Inv ents)
    {hasher : K → Nat → Except Failure Nat} (hv : ValidHasher hasher) :
    ∀ (l : List (Op K V)) (tn : HashTableNested C) (tm : HashTableChained K V),
      WellFormed Inv ents hasher tn → HashTableChained.WellFormed hasher tm →
      List.Perm (entries ents tn) tm.entries → tn.mAllocated = tm.mAllocated →
      ((run (step ops hasher) tn l).1 = .error .needMorePrimes ∧
        450009 ≤ tn.mSize + l.length) ∨
      ∃ os, (run (step ops hasher) tn l).1 = .ok os ∧
        (run (HashTableChained.step hasher) tm l).1 = .ok os := by
  intro l
  induction l with
  | nil =>
    intro tn tm _ _ _ _
    exact Or.inr ⟨[], rfl, rfl⟩
  | cons op rest ih =>
    intro tn tm wfn wfm hp ha
    rcases step_sim law hv wfn wfm hp ha op with
      ⟨herr, hbig⟩ | ⟨o, h1, h2, wfn', wfm', hp', ha', hs'⟩
    · left
      refine ⟨?_, by omega⟩
      cases hs : step ops hasher tn op with
      | mk r t1 =>
        rw [hs] at herr
        simp only at herr
        subst herr
        simp only [run, hs]
    · cases hs1 : step ops hasher tn op with
      | mk r1 t1 =>
        cases hs2 : HashTableChained.step hasher tm op with
        | mk r2 t2 =>
          rw [hs1] at h1 wfn' hp' ha' hs'
          rw [hs2] at h2 wfm' hp' ha'
          simp only at h1 h2 wfn' wfm' hp' ha' hs'
          subst h1
          subst h2
          rcases ih t1 t2 wfn' wfm' hp' ha' with ⟨herr, hbig⟩ | ⟨os, q1, q2⟩
          · left
            refine ⟨?_, by simp only [List.length_cons]; omega⟩
            cases hr : run (step ops hasher) t1 rest with
            | mk r t3 =>
              rw [hr] at herr
              simp only at herr
              subst herr
              simp only [run, hs1, hr]
          · right
            cases hr1 : run (step ops hasher) t1 rest with
            | mk r3 t3 =>
              cases hr2 : run (HashTableChained.step hasher) t2 rest with
              | mk r4 t4 =>
                rw [hr1] at q1
                rw [hr2] at q2
                simp only at q1 q2
                subst q1
                subst q2
                exact ⟨o :: os, by simp only [run, hs1, hr1], by simp only [run, hs2, hr2]⟩

end HashTableNested

/-! ## The claims -/

namespace Claims


theorem validHasher_hasherInt : ValidHasher hasherInt := by
  intro key size hs
  refine ⟨(key % 2 ^ 32).toNat % size, ?_, Nat.mod_lt _ hs⟩
  simp [hasherInt, Nat.pos_iff_ne_zero.1 hs]

theorem reachable_probedEmpty : HashTableProbed.Reachable hasherInt probedEmpty :=
  HashTableProbed.Reachable.new 0 _ (by rfl)

theorem reachable_probedThree : HashTableProbed.Reachable hasherInt probedThree := by
  have h := HashTableProbed.Reachable.insert _ 10 100
    (HashTableProbed.Reachable.insert _ 5 50
      (HashTableProbed.Reachable.insert _ 0 0 reachable_probedEmpty))
  have e : (HashTableProbed.insert hasherInt (HashTableProbed.insert hasherInt
      (HashTableProbed.insert hasherInt probedEmpty 0 0).2 5 50).2 10 100).2 = probedThree := by
    rfl
  rw [e] at h
  exact h

theorem reachable_chainedEmpty : HashTableChained.Reachable hasherInt chainedEmpty :=
  HashTableChained.Reachable.new 0 _ (by rfl)

theorem reachable_chainedThree : HashTableChained.Reachable hasherInt chainedThree := by
  have h := HashTableChained.Reachable.insert _ 1 10
    (HashTableChained.Reachable.insert _ 5 50
      (HashTableChained.Reachable.insert _ 0 0 reachable_chainedEmpty))
  have e : (HashTableChained.insert hasherInt (HashTableChained.insert hasherInt
      (HashTableChained.insert hasherInt chainedEmpty 0 0).2 5 50).2 1 10).2 = chainedThree := by
    rfl
  rw [e] at h
  exact h

/-- C1. ProbedTable round trip: in a table reachable from construction by
insert/set/erase, when `find(k)` misses and `insert(k, v)` returns true, the
`find(k)` that follows hits and yields `(k, v)`; this covers the inserts that
rehash first as well as those that do not. -/
theorem probed_insert_then_find {K V : Type} [DecidableEq K]
    {hasher : K → Nat → Except Failure Nat} (hv : ValidHasher hasher)
    {t t' : HashTableProbed K V} (hr : HashTableProbed.Reachable hasher t) (k : K) (v : V)
    (habs : HashTableProbed.find hasher t k = .ok t.end)
    (hins : HashTableProbed.insert hasher t k v = (.ok true, t')) :
    ∃ it, HashTableProbed.find hasher t' k = .ok it ∧ it ≠ t'.end ∧
      HashTableProbed.Iterator.deref t' it = .ok (k, v) := by
  have wf := hr.wellFormed hv
  have hm := (HashTableProbed.find_eq_end_iff hv wf k).1 habs
  rcases HashTableProbed.insert_of_not_mem hv wf v hm with ⟨_, hi⟩ | ⟨_, t'', _, hi, wf', hp, _⟩
  · rw [hi] at hins; cases hins
  · rw [hi] at hins
    have : t'' = t' := (Prod.mk.inj hins).2
    subst this
    exact (HashTableProbed.find_yields_iff hv wf' k v).2 (hp.mem_iff.2 (List.mem_cons_self _ _))

/-- Witness of C1: `insert(7, 70)` into the full-cycle example `probedThree`
with two free slots left. -/
theorem probed_insert_then_find_witness :
    HashTableProbed.find hasherInt probedThree 7 = .ok probedThree.end ∧
    (HashTableProbed.insert hasherInt probedThree 7 70).1 = .ok true ∧
    ∃ it, HashTableProbed.find hasherInt (HashTableProbed.insert hasherInt probedThree 7 70).2 7
        = .ok it ∧
      it ≠ (HashTableProbed.insert hasherInt probedThree 7 70).2.end ∧
      HashTableProbed.Iterator.deref (HashTableProbed.insert hasherInt probedThree 7 70).2 it
        = .ok (7, 70) :=
  ⟨by decide, by decide,
    probed_insert_then_find validHasher_hasherInt reachable_probedThree 7 70 (by decide)
      (by rfl)⟩

/-- C2 (amended). ChainedTable round trip: in a table reachable from
construction by insert/set/erase, when `find(k)` misses, `insert(k, v)` either
throws "Need more primes" out of the growth check and leaves the table as it
was, or returns true, and then the `find(k)` that follows hits and yields
`(k, v)`; this covers the inserts that rehash first as well as those that do
not. -/
theorem chained_insert_then_find {K V : Type} [LinearOrder K]
    {hasher : K → Nat → Except Failure Nat} (hv : ValidHasher hasher)
    {t : HashTableChained K V} (hr : HashTableChained.Reachable hasher t) (k : K) (v : V)
    (habs : HashTableChained.find hasher t k = .ok t.end) :
    (getNewSize t.mAllocated t.mFreeSlots = .error .needMorePrimes ∧
      HashTableChained.insert hasher t k v = (.error .needMorePrimes, t)) ∨
    (∃ t', HashTableChained.insert hasher t k v = (.ok true, t') ∧
      ∃ it, HashTableChained.find hasher t' k = .ok it ∧ it ≠ t'.end ∧
        HashTableChained.Iterator.deref t' it = .ok (k, v)) := by
  have wf := hr.wellFormed_chained hv
  have hm := (HashTableChained.find_eq_end_iff_chained hv wf k).1 habs
  rcases HashTableChained.insert_of_not_mem_chained hv wf v hm with h | ⟨_, t', _, hi, wf', hp, _⟩
  · exact Or.inl h
  · exact Or.inr ⟨t', hi,
      (HashTableChained.find_yields_iff_chained hv wf' k v).2 (hp.mem_iff.2 (List.mem_cons_self _ _))⟩

/-- Witness of C2 (amended): `insert(6, 60)` into `chainedThree`. -/
theorem chained_insert_then_find_witness :
    HashTableChained.find hasherInt chainedThree 6 = .ok chainedThree.end ∧
    ((getNewSize chainedThree.mAllocated chainedThree.mFreeSlots = .error .needMorePrimes ∧
      HashTableChained.insert hasherInt chainedThree 6 60 =
        (.error .needMorePrimes, chainedThree)) ∨
    (∃ t', HashTableChained.insert hasherInt chainedThree 6 60 = (.ok true, t') ∧
      ∃ it, HashTableChained.find hasherInt t' 6 = .ok it ∧ it ≠ t'.end ∧
        HashTableChained.Iterator.deref t' it = .ok (6, 60))) :=
  ⟨by decide,
    chained_insert_then_find validHasher_hasherInt reachable_chainedThree 6 60 (by decide)⟩

/-- C3. Duplicate insert is a no-op, for both table variants: in a reachable
table, when `find(k)` hits, `insert(k, v')` returns false and leaves the whole
table as it was (slot array, capacity, freeSlots and size), so that no growth
or rehash has happened and `find(k)` returns what it returned before. -/
theorem insert_duplicate_noop (K₁ V₁ : Type) [DecidableEq K₁] (K₂ V₂ : Type) [LinearOrder K₂]
    {hasher₁ : K₁ → Nat → Except Failure Nat} {hasher₂ : K₂ → Nat → Except Failure Nat}
    (hv₁ : ValidHasher hasher₁) (hv₂ : ValidHasher hasher₂) :
    (∀ (t : HashTableProbed K₁ V₁) (k : K₁) (v' : V₁) (it : HashTableProbed.Iterator),
      HashTableProbed.Reachable hasher₁ t → HashTableProbed.find hasher₁ t k = .ok it →
      it ≠ t.end → HashTableProbed.insert hasher₁ t k v' = (.ok false, t)) ∧
    (∀ (t : HashTableChained K₂ V₂) (k : K₂) (v' : V₂) (it : HashTableChained.Iterator),
      HashTableChained.Reachable hasher₂ t → HashTableChained.find hasher₂ t k = .ok it →
      it ≠ t.end → HashTableChained.insert hasher₂ t k v' = (.ok false, t)) := by
  constructor
  · intro t k v' it hr hf hne
    have wf := hr.wellFormed hv₁
    exact HashTableProbed.insert_of_mem hv₁ wf v'
      (HashTableProbed.mem_keys_of_find_ne_end hv₁ wf hf hne)
  · intro t k v' it hr hf hne
    have wf := hr.wellFormed_chained hv₂
    exact HashTableChained.insert_of_mem_chained hv₂ wf v'
      (HashTableChained.mem_keys_of_find_ne_end_chained hv₂ wf hf hne)

/-- Witness of C3: `insert(5, 99)` into `probedThree` and into `chainedThree`,
which both hold the key 5. -/
theorem insert_duplicate_noop_witness :
    HashTableProbed.insert hasherInt probedThree 5 99 = (.ok false, probedThree) ∧
    HashTableChained.insert hasherInt chainedThree 5 99 = (.ok false, chainedThree) :=
  ⟨(insert_duplicate_noop Int Int Int Int validHasher_hasherInt validHasher_hasherInt).1 probedThree 5 99
      { mIndex := 2 } reachable_probedThree (by decide) (by decide),
    (insert_duplicate_noop Int Int Int Int validHasher_hasherInt validHasher_hasherInt).2 chainedThree 5 99
      { mIndex := 0, mIterator := some 1 } reachable_chainedThree (by decide) (by decide)⟩

/-- C4. ProbedTable erase: in a reachable table, when `find(k)` hits,
`erase(k)` returns 1, size goes down by 1, freeSlots goes up by 1, `find(k)`
is `end()` afterwards and a second `erase(k)` returns 0; when `find(k)` misses,
`erase(k)` returns 0 and leaves the table as it was. -/
theorem probed_erase {K V : Type} [DecidableEq K]
    {hasher : K → Nat → Except Failure Nat} (hv : ValidHasher hasher)
    {t : HashTableProbed K V} (hr : HashTableProbed.Reachable hasher t) (k : K) :
    (∀ it, HashTableProbed.find hasher t k = .ok it → it ≠ t.end →
      ∃ t', HashTableProbed.erase hasher t k = (.ok 1, t') ∧ t'.size + 1 = t.size ∧
        t'.mFreeSlots = t.mFreeSlots + 1 ∧ HashTableProbed.find hasher t' k = .ok t'.end ∧
        HashTableProbed.erase hasher t' k = (.ok 0, t')) ∧
    (HashTableProbed.find hasher t k = .ok t.end →
      HashTableProbed.erase hasher t k = (.ok 0, t)) := by
  have wf := hr.wellFormed hv
  constructor
  · intro it hf hne
    have hm := HashTableProbed.mem_keys_of_find_ne_end hv wf hf hne
    obtain ⟨v, t', he, wf', hp, _, hs, hfree⟩ := HashTableProbed.erase_of_mem hv wf hm
    have hnot : k ∉ t'.entries.map Prod.fst := by
      have := (List.Perm.nodup_iff (List.Perm.map Prod.fst hp)).1 wf.nodup
      simp only [List.map_cons, List.nodup_cons] at this
      exact this.1
    exact ⟨t', he, hs, hfree, HashTableProbed.find_of_not_mem hv wf' hnot,
      HashTableProbed.erase_of_not_mem hv wf' hnot⟩
  · intro hf
    exact HashTableProbed.erase_of_not_mem hv wf ((HashTableProbed.find_eq_end_iff hv wf k).1 hf)

/-- Witness of C4: `erase(5)` and `erase(6)` on `probedThree`. -/
theorem probed_erase_witness :
    (∃ t', HashTableProbed.erase hasherInt probedThree 5 = (.ok 1, t') ∧
        t'.size + 1 = probedThree.size ∧ t'.mFreeSlots = probedThree.mFreeSlots + 1 ∧
        HashTableProbed.find hasherInt t' 5 = .ok t'.end ∧
        HashTableProbed.erase hasherInt t' 5 = (.ok 0, t')) ∧
    HashTableProbed.erase hasherInt probedThree 6 = (.ok 0, probedThree) :=
  ⟨(probed_erase validHasher_hasherInt reachable_probedThree 5).1 { mIndex := 2 }
      (by decide) (by decide),
    (probed_erase validHasher_hasherInt reachable_probedThree 6).2 (by decide)⟩

/-- C5. ChainedTable erase: in a reachable table, when `find(k)` hits,
`erase(k)` returns 1, size goes down by 1 and `find(k)` is `end()` afterwards;
with `b` the collection of the bucket of `k` before the call, freeSlots goes
up by 1 and the bucket becomes absent when `k` was the only entry of `b`, and
otherwise freeSlots stays and the bucket stays present.  When `find(k)`
misses, `erase(k)` returns 0 and leaves the table as it was. -/
theorem chained_erase {K V : Type} [LinearOrder K]
    {hasher : K → Nat → Except Failure Nat} (hv : ValidHasher hasher)
    {t : HashTableChained K V} (hr : HashTableChained.Reachable hasher t) (k : K) :
    (∀ it, HashTableChained.find hasher t k = .ok it → it ≠ t.end →
      ∃ t' i b, HashTableChained.erase hasher t k = (.ok 1, t') ∧ t'.size + 1 = t.size ∧
        HashTableChained.find hasher t' k = .ok t'.end ∧
        HashTableChained.hash hasher k t.mAllocated = .ok i ∧
        t.getCollection i = .ok (some b) ∧
        ((b.length = 1 ∧ t'.mFreeSlots = t.mFreeSlots + 1 ∧ t'.getCollection i = .ok none) ∨
         (b.length ≠ 1 ∧ t'.mFreeSlots = t.mFreeSlots ∧
           ∃ b', t'.getCollection i = .ok (some b')))) ∧
    (HashTableChained.find hasher t k = .ok t.end →
      HashTableChained.erase hasher t k = (.ok 0, t)) := by
  have wf := hr.wellFormed_chained hv
  constructor
  · intro it hf hne
    have hm := HashTableChained.mem_keys_of_find_ne_end_chained hv wf hf hne
    obtain ⟨v, t', i, b, he, wf', hp, _, hs, hh, hcell, _, hcases⟩ :=
      HashTableChained.erase_of_mem_chained hv wf hm
    have hnot : k ∉ t'.entries.map Prod.fst := by
      have := (List.Perm.nodup_iff (List.Perm.map Prod.fst hp)).1 wf.slotsOk.nodup
      simp only [List.map_cons, List.nodup_cons] at this
      exact this.1
    refine ⟨t', i, b, he, hs, HashTableChained.find_of_not_mem_chained hv wf' hnot, hh, ?_, ?_⟩
    · simp only [HashTableChained.getCollection, wf.array, readSlot_some hcell]
    · rcases hcases with ⟨h1, h2, h3⟩ | ⟨h1, h2, h3⟩
      · exact Or.inl ⟨h1, h2, by
          simp only [HashTableChained.getCollection, wf'.array, readSlot_some h3]⟩
      · exact Or.inr ⟨h1, h2, (StdMap.erase b k).2, by
          simp only [HashTableChained.getCollection, wf'.array, readSlot_some h3]⟩
  · intro hf
    exact HashTableChained.erase_of_not_mem_chained hv wf
      ((HashTableChained.find_eq_end_iff_chained hv wf k).1 hf)

/-- Witness of C5: `erase(5)` (a bucket with two entries) and `erase(6)` on
`chainedThree`. -/
theorem chained_erase_witness :
    (∃ t' i b, HashTableChained.erase hasherInt chainedThree 5 = (.ok 1, t') ∧
        t'.size + 1 = chainedThree.size ∧
        HashTableChained.find hasherInt t' 5 = .ok t'.end ∧
        HashTableChained.hash hasherInt 5 chainedThree.mAllocated = .ok i ∧
        chainedThree.getCollection i = .ok (some b) ∧
        ((b.length = 1 ∧ t'.mFreeSlots = chainedThree.mFreeSlots + 1 ∧
            t'.getCollection i = .ok none) ∨
         (b.length ≠ 1 ∧ t'.mFreeSlots = chainedThree.mFreeSlots ∧
           ∃ b', t'.getCollection i = .ok (some b')))) ∧
    HashTableChained.erase hasherInt chainedThree 6 = (.ok 0, chainedThree) :=
  ⟨(chained_erase validHasher_hasherInt reachable_chainedThree 5).1
      { mIndex := 0, mIterator := some 1 } (by decide) (by decide),
    (chained_erase validHasher_hasherInt reachable_chainedThree 6).2 (by decide)⟩

/-- C6. ProbedTable erase does not hide other keys: in a reachable table, for
keys `k ≠ k'`, when `find(k')` hits and yields `v'`, it still does so after
`erase(k)`, wherever the slot of `k` lies on the probe sequence of `k'`. -/
theorem probed_erase_keeps_others {K V : Type} [DecidableEq K]
    {hasher : K → Nat → Except Failure Nat} (hv : ValidHasher hasher)
    {t : HashTableProbed K V} (hr : HashTableProbed.Reachable hasher t) (k k' : K) (v' : V)
    (hne : k ≠ k')
    (hfind : ∃ it, HashTableProbed.find hasher t k' = .ok it ∧ it ≠ t.end ∧
      HashTableProbed.Iterator.deref t it = .ok (k', v')) :
    ∃ it, HashTableProbed.find hasher (HashTableProbed.erase hasher t k).2 k' = .ok it ∧
      it ≠ (HashTableProbed.erase hasher t k).2.end ∧
      HashTableProbed.Iterator.deref (HashTableProbed.erase hasher t k).2 it = .ok (k', v') := by
  have wf := hr.wellFormed hv
  have hm := (HashTableProbed.find_yields_iff hv wf k' v').1 hfind
  by_cases hk : k ∈ t.entries.map Prod.fst
  · obtain ⟨v, t', he, wf', hp, _⟩ := HashTableProbed.erase_of_mem hv wf hk
    rw [he]
    refine (HashTableProbed.find_yields_iff hv wf' k' v').2 ?_
    rcases List.mem_cons.1 (hp.mem_iff.1 hm) with heq | hmem
    · exact absurd (Prod.mk.inj heq).1.symm hne
    · exact hmem
  · rw [HashTableProbed.erase_of_not_mem hv wf hk]
    exact hfind

/-- Witness of C6: in `probedThree` the key 0 sits in the home bucket of the
key 10, two probes before it; `find(10)` still yields 100 after `erase(0)`. -/
theorem probed_erase_keeps_others_witness :
    (HashTableProbed.erase hasherInt probedThree 0).1 = .ok 1 ∧
    ∃ it, HashTableProbed.find hasherInt (HashTableProbed.erase hasherInt probedThree 0).2 10
        = .ok it ∧
      it ≠ (HashTableProbed.erase hasherInt probedThree 0).2.end ∧
      HashTableProbed.Iterator.deref (HashTableProbed.erase hasherInt probedThree 0).2 it
        = .ok (10, 100) :=
  ⟨by decide,
    probed_erase_keeps_others validHasher_hasherInt reachable_probedThree 0 10 100 (by decide)
      ⟨{ mIndex := 4 }, by decide, by decide, by decide⟩⟩

/-- C7. `set` is an upsert that cannot fail with "Failed to insert", for both
table variants: on a reachable table `set(k, v)` never throws "Failed to
insert"; it either completes, or `k` was absent and the growth check of the
inner `insert` threw "Need more primes" (capacity exhaustion).  When it
completes, `find(k)` afterwards hits and yields `v`, and size has gone up by
exactly 1 if `find(k)` missed before and is unchanged if it hit. -/
theorem set_upsert (K₁ V₁ : Type) [DecidableEq K₁] (K₂ V₂ : Type) [LinearOrder K₂]
    {hasher₁ : K₁ → Nat → Except Failure Nat} {hasher₂ : K₂ → Nat → Except Failure Nat}
    (hv₁ : ValidHasher hasher₁) (hv₂ : ValidHasher hasher₂) :
    (∀ (t : HashTableProbed K₁ V₁) (k : K₁) (v : V₁), HashTableProbed.Reachable hasher₁ t →
      (HashTableProbed.set hasher₁ t k v).1 ≠ .error .failedToInsert ∧
      ((HashTableProbed.set hasher₁ t k v).1 = .ok () ∨
        ((HashTableProbed.set hasher₁ t k v).1 = .error .needMorePrimes ∧
          HashTableProbed.find hasher₁ t k = .ok t.end ∧
          getNewSize t.mAllocated t.mFreeSlots = .error .needMorePrimes)) ∧
      ((HashTableProbed.set hasher₁ t k v).1 = .ok () →
        (∃ it, HashTableProbed.find hasher₁ (HashTableProbed.set hasher₁ t k v).2 k = .ok it ∧
          it ≠ (HashTableProbed.set hasher₁ t k v).2.end ∧
          HashTableProbed.Iterator.deref (HashTableProbed.set hasher₁ t k v).2 it = .ok (k, v)) ∧
        (HashTableProbed.find hasher₁ t k = .ok t.end →
          (HashTableProbed.set hasher₁ t k v).2.size = t.size + 1) ∧
        (HashTableProbed.find hasher₁ t k ≠ .ok t.end →
          (HashTableProbed.set hasher₁ t k v).2.size = t.size))) ∧
    (∀ (t : HashTableChained K₂ V₂) (k : K₂) (v : V₂), HashTableChained.Reachable hasher₂ t →
      (HashTableChained.set hasher₂ t k v).1 ≠ .error .failedToInsert ∧
      ((HashTableChained.set hasher₂ t k v).1 = .ok () ∨
        ((HashTableChained.set hasher₂ t k v).1 = .error .needMorePrimes ∧
          HashTableChained.find hasher₂ t k = .ok t.end ∧
          getNewSize t.mAllocated t.mFreeSlots = .error .needMorePrimes)) ∧
      ((HashTableChained.set hasher₂ t k v).1 = .ok () →
        (∃ it, HashTableChained.find hasher₂ (HashTableChained.set hasher₂ t k v).2 k = .ok it ∧
          it ≠ (HashTableChained.set hasher₂ t k v).2.end ∧
          HashTableChained.Iterator.deref (HashTableChained.set hasher₂ t k v).2 it
            = .ok (k, v)) ∧
        (HashTableChained.find hasher₂ t k = .ok t.end →
          (HashTableChained.set hasher₂ t k v).2.size = t.size + 1) ∧
        (HashTableChained.find hasher₂ t k ≠ .ok t.end →
          (HashTableChained.set hasher₂ t k v).2.size = t.size))) := by
  constructor
  · intro t k v hr
    have wf := hr.wellFormed hv₁
    by_cases hm : k ∈ t.entries.map Prod.fst
    · obtain ⟨v0, r, t', hs, wf', _, hp', _, hsz, _⟩ := HashTableProbed.set_of_mem hv₁ wf v hm
      have hfn : HashTableProbed.find hasher₁ t k ≠ .ok t.end :=
        fun h => (HashTableProbed.find_eq_end_iff hv₁ wf k).1 h hm
      rw [hs]
      refine ⟨by simp, Or.inl rfl, fun _ => ⟨?_, fun h => absurd h hfn, fun _ => hsz⟩⟩
      exact (HashTableProbed.find_yields_iff hv₁ wf' k v).2
        (hp'.mem_iff.2 (List.mem_cons_self _ _))
    · have hf := HashTableProbed.find_of_not_mem hv₁ wf hm
      rcases HashTableProbed.set_of_not_mem hv₁ wf v hm with ⟨hg, hs⟩ |
        ⟨_, t', _, hs, wf', hp', _, _, hsz⟩
      · rw [hs]
        exact ⟨by simp, Or.inr ⟨rfl, hf, hg⟩, fun h => by cases h⟩
      · rw [hs]
        refine ⟨by simp, Or.inl rfl, fun _ => ⟨?_, fun _ => hsz, fun h => absurd hf h⟩⟩
        exact (HashTableProbed.find_yields_iff hv₁ wf' k v).2
          (hp'.mem_iff.2 (List.mem_cons_self _ _))
  · intro t k v hr
    have wf := hr.wellFormed_chained hv₂
    by_cases hm : k ∈ t.entries.map Prod.fst
    · obtain ⟨v0, r, t', hs, wf', _, hp', _, hsz, _⟩ := HashTableChained.set_of_mem_chained hv₂ wf v hm
      have hfn : HashTableChained.find hasher₂ t k ≠ .ok t.end :=
        fun h => (HashTableChained.find_eq_end_iff_chained hv₂ wf k).1 h hm
      rw [hs]
      refine ⟨by simp, Or.inl rfl, fun _ => ⟨?_, fun h => absurd h hfn, fun _ => hsz⟩⟩
      exact (HashTableChained.find_yields_iff_chained hv₂ wf' k v).2
        (hp'.mem_iff.2 (List.mem_cons_self _ _))
    · have hf := HashTableChained.find_of_not_mem_chained hv₂ wf hm
      rcases HashTableChained.set_of_not_mem_chained hv₂ wf v hm with ⟨hg, hs⟩ |
        ⟨_, t', _, hs, wf', hp', _, _, hsz⟩
      · rw [hs]
        exact ⟨by simp, Or.inr ⟨rfl, hf, hg⟩, fun h => by cases h⟩
      · rw [hs]
        refine ⟨by simp, Or.inl rfl, fun _ => ⟨?_, fun _ => hsz, fun h => absurd hf h⟩⟩
        exact (HashTableChained.find_yields_iff_chained hv₂ wf' k v).2
          (hp'.mem_iff.2 (List.mem_cons_self _ _))

/-- Witness of C7: `set(5, 77)` (stored key) on `probedThree` and `set(6, 66)`
(new key) on `chainedThree` complete. -/
theorem set_upsert_witness :
    (HashTableProbed.set hasherInt probedThree 5 77).1 = .ok () ∧
    (HashTableProbed.set hasherInt probedThree 5 77).2.size = probedThree.size ∧
    (HashTableChained.set hasherInt chainedThree 6 66).1 = .ok () ∧
    (HashTableChained.set hasherInt chainedThree 6 66).2.size = chainedThree.size + 1 :=
  ⟨by decide,
    (((set_upsert Int Int Int Int validHasher_hasherInt validHasher_hasherInt).1
      probedThree 5 77 reachable_probedThree).2.2 (by decide)).2.2 (by decide),
    by decide,
    (((set_upsert Int Int Int Int validHasher_hasherInt validHasher_hasherInt).2
      chainedThree 6 66 reachable_chainedThree).2.2 (by decide)).2.1 (by decide)⟩


/-- C9. ProbedTable iteration: on a reachable table, forward iteration from
`begin()` to `end()` terminates and yields the contents of the occupied slots
below the capacity, each once, in ascending slot order; these are `size()`
elements.  `begin()` stands at the first occupied slot, or is `end()` when
there is none, as on an empty table; `end()` has index `capacity`. -/
theorem probed_iteration {K V : Type} [DecidableEq K]
    {hasher : K → Nat → Except Failure Nat} (hv : ValidHasher hasher)
    {t : HashTableProbed K V} (hr : HashTableProbed.Reachable hasher t) :
    t.iterate = .ok (t.slots.take t.getAllocated).reduceOption ∧
    (t.slots.take t.getAllocated).reduceOption.length = t.size ∧
    (∃ i, t.begin = .ok { mIndex := i } ∧
      (∀ j, j < i → t.getElement j = .ok none) ∧
      (i = t.getAllocated ∨ (i < t.getAllocated ∧ ∃ e, t.getElement i = .ok (some e)))) ∧
    (t.size = 0 → t.begin = .ok t.end) ∧
    t.end.mIndex = t.getAllocated := by
  have wf := hr.wellFormed hv
  obtain ⟨i, hb, hi, hnone, hocc⟩ := HashTableProbed.begin_spec wf
  have hread : ∀ {j : Nat} {x : Option (K × V)}, t.slots[j]? = some x →
      t.getElement j = .ok x := by
    intro j x hx
    simp only [HashTableProbed.getElement, wf.array, readSlot_some hx]
  refine ⟨?_, ?_, ⟨i, hb, fun j hj => hread (hnone j hj), ?_⟩, ?_, rfl⟩
  · rw [HashTableProbed.getAllocated, wf.take_entries]
    exact HashTableProbed.iterate_spec wf
  · rw [HashTableProbed.getAllocated, wf.take_entries]
    exact wf.size.symm
  · rcases Nat.eq_or_lt_of_le hi with h | h
    · exact Or.inl h
    · obtain ⟨e, he⟩ := hocc h
      exact Or.inr ⟨h, e, hread he⟩
  · intro hs
    rcases Nat.eq_or_lt_of_le hi with h | h
    · rw [hb, h]; rfl
    · obtain ⟨e, he⟩ := hocc h
      have hmem : e ∈ t.entries := mem_reduceOption_of_getElem? he
      have hlen := wf.size
      rw [HashTableProbed.size] at hs
      rw [hs] at hlen
      rw [List.length_eq_zero.1 hlen.symm] at hmem
      cases hmem

/-- Witness of C9: iteration over `probedThree`. -/
theorem probed_iteration_witness :
    probedThree.iterate = .ok [(0, 0), (5, 50), (10, 100)] ∧
    probedThree.iterate = .ok (probedThree.slots.take probedThree.getAllocated).reduceOption :=
  ⟨by decide, (probed_iteration validHasher_hasherInt reachable_probedThree).1⟩


/-- C10. ChainedTable iteration: on a reachable table, forward iteration from
`begin()` to `end()` terminates and yields the entries of the buckets that are
present, bucket after bucket in ascending slot order and every entry of a
bucket once; these are `size()` elements.  On a freshly constructed table
`begin()` is `end()` and no element is yielded. -/
theorem chained_iteration {K V : Type} [LinearOrder K]
    {hasher : K → Nat → Except Failure Nat} (hv : ValidHasher hasher)
    {t : HashTableChained K V} (hr : HashTableChained.Reachable hasher t) :
    t.iterate = .ok (t.slots.take t.getAllocated).reduceOption.flatten ∧
    (t.slots.take t.getAllocated).reduceOption.flatten.length = t.size ∧
    (∀ (initialSize : Nat) (t₀ : HashTableChained K V),
      HashTableChained.new initialSize = .ok t₀ →
        t₀.begin = .ok t₀.end ∧ t₀.iterate = .ok []) := by
  have wf := hr.wellFormed_chained hv
  refine ⟨?_, ?_, ?_⟩
  · rw [HashTableChained.getAllocated, wf.take_buckets]
    exact HashTableChained.iterate_spec_chained wf
  · rw [HashTableChained.getAllocated, wf.take_buckets]
    exact wf.size.symm
  · intro n t₀ h₀
    obtain ⟨wf₀, he, _⟩ := HashTableChained.new_spec_chained hasher h₀
    refine ⟨HashTableChained.begin_of_entries_nil wf₀ he, ?_⟩
    rw [HashTableChained.iterate_spec_chained wf₀, he]

/-- Witness of C10: iteration over `chainedThree`. -/
theorem chained_iteration_witness :
    chainedThree.iterate = .ok [(0, 0), (5, 50), (1, 10)] ∧
    chainedThree.iterate =
      .ok (chainedThree.slots.take chainedThree.getAllocated).reduceOption.flatten :=
  ⟨by decide, (chained_iteration validHasher_hasherInt reachable_chainedThree).1⟩


/-- C8. For both table variants: starting from a freshly constructed table
(any capacity hint for which construction succeeds), when a sequence of
`insert` calls completes without an exception, `size()` at the end is the
number of calls that returned true, and that is the number of distinct keys in
the sequence. -/
theorem insert_sequence_size (K₁ V₁ : Type) [DecidableEq K₁] (K₂ V₂ : Type) [LinearOrder K₂]
    {hasher₁ : K₁ → Nat → Except Failure Nat} {hasher₂ : K₂ → Nat → Except Failure Nat}
    (hv₁ : ValidHasher hasher₁) (hv₂ : ValidHasher hasher₂) :
    (∀ (initialSize : Nat) (t₀ t : HashTableProbed K₁ V₁) (kvs : List (K₁ × V₁))
        (bs : List Bool),
      HashTableProbed.new initialSize = .ok t₀ →
      HashTableProbed.insertAll hasher₁ t₀ kvs = (.ok bs, t) →
      t.size = bs.count true ∧ bs.count true = (kvs.map Prod.fst).dedup.length) ∧
    (∀ (initialSize : Nat) (t₀ t : HashTableChained K₂ V₂) (kvs : List (K₂ × V₂))
        (bs : List Bool),
      HashTableChained.new initialSize = .ok t₀ →
      HashTableChained.insertAll hasher₂ t₀ kvs = (.ok bs, t) →
      t.size = bs.count true ∧ bs.count true = (kvs.map Prod.fst).dedup.length) := by
  constructor
  · intro n t₀ t kvs bs h₀ h
    obtain ⟨wf₀, he, hs, _⟩ := HashTableProbed.new_spec h₀
    exact HashTableProbed.insertAll_size hv₁ wf₀ he hs h
  · intro n t₀ t kvs bs h₀ h
    obtain ⟨wf₀, he, hs, _⟩ := HashTableChained.new_spec_chained hasher₂ h₀
    exact HashTableChained.insertAll_size_chained hv₂ wf₀ he hs h

/-- Witness of C8: the keys 0, 5, 0, 1, 5, 2, 3, 4 (six distinct ones, the
sixth insert grows the table) inserted into `ht(0)` of either variant. -/
theorem insert_sequence_size_witness :
    (HashTableProbed.insertAll hasherInt probedEmpty
        [(0, 0), (5, 50), (0, 1), (1, 10), (5, 51), (2, 20), (3, 30), (4, 40)]).1
      = .ok [true, true, false, true, false, true, true, true] ∧
    (HashTableProbed.insertAll hasherInt probedEmpty
        [(0, 0), (5, 50), (0, 1), (1, 10), (5, 51), (2, 20), (3, 30), (4, 40)]).2.size = 6 ∧
    (HashTableChained.insertAll hasherInt chainedEmpty
        [(0, 0), (5, 50), (0, 1), (1, 10), (5, 51), (2, 20), (3, 30), (4, 40)]).2.size = 6 :=
  ⟨by decide,
    ((insert_sequence_size Int Int Int Int validHasher_hasherInt validHasher_hasherInt).1 0
      probedEmpty _ [(0, 0), (5, 50), (0, 1), (1, 10), (5, 51), (2, 20), (3, 30), (4, 40)]
      [true, true, false, true, false, true, true, true] (by rfl) (by rfl)).1,
    ((insert_sequence_size Int Int Int Int validHasher_hasherInt validHasher_hasherInt).2 0
      chainedEmpty _ [(0, 0), (5, 50), (0, 1), (1, 10), (5, 51), (2, 20), (3, 30), (4, 40)]
      [true, true, false, true, false, true, true, true] (by rfl) (by rfl)).1⟩


theorem getNewSize_of_free {cur fs : Nat} (h : cur / 10 < fs) : getNewSize cur fs = .ok cur := by
  rw [getNewSize]
  show getNewSizeLoop cur (11 + 1) cur fs = _
  rw [getNewSizeLoop, if_neg (by omega)]

theorem hasherInt_of_lt {k : Int} {n : Nat} (h0 : 0 ≤ k) (hn : k < n) (hbig : n ≤ 2 ^ 32) :
    hasherInt k n = .ok k.toNat := by
  have hpos : n ≠ 0 := by
    rintro rfl
    simp at hn
    omega
  have h1 : k % 2 ^ 32 = k := Int.emod_eq_of_lt h0 (by
    have : (n : Int) ≤ 2 ^ 32 := by exact_mod_cast hbig
    omega)
  have h2 : k.toNat % n = k.toNat := Nat.mod_eq_of_lt (by omega)
  unfold hasherInt
  rw [if_neg hpos, h1, h2]

theorem length_flatten_of_length_one {α : Type} : ∀ (L : List (List α)),
    (∀ b, b ∈ L → b.length = 1) → L.flatten.length = L.length
  | [], _ => rfl
  | b :: L, h => by
    rw [List.flatten_cons, List.length_append, h b (List.mem_cons_self _ _),
      length_flatten_of_length_one L (fun b' hb' => h b' (List.mem_cons_of_mem _ hb')),
      List.length_cons, Nat.add_comm]

theorem length_le_one_of_keys_eq {K V : Type} {b : List (K × V)} {k : K}
    (hnd : (b.map Prod.fst).Nodup) (hk : ∀ e, e ∈ b → e.1 = k) : b.length ≤ 1 := by
  match b, hnd, hk with
  | [], _, _ => simp
  | [_], _, _ => simp
  | x :: y :: r, hnd, hk =>
    exfalso
    simp only [List.map_cons, List.nodup_cons, List.mem_cons, not_or] at hnd
    exact hnd.1.1 ((hk x (by simp)).trans (hk y (by simp)).symm)

/-- In a chained table of capacity 500009 whose keys lie in `[0, 500009)`, every
bucket holds one entry. -/
theorem buckets_length_of_small_keys {t : HashTableChained Int Int}
    (wf : HashTableChained.WellFormed hasherInt t) (hcap : t.mAllocated = 500009)
    (hkeys : ∀ e, e ∈ t.entries → 0 ≤ e.1 ∧ e.1 < 500009) :
    t.buckets.length = t.entries.length := by
  symm
  apply length_flatten_of_length_one
  intro b hb
  obtain ⟨i, _, hib⟩ := exists_getElem?_of_mem_reduceOption hb
  have hle : b.length ≤ 1 := by
    apply length_le_one_of_keys_eq (k := (i : Int)) (wf.slotsOk.nodup_bucket hib)
    intro e he
    have hhome := wf.slotsOk.home i b e hib he
    obtain ⟨h0, h1⟩ := hkeys e (HashTableChained.mem_flatten_of_getElem? hib he)
    rw [hcap, hasherInt_of_lt h0 (by exact_mod_cast h1) (by norm_num)] at hhome
    have := Except.ok.inj hhome
    omega
  have hpos := List.length_pos.2 (wf.slotsOk.ne_nil hib)
  omega

/-- The invariant of `chainedFilled n`. -/
theorem chainedFilled_spec : ∀ (n : Nat), n ≤ 450009 →
    HashTableChained.Reachable hasherInt (chainedFilled n) ∧
    HashTableChained.WellFormed hasherInt (chainedFilled n) ∧
    (chainedFilled n).mAllocated = 500009 ∧ (chainedFilled n).entries.length = n ∧
    (∀ e, e ∈ (chainedFilled n).entries → 0 ≤ e.1 ∧ e.1 < (n : Int)) ∧
    (chainedFilled n).mFreeSlots + n = 500009 := by
  intro n
  induction n with
  | zero =>
    intro _
    have hnew : HashTableChained.new 200003 = .ok (chainedFilled 0) := by
      have hg : getPrimeGreaterThan 200003 = .ok 500009 := by decide
      simp only [HashTableChained.new, hg, chainedFilled]
    obtain ⟨wf, he, _⟩ := HashTableChained.new_spec_chained hasherInt hnew
    refine ⟨HashTableChained.Reachable.new _ _ hnew, wf, rfl, by rw [he]; rfl, ?_, rfl⟩
    intro e hmem
    rw [he] at hmem
    cases hmem
  | succ n ih =>
    intro hn
    obtain ⟨hr, wf, hcap, hlen, hkeys, hfree⟩ := ih (by omega)
    have habs : (n : Int) ∉ (chainedFilled n).entries.map Prod.fst := by
      intro hm
      obtain ⟨e, he, hk⟩ := List.mem_map.1 hm
      have := (hkeys e he).2
      omega
    have hg : getNewSize (chainedFilled n).mAllocated (chainedFilled n).mFreeSlots
        = .ok 500009 := by
      rw [hcap]
      exact getNewSize_of_free (by omega)
    rcases HashTableChained.insert_of_not_mem_chained validHasher_hasherInt wf (0 : Int) habs with
      ⟨hg', _⟩ | ⟨newAlloc, t', hg', hi, wf', hp, hcap', _, _⟩
    · rw [hg] at hg'; cases hg'
    · rw [hg] at hg'
      have hna := Except.ok.inj hg'
      subst hna
      have hfilled : chainedFilled (n + 1) = t' := by
        rw [chainedFilled, hi]
      have hkeys' : ∀ e, e ∈ t'.entries → 0 ≤ e.1 ∧ e.1 < ((n + 1 : Nat) : Int) := by
        intro e he
        rcases List.mem_cons.1 (hp.mem_iff.1 he) with rfl | he'
        · simp
        · have := hkeys e he'
          push_cast
          omega
      have hlen' : t'.entries.length = n + 1 := by
        rw [hp.length_eq, List.length_cons, hlen]
      have hb := buckets_length_of_small_keys wf' hcap' (fun e he => by
        have := hkeys' e he
        push_cast at this
        omega)
      have hfree' := wf'.slotsOk.free
      rw [HashTableChained.buckets] at hb
      rw [hb, hlen', hcap'] at hfree'
      rw [hfilled]
      exact ⟨hfilled ▸ HashTableChained.Reachable.insert _ (n : Int) 0 hr, wf', hcap', hlen',
        hkeys', hfree'⟩

/-- Counterexample to C2 as stated: `ht(200003)` after the inserts of the keys
0, ..., 450008 is reachable, has capacity 500009 and 50000 free slots, and does
not hold the key 450009; `insert(450009, 0)` does not return true but throws
"Need more primes" out of the growth check, leaving the table as it was. -/
theorem chained_insert_exhausted :
    HashTableChained.Reachable hasherInt (chainedFilled 450009) ∧
    HashTableChained.find hasherInt (chainedFilled 450009) 450009
      = .ok (chainedFilled 450009).end ∧
    HashTableChained.insert hasherInt (chainedFilled 450009) 450009 0
      = (.error .needMorePrimes, chainedFilled 450009) := by
  obtain ⟨hr, wf, hcap, _, hkeys, hfree⟩ := chainedFilled_spec 450009 (le_refl _)
  have habs : (450009 : Int) ∉ (chainedFilled 450009).entries.map Prod.fst := by
    intro hm
    obtain ⟨e, he, hk⟩ := List.mem_map.1 hm
    have := (hkeys e he).2
    simp only [Nat.cast_ofNat] at this
    omega
  have hfs : (chainedFilled 450009).mFreeSlots = 50000 := by omega
  have hg : getNewSize (chainedFilled 450009).mAllocated (chainedFilled 450009).mFreeSlots
      = .error .needMorePrimes := by
    rw [hcap, hfs]
    decide
  refine ⟨hr, HashTableChained.find_of_not_mem_chained validHasher_hasherInt wf habs, ?_⟩
  rcases HashTableChained.insert_of_not_mem_chained validHasher_hasherInt wf (0 : Int) habs with
    ⟨_, hi⟩ | ⟨_, _, hg', _⟩
  · exact hi
  · rw [hg] at hg'; cases hg'

/-- C13. The 10% postcondition of `DefaultGrower::getNewSize`: whenever
`getNewSize(currentSize, freeSlots)` returns `r`, `r` is at least `currentSize`,
the free-slot count after growing, `freeSlots + (r - currentSize)`, is strictly
greater than `r / 10`, and `r` equals `currentSize` exactly when `freeSlots` is
greater than `currentSize / 10`. -/
theorem getNewSize_tenth_free (currentSize freeSlots r : Nat)
    (h : getNewSize currentSize freeSlots = .ok r) :
    currentSize ≤ r ∧ r / 10 < freeSlots + (r - currentSize) ∧
      (r = currentSize ↔ currentSize / 10 < freeSlots) := by
  rcases getNewSizeLoop_real currentSize _ _ _ _ h with ⟨rfl, h1⟩ | ⟨h1, h2, h3⟩
  · exact ⟨le_refl _, by omega, by simp [h1]⟩
  · refine ⟨by omega, ?_, ?_⟩
    · rcases h3 with h3 | ⟨q, hq, hcq, hqr⟩
      · exact h3
      · have := gap_of_mem_mPrimes hq h2 hqr
        omega
    · constructor
      · intro he; omega
      · intro hfs
        rw [getNewSize_of_free hfs] at h
        cases h
        omega

/-- Witness of C13: `getNewSize(10, 0)` takes two turns of the loop (11 leaves
one slot free, which is not more than `11 / 10`) and returns 23. -/
theorem getNewSize_tenth_free_witness :
    getNewSize 10 0 = .ok 23 ∧
    (10 ≤ 23 ∧ 23 / 10 < 0 + (23 - 10) ∧ (23 = 10 ↔ 10 / 10 < 0)) :=
  ⟨by decide, getNewSize_tenth_free 10 0 23 (by decide)⟩

/-- C14. The next candidate of `DefaultGrower`: the candidates are the eleven
stored primes; for every `size` below 500009 `getPrimeGreaterThan(size)` returns
the smallest stored prime strictly greater than `size` (so a stored prime is
mapped to the one after it, never to itself), and for every `size` from 500009
on it throws "Need more primes". -/
theorem getPrimeGreaterThan_next :
    mPrimes = [5, 11, 23, 1009, 5009, 10009, 20011, 50021, 100003, 200003, 500009] ∧
    (∀ size, size < 500009 →
      ∃ p, getPrimeGreaterThan size = .ok p ∧ p ∈ mPrimes ∧ size < p ∧
        ∀ q ∈ mPrimes, size < q → p ≤ q) ∧
    (∀ size, 500009 ≤ size → getPrimeGreaterThan size = .error .needMorePrimes) := by
  refine ⟨rfl, ?_, fun size h => getPrimeGreaterThan_of_ge h⟩
  intro size h
  obtain ⟨p, hp⟩ := getPrimeGreaterThan_of_lt h
  obtain ⟨hm, hlt⟩ := getPrimeGreaterThan_ok hp
  exact ⟨p, hp, hm, hlt, getPrimeGreaterThan_min hp⟩

/-- Witness of C14: the stored prime 5 is mapped to 11, the size 1000 to 1009,
and 500009 has no successor. -/
theorem getPrimeGreaterThan_next_witness :
    getPrimeGreaterThan 5 = .ok 11 ∧ getPrimeGreaterThan 1000 = .ok 1009 ∧
    (∃ p, getPrimeGreaterThan 200003 = .ok p ∧ p ∈ mPrimes ∧ 200003 < p ∧
        ∀ q ∈ mPrimes, 200003 < q → p ≤ q) ∧
    getPrimeGreaterThan 500009 = .error .needMorePrimes :=
  ⟨by decide, by decide, getPrimeGreaterThan_next.2.1 200003 (by decide),
    getPrimeGreaterThan_next.2.2 500009 (by decide)⟩

theorem reachable_probedFull : HashTableProbed.Reachable hasherInt probedFull := by
  have h := HashTableProbed.Reachable.insert _ 3 30
    (HashTableProbed.Reachable.insert _ 1 10 reachable_probedThree)
  have e : (HashTableProbed.insert hasherInt
      (HashTableProbed.insert hasherInt probedThree 1 10).2 3 30).2 = probedFull := by
    rfl
  rw [e] at h
  exact h

theorem reachable_chainedCrowded : HashTableChained.Reachable hasherInt chainedCrowded := by
  have h := HashTableChained.Reachable.insert _ 4 0
    (HashTableChained.Reachable.insert _ 3 0
      (HashTableChained.Reachable.insert _ 2 0
        (HashTableChained.Reachable.insert _ 1 0
          (HashTableChained.Reachable.insert _ 40 0
            (HashTableChained.Reachable.insert _ 30 0
              (HashTableChained.Reachable.insert _ 20 0
                (HashTableChained.Reachable.insert _ 10 0
                  (HashTableChained.Reachable.insert _ 5 0
                    (HashTableChained.Reachable.insert _ 0 0 reachable_chainedEmpty)))))))))
  have e : (HashTableChained.insert hasherInt (HashTableChained.insert hasherInt
      (HashTableChained.insert hasherInt (HashTableChained.insert hasherInt
      (HashTableChained.insert hasherInt (HashTableChained.insert hasherInt
      (HashTableChained.insert hasherInt (HashTableChained.insert hasherInt
      (HashTableChained.insert hasherInt (HashTableChained.insert hasherInt
        chainedEmpty 0 0).2 5 0).2 10 0).2 20 0).2 30 0).2 40 0).2 1 0).2 2 0).2 3 0).2 4 0).2
      = chainedCrowded := by
    rfl
  rw [e] at h
  exact h

/-- The invariant of `probedFilled n`. -/
theorem probedFilled_spec : ∀ (n : Nat), n ≤ 450009 →
    HashTableProbed.Reachable hasherInt (probedFilled n) ∧
    (probedFilled n).WellFormed ∧
    (probedFilled n).mAllocated = 500009 ∧ (probedFilled n).mSize = n ∧
    (∀ e, e ∈ (probedFilled n).entries → 0 ≤ e.1 ∧ e.1 < (n : Int)) ∧
    (probedFilled n).mFreeSlots + n = 500009 := by
  intro n
  induction n with
  | zero =>
    intro _
    have hnew : HashTableProbed.new 200003 = .ok (probedFilled 0) := by
      have hg : getPrimeGreaterThan 200003 = .ok 500009 := by decide
      simp only [HashTableProbed.new, hg, probedFilled]
    obtain ⟨wf, he, _⟩ := HashTableProbed.new_spec hnew
    refine ⟨HashTableProbed.Reachable.new _ _ hnew, wf, rfl, rfl, ?_, rfl⟩
    intro e hmem
    rw [he] at hmem
    cases hmem
  | succ n ih =>
    intro hn
    obtain ⟨hr, wf, hcap, hlen, hkeys, hfree⟩ := ih (by omega)
    have habs : (n : Int) ∉ (probedFilled n).entries.map Prod.fst := by
      intro hm
      obtain ⟨e, he, hk⟩ := List.mem_map.1 hm
      have := (hkeys e he).2
      omega
    have hg : getNewSize (probedFilled n).mAllocated (probedFilled n).mFreeSlots
        = .ok 500009 := by
      rw [hcap]
      exact getNewSize_of_free (by omega)
    rcases HashTableProbed.insert_of_not_mem validHasher_hasherInt wf (0 : Int) habs with
      ⟨hg', _⟩ | ⟨newAlloc, t', hg', hi, wf', hp, hcap', _, hsz⟩
    · rw [hg] at hg'; cases hg'
    · rw [hg] at hg'
      have hna := Except.ok.inj hg'
      subst hna
      have hfilled : probedFilled (n + 1) = t' := by
        rw [probedFilled, hi]
      have hkeys' : ∀ e, e ∈ t'.entries → 0 ≤ e.1 ∧ e.1 < ((n + 1 : Nat) : Int) := by
        intro e he
        rcases List.mem_cons.1 (hp.mem_iff.1 he) with rfl | he'
        · simp
        · have := hkeys e he'
          push_cast
          omega
      have hfree' := wf'.free
      rw [hfilled]
      exact ⟨hfilled ▸ HashTableProbed.Reachable.insert _ (n : Int) 0 hr, wf', hcap',
        by omega, hkeys', by omega⟩

/-- The probed table `ht(200003)` holding the keys 0, ..., 450008 is exhausted:
the insert of the key 450009 throws "Need more primes". -/
theorem probedFilled_exhausted :
    HashTableProbed.Reachable hasherInt (probedFilled 450009) ∧
    HashTableProbed.find hasherInt (probedFilled 450009) 450009
      = .ok (probedFilled 450009).end ∧
    HashTableProbed.insert hasherInt (probedFilled 450009) 450009 0
      = (.error .needMorePrimes, probedFilled 450009) := by
  obtain ⟨hr, wf, hcap, _, hkeys, hfree⟩ := probedFilled_spec 450009 (le_refl _)
  have habs : (450009 : Int) ∉ (probedFilled 450009).entries.map Prod.fst := by
    intro hm
    obtain ⟨e, he, hk⟩ := List.mem_map.1 hm
    have := (hkeys e he).2
    simp only [Nat.cast_ofNat] at this
    omega
  have hg : getNewSize (probedFilled 450009).mAllocated (probedFilled 450009).mFreeSlots
      = .error .needMorePrimes := by
    rw [hcap]
    exact getNewSize_exhausted (by omega)
  refine ⟨hr, HashTableProbed.find_of_not_mem validHasher_hasherInt wf habs, ?_⟩
  rcases HashTableProbed.insert_of_not_mem validHasher_hasherInt wf (0 : Int) habs with
    ⟨_, hi⟩ | ⟨_, _, hg', _⟩
  · exact hi
  · rw [hg] at hg'; cases hg'

/-- The chained table `ht(200003)` holding the keys 0, ..., 450008 is
exhausted: the insert of the key 450009 throws "Need more primes". -/
theorem chainedFilled_exhausted :
    HashTableChained.Reachable hasherInt (chainedFilled 450009) ∧
    HashTableChained.find hasherInt (chainedFilled 450009) 450009
      = .ok (chainedFilled 450009).end ∧
    HashTableChained.insert hasherInt (chainedFilled 450009) 450009 0
      = (.error .needMorePrimes, chainedFilled 450009) := by
  obtain ⟨hr, wf, hcap, _, hkeys, hfree⟩ := chainedFilled_spec 450009 (le_refl _)
  have habs : (450009 : Int) ∉ (chainedFilled 450009).entries.map Prod.fst := by
    intro hm
    obtain ⟨e, he, hk⟩ := List.mem_map.1 hm
    have := (hkeys e he).2
    simp only [Nat.cast_ofNat] at this
    omega
  have hg : getNewSize (chainedFilled 450009).mAllocated (chainedFilled 450009).mFreeSlots
      = .error .needMorePrimes := by
    rw [hcap]
    exact getNewSize_exhausted (by omega)
  refine ⟨hr, HashTableChained.find_of_not_mem_chained validHasher_hasherInt wf habs, ?_⟩
  rcases HashTableChained.insert_of_not_mem_chained validHasher_hasherInt wf (0 : Int) habs with
    ⟨_, hi⟩ | ⟨_, _, hg', _⟩
  · exact hi
  · rw [hg] at hg'; cases hg'

/-- C11. Growth invariant of the probed table: in a reachable table, when the
insert of an absent key `k` grows the table (the capacity after the call is
bigger than before), the call returns true and leaves
`freeSlots > capacity / 10`, with the new capacity, the new capacity being the
stored prime that follows the old one. -/
theorem probed_growth_tenth_free {K V : Type} [DecidableEq K]
    {hasher : K → Nat → Except Failure Nat} (hv : ValidHasher hasher)
    {t : HashTableProbed K V} (hr : HashTableProbed.Reachable hasher t) (k : K) (v : V)
    (habs : HashTableProbed.find hasher t k = .ok t.end)
    (hgrow : t.mAllocated < (HashTableProbed.insert hasher t k v).2.mAllocated) :
    (HashTableProbed.insert hasher t k v).1 = .ok true ∧
    getPrimeGreaterThan t.mAllocated
      = .ok (HashTableProbed.insert hasher t k v).2.mAllocated ∧
    (HashTableProbed.insert hasher t k v).2.mAllocated / 10
      < (HashTableProbed.insert hasher t k v).2.mFreeSlots := by
  have wf := hr.wellFormed hv
  have hm := (HashTableProbed.find_eq_end_iff hv wf k).1 habs
  rcases HashTableProbed.insert_of_not_mem hv wf v hm with
    ⟨_, hi⟩ | ⟨newAlloc, t', hg, hi, wf', _, hcap', _, hsz⟩
  · rw [hi] at hgrow
    exact absurd hgrow (lt_irrefl _)
  · rw [hi] at hgrow ⊢
    simp only at hgrow ⊢
    rw [hcap'] at hgrow ⊢
    obtain ⟨hnext, _⟩ := getNewSize_of_mem wf.capacity hg hgrow
    have hgap := gap_of_mem_mPrimes wf.capacity (getPrimeGreaterThan_ok hnext).1 hgrow
    have h1 := wf.free
    have h2 := wf'.free
    rw [hcap'] at h2
    exact ⟨trivial, hnext, by omega⟩

/-- Witness of C11: `insert(4, 40)` into the full table `probedFull` of
capacity 5 grows it to capacity 11 and leaves 5 slots free. -/
theorem probed_growth_tenth_free_witness :
    (HashTableProbed.insert hasherInt probedFull 4 40).1 = .ok true ∧
    getPrimeGreaterThan probedFull.mAllocated
      = .ok (HashTableProbed.insert hasherInt probedFull 4 40).2.mAllocated ∧
    (HashTableProbed.insert hasherInt probedFull 4 40).2.mAllocated / 10
      < (HashTableProbed.insert hasherInt probedFull 4 40).2.mFreeSlots :=
  probed_growth_tenth_free validHasher_hasherInt reachable_probedFull 4 40 (by decide) (by decide)

/-- C12, evaluated on the code: the chained table `chainedCrowded` is
reachable, has capacity 5 and does not hold the key 6; `insert(6, 0)` returns
true and grows the table to capacity 11, where the rehash spreads the eleven
keys over all eleven buckets, so that `freeSlots` is 0 after the call, which is
not greater than `11 / 10`. -/
theorem chained_growth_misses_tenth :
    HashTableChained.Reachable hasherInt chainedCrowded ∧
    HashTableChained.find hasherInt chainedCrowded 6 = .ok chainedCrowded.end ∧
    HashTableChained.insert hasherInt chainedCrowded 6 0 = (.ok true, chainedCrowdedGrown) ∧
    chainedCrowded.mAllocated < chainedCrowdedGrown.mAllocated ∧
    chainedCrowdedGrown.mFreeSlots = 0 ∧
    chainedCrowdedGrown.buckets.length = 11 ∧
    ¬ (chainedCrowdedGrown.mAllocated / 10 < chainedCrowdedGrown.mFreeSlots) :=
  ⟨reachable_chainedCrowded, by decide, by rfl, by decide, by rfl, by rfl, by decide⟩

/-- C15. The probed table never reports "table full": in a reachable table,
`insert(k, v)` returns false only when `find(k)` hits, and for an absent key it
either returns true or throws "Need more primes" (and then the capacity is
500009 with at most 50000 free slots); it has no other outcome. -/
theorem probed_insert_never_full {K V : Type} [DecidableEq K]
    {hasher : K → Nat → Except Failure Nat} (hv : ValidHasher hasher)
    {t : HashTableProbed K V} (hr : HashTableProbed.Reachable hasher t) (k : K) (v : V) :
    ((HashTableProbed.insert hasher t k v).1 = .ok false →
      ∃ it, HashTableProbed.find hasher t k = .ok it ∧ it ≠ t.end) ∧
    (HashTableProbed.find hasher t k = .ok t.end →
      (HashTableProbed.insert hasher t k v).1 = .ok true ∨
      ((HashTableProbed.insert hasher t k v).1 = .error .needMorePrimes ∧
        t.mAllocated = 500009 ∧ t.mFreeSlots ≤ 50000)) := by
  have wf := hr.wellFormed hv
  have key : k ∉ t.entries.map Prod.fst →
      (HashTableProbed.insert hasher t k v).1 = .ok true ∨
      ((HashTableProbed.insert hasher t k v).1 = .error .needMorePrimes ∧
        t.mAllocated = 500009 ∧ t.mFreeSlots ≤ 50000) := by
    intro hm
    rcases HashTableProbed.insert_of_not_mem hv wf v hm with ⟨hg, hi⟩ | ⟨_, t', _, hi, _⟩
    · exact Or.inr ⟨by rw [hi], getNewSize_error_of_mem wf.capacity hg⟩
    · exact Or.inl (by rw [hi])
  constructor
  · intro hfalse
    obtain ⟨it, hf, hiff⟩ := HashTableProbed.find_total hv wf k
    refine ⟨it, hf, ?_⟩
    intro hend
    have hm : k ∉ t.entries.map Prod.fst := fun hmem => hiff.2 hmem hend
    rcases key hm with h | ⟨h, _⟩
    · rw [h] at hfalse; cases hfalse
    · rw [h] at hfalse; cases hfalse
  · intro habs
    exact key ((HashTableProbed.find_eq_end_iff hv wf k).1 habs)

/-- Witness of C15: on the full table `probedFull` the insert of the absent
key 4 returns true (after growing), and the insert of the stored key 5, which
returns false, finds the key in slot 2. -/
theorem probed_insert_never_full_witness :
    (∃ it, HashTableProbed.find hasherInt probedFull 5 = .ok it ∧ it ≠ probedFull.end) ∧
    ((HashTableProbed.insert hasherInt probedFull 4 40).1 = .ok true ∨
      ((HashTableProbed.insert hasherInt probedFull 4 40).1 = .error .needMorePrimes ∧
        probedFull.mAllocated = 500009 ∧ probedFull.mFreeSlots ≤ 50000)) :=
  ⟨(probed_insert_never_full validHasher_hasherInt reachable_probedFull 5 0).1 (by decide),
    (probed_insert_never_full validHasher_hasherInt reachable_probedFull 4 40).2 (by decide)⟩

/-- C16. Capacity exhaustion is atomic, for both table variants: in a
reachable table, when the insert of an absent key throws "Need more primes",
the table is left exactly as it was (slot array, capacity, freeSlots and size),
and the capacity is 500009 with at most 50000 free slots; conversely the insert
of an absent key into such a table does throw. -/
theorem insert_exhaustion_atomic (K₁ V₁ : Type) [DecidableEq K₁] (K₂ V₂ : Type) [LinearOrder K₂]
    {hasher₁ : K₁ → Nat → Except Failure Nat} {hasher₂ : K₂ → Nat → Except Failure Nat}
    (hv₁ : ValidHasher hasher₁) (hv₂ : ValidHasher hasher₂) :
    (∀ (t : HashTableProbed K₁ V₁) (k : K₁) (v : V₁),
      HashTableProbed.Reachable hasher₁ t → HashTableProbed.find hasher₁ t k = .ok t.end →
      ((HashTableProbed.insert hasher₁ t k v).1 = .error .needMorePrimes →
        (HashTableProbed.insert hasher₁ t k v).2 = t ∧
          t.mAllocated = 500009 ∧ t.mFreeSlots ≤ 50000) ∧
      (t.mAllocated = 500009 → t.mFreeSlots ≤ 50000 →
        HashTableProbed.insert hasher₁ t k v = (.error .needMorePrimes, t))) ∧
    (∀ (t : HashTableChained K₂ V₂) (k : K₂) (v : V₂),
      HashTableChained.Reachable hasher₂ t → HashTableChained.find hasher₂ t k = .ok t.end →
      ((HashTableChained.insert hasher₂ t k v).1 = .error .needMorePrimes →
        (HashTableChained.insert hasher₂ t k v).2 = t ∧
          t.mAllocated = 500009 ∧ t.mFreeSlots ≤ 50000) ∧
      (t.mAllocated = 500009 → t.mFreeSlots ≤ 50000 →
        HashTableChained.insert hasher₂ t k v = (.error .needMorePrimes, t))) := by
  constructor
  · intro t k v hr habs
    have wf := hr.wellFormed hv₁
    have hm := (HashTableProbed.find_eq_end_iff hv₁ wf k).1 habs
    rcases HashTableProbed.insert_of_not_mem hv₁ wf v hm with ⟨hg, hi⟩ | ⟨_, t', hg, hi, _⟩
    · exact ⟨fun _ => ⟨by rw [hi], getNewSize_error_of_mem wf.capacity hg⟩, fun _ _ => hi⟩
    · constructor
      · intro he
        rw [hi] at he
        cases he
      · intro hc hf
        rw [hc, getNewSize_exhausted hf] at hg
        cases hg
  · intro t k v hr habs
    have wf := hr.wellFormed_chained hv₂
    have hm := (HashTableChained.find_eq_end_iff_chained hv₂ wf k).1 habs
    rcases HashTableChained.insert_of_not_mem_chained hv₂ wf v hm with
      ⟨hg, hi⟩ | ⟨_, t', hg, hi, _⟩
    · exact ⟨fun _ => ⟨by rw [hi], getNewSize_error_of_mem wf.capacity hg⟩, fun _ _ => hi⟩
    · constructor
      · intro he
        rw [hi] at he
        cases he
      · intro hc hf
        rw [hc, getNewSize_exhausted hf] at hg
        cases hg

/-- Witness of C16: the tables `ht(200003)` of either variant holding the keys
0, ..., 450008 have capacity 500009 and 50000 free slots; `insert(450009, 0)`
throws and leaves them as they were. -/
theorem insert_exhaustion_atomic_witness :
    ((HashTableProbed.insert hasherInt (probedFilled 450009) 450009 0).2 = probedFilled 450009 ∧
      (probedFilled 450009).mAllocated = 500009 ∧ (probedFilled 450009).mFreeSlots ≤ 50000) ∧
    ((HashTableChained.insert hasherInt (chainedFilled 450009) 450009 0).2
        = chainedFilled 450009 ∧
      (chainedFilled 450009).mAllocated = 500009 ∧
      (chainedFilled 450009).mFreeSlots ≤ 50000) :=
  ⟨((insert_exhaustion_atomic Int Int Int Int validHasher_hasherInt validHasher_hasherInt).1
      (probedFilled 450009) 450009 0 probedFilled_exhausted.1 probedFilled_exhausted.2.1).1
      (by rw [probedFilled_exhausted.2.2]),
    ((insert_exhaustion_atomic Int Int Int Int validHasher_hasherInt validHasher_hasherInt).2
      (chainedFilled 450009) 450009 0 chainedFilled_exhausted.1 chainedFilled_exhausted.2.1).1
      (by rw [chainedFilled_exhausted.2.2])⟩

/-- C17. Read through the accessor proxy, for both table variants: in a
reachable table, reading `table[k]` as a value returns `v` when `find(k)` hits
and yields `v`, and throws "Item not found" exactly when `find(k)` is `end()`;
it has no other outcome.  The read is a function of the table alone
(`operator[]`, `operator Value()` and `find` assign to no member), so it
leaves the table as it is and inserts nothing. -/
theorem access_read (K₁ V₁ : Type) [DecidableEq K₁] (K₂ V₂ : Type) [LinearOrder K₂]
    {hasher₁ : K₁ → Nat → Except Failure Nat} {hasher₂ : K₂ → Nat → Except Failure Nat}
    (hv₁ : ValidHasher hasher₁) (hv₂ : ValidHasher hasher₂) :
    (∀ (t : HashTableProbed K₁ V₁) (k : K₁), HashTableProbed.Reachable hasher₁ t →
      (∀ it e, HashTableProbed.find hasher₁ t k = .ok it → it ≠ t.end →
        HashTableProbed.Iterator.deref t it = .ok e →
        HashTableProbed.Access.read hasher₁ t k = .ok e.2) ∧
      (HashTableProbed.Access.read hasher₁ t k = .error .itemNotFound ↔
        HashTableProbed.find hasher₁ t k = .ok t.end) ∧
      ((∃ v, (k, v) ∈ t.entries ∧ HashTableProbed.Access.read hasher₁ t k = .ok v) ∨
        HashTableProbed.Access.read hasher₁ t k = .error .itemNotFound)) ∧
    (∀ (t : HashTableChained K₂ V₂) (k : K₂), HashTableChained.Reachable hasher₂ t →
      (∀ it e, HashTableChained.find hasher₂ t k = .ok it → it ≠ t.end →
        HashTableChained.Iterator.deref t it = .ok e →
        HashTableChained.Access.read hasher₂ t k = .ok e.2) ∧
      (HashTableChained.Access.read hasher₂ t k = .error .itemNotFound ↔
        HashTableChained.find hasher₂ t k = .ok t.end) ∧
      ((∃ v, (k, v) ∈ t.entries ∧ HashTableChained.Access.read hasher₂ t k = .ok v) ∨
        HashTableChained.Access.read hasher₂ t k = .error .itemNotFound)) := by
  constructor
  · intro t k hr
    have wf := hr.wellFormed hv₁
    have hhit : ∀ it e, HashTableProbed.find hasher₁ t k = .ok it → it ≠ t.end →
        HashTableProbed.Iterator.deref t it = .ok e →
        HashTableProbed.Access.read hasher₁ t k = .ok e.2 := by
      intro it e hf hne hd
      simp only [HashTableProbed.Access.read, hf, hne, if_false, hd]
    have hmiss : HashTableProbed.find hasher₁ t k = .ok t.end →
        HashTableProbed.Access.read hasher₁ t k = .error .itemNotFound := by
      intro hf
      simp only [HashTableProbed.Access.read, hf, if_true]
    have hcases : (∃ v, (k, v) ∈ t.entries ∧ HashTableProbed.Access.read hasher₁ t k = .ok v) ∨
        HashTableProbed.find hasher₁ t k = .ok t.end := by
      by_cases hm : k ∈ t.entries.map Prod.fst
      · obtain ⟨e, he, hk⟩ := List.mem_map.1 hm
        obtain ⟨k', v⟩ := e
        simp only at hk
        subst hk
        obtain ⟨it, hf, hne, hd⟩ := (HashTableProbed.find_yields_iff hv₁ wf k' v).2 he
        exact Or.inl ⟨v, he, hhit it _ hf hne hd⟩
      · exact Or.inr (HashTableProbed.find_of_not_mem hv₁ wf hm)
    refine ⟨hhit, ⟨?_, hmiss⟩, ?_⟩
    · intro hread
      rcases hcases with ⟨v, _, hv⟩ | hf
      · rw [hv] at hread; cases hread
      · exact hf
    · rcases hcases with h | hf
      · exact Or.inl h
      · exact Or.inr (hmiss hf)
  · intro t k hr
    have wf := hr.wellFormed_chained hv₂
    have hhit : ∀ it e, HashTableChained.find hasher₂ t k = .ok it → it ≠ t.end →
        HashTableChained.Iterator.deref t it = .ok e →
        HashTableChained.Access.read hasher₂ t k = .ok e.2 := by
      intro it e hf hne hd
      simp only [HashTableChained.Access.read, hf, hne, if_false, hd]
    have hmiss : HashTableChained.find hasher₂ t k = .ok t.end →
        HashTableChained.Access.read hasher₂ t k = .error .itemNotFound := by
      intro hf
      simp only [HashTableChained.Access.read, hf, if_true]
    have hcases : (∃ v, (k, v) ∈ t.entries ∧ HashTableChained.Access.read hasher₂ t k = .ok v) ∨
        HashTableChained.find hasher₂ t k = .ok t.end := by
      by_cases hm : k ∈ t.entries.map Prod.fst
      · obtain ⟨e, he, hk⟩ := List.mem_map.1 hm
        obtain ⟨k', v⟩ := e
        simp only at hk
        subst hk
        obtain ⟨it, hf, hne, hd⟩ := (HashTableChained.find_yields_iff_chained hv₂ wf k' v).2 he
        exact Or.inl ⟨v, he, hhit it _ hf hne hd⟩
      · exact Or.inr (HashTableChained.find_of_not_mem_chained hv₂ wf hm)
    refine ⟨hhit, ⟨?_, hmiss⟩, ?_⟩
    · intro hread
      rcases hcases with ⟨v, _, hv⟩ | hf
      · rw [hv] at hread; cases hread
      · exact hf
    · rcases hcases with h | hf
      · exact Or.inl h
      · exact Or.inr (hmiss hf)

/-- Witness of C17: `probedThree[5]` and `chainedThree[5]` read 50, and
`probedThree[6]` and `chainedThree[6]` throw "Item not found". -/
theorem access_read_witness :
    (HashTableProbed.Access.read hasherInt probedThree 5 = .ok 50 ∧
      HashTableProbed.Access.read hasherInt probedThree 6 = .error .itemNotFound) ∧
    (HashTableChained.Access.read hasherInt chainedThree 5 = .ok 50 ∧
      HashTableChained.Access.read hasherInt chainedThree 6 = .error .itemNotFound) :=
  ⟨⟨((access_read Int Int Int Int validHasher_hasherInt validHasher_hasherInt).1 probedThree 5
        reachable_probedThree).1 { mIndex := 2 } (5, 50) (by decide) (by decide) (by decide),
      ((access_read Int Int Int Int validHasher_hasherInt validHasher_hasherInt).1 probedThree 6
        reachable_probedThree).2.1.2 (by decide)⟩,
    ⟨((access_read Int Int Int Int validHasher_hasherInt validHasher_hasherInt).2 chainedThree 5
        reachable_chainedThree).1 { mIndex := 0, mIterator := some 1 } (5, 50)
        (by decide) (by decide) (by decide),
      ((access_read Int Int Int Int validHasher_hasherInt validHasher_hasherInt).2 chainedThree 6
        reachable_chainedThree).2.1.2 (by decide)⟩⟩

/-- C18. Construction, for both table variants: for every hint `n` below
500009 the constructor returns a table whose capacity is the smallest stored
prime strictly greater than `n` (5 for the hint 0, 1009 for the default hint
1000, 11 for the hint 5), with `size() == 0`, `freeSlots` equal to the
capacity, an array of capacity + 1 empty slots, and `find(k)` equal to `end()`
for every key; for every hint from 500009 on it throws "Need more primes". -/
theorem construction (K₁ V₁ : Type) [DecidableEq K₁] (K₂ V₂ : Type) [LinearOrder K₂]
    {hasher₁ : K₁ → Nat → Except Failure Nat} {hasher₂ : K₂ → Nat → Except Failure Nat}
    (hv₁ : ValidHasher hasher₁) (hv₂ : ValidHasher hasher₂) :
    (∀ n, n < 500009 → ∃ t : HashTableProbed K₁ V₁, HashTableProbed.new n = .ok t ∧
      getPrimeGreaterThan n = .ok t.mAllocated ∧
      t.mAllocated ∈ mPrimes ∧ n < t.mAllocated ∧ (∀ q ∈ mPrimes, n < q → t.mAllocated ≤ q) ∧
      t.size = 0 ∧ t.mFreeSlots = t.mAllocated ∧
      t.mArray = some (List.replicate (t.mAllocated + 1) none) ∧
      ∀ k, HashTableProbed.find hasher₁ t k = .ok t.end) ∧
    (∀ n, 500009 ≤ n →
      (HashTableProbed.new n : Except Failure (HashTableProbed K₁ V₁)) = .error .needMorePrimes) ∧
    (∀ n, n < 500009 → ∃ t : HashTableChained K₂ V₂, HashTableChained.new n = .ok t ∧
      getPrimeGreaterThan n = .ok t.mAllocated ∧
      t.mAllocated ∈ mPrimes ∧ n < t.mAllocated ∧ (∀ q ∈ mPrimes, n < q → t.mAllocated ≤ q) ∧
      t.size = 0 ∧ t.mFreeSlots = t.mAllocated ∧
      t.mArray = some (List.replicate (t.mAllocated + 1) none) ∧
      ∀ k, HashTableChained.find hasher₂ t k = .ok t.end) ∧
    (∀ n, 500009 ≤ n →
      (HashTableChained.new n : Except Failure (HashTableChained K₂ V₂))
        = .error .needMorePrimes) ∧
    getPrimeGreaterThan 0 = .ok 5 ∧ getPrimeGreaterThan 1000 = .ok 1009 ∧
    getPrimeGreaterThan 5 = .ok 11 := by
  refine ⟨?_, ?_, ?_, ?_, by decide, by decide, by decide⟩
  · intro n hn
    obtain ⟨p, hp⟩ := getPrimeGreaterThan_of_lt hn
    have hnew : (HashTableProbed.new n : Except Failure (HashTableProbed K₁ V₁)) =
        .ok { mArray := some (newArray p), mAllocated := p, mFreeSlots := p, mSize := 0 } := by
      simp only [HashTableProbed.new, hp]
    obtain ⟨wf, he, hs, hfree, hg, harr⟩ := HashTableProbed.new_spec hnew
    obtain ⟨hm, hlt⟩ := getPrimeGreaterThan_ok hp
    refine ⟨_, hnew, hg, hm, hlt, getPrimeGreaterThan_min hp, hs, hfree, harr, ?_⟩
    intro k
    exact HashTableProbed.find_of_not_mem hv₁ wf (by rw [he]; simp)
  · intro n hn
    simp only [HashTableProbed.new, getPrimeGreaterThan_of_ge hn]
  · intro n hn
    obtain ⟨p, hp⟩ := getPrimeGreaterThan_of_lt hn
    have hnew : (HashTableChained.new n : Except Failure (HashTableChained K₂ V₂)) =
        .ok { mArray := some (newArray p), mAllocated := p, mFreeSlots := p, mSize := 0 } := by
      simp only [HashTableChained.new, hp]
    obtain ⟨wf, he, hs, hfree, hg, harr⟩ := HashTableChained.new_spec_chained hasher₂ hnew
    obtain ⟨hm, hlt⟩ := getPrimeGreaterThan_ok hp
    refine ⟨_, hnew, hg, hm, hlt, getPrimeGreaterThan_min hp, hs, hfree, harr, ?_⟩
    intro k
    exact HashTableChained.find_of_not_mem_chained hv₂ wf (by rw [he]; simp)
  · intro n hn
    simp only [HashTableChained.new, getPrimeGreaterThan_of_ge hn]

/-- Witness of C18: `ht(0)` of either variant is the table of capacity 5 with
six empty slots, and `ht(500009)` throws. -/
theorem construction_witness :
    (∃ t : HashTableProbed Int Int, HashTableProbed.new 0 = .ok t ∧
      getPrimeGreaterThan 0 = .ok t.mAllocated ∧
      t.mAllocated ∈ mPrimes ∧ 0 < t.mAllocated ∧ (∀ q ∈ mPrimes, 0 < q → t.mAllocated ≤ q) ∧
      t.size = 0 ∧ t.mFreeSlots = t.mAllocated ∧
      t.mArray = some (List.replicate (t.mAllocated + 1) none) ∧
      ∀ k, HashTableProbed.find hasherInt t k = .ok t.end) ∧
    (HashTableChained.new 500009 : Except Failure (HashTableChained Int Int))
      = .error .needMorePrimes :=
  ⟨(construction Int Int Int Int validHasher_hasherInt validHasher_hasherInt).1 0 (by decide),
    (construction Int Int Int Int validHasher_hasherInt validHasher_hasherInt).2.2.2.1 500009
      (by decide)⟩

theorem validHasher_hasherString (w : Nat) : ValidHasher (hasherString w) := by
  intro key size hs
  refine ⟨hasherStringLoop w key 0 % size, ?_, Nat.mod_lt _ hs⟩
  simp [hasherString, Nat.pos_iff_ne_zero.1 hs]

/-- On a reachable probed table `find`, `insert` and `erase` return, or throw
"Need more primes": no access to the slot array is out of bounds. -/
theorem probed_results {K V : Type} [DecidableEq K]
    {hasher : K → Nat → Except Failure Nat} (hv : ValidHasher hasher)
    {t : HashTableProbed K V} (hr : HashTableProbed.Reachable hasher t) (k : K) (v : V) :
    (∃ it, HashTableProbed.find hasher t k = .ok it) ∧
    ((∃ b, (HashTableProbed.insert hasher t k v).1 = .ok b) ∨
      (HashTableProbed.insert hasher t k v).1 = .error .needMorePrimes) ∧
    (∃ n, (HashTableProbed.erase hasher t k).1 = .ok n) := by
  have wf := hr.wellFormed hv
  obtain ⟨it, hf, _⟩ := HashTableProbed.find_total hv wf k
  refine ⟨⟨it, hf⟩, ?_, ?_⟩
  · by_cases hm : k ∈ t.entries.map Prod.fst
    · exact Or.inl ⟨false, by rw [HashTableProbed.insert_of_mem hv wf v hm]⟩
    · rcases HashTableProbed.insert_of_not_mem hv wf v hm with ⟨_, hi⟩ | ⟨_, t', _, hi, _⟩
      · exact Or.inr (by rw [hi])
      · exact Or.inl ⟨true, by rw [hi]⟩
  · by_cases hm : k ∈ t.entries.map Prod.fst
    · obtain ⟨_, t', he, _⟩ := HashTableProbed.erase_of_mem hv wf hm
      exact ⟨1, by rw [he]⟩
    · exact ⟨0, by rw [HashTableProbed.erase_of_not_mem hv wf hm]⟩

/-- On a reachable chained table `find`, `insert` and `erase` return, or throw
"Need more primes": no access to the slot array is out of bounds. -/
theorem chained_results {K V : Type} [LinearOrder K]
    {hasher : K → Nat → Except Failure Nat} (hv : ValidHasher hasher)
    {t : HashTableChained K V} (hr : HashTableChained.Reachable hasher t) (k : K) (v : V) :
    (∃ it, HashTableChained.find hasher t k = .ok it) ∧
    ((∃ b, (HashTableChained.insert hasher t k v).1 = .ok b) ∨
      (HashTableChained.insert hasher t k v).1 = .error .needMorePrimes) ∧
    (∃ n, (HashTableChained.erase hasher t k).1 = .ok n) := by
  have wf := hr.wellFormed_chained hv
  refine ⟨?_, ?_, ?_⟩
  · by_cases hm : k ∈ t.entries.map Prod.fst
    · obtain ⟨i, b, v', _, _, _, _, _, hf⟩ := HashTableChained.find_of_mem_chained hv wf hm
      exact ⟨_, hf⟩
    · exact ⟨_, HashTableChained.find_of_not_mem_chained hv wf hm⟩
  · by_cases hm : k ∈ t.entries.map Prod.fst
    · exact Or.inl ⟨false, by rw [HashTableChained.insert_of_mem_chained hv wf v hm]⟩
    · rcases HashTableChained.insert_of_not_mem_chained hv wf v hm with
        ⟨_, hi⟩ | ⟨_, t', _, hi, _⟩
      · exact Or.inr (by rw [hi])
      · exact Or.inl ⟨true, by rw [hi]⟩
  · by_cases hm : k ∈ t.entries.map Prod.fst
    · obtain ⟨_, t', _, _, he, _⟩ := HashTableChained.erase_of_mem_chained hv wf hm
      exact ⟨1, by rw [he]⟩
    · exact ⟨0, by rw [HashTableChained.erase_of_not_mem_chained hv wf hm]⟩

/-- C20. The hash index is in range: for every capacity `size > 0`,
`Hasher<int>` returns `(key mod 2^32) mod size` for every key, negative keys
included, and `Hasher<const char*>` returns a value for every string, whatever
the width of `size_t`; both results are below `size`.  Hence on every reachable
table of either variant, with integer keys hashed by `Hasher<int>` or string
keys hashed by `Hasher<const char*>`, the calls `find`, `insert` and `erase`
never end in an out-of-bounds access of the slot array. -/
theorem hash_index_in_range :
    (∀ (key : Int) (size : Nat), 0 < size →
      hasherInt key size = .ok ((key % 2 ^ 32).toNat % size) ∧
        (key % 2 ^ 32).toNat % size < size) ∧
    (∀ (w : Nat) (key : List Int) (size : Nat), 0 < size →
      ∃ i, hasherString w key size = .ok i ∧ i < size) ∧
    (∀ (V : Type) (t : HashTableProbed Int V) (k : Int) (v : V),
      HashTableProbed.Reachable hasherInt t →
        HashTableProbed.find hasherInt t k ≠ .error .undefinedBehaviour ∧
        (HashTableProbed.insert hasherInt t k v).1 ≠ .error .undefinedBehaviour ∧
        (HashTableProbed.erase hasherInt t k).1 ≠ .error .undefinedBehaviour) ∧
    (∀ (V : Type) (t : HashTableChained Int V) (k : Int) (v : V),
      HashTableChained.Reachable hasherInt t →
        HashTableChained.find hasherInt t k ≠ .error .undefinedBehaviour ∧
        (HashTableChained.insert hasherInt t k v).1 ≠ .error .undefinedBehaviour ∧
        (HashTableChained.erase hasherInt t k).1 ≠ .error .undefinedBehaviour) ∧
    (∀ (w : Nat) (V : Type) (t : HashTableProbed (List Int) V) (k : List Int) (v : V),
      HashTableProbed.Reachable (hasherString w) t →
        HashTableProbed.find (hasherString w) t k ≠ .error .undefinedBehaviour ∧
        (HashTableProbed.insert (hasherString w) t k v).1 ≠ .error .undefinedBehaviour ∧
        (HashTableProbed.erase (hasherString w) t k).1 ≠ .error .undefinedBehaviour) ∧
    (∀ (w : Nat) (V : Type) (t : HashTableChained (List Int) V) (k : List Int) (v : V),
      HashTableChained.Reachable (hasherString w) t →
        HashTableChained.find (hasherString w) t k ≠ .error .undefinedBehaviour ∧
        (HashTableChained.insert (hasherString w) t k v).1 ≠ .error .undefinedBehaviour ∧
        (HashTableChained.erase (hasherString w) t k).1 ≠ .error .undefinedBehaviour) := by
  have hp : ∀ {K V : Type} [DecidableEq K] {hasher : K → Nat → Except Failure Nat},
      ValidHasher hasher → ∀ (t : HashTableProbed K V) (k : K) (v : V),
      HashTableProbed.Reachable hasher t →
        HashTableProbed.find hasher t k ≠ .error .undefinedBehaviour ∧
        (HashTableProbed.insert hasher t k v).1 ≠ .error .undefinedBehaviour ∧
        (HashTableProbed.erase hasher t k).1 ≠ .error .undefinedBehaviour := by
    intro K V _ hasher hv t k v hr
    obtain ⟨⟨it, hf⟩, hi, ⟨n, he⟩⟩ := probed_results hv hr k v
    refine ⟨by rw [hf]; simp, ?_, by rw [he]; simp⟩
    rcases hi with ⟨b, hi⟩ | hi <;> rw [hi] <;> simp
  have hc : ∀ {K V : Type} [LinearOrder K] {hasher : K → Nat → Except Failure Nat},
      ValidHasher hasher → ∀ (t : HashTableChained K V) (k : K) (v : V),
      HashTableChained.Reachable hasher t →
        HashTableChained.find hasher t k ≠ .error .undefinedBehaviour ∧
        (HashTableChained.insert hasher t k v).1 ≠ .error .undefinedBehaviour ∧
        (HashTableChained.erase hasher t k).1 ≠ .error .undefinedBehaviour := by
    intro K V _ hasher hv t k v hr
    obtain ⟨⟨it, hf⟩, hi, ⟨n, he⟩⟩ := chained_results hv hr k v
    refine ⟨by rw [hf]; simp, ?_, by rw [he]; simp⟩
    rcases hi with ⟨b, hi⟩ | hi <;> rw [hi] <;> simp
  refine ⟨?_, fun w key size hs => validHasher_hasherString w key size hs,
    fun V => hp validHasher_hasherInt, fun V => hc validHasher_hasherInt,
    fun w V => hp (validHasher_hasherString w), fun w V => hc (validHasher_hasherString w)⟩
  intro key size hs
  refine ⟨?_, Nat.mod_lt _ hs⟩
  simp [hasherInt, Nat.pos_iff_ne_zero.1 hs]

/-- Witness of C20: the key -1 is hashed as 4294967295, into bucket 0 of 5; the
string "ACDC" is hashed into bucket 2 of 5; the calls on `probedThree` do not
leave the array. -/
theorem hash_index_in_range_witness :
    hasherInt (-1) 5 = .ok (4294967295 % 5) ∧
    hasherString 32 [65, 67, 68, 67] 5 = .ok 2 ∧
    (∃ i, hasherString 32 [-1, -1, -1, -1, -1, -1, -1, -1, -1] 1009 = .ok i ∧ i < 1009) ∧
    (HashTableProbed.find hasherInt probedThree (-1) ≠ .error .undefinedBehaviour ∧
      (HashTableProbed.insert hasherInt probedThree (-1) 0).1 ≠ .error .undefinedBehaviour ∧
      (HashTableProbed.erase hasherInt probedThree (-1)).1 ≠ .error .undefinedBehaviour) :=
  ⟨(hash_index_in_range.1 (-1) 5 (by decide)).1, by decide,
    hash_index_in_range.2.1 32 _ 1009 (by decide),
    hash_index_in_range.2.2.1 Int probedThree (-1) 0 reachable_probedThree⟩

/-- C19. Nested collections are interchangeable: take a chained table whose
buckets are probed tables, one whose buckets are chained tables, and one whose
buckets are ordered maps, all three built with the same capacity hint, and run
the same sequence of `insert`/`set`/`erase`/`find`/`size` calls and iterations
on each.  A table with hash-table buckets either throws "Need more primes",
which takes a sequence of 450009 calls or more, or its sequence returns and the
sequence on the table with ordered-map buckets returns the same observations:
the same insert booleans, erase counts, find hits, misses and values, sizes
and numbers of elements iterated. -/
theorem nested_collection_interchangeable {K V : Type} [LinearOrder K]
    {hasher hasher₂ : K → Nat → Except Failure Nat}
    (hv : ValidHasher hasher) (hv₂ : ValidHasher hasher₂) (initialSize : Nat)
    (tm : HashTableChained K V) (tp : HashTableNested (HashTableProbed K V))
    (tc : HashTableNested (HashTableChained K V))
    (hm : HashTableChained.new initialSize = .ok tm)
    (hp : HashTableNested.new initialSize = .ok tp)
    (hc : HashTableNested.new initialSize = .ok tc) (l : List (Op K V)) :
    (((run (HashTableNested.step (probedCollection hasher₂) hasher) tp l).1
          = .error .needMorePrimes ∧ 450009 ≤ l.length) ∨
      ∃ os, (run (HashTableNested.step (probedCollection hasher₂) hasher) tp l).1 = .ok os ∧
        (run (HashTableChained.step hasher) tm l).1 = .ok os) ∧
    (((run (HashTableNested.step (chainedCollection hasher₂) hasher) tc l).1
          = .error .needMorePrimes ∧ 450009 ≤ l.length) ∨
      ∃ os, (run (HashTableNested.step (chainedCollection hasher₂) hasher) tc l).1 = .ok os ∧
        (run (HashTableChained.step hasher) tm l).1 = .ok os) := by
  obtain ⟨wfm, hem, _, _, hgm, _⟩ := HashTableChained.new_spec_chained hasher hm
  constructor
  · obtain ⟨wfp, hep, hgp⟩ := HashTableNested.new_spec_nested
      (HashTableProbed.WellFormed : HashTableProbed K V → Prop) HashTableProbed.entries hasher hp
    have hsz : tp.mSize = 0 := by rw [wfp.size, hep]; rfl
    have hal : tp.mAllocated = tm.mAllocated := by
      rw [hgm] at hgp
      exact (Except.ok.inj hgp).symm
    rcases HashTableNested.run_sim (HashTableNested.lawful_probedCollection hv₂) hv l tp tm
        wfp wfm (by rw [hep, hem]) hal with ⟨herr, hbig⟩ | hok
    · exact Or.inl ⟨herr, by omega⟩
    · exact Or.inr hok
  · obtain ⟨wfc, hec, hgc⟩ := HashTableNested.new_spec_nested
      (HashTableChained.WellFormed hasher₂ : HashTableChained K V → Prop)
      HashTableChained.entries hasher hc
    have hsz : tc.mSize = 0 := by rw [wfc.size, hec]; rfl
    have hal : tc.mAllocated = tm.mAllocated := by
      rw [hgm] at hgc
      exact (Except.ok.inj hgc).symm
    rcases HashTableNested.run_sim (HashTableNested.lawful_chainedCollection hv₂) hv l tc tm
        wfc wfm (by rw [hec, hem]) hal with ⟨herr, hbig⟩ | hok
    · exact Or.inl ⟨herr, by omega⟩
    · exact Or.inr hok

/-- Witness of C19: the nineteen calls `nestedOps` on the three tables built
by `ht(0)`, with `Hasher<int>` for the table and for its hash-table buckets,
return the observations `nestedObs`. -/
theorem nested_collection_interchangeable_witness :
    (run (HashTableChained.step hasherInt) chainedEmpty nestedOps).1 = .ok nestedObs ∧
    (run (HashTableNested.step (probedCollection hasherInt) hasherInt)
      nestedProbedEmpty nestedOps).1 = .ok nestedObs ∧
    (run (HashTableNested.step (chainedCollection hasherInt) hasherInt)
      nestedChainedEmpty nestedOps).1 = .ok nestedObs := by
  have hm : (run (HashTableChained.step hasherInt) chainedEmpty nestedOps).1
      = .ok nestedObs := by decide
  have h := nested_collection_interchangeable validHasher_hasherInt validHasher_hasherInt 0
    chainedEmpty nestedProbedEmpty nestedChainedEmpty (by rfl) (by rfl) (by rfl) nestedOps
  have hlen : ¬ 450009 ≤ nestedOps.length := by decide
  refine ⟨hm, ?_, ?_⟩
  · rcases h.1 with ⟨_, hbig⟩ | ⟨os, h1, h2⟩
    · exact absurd hbig hlen
    · rw [hm] at h2
      rw [h1, h2]
  · rcases h.2 with ⟨_, hbig⟩ | ⟨os, h1, h2⟩
    · exact absurd hbig hlen
    · rw [hm] at h2
      rw [h1, h2]

/-- C21. The member function `clear` resets the table, for both variants:
after `clear()` the size, the capacity and freeSlots are 0, no entry remains,
`begin()` is `end()` and forward iteration yields no element. -/
theorem clear_resets (K₁ V₁ : Type) [DecidableEq K₁] (K₂ V₂ : Type) [LinearOrder K₂] :
    (∀ t : HashTableProbed K₁ V₁,
      t.clear.size = 0 ∧ t.clear.getAllocated = 0 ∧ t.clear.mFreeSlots = 0 ∧
      t.clear.entries = [] ∧ t.clear.begin = .ok t.clear.end ∧ t.clear.iterate = .ok []) ∧
    (∀ t : HashTableChained K₂ V₂,
      t.clear.size = 0 ∧ t.clear.getAllocated = 0 ∧ t.clear.mFreeSlots = 0 ∧
      t.clear.entries = [] ∧ t.clear.begin = .ok t.clear.end ∧ t.clear.iterate = .ok []) := by
  constructor
  · intro t
    refine ⟨rfl, rfl, rfl, rfl, rfl, rfl⟩
  · intro t
    refine ⟨rfl, rfl, rfl, rfl, rfl, rfl⟩

/-- Witness of C21: `clear()` on the tables `probedThree` and `chainedThree`,
which hold three entries each. -/
theorem clear_resets_witness :
    (probedThree.clear.size = 0 ∧ probedThree.clear.getAllocated = 0 ∧
      probedThree.clear.mFreeSlots = 0 ∧ probedThree.clear.entries = [] ∧
      probedThree.clear.begin = .ok probedThree.clear.end ∧
      probedThree.clear.iterate = .ok []) ∧
    (chainedThree.clear.size = 0 ∧ chainedThree.clear.getAllocated = 0 ∧
      chainedThree.clear.mFreeSlots = 0 ∧ chainedThree.clear.entries = [] ∧
      chainedThree.clear.begin = .ok chainedThree.clear.end ∧
      chainedThree.clear.iterate = .ok []) :=
  ⟨(clear_resets Int Int Int Int).1 probedThree, (clear_resets Int Int Int Int).2 chainedThree⟩

theorem index_eq_of_nodup_reduceOption {α β : Type} (f : α → β) :
    ∀ (l : List (Option α)) (i j : Nat) (x y : α), (l.reduceOption.map f).Nodup →
      l[i]? = some (some x) → l[j]? = some (some y) → f x = f y → i = j
  | [], i, _, _, _, _, hi, _, _ => by simp at hi
  | a :: l, 0, 0, _, _, _, _, _, _ => rfl
  | a :: l, 0, j + 1, x, y, hn, hi, hj, hf => by
    simp only [List.getElem?_cons_zero, Option.some.injEq] at hi
    simp only [List.getElem?_cons_succ] at hj
    subst hi
    simp only [List.reduceOption_cons_of_some, List.map_cons, List.nodup_cons] at hn
    exact absurd (List.mem_map.2 ⟨y, mem_reduceOption_of_getElem? hj, hf.symm⟩) hn.1
  | a :: l, i + 1, 0, x, y, hn, hi, hj, hf => by
    simp only [List.getElem?_cons_zero, Option.some.injEq] at hj
    simp only [List.getElem?_cons_succ] at hi
    subst hj
    simp only [List.reduceOption_cons_of_some, List.map_cons, List.nodup_cons] at hn
    exact absurd (List.mem_map.2 ⟨x, mem_reduceOption_of_getElem? hi, hf⟩) hn.1
  | a :: l, i + 1, j + 1, x, y, hn, hi, hj, hf => by
    simp only [List.getElem?_cons_succ] at hi hj
    have hn' : (l.reduceOption.map f).Nodup := by
      cases a with
      | none => simpa only [List.reduceOption_cons_of_none] using hn
      | some z =>
        simp only [List.reduceOption_cons_of_some, List.map_cons, List.nodup_cons] at hn
        exact hn.2
    rw [index_eq_of_nodup_reduceOption f l i j x y hn' hi hj hf]

/-- C23. No duplicate keys: in every reachable probed table no two occupied
slots hold equal keys, and in every reachable chained table no key is stored
in two buckets or twice inside a bucket; so the keys of the entries, listed
slot by slot, are pairwise different. -/
theorem no_duplicate_keys (K₁ V₁ : Type) [DecidableEq K₁] (K₂ V₂ : Type) [LinearOrder K₂]
    {hasher₁ : K₁ → Nat → Except Failure Nat} {hasher₂ : K₂ → Nat → Except Failure Nat}
    (hv₁ : ValidHasher hasher₁) (hv₂ : ValidHasher hasher₂) :
    (∀ t : HashTableProbed K₁ V₁, HashTableProbed.Reachable hasher₁ t →
      (t.entries.map Prod.fst).Nodup ∧
      ∀ (i j : Nat) (k : K₁) (v v' : V₁), t.slots[i]? = some (some (k, v)) →
        t.slots[j]? = some (some (k, v')) → i = j) ∧
    (∀ t : HashTableChained K₂ V₂, HashTableChained.Reachable hasher₂ t →
      (t.entries.map Prod.fst).Nodup ∧
      (∀ (i j : Nat) (b b' : StdMap K₂ V₂) (k : K₂) (v v' : V₂),
        t.slots[i]? = some (some b) → t.slots[j]? = some (some b') →
        (k, v) ∈ b → (k, v') ∈ b' → i = j) ∧
      (∀ (i : Nat) (b : StdMap K₂ V₂), t.slots[i]? = some (some b) →
        (b.map Prod.fst).Nodup)) := by
  constructor
  · intro t hr
    have wf := hr.wellFormed hv₁
    refine ⟨wf.nodup, ?_⟩
    intro i j k v v' hi hj
    exact index_eq_of_nodup_reduceOption Prod.fst t.slots i j (k, v) (k, v') wf.nodup hi hj rfl
  · intro t hr
    have wf := hr.wellFormed_chained hv₂
    refine ⟨wf.slotsOk.nodup, ?_, fun i b hb => wf.slotsOk.nodup_bucket hb⟩
    intro i j b b' k v v' hi hj hb hb'
    have h1 := wf.slotsOk.home i b (k, v) hi hb
    have h2 := wf.slotsOk.home j b' (k, v') hj hb'
    simp only at h1 h2
    rw [h1] at h2
    exact Except.ok.inj h2

/-- Witness of C23: the keys of `probedThree` and of `chainedThree` are
pairwise different. -/
theorem no_duplicate_keys_witness :
    (probedThree.entries.map Prod.fst).Nodup ∧ (chainedThree.entries.map Prod.fst).Nodup :=
  ⟨((no_duplicate_keys Int Int Int Int validHasher_hasherInt validHasher_hasherInt).1
      probedThree reachable_probedThree).1,
    ((no_duplicate_keys Int Int Int Int validHasher_hasherInt validHasher_hasherInt).2
      chainedThree reachable_chainedThree).1⟩

theorem countP_isSome_add_isNone {α : Type} (l : List (Option α)) :
    l.countP (fun x => x.isSome) + l.countP (fun x => x.isNone) = l.length := by
  induction l with
  | nil => rfl
  | cons a l ih =>
    cases a <;> simp [List.countP_cons] <;> omega

theorem reduceOption_length_eq_countP {α : Type} (l : List (Option α)) :
    l.reduceOption.length = l.countP (fun x => x.isSome) := by
  rw [List.reduceOption_length_eq, List.countP_eq_length_filter]

/-- The occupied cells of an array with an empty sentinel cell lie below the
sentinel. -/
theorem reduceOption_take_of_sentinel {α : Type} {l : List (Option α)} {n : Nat}
    (hlen : l.length = n + 1) (hs : l[n]? = some none) :
    (l.take n).reduceOption = l.reduceOption := by
  have h1 := HashTableProbed.reduceOption_take_succ hs
  rw [List.take_of_length_le (by omega)] at h1
  simp only [Option.toList_none, List.append_nil] at h1
  exact h1.symm

/-- C24. Counter invariant of the probed table: in every reachable table
`size` is the number of occupied slots below the capacity, `freeSlots` is the
number of empty slots below the capacity, so that `size + freeSlots` is the
capacity, and the sentinel slot at index capacity is empty. -/
theorem probed_counters {K V : Type} [DecidableEq K]
    {hasher : K → Nat → Except Failure Nat} (hv : ValidHasher hasher)
    {t : HashTableProbed K V} (hr : HashTableProbed.Reachable hasher t) :
    t.slots.length = t.mAllocated + 1 ∧
    t.size = (t.slots.take t.mAllocated).countP (fun x => x.isSome) ∧
    t.mFreeSlots = (t.slots.take t.mAllocated).countP (fun x => x.isNone) ∧
    t.size + t.mFreeSlots = t.mAllocated ∧
    t.slots[t.mAllocated]? = some none := by
  have wf := hr.wellFormed hv
  have h1 := countP_isSome_add_isNone (t.slots.take t.mAllocated)
  have h2 : (t.slots.take t.mAllocated).length = t.mAllocated := by
    rw [List.length_take, wf.length]; omega
  have h3 : t.mSize = (t.slots.take t.mAllocated).countP (fun x => x.isSome) := by
    rw [wf.size, HashTableProbed.entries, ← reduceOption_take_of_sentinel wf.length wf.sentinel,
      reduceOption_length_eq_countP]
  have h4 := wf.free
  refine ⟨wf.length, h3, ?_, ?_, wf.sentinel⟩
  · omega
  · show t.mSize + t.mFreeSlots = t.mAllocated
    omega

/-- Witness of C24: `probedThree` has three occupied and two empty slots below
its capacity 5. -/
theorem probed_counters_witness :
    probedThree.slots.length = probedThree.mAllocated + 1 ∧
    probedThree.size = (probedThree.slots.take probedThree.mAllocated).countP
      (fun x => x.isSome) ∧
    probedThree.mFreeSlots = (probedThree.slots.take probedThree.mAllocated).countP
      (fun x => x.isNone) ∧
    probedThree.size + probedThree.mFreeSlots = probedThree.mAllocated ∧
    probedThree.slots[probedThree.mAllocated]? = some none :=
  probed_counters validHasher_hasherInt reachable_probedThree

/-- C25. Counter invariant of the chained table: in every reachable table
`freeSlots` is the number of bucket indices below the capacity whose
collection is absent, and `size` is the sum of the sizes of the collections
that are present. -/
theorem chained_counters {K V : Type} [LinearOrder K]
    {hasher : K → Nat → Except Failure Nat} (hv : ValidHasher hasher)
    {t : HashTableChained K V} (hr : HashTableChained.Reachable hasher t) :
    t.slots.length = t.mAllocated + 1 ∧
    t.mFreeSlots = (t.slots.take t.mAllocated).countP (fun x => x.isNone) ∧
    t.size = ((t.slots.take t.mAllocated).reduceOption.map List.length).sum ∧
    t.slots[t.mAllocated]? = some none := by
  have wf := hr.wellFormed_chained hv
  have h1 := countP_isSome_add_isNone (t.slots.take t.mAllocated)
  have h2 : (t.slots.take t.mAllocated).length = t.mAllocated := by
    rw [List.length_take, wf.slotsOk.length]; omega
  have h3 := reduceOption_take_of_sentinel wf.slotsOk.length wf.slotsOk.sentinel
  have h4 := wf.slotsOk.free
  rw [← h3, reduceOption_length_eq_countP] at h4
  refine ⟨wf.slotsOk.length, by omega, ?_, wf.slotsOk.sentinel⟩
  show t.mSize = _
  rw [wf.size, HashTableChained.entries, HashTableChained.buckets, h3, List.length_flatten]

/-- Witness of C25: `chainedThree` has three absent buckets below its capacity
5 and collections of the sizes 2 and 1. -/
theorem chained_counters_witness :
    chainedThree.slots.length = chainedThree.mAllocated + 1 ∧
    chainedThree.mFreeSlots = (chainedThree.slots.take chainedThree.mAllocated).countP
      (fun x => x.isNone) ∧
    chainedThree.size =
      ((chainedThree.slots.take chainedThree.mAllocated).reduceOption.map List.length).sum ∧
    chainedThree.slots[chainedThree.mAllocated]? = some none :=
  chained_counters validHasher_hasherInt reachable_chainedThree

/-- C26. A chained table holds no empty collection: in every reachable table
every bucket whose collection is present lies below the capacity and holds at
least one entry, every entry of the collection at index `i` has a key that
hashes to `i`, and so every stored entry `(k, v)` lies in the bucket with the
index `hash(k, capacity)`. -/
theorem chained_no_empty_bucket {K V : Type} [LinearOrder K]
    {hasher : K → Nat → Except Failure Nat} (hv : ValidHasher hasher)
    {t : HashTableChained K V} (hr : HashTableChained.Reachable hasher t) :
    (∀ (i : Nat) (b : StdMap K V), t.slots[i]? = some (some b) →
      i < t.mAllocated ∧ b ≠ [] ∧ 0 < StdMap.end b ∧
      ∀ e, e ∈ b → HashTableChained.hash hasher e.1 t.mAllocated = .ok i) ∧
    (∀ (k : K) (v : V), (k, v) ∈ t.entries →
      ∃ i b, HashTableChained.hash hasher k t.mAllocated = .ok i ∧
        t.slots[i]? = some (some b) ∧ (k, v) ∈ b) := by
  have wf := hr.wellFormed_chained hv
  constructor
  · intro i b hb
    have hne := wf.slotsOk.ne_nil hb
    exact ⟨wf.slotsOk.index_lt_chained hb, hne, List.length_pos.2 hne,
      fun e he => wf.slotsOk.home i b e hb he⟩
  · intro k v hmem
    obtain ⟨i, b, _, hb, he⟩ := HashTableChained.exists_getElem?_of_mem_flatten hmem
    exact ⟨i, b, wf.slotsOk.home i b (k, v) hb he, hb, he⟩

/-- Witness of C26: the bucket 0 of `chainedThree` holds the keys 0 and 5,
which hash to 0, and the entry (1, 10) lies in bucket 1. -/
theorem chained_no_empty_bucket_witness :
    (0 < chainedThree.mAllocated ∧ [((0 : Int), (0 : Int)), (5, 50)] ≠ [] ∧
      0 < StdMap.end [((0 : Int), (0 : Int)), (5, 50)] ∧
      ∀ e, e ∈ [((0 : Int), (0 : Int)), (5, 50)] →
        HashTableChained.hash hasherInt e.1 chainedThree.mAllocated = .ok 0) ∧
    (∃ i b, HashTableChained.hash hasherInt 1 chainedThree.mAllocated = .ok i ∧
      chainedThree.slots[i]? = some (some b) ∧ ((1 : Int), (10 : Int)) ∈ b) :=
  ⟨(chained_no_empty_bucket validHasher_hasherInt reachable_chainedThree).1 0
      [(0, 0), (5, 50)] (by rfl),
    (chained_no_empty_bucket validHasher_hasherInt reachable_chainedThree).2 1 10
      (by decide)⟩

/-- From a stored prime `getNewSize` returns that prime or the one after it. -/
theorem getNewSize_same_or_next {cur fs r : Nat} (hc : cur ∈ mPrimes)
    (h : getNewSize cur fs = .ok r) : r = cur ∨ (cur < r ∧ getPrimeGreaterThan cur = .ok r) := by
  rcases getNewSize_ok h with ⟨h1, _⟩ | ⟨h1, _⟩
  · exact Or.inl h1
  · exact Or.inr ⟨h1, (getNewSize_of_mem hc h h1).1⟩

theorem probed_capacity_steps {K V : Type} [DecidableEq K]
    {hasher : K → Nat → Except Failure Nat} (hv : ValidHasher hasher)
    {t : HashTableProbed K V} (wf : t.WellFormed) (k : K) (v : V) :
    ((HashTableProbed.insert hasher t k v).2.mAllocated = t.mAllocated ∨
      (t.mAllocated < (HashTableProbed.insert hasher t k v).2.mAllocated ∧
        getPrimeGreaterThan t.mAllocated
          = .ok (HashTableProbed.insert hasher t k v).2.mAllocated)) ∧
    ((HashTableProbed.set hasher t k v).2.mAllocated = t.mAllocated ∨
      (t.mAllocated < (HashTableProbed.set hasher t k v).2.mAllocated ∧
        getPrimeGreaterThan t.mAllocated
          = .ok (HashTableProbed.set hasher t k v).2.mAllocated)) ∧
    (HashTableProbed.erase hasher t k).2.mAllocated = t.mAllocated := by
  by_cases hm : k ∈ t.entries.map Prod.fst
  · obtain ⟨_, _, t1, hs, _, _, _, ha, _⟩ := HashTableProbed.set_of_mem hv wf v hm
    obtain ⟨_, t2, he, _, _, ha2, _⟩ := HashTableProbed.erase_of_mem hv wf hm
    rw [HashTableProbed.insert_of_mem hv wf v hm, hs, he]
    exact ⟨Or.inl rfl, Or.inl ha, ha2⟩
  · rw [HashTableProbed.erase_of_not_mem hv wf hm]
    refine ⟨?_, ?_, rfl⟩
    · rcases HashTableProbed.insert_of_not_mem hv wf v hm with
        ⟨_, hi⟩ | ⟨newAlloc, t', hg, hi, _, _, ha, _⟩
      · rw [hi]; exact Or.inl rfl
      · rw [hi]
        simp only
        rw [ha]
        exact getNewSize_same_or_next wf.capacity hg
    · rcases HashTableProbed.set_of_not_mem hv wf v hm with
        ⟨_, hi⟩ | ⟨newAlloc, t', hg, hi, _, _, ha, _⟩
      · rw [hi]; exact Or.inl rfl
      · rw [hi]
        simp only
        rw [ha]
        exact getNewSize_same_or_next wf.capacity hg

theorem chained_capacity_steps {K V : Type} [LinearOrder K]
    {hasher : K → Nat → Except Failure Nat} (hv : ValidHasher hasher)
    {t : HashTableChained K V} (wf : HashTableChained.WellFormed hasher t) (k : K) (v : V) :
    ((HashTableChained.insert hasher t k v).2.mAllocated = t.mAllocated ∨
      (t.mAllocated < (HashTableChained.insert hasher t k v).2.mAllocated ∧
        getPrimeGreaterThan t.mAllocated
          = .ok (HashTableChained.insert hasher t k v).2.mAllocated)) ∧
    ((HashTableChained.set hasher t k v).2.mAllocated = t.mAllocated ∨
      (t.mAllocated < (HashTableChained.set hasher t k v).2.mAllocated ∧
        getPrimeGreaterThan t.mAllocated
          = .ok (HashTableChained.set hasher t k v).2.mAllocated)) ∧
    (HashTableChained.erase hasher t k).2.mAllocated = t.mAllocated := by
  by_cases hm : k ∈ t.entries.map Prod.fst
  · obtain ⟨_, _, t1, hs, _, _, _, ha, _⟩ := HashTableChained.set_of_mem_chained hv wf v hm
    obtain ⟨_, t2, _, _, he, _, _, ha2, _⟩ := HashTableChained.erase_of_mem_chained hv wf hm
    rw [HashTableChained.insert_of_mem_chained hv wf v hm, hs, he]
    exact ⟨Or.inl rfl, Or.inl ha, ha2⟩
  · rw [HashTableChained.erase_of_not_mem_chained hv wf hm]
    refine ⟨?_, ?_, rfl⟩
    · rcases HashTableChained.insert_of_not_mem_chained hv wf v hm with
        ⟨_, hi⟩ | ⟨newAlloc, t', hg, hi, _, _, ha, _⟩
      · rw [hi]; exact Or.inl rfl
      · rw [hi]
        simp only
        rw [ha]
        exact getNewSize_same_or_next wf.capacity hg
    · rcases HashTableChained.set_of_not_mem_chained hv wf v hm with
        ⟨_, hi⟩ | ⟨newAlloc, t', hg, hi, _, _, ha, _⟩
      · rw [hi]; exact Or.inl rfl
      · rw [hi]
        simp only
        rw [ha]
        exact getNewSize_same_or_next wf.capacity hg

/-- C27. The capacity is always a stored prime and never shrinks, for both
table variants: in every reachable table the capacity is one of the primes of
`DefaultGrower`, hence positive and coprime with the step 7; `insert` and `set`
leave it as it is or move it to the stored prime that follows it, and `erase`
leaves it as it is. -/
theorem capacity_candidate (K₁ V₁ : Type) [DecidableEq K₁] (K₂ V₂ : Type) [LinearOrder K₂]
    {hasher₁ : K₁ → Nat → Except Failure Nat} {hasher₂ : K₂ → Nat → Except Failure Nat}
    (hv₁ : ValidHasher hasher₁) (hv₂ : ValidHasher hasher₂) :
    (∀ t : HashTableProbed K₁ V₁, HashTableProbed.Reachable hasher₁ t →
      t.getAllocated ∈ mPrimes ∧ 0 < t.getAllocated ∧
      Nat.Coprime HashTableProbed.cIncBy t.getAllocated ∧
      ∀ (k : K₁) (v : V₁),
        ((HashTableProbed.insert hasher₁ t k v).2.getAllocated = t.getAllocated ∨
          (t.getAllocated < (HashTableProbed.insert hasher₁ t k v).2.getAllocated ∧
            getPrimeGreaterThan t.getAllocated
              = .ok (HashTableProbed.insert hasher₁ t k v).2.getAllocated)) ∧
        ((HashTableProbed.set hasher₁ t k v).2.getAllocated = t.getAllocated ∨
          (t.getAllocated < (HashTableProbed.set hasher₁ t k v).2.getAllocated ∧
            getPrimeGreaterThan t.getAllocated
              = .ok (HashTableProbed.set hasher₁ t k v).2.getAllocated)) ∧
        (HashTableProbed.erase hasher₁ t k).2.getAllocated = t.getAllocated) ∧
    (∀ t : HashTableChained K₂ V₂, HashTableChained.Reachable hasher₂ t →
      t.getAllocated ∈ mPrimes ∧ 0 < t.getAllocated ∧
      Nat.Coprime HashTableProbed.cIncBy t.getAllocated ∧
      ∀ (k : K₂) (v : V₂),
        ((HashTableChained.insert hasher₂ t k v).2.getAllocated = t.getAllocated ∨
          (t.getAllocated < (HashTableChained.insert hasher₂ t k v).2.getAllocated ∧
            getPrimeGreaterThan t.getAllocated
              = .ok (HashTableChained.insert hasher₂ t k v).2.getAllocated)) ∧
        ((HashTableChained.set hasher₂ t k v).2.getAllocated = t.getAllocated ∨
          (t.getAllocated < (HashTableChained.set hasher₂ t k v).2.getAllocated ∧
            getPrimeGreaterThan t.getAllocated
              = .ok (HashTableChained.set hasher₂ t k v).2.getAllocated)) ∧
        (HashTableChained.erase hasher₂ t k).2.getAllocated = t.getAllocated) := by
  constructor
  · intro t hr
    have wf := hr.wellFormed hv₁
    exact ⟨wf.capacity, wf.pos, wf.coprime, fun k v => probed_capacity_steps hv₁ wf k v⟩
  · intro t hr
    have wf := hr.wellFormed_chained hv₂
    exact ⟨wf.capacity, wf.pos_chained, coprime_of_mem_mPrimes wf.capacity,
      fun k v => chained_capacity_steps hv₂ wf k v⟩

/-- Witness of C27: the capacity 5 of `probedFull` and of `chainedCrowded` is a
stored prime; the inserts of the keys 4 and 6 move it to 11, the prime that
follows 5. -/
theorem capacity_candidate_witness :
    (probedFull.getAllocated ∈ mPrimes ∧
      getPrimeGreaterThan probedFull.getAllocated
        = .ok (HashTableProbed.insert hasherInt probedFull 4 40).2.getAllocated) ∧
    (chainedCrowded.getAllocated ∈ mPrimes ∧
      getPrimeGreaterThan chainedCrowded.getAllocated
        = .ok (HashTableChained.insert hasherInt chainedCrowded 6 0).2.getAllocated) :=
  ⟨⟨((capacity_candidate Int Int Int Int validHasher_hasherInt validHasher_hasherInt).1
        probedFull reachable_probedFull).1,
      ((((capacity_candidate Int Int Int Int validHasher_hasherInt validHasher_hasherInt).1
        probedFull reachable_probedFull).2.2.2 4 40).1.resolve_left (by decide)).2⟩,
    ⟨((capacity_candidate Int Int Int Int validHasher_hasherInt validHasher_hasherInt).2
        chainedCrowded reachable_chainedCrowded).1,
      ((((capacity_candidate Int Int Int Int validHasher_hasherInt validHasher_hasherInt).2
        chainedCrowded reachable_chainedCrowded).2.2.2 6 0).1.resolve_left (by decide)).2⟩⟩

/-- C30. An insert leaves the other keys alone, for both table variants: in a
reachable table, when `insert(k, v)` returns true, `find(k')` for a key `k'`
other than `k` hits afterwards exactly when it hit before, with the same
value, and misses afterwards exactly when it missed before, whether or not the
insert has rehashed the table. -/
theorem insert_keeps_others (K₁ V₁ : Type) [DecidableEq K₁] (K₂ V₂ : Type) [LinearOrder K₂]
    {hasher₁ : K₁ → Nat → Except Failure Nat} {hasher₂ : K₂ → Nat → Except Failure Nat}
    (hv₁ : ValidHasher hasher₁) (hv₂ : ValidHasher hasher₂) :
    (∀ (t t' : HashTableProbed K₁ V₁) (k k' : K₁) (v : V₁),
      HashTableProbed.Reachable hasher₁ t → k ≠ k' →
      HashTableProbed.insert hasher₁ t k v = (.ok true, t') →
      (∀ v', (∃ it, HashTableProbed.find hasher₁ t' k' = .ok it ∧ it ≠ t'.end ∧
            HashTableProbed.Iterator.deref t' it = .ok (k', v')) ↔
          (∃ it, HashTableProbed.find hasher₁ t k' = .ok it ∧ it ≠ t.end ∧
            HashTableProbed.Iterator.deref t it = .ok (k', v'))) ∧
      (HashTableProbed.find hasher₁ t' k' = .ok t'.end ↔
        HashTableProbed.find hasher₁ t k' = .ok t.end)) ∧
    (∀ (t t' : HashTableChained K₂ V₂) (k k' : K₂) (v : V₂),
      HashTableChained.Reachable hasher₂ t → k ≠ k' →
      HashTableChained.insert hasher₂ t k v = (.ok true, t') →
      (∀ v', (∃ it, HashTableChained.find hasher₂ t' k' = .ok it ∧ it ≠ t'.end ∧
            HashTableChained.Iterator.deref t' it = .ok (k', v')) ↔
          (∃ it, HashTableChained.find hasher₂ t k' = .ok it ∧ it ≠ t.end ∧
            HashTableChained.Iterator.deref t it = .ok (k', v'))) ∧
      (HashTableChained.find hasher₂ t' k' = .ok t'.end ↔
        HashTableChained.find hasher₂ t k' = .ok t.end)) := by
  constructor
  · intro t t' k k' v hr hne hins
    have wf := hr.wellFormed hv₁
    have hm : k ∉ t.entries.map Prod.fst := by
      intro hm
      rw [HashTableProbed.insert_of_mem hv₁ wf v hm] at hins
      cases hins
    rcases HashTableProbed.insert_of_not_mem hv₁ wf v hm with ⟨_, hi⟩ | ⟨_, t'', _, hi, wf', hp, _⟩
    · rw [hi] at hins; cases hins
    · rw [hi] at hins
      cases hins
      have hmem : ∀ v', (k', v') ∈ t'.entries ↔ (k', v') ∈ t.entries := by
        intro v'
        rw [hp.mem_iff, List.mem_cons]
        constructor
        · rintro (heq | h)
          · exact absurd (Prod.mk.inj heq).1.symm hne
          · exact h
        · exact Or.inr
      have hkey : k' ∈ t'.entries.map Prod.fst ↔ k' ∈ t.entries.map Prod.fst := by
        constructor
        · intro h
          obtain ⟨⟨a, b⟩, he, hk⟩ := List.mem_map.1 h
          simp only at hk
          subst hk
          exact List.mem_map.2 ⟨_, (hmem b).1 he, rfl⟩
        · intro h
          obtain ⟨⟨a, b⟩, he, hk⟩ := List.mem_map.1 h
          simp only at hk
          subst hk
          exact List.mem_map.2 ⟨_, (hmem b).2 he, rfl⟩
      refine ⟨fun v' => ?_, ?_⟩
      · rw [HashTableProbed.find_yields_iff hv₁ wf', HashTableProbed.find_yields_iff hv₁ wf]
        exact hmem v'
      · rw [HashTableProbed.find_eq_end_iff hv₁ wf', HashTableProbed.find_eq_end_iff hv₁ wf,
          hkey]
  · intro t t' k k' v hr hne hins
    have wf := hr.wellFormed_chained hv₂
    have hm : k ∉ t.entries.map Prod.fst := by
      intro hm
      rw [HashTableChained.insert_of_mem_chained hv₂ wf v hm] at hins
      cases hins
    rcases HashTableChained.insert_of_not_mem_chained hv₂ wf v hm with
      ⟨_, hi⟩ | ⟨_, t'', _, hi, wf', hp, _⟩
    · rw [hi] at hins; cases hins
    · rw [hi] at hins
      cases hins
      have hmem : ∀ v', (k', v') ∈ t'.entries ↔ (k', v') ∈ t.entries := by
        intro v'
        rw [hp.mem_iff, List.mem_cons]
        constructor
        · rintro (heq | h)
          · exact absurd (Prod.mk.inj heq).1.symm hne
          · exact h
        · exact Or.inr
      have hkey : k' ∈ t'.entries.map Prod.fst ↔ k' ∈ t.entries.map Prod.fst := by
        constructor
        · intro h
          obtain ⟨⟨a, b⟩, he, hk⟩ := List.mem_map.1 h
          simp only at hk
          subst hk
          exact List.mem_map.2 ⟨_, (hmem b).1 he, rfl⟩
        · intro h
          obtain ⟨⟨a, b⟩, he, hk⟩ := List.mem_map.1 h
          simp only at hk
          subst hk
          exact List.mem_map.2 ⟨_, (hmem b).2 he, rfl⟩
      refine ⟨fun v' => ?_, ?_⟩
      · rw [HashTableChained.find_yields_iff_chained hv₂ wf',
          HashTableChained.find_yields_iff_chained hv₂ wf]
        exact hmem v'
      · rw [HashTableChained.find_eq_end_iff_chained hv₂ wf',
          HashTableChained.find_eq_end_iff_chained hv₂ wf, hkey]

/-- Witness of C30: `insert(4, 40)` rehashes `probedFull` and `insert(6, 0)`
rehashes `chainedCrowded` from capacity 5 to 11; `find(6)` on the probed table
misses before and after, and `find(40)` on the chained table yields 0 before
and after. -/
theorem insert_keeps_others_witness :
    (HashTableProbed.find hasherInt (HashTableProbed.insert hasherInt probedFull 4 40).2 6
        = .ok (HashTableProbed.insert hasherInt probedFull 4 40).2.end) ∧
    (∃ it, HashTableChained.find hasherInt chainedCrowdedGrown 40 = .ok it ∧
      it ≠ chainedCrowdedGrown.end ∧
      HashTableChained.Iterator.deref chainedCrowdedGrown it = .ok (40, 0)) :=
  ⟨(((insert_keeps_others Int Int Int Int validHasher_hasherInt validHasher_hasherInt).1
      probedFull (HashTableProbed.insert hasherInt probedFull 4 40).2 4 6 40
      reachable_probedFull (by decide) (by rfl)).2).2 (by decide),
    (((insert_keeps_others Int Int Int Int validHasher_hasherInt validHasher_hasherInt).2
      chainedCrowded chainedCrowdedGrown 6 40 0 reachable_chainedCrowded (by decide)
      (by rfl)).1 0).2 ⟨{ mIndex := 0, mIterator := some 5 }, by decide, by decide, by decide⟩⟩

/-- C22. The `find` of the probed table is complete and sound, whatever the
pattern of occupied and empty slots: on a slot array of capacity + 1 cells
whose capacity is a stored prime, the probe loop of `find(k)` returns within
capacity turns; it returns the index of an occupied slot that holds `k`, and
then `find` is an iterator on that slot and yields the stored value, or it
returns after a full cycle: the indices it has looked at, the first capacity
ones of the probe sequence, are all the slots below the capacity, none of
them holds `k`, and `find` is `end()`. -/
theorem probed_find_complete {K V : Type} [DecidableEq K]
    {hasher : K → Nat → Except Failure Nat} (hv : ValidHasher hasher)
    (t : HashTableProbed K V) (a : List (Option (K × V)))
    (hA : t.mArray = some a) (hlen : a.length = t.mAllocated + 1)
    (hcap : t.mAllocated ∈ mPrimes) (key : K) :
    ∃ h el, HashTableProbed.hash hasher key t.mAllocated = .ok h ∧ h < t.mAllocated ∧
      a[h]? = some el ∧
      ((∃ i v, i < t.mAllocated ∧ a[i]? = some (some (key, v)) ∧
          HashTableProbed.findLoop t key h t.mAllocated h el = .ok (some i) ∧
          HashTableProbed.find hasher t key = .ok { mIndex := i } ∧
          ({ mIndex := i } : HashTableProbed.Iterator) ≠ t.end ∧
          HashTableProbed.Iterator.deref t { mIndex := i } = .ok (key, v)) ∨
        ((∀ i, i < t.mAllocated →
            ∃ j, j < t.mAllocated ∧ HashTableProbed.probe t.mAllocated h j = i) ∧
          (∀ j v, j < t.mAllocated →
            a[HashTableProbed.probe t.mAllocated h j]? ≠ some (some (key, v))) ∧
          (∀ i v, i < t.mAllocated → a[i]? ≠ some (some (key, v))) ∧
          HashTableProbed.findLoop t key h t.mAllocated h el = .ok none ∧
          HashTableProbed.find hasher t key = .ok t.end)) := by
  have hpos := pos_of_mem_mPrimes hcap
  have hco : Nat.Coprime HashTableProbed.cIncBy t.mAllocated := coprime_of_mem_mPrimes hcap
  obtain ⟨h, hh, hlt⟩ := hv key t.mAllocated hpos
  obtain ⟨el, hel⟩ : ∃ el, a[h]? = some el :=
    ⟨_, List.getElem?_eq_getElem (by rw [hlen]; omega)⟩
  have hel0 : a[HashTableProbed.probe t.mAllocated h 0]? = some el := by
    rw [HashTableProbed.probe_zero hlt]; exact hel
  refine ⟨h, el, hh, hlt, hel, ?_⟩
  rcases HashTableProbed.findLoop_spec t a key h hA hlen hco hlt t.mAllocated 0 el
      (by omega) hpos hel0 with ⟨i, v, hi, hiv, hres⟩ | ⟨hnone, hres⟩
  · left
    rw [HashTableProbed.probe_zero hlt] at hres
    refine ⟨i, v, hi, hiv, hres, ?_, ?_, ?_⟩
    · simp only [HashTableProbed.find, HashTableProbed.hash, hh, hA, readSlot_some hel, hres,
        HashTableProbed.Iterator.new, HashTableProbed.getAllocated, hi, if_true,
        HashTableProbed.getElement, readSlot_some hiv]
    · simp only [HashTableProbed.end, ne_eq, HashTableProbed.Iterator.mk.injEq]
      omega
    · simp only [HashTableProbed.Iterator.deref, HashTableProbed.getElement, hA,
        readSlot_some hiv]
  · right
    rw [HashTableProbed.probe_zero hlt] at hres
    refine ⟨fun i hi => HashTableProbed.probe_surj hco hpos i hi,
      fun j v hj => hnone j (Nat.zero_le _) hj v, ?_, hres, ?_⟩
    · intro i v hi hiv
      obtain ⟨j, hj, hji⟩ := HashTableProbed.probe_surj (h := h) hco hpos i hi
      exact hnone j (Nat.zero_le _) hj v (by rw [hji]; exact hiv)
    · simp only [HashTableProbed.find, HashTableProbed.hash, hh, hA, readSlot_some hel, hres]

/-- Witness of C22: in `probedDup` the home bucket 0 of the key 5 is empty;
`find(5)` goes on past it and stops at slot 2, the next one of the probe
sequence 0, 2, 4, 1, 3. -/
theorem probed_find_complete_witness :
    ∃ h el, HashTableProbed.hash hasherInt 5 probedDup.mAllocated = .ok h ∧
      h < probedDup.mAllocated ∧
      [none, some ((5 : Int), (2 : Int)), some (5, 1), none, none, none][h]? = some el ∧
      ((∃ i v, i < probedDup.mAllocated ∧
          [none, some ((5 : Int), (2 : Int)), some (5, 1), none, none, none][i]?
            = some (some (5, v)) ∧
          HashTableProbed.findLoop probedDup 5 h probedDup.mAllocated h el = .ok (some i) ∧
          HashTableProbed.find hasherInt probedDup 5 = .ok { mIndex := i } ∧
          ({ mIndex := i } : HashTableProbed.Iterator) ≠ probedDup.end ∧
          HashTableProbed.Iterator.deref probedDup { mIndex := i } = .ok (5, v)) ∨
        ((∀ i, i < probedDup.mAllocated →
            ∃ j, j < probedDup.mAllocated ∧ HashTableProbed.probe probedDup.mAllocated h j = i) ∧
          (∀ j v, j < probedDup.mAllocated →
            [none, some ((5 : Int), (2 : Int)), some (5, 1), none, none, none][
              HashTableProbed.probe probedDup.mAllocated h j]? ≠ some (some (5, v))) ∧
          (∀ i v, i < probedDup.mAllocated →
            [none, some ((5 : Int), (2 : Int)), some (5, 1), none, none, none][i]?
              ≠ some (some (5, v))) ∧
          HashTableProbed.findLoop probedDup 5 h probedDup.mAllocated h el = .ok none ∧
          HashTableProbed.find hasherInt probedDup 5 = .ok probedDup.end)) :=
  probed_find_complete validHasher_hasherInt probedDup _ (by rfl) (by rfl) (by decide) 5

/-- On a cleared probed table `find` fails: with the failure of the hasher at
capacity 0 when it has one, and at the read of the null array otherwise. -/
theorem probed_find_clear {K V : Type} [DecidableEq K]
    (hasher : K → Nat → Except Failure Nat) (t : HashTableProbed K V) (k : K) :
    ∃ e, HashTableProbed.find hasher t.clear k = .error e ∧
      (hasher k 0 = .error e ∨ e = .undefinedBehaviour) := by
  cases hh : hasher k 0 with
  | error e =>
    exact ⟨e, by simp only [HashTableProbed.find, HashTableProbed.hash,
      HashTableProbed.clear, hh], Or.inl rfl⟩
  | ok h =>
    exact ⟨.undefinedBehaviour, by simp only [HashTableProbed.find, HashTableProbed.hash,
      HashTableProbed.clear, hh, readSlot], Or.inr rfl⟩

/-- On a cleared chained table `find` fails: with the failure of the hasher at
capacity 0 when it has one, and at the read of the null array otherwise. -/
theorem chained_find_clear {K V : Type} [LinearOrder K]
    (hasher : K → Nat → Except Failure Nat) (t : HashTableChained K V) (k : K) :
    ∃ e, HashTableChained.find hasher t.clear k = .error e ∧
      (hasher k 0 = .error e ∨ e = .undefinedBehaviour) := by
  cases hh : hasher k 0 with
  | error e =>
    exact ⟨e, by simp only [HashTableChained.find, HashTableChained.hash,
      HashTableChained.clear, hh], Or.inl rfl⟩
  | ok h =>
    exact ⟨.undefinedBehaviour, by simp only [HashTableChained.find, HashTableChained.hash,
      HashTableChained.clear, hh, readSlot], Or.inr rfl⟩

/-- C31. A cleared table is not usable, for both variants.  `clear()` leaves
the capacity 0 and a null slot array.  `find(k)` then starts with
`hash(k, 0)`, a remainder modulo 0 for both hashers of `GenericHashers.h`, and
with a hasher that returns at capacity 0 it reads the null array; so `find(k)`
fails for every hasher, table and key, and `insert(k, v)`, which starts with
`find(k)`, fails with it and leaves the table cleared.  On the tables
`probedThree` and `chainedThree` after `clear()`, `find(1)` and `insert(1, 10)`
are undefined behaviour.  The rest of `insert` copes with a cleared table:
`getNewSize(0, 0)` is 5, `rehash(5)` on the cleared table gives the table of
`ht(0)`, and the placement there stores the entry, which `find(1)` then
yields. -/
theorem cleared_table_unusable :
    (∀ (K V : Type) [DecidableEq K] (hasher : K → Nat → Except Failure Nat)
        (t : HashTableProbed K V) (k : K) (v : V),
      t.clear.getAllocated = 0 ∧ t.clear.mArray = none ∧
      (∃ e, HashTableProbed.find hasher t.clear k = .error e ∧
        (hasher k 0 = .error e ∨ e = .undefinedBehaviour)) ∧
      (∃ e, HashTableProbed.insert hasher t.clear k v = (.error e, t.clear))) ∧
    (∀ (K V : Type) [LinearOrder K] (hasher : K → Nat → Except Failure Nat)
        (t : HashTableChained K V) (k : K) (v : V),
      t.clear.getAllocated = 0 ∧ t.clear.mArray = none ∧
      (∃ e, HashTableChained.find hasher t.clear k = .error e ∧
        (hasher k 0 = .error e ∨ e = .undefinedBehaviour)) ∧
      (∃ e, HashTableChained.insert hasher t.clear k v = (.error e, t.clear))) ∧
    (∀ k : Int, hasherInt k 0 = .error .undefinedBehaviour) ∧
    (∀ (w : Nat) (key : List Int), hasherString w key 0 = .error .undefinedBehaviour) ∧
    (∀ i : Nat, readSlot probedThree.clear.mArray i = .error .undefinedBehaviour) ∧
    (∀ i : Nat, readSlot chainedThree.clear.mArray i = .error .undefinedBehaviour) ∧
    HashTableProbed.find hasherInt probedThree.clear 1 = .error .undefinedBehaviour ∧
    HashTableProbed.insert hasherInt probedThree.clear 1 10
      = (.error .undefinedBehaviour, probedThree.clear) ∧
    HashTableChained.find hasherInt chainedThree.clear 1 = .error .undefinedBehaviour ∧
    HashTableChained.insert hasherInt chainedThree.clear 1 10
      = (.error .undefinedBehaviour, chainedThree.clear) ∧
    getNewSize probedThree.clear.getAllocated probedThree.clear.mFreeSlots = .ok 5 ∧
    HashTableProbed.rehash hasherInt probedThree.clear 5 = .ok probedEmpty ∧
    HashTableChained.rehash hasherInt chainedThree.clear 5 = .ok chainedEmpty ∧
    (∃ t', HashTableProbed.insertPlace hasherInt probedEmpty 1 10 = (.ok true, t') ∧
      ∃ it, HashTableProbed.find hasherInt t' 1 = .ok it ∧ it ≠ t'.end ∧
        HashTableProbed.Iterator.deref t' it = .ok (1, 10)) ∧
    (∃ t', HashTableChained.insertPlace hasherInt chainedEmpty 1 10 = (.ok true, t') ∧
      ∃ it, HashTableChained.find hasherInt t' 1 = .ok it ∧ it ≠ t'.end ∧
        HashTableChained.Iterator.deref t' it = .ok (1, 10)) := by
  refine ⟨?_, ?_, ?_, ?_, ?_, ?_, by rfl, by rfl, by rfl, by rfl, by decide, by rfl, by rfl,
    ?_, ?_⟩
  · intro K V _ hasher t k v
    obtain ⟨e, he, hc⟩ := probed_find_clear hasher t k
    exact ⟨rfl, rfl, ⟨e, he, hc⟩, e, by simp only [HashTableProbed.insert, he, andThen]⟩
  · intro K V _ hasher t k v
    obtain ⟨e, he, hc⟩ := chained_find_clear hasher t k
    exact ⟨rfl, rfl, ⟨e, he, hc⟩, e, by simp only [HashTableChained.insert, he, andThen]⟩
  · intro k
    simp [hasherInt]
  · intro w key
    simp [hasherString]
  · intro i
    rfl
  · intro i
    rfl
  · exact ⟨{ mArray := some [none, some (1, 10), none, none, none, none],
             mAllocated := 5, mFreeSlots := 4, mSize := 1 }, by rfl,
      { mIndex := 1 }, by rfl, by decide, by rfl⟩
  · exact ⟨{ mArray := some [none, some [(1, 10)], none, none, none, none],
             mAllocated := 5, mFreeSlots := 4, mSize := 1 }, by rfl,
      { mIndex := 1, mIterator := some 0 }, by rfl, by decide, by rfl⟩

end Claims

end TestHash
